import Mathlib

/-!
Verification of the arena-backed AVL tree in `src/binary_search.rs`.

The Rust code is shallowly embedded: the arena `Vec<Option<Node<T>>>`
becomes `List (Option (Node T))`, `Vec` push/pop act on the list's end,
and every operation that can panic (out-of-bounds indexing, `unwrap` on
`None`) returns `Option`, with `none` standing for a panic or divergence.
The `i8` height field is modelled as `Int` with an explicit 8-bit
two's-complement wrap `wrap8` applied exactly where the Rust code performs
`i8` arithmetic.  `while` loops whose progress is a deterministic pointer
chase through the arena receive fuel `data.length + 1`: a chase that runs
longer must revisit a slot and hence diverges in Rust, which `none` models.
-/

namespace AvlCont

/-- Two's-complement wrap of an integer into the `i8` range `[-128, 127]`,
applied where the Rust code performs `i8` arithmetic. -/
def wrap8 (x : Int) : Int := (x + 128) % 256 - 128

/-- `Vec::pop`: removes and returns the last element. -/
def vecPop {α : Type} (l : List α) : Option (α × List α) :=
  match l.getLast? with
  | some x => some (x, l.dropLast)
  | none => none

/-- `Option::xor` from Rust. -/
def optXor {α : Type} : Option α → Option α → Option α
  | some a, none => some a
  | none, some b => some b
  | _, _ => none

/-- A node of the tree: `Node<T>` in the source. -/
structure Node (T : Type) where
  value : T
  left : Option Nat
  right : Option Nat
  height : Int
deriving DecidableEq

/-- `Node::new`. -/
def Node.new {T : Type} (value : T) : Node T :=
  { value := value, left := none, right := none, height := 0 }

/-- The tree: `Tree<T>` in the source.  `data` is the slot arena,
`free` the free-slot stack (end of list = top of stack), `root` the root
slot index, `size` the number of live nodes. -/
structure Tree (T : Type) where
  data : List (Option (Node T))
  free : List Nat
  root : Nat
  size : Nat
deriving DecidableEq

/-- `Tree::new`. -/
def Tree.new {T : Type} : Tree T :=
  { data := [], free := [], root := 0, size := 0 }

/-- `Tree::len`. -/
def Tree.len {T : Type} (t : Tree T) : Nat := t.size

/-- `Tree::is_empty`. -/
def Tree.is_empty {T : Type} (t : Tree T) : Bool := t.size == 0

/-- `self.data[i].as_ref().unwrap()`: `none` models the panic on an
out-of-bounds index or a vacant slot. -/
def getNode {T : Type} (d : List (Option (Node T))) (i : Nat) : Option (Node T) :=
  (d.get? i).bind id

/-- `self.data[i].as_mut().unwrap()` followed by a field update:
`none` models the panic on an out-of-bounds index or a vacant slot. -/
def modifyNode {T : Type} (d : List (Option (Node T))) (i : Nat)
    (f : Node T → Node T) : Option (List (Option (Node T))) :=
  match d.get? i with
  | some (some n) => some (d.set i (some (f n)))
  | _ => none

/-- `mem::replace(&mut self.data[i], v).unwrap()`: returns the old node and
the updated arena; `none` models the panic on out-of-bounds or vacant. -/
def replaceAt {T : Type} (d : List (Option (Node T))) (i : Nat)
    (v : Option (Node T)) : Option (Node T × List (Option (Node T))) :=
  match d.get? i with
  | some (some n) => some (n, d.set i v)
  | _ => none

/-- `self.data.swap(i, j)`: `none` models the out-of-bounds panic. -/
def swapSlots {T : Type} (d : List (Option (Node T))) (i j : Nat) :
    Option (List (Option (Node T))) :=
  match d.get? i, d.get? j with
  | some a, some b => some ((d.set i b).set j a)
  | _, _ => none

/-- `Tree::get`: `self.data[index].as_ref().map(|n| &n.value)`.  The outer
`Option` is the panic on an out-of-bounds index, the inner `Option` is the
function's own return value. -/
def Tree.get {T : Type} (t : Tree T) (index : Nat) : Option (Option T) :=
  (t.data.get? index).map (fun s => s.map (fun n => n.value))

/-- `Tree::insert_helper`: pops a free slot and installs the node there,
otherwise appends.  Returns the returned index (note the source returns
`self.len()`, i.e. `size`, in the append case) and the updated tree. -/
def Tree.insert_helper {T : Type} (t : Tree T) (value : T) :
    Option (Option Nat × Tree T) :=
  match vecPop t.free with
  | some (n, freeRest) =>
      match t.data.get? n with
      | some _ => some (some n,
          { t with data := t.data.set n (some (Node.new value)), free := freeRest })
      | none => none
  | none =>
      some (some t.len, { t with data := t.data ++ [some (Node.new value)] })

/-- The `while self.data.last().unwrap().is_none()` loop of `clean_tail`:
pops trailing vacant slots, recording their indices in `popped`.  The fuel
is always called with `data.length + 1`, which the loop cannot exhaust;
`none` on `getLast? = none` models the `unwrap` panic on an empty arena. -/
def cleanLoop {T : Type} : Nat → List (Option (Node T)) → List Nat →
    Option (List (Option (Node T)) × List Nat)
  | 0, _, _ => none
  | fuel + 1, d, popped =>
    match d.getLast? with
    | none => none
    | some (some _) => some (d, popped)
    | some none => cleanLoop fuel d.dropLast (popped ++ [d.length - 1])

/-- `Vec::swap_remove(n)`: replaces element `n` with the last element and
pops.  Call sites guarantee `n < l.length`. -/
def swapRemove (l : List Nat) (n : Nat) : List Nat :=
  match l.getLast? with
  | some x => (l.set n x).dropLast
  | none => l

/-- The `self.free.retain(...)` closure of `clean_tail`: walks `free` front
to back; an element equal to some entry of `popped` is dropped together
with that entry (via `swap_remove`), all others are kept. -/
def retainFree : List Nat → List Nat → List Nat × List Nat
  | [], popped => ([], popped)
  | i :: rest, popped =>
    match popped.findIdx? (fun p => i == p) with
    | some n => retainFree rest (swapRemove popped n)
    | none =>
      let r := retainFree rest popped
      (i :: r.1, r.2)

/-- `Tree::clean_tail`. -/
def Tree.clean_tail {T : Type} (t : Tree T) : Option (Tree T) := do
  let (d, popped) ← cleanLoop (t.data.length + 1) t.data []
  some { t with data := d, free := (retainFree t.free popped).1 }

/-- The stored height of the node a child link points at, `-1` for an
absent link: the two `match`es on `node_data.left`/`node_data.right` in
`update_height`. -/
def heightLink {T : Type} (d : List (Option (Node T))) : Option Nat → Option Int
  | some n => (getNode d n).map (fun nd => nd.height)
  | none => some (-1 : Int)

/-- `Tree::update_height`: recomputes a node's stored height from its
children's stored heights and returns the balance factor.  `wrap8` models
the `i8` arithmetic. -/
def Tree.update_height {T : Type} (t : Tree T) (index : Nat) :
    Option (Int × Tree T) := do
  let node ← getNode t.data index
  let lh ← heightLink t.data node.left
  let rh ← heightLink t.data node.right
  let d ← modifyNode t.data index (fun nd => { nd with height := wrap8 (1 + max lh rh) })
  some (wrap8 (rh - lh), { t with data := d })

/-- `Tree::rotate_right`. -/
def Tree.rotate_right {T : Type} (t : Tree T) (index : Nat) :
    Option (Nat × Tree T) := do
  let node ← getNode t.data index
  let left_index ← node.left
  let leftN ← getNode t.data left_index
  let d1 ← modifyNode t.data index (fun nd => { nd with left := leftN.right })
  let d2 ← modifyNode d1 left_index (fun nd => { nd with right := some index })
  let (_, t1) ← Tree.update_height { t with data := d2 } index
  let (_, t2) ← t1.update_height left_index
  some (left_index, t2)

/-- `Tree::rotate_left`. -/
def Tree.rotate_left {T : Type} (t : Tree T) (index : Nat) :
    Option (Nat × Tree T) := do
  let node ← getNode t.data index
  let right_index ← node.right
  let rightN ← getNode t.data right_index
  let d1 ← modifyNode t.data index (fun nd => { nd with right := rightN.left })
  let d2 ← modifyNode d1 right_index (fun nd => { nd with left := some index })
  let (_, t1) ← Tree.update_height { t with data := d2 } index
  let (_, t2) ← t1.update_height right_index
  some (right_index, t2)

/-- `Tree::rotate_left_right`. -/
def Tree.rotate_left_right {T : Type} (t : Tree T) (index : Nat) :
    Option (Nat × Tree T) := do
  let node ← getNode t.data index
  let left_index ← node.left
  let (newLeft, t1) ← t.rotate_left left_index
  let d ← modifyNode t1.data index (fun nd => { nd with left := some newLeft })
  Tree.rotate_right { t1 with data := d } index

/-- `Tree::rotate_right_left`. -/
def Tree.rotate_right_left {T : Type} (t : Tree T) (index : Nat) :
    Option (Nat × Tree T) := do
  let node ← getNode t.data index
  let right_index ← node.right
  let (newRight, t1) ← t.rotate_right right_index
  let d ← modifyNode t1.data index (fun nd => { nd with right := some newRight })
  Tree.rotate_left { t1 with data := d } index

/-- `Tree::balance_node`. -/
def Tree.balance_node {T : Type} (t : Tree T) (index : Nat) (bf : Int) :
    Option (Nat × Tree T) := do
  let node ← getNode t.data index
  if bf = -2 then do
    let li ← node.left
    let leftN ← getNode t.data li
    match leftN.left with
    | some _ => t.rotate_right index
    | none => t.rotate_left_right index
  else if bf = 2 then do
    let ri ← node.right
    let rightN ← getNode t.data ri
    match rightN.right with
    | some _ => t.rotate_left index
    | none => t.rotate_right_left index
  else
    some (index, t)

/-- The body of `Tree::update_and_balance`, processing the recorded path.
The source pops indices from the end of `visited_indices`; here the list
has already been reversed, so the head is the next index to pop and the
head of the tail is what `visited_indices.last()` sees after the pop. -/
def uabGo {T : Type} (t : Tree T) : List Nat → Option (Tree T)
  | [] => some t
  | index :: rest => do
    let (bf, t1) ← t.update_height index
    let (new_parent, t2) ← t1.balance_node index bf
    match rest with
    | n :: _ => do
        let gf ← getNode t2.data n
        let child_is_left : Bool :=
          match gf.left with
          | some l => index == l
          | none => false
        let d ← modifyNode t2.data n (fun nd =>
          if child_is_left then { nd with left := some new_parent }
          else { nd with right := some new_parent })
        uabGo { t2 with data := d } rest
    | [] => some { t2 with root := new_parent }

/-- `Tree::update_and_balance`. -/
def Tree.update_and_balance {T : Type} (t : Tree T) (visited : List Nat) :
    Option (Tree T) :=
  uabGo t visited.reverse

/-- The `while` loop of `Tree::contains_helper`.  `current` is the node at
`current_index`; `visited` collects indices in descent order.  The descent
is a deterministic pointer chase, so fuel `data.length + 1` (supplied by
the caller) runs out only when the chase revisits a slot, i.e. when the
Rust loop diverges. -/
def containsLoop {T : Type} [LinearOrder T] [DecidableEq T]
    (data : List (Option (Node T))) (value : T) :
    Nat → Nat → Node T → List Nat → Option (Bool × Option (List Nat))
  | 0, _, _, _ => none
  | fuel + 1, current_index, current, visited =>
    if current.left.isSome || current.right.isSome then
      let next? : Option Nat :=
        if value < current.value then current.left
        else if current.value < value then current.right
        else some current_index
      match next? with
      | none => some (false, some visited)
      | some ni =>
        match getNode data ni with
        | none => none
        | some nd =>
          if value = nd.value then some (true, some visited)
          else containsLoop data value fuel ni nd (visited ++ [ni])
    else some (false, some visited)

/-- `Tree::contains_helper`. -/
def Tree.contains_helper {T : Type} [LinearOrder T] [DecidableEq T]
    (t : Tree T) (value : T) : Option (Bool × Option (List Nat)) := do
  let current ← getNode t.data t.root
  if value = current.value then some (true, none)
  else containsLoop t.data value (t.data.length + 1) t.root current [t.root]

/-- `Tree::contains`. -/
def Tree.contains {T : Type} [LinearOrder T] [DecidableEq T]
    (t : Tree T) (value : T) : Option (Option Nat) :=
  if t.size = 0 then some none
  else do
    let ch ← t.contains_helper value
    match ch with
    | (true, some ns) => do
        let parent_index ← ns.getLast?
        let pd ← getNode t.data parent_index
        if value < pd.value then some pd.left
        else if pd.value < value then some pd.right
        else none
    | (true, none) => some (some t.root)
    | (false, _) => some none

/-- `Tree::insert`.  Returns the source's return value paired with the
updated tree; the outer `none` models a panic. -/
def Tree.insert {T : Type} [LinearOrder T] [DecidableEq T]
    (t : Tree T) (value : T) : Option (Option Nat × Tree T) :=
  if t.size = 0 then
    some (some 0, { t with data := t.data ++ [some (Node.new value)], size := 1 })
  else do
    let ch ← t.contains_helper value
    match ch with
    | (false, some visited) => do
        let parent_index ← visited.getLast?
        let pn ← getNode t.data parent_index
        if value < pn.value then do
          let (ii, t1) ← t.insert_helper value
          let d ← modifyNode t1.data parent_index (fun nd => { nd with left := ii })
          let t2 ← Tree.update_and_balance { t1 with data := d } visited
          some (ii, { t2 with size := t2.size + 1 })
        else if pn.value < value then do
          let (ii, t1) ← t.insert_helper value
          let d ← modifyNode t1.data parent_index (fun nd => { nd with right := ii })
          let t2 ← Tree.update_and_balance { t1 with data := d } visited
          some (ii, { t2 with size := t2.size + 1 })
        else none
    | _ => some (none, t)

/-- The climb of the two-children removal case along `right` pointers
(taller left subtree): pushes each index visited strictly before the
in-order neighbour onto the path.  Deterministic chase, fuel as in
`containsLoop`. -/
def climbRight {T : Type} (data : List (Option (Node T))) :
    Nat → Nat → Node T → List Nat → Option (Nat × Node T × List Nat)
  | 0, _, _, _ => none
  | fuel + 1, current, cd, visited =>
    match cd.right with
    | none => some (current, cd, visited)
    | some n =>
      match getNode data n with
      | none => none
      | some nd => climbRight data fuel n nd (visited ++ [current])

/-- Mirror of `climbRight` along `left` pointers (right subtree). -/
def climbLeft {T : Type} (data : List (Option (Node T))) :
    Nat → Nat → Node T → List Nat → Option (Nat × Node T × List Nat)
  | 0, _, _, _ => none
  | fuel + 1, current, cd, visited =>
    match cd.left with
    | none => some (current, cd, visited)
    | some n =>
      match getNode data n with
      | none => none
      | some nd => climbLeft data fuel n nd (visited ++ [current])

/-- Common tail of the two-children removal case: vacate `replace_index`,
build the replacement node for `val_index` (re-checking occupancy of the
target's original children), replay the path, trim the tail, decrement
`size`. -/
def removeFinish {T : Type} (t : Tree T) (d1 : List (Option (Node T)))
    (replace_index val_index val_left val_right : Nat) (visited : List Nat) :
    Option (Option T × Tree T) := do
  let (repl, d2) ← replaceAt d1 replace_index none
  let sl ← d2.get? val_left
  let sr ← d2.get? val_right
  let replNode : Node T :=
    { value := repl.value, left := sl.map (fun _ => val_left),
      right := sr.map (fun _ => val_right), height := 0 }
  let (oldv, d3) ← replaceAt d2 val_index (some replNode)
  let t1 : Tree T := { t with data := d3, free := t.free ++ [replace_index] }
  let t2 ← t1.update_and_balance visited
  let t3 ← t2.clean_tail
  some (some oldv.value, { t3 with size := t3.size - 1 })

/-- The body of `Tree::remove` from the lookup of the target slot
(`val_data`) to the end of the function, for target slot `val_index` whose
parent (as recorded by the search) is `parent_index`. -/
def removeAt {T : Type} (t : Tree T) (is_root : Bool) (visited : List Nat)
    (parent_index : Nat) (child_is_left : Bool) (val_index : Nat) :
    Option (Option T × Tree T) := do
  let val_data ← getNode t.data val_index
  match val_data.left, val_data.right with
    | some val_left, some val_right => do
      let left_data ← getNode t.data val_left
      let right_data ← getNode t.data val_right
      let visited1 := if is_root then visited else visited ++ [val_index]
      if left_data.height > right_data.height then do
        let (current, ld, visited2) ←
          climbRight t.data (t.data.length + 1) val_left left_data visited1
        match ld.left with
        | some n => do
          let d1 ← swapSlots t.data current n
          removeFinish t d1 n val_index val_left val_right visited2
        | none => do
          let lastv ← visited2.getLast?
          let d1 ← modifyNode t.data lastv (fun nd => { nd with right := none })
          removeFinish t d1 current val_index val_left val_right visited2
      else do
        let (current, rd, visited2) ←
          climbLeft t.data (t.data.length + 1) val_right right_data visited1
        match rd.right with
        | some n => do
          let d1 ← swapSlots t.data current n
          removeFinish t d1 n val_index val_left val_right visited2
        | none => do
          let lastv ← visited2.getLast?
          let d1 ← modifyNode t.data lastv (fun nd => { nd with left := none })
          removeFinish t d1 current val_index val_left val_right visited2
    | _, _ => do
      let d1 ← match optXor val_data.left val_data.right with
        | some ci => modifyNode t.data parent_index (fun nd =>
            if child_is_left then { nd with left := some ci }
            else { nd with right := some ci })
        | none => modifyNode t.data parent_index (fun nd =>
            if child_is_left then { nd with left := none }
            else { nd with right := none })
      let (vn, d2) ← replaceAt d1 val_index none
      let t1 : Tree T := { t with data := d2, free := t.free ++ [val_index] }
      let t2 ← t1.update_and_balance visited
      let t3 ← t2.clean_tail
      some (some vn.value, { t3 with size := t3.size - 1 })

/-- The part of `Tree::remove` following the trivial root cases, from the
`contains_helper` call to the end of the function. -/
def removeGeneral {T : Type} [LinearOrder T] [DecidableEq T]
    (t : Tree T) (value : T) (is_root : Bool) : Option (Option T × Tree T) := do
  let ch ← t.contains_helper value
  match ch with
  | (false, _) => some (none, t)
  | (true, vis?) => do
    let visited := match vis? with
      | none => [t.root]
      | some n => n
    let parent_index ← visited.getLast?
    let parent_data ← getNode t.data parent_index
    let child_is_left : Bool := value < parent_data.value
    let val_index ← (match is_root, child_is_left with
      | true, _ => some t.root
      | false, true => parent_data.left
      | false, false => parent_data.right : Option Nat)
    removeAt t is_root visited parent_index child_is_left val_index

/-- `Tree::remove`. -/
def Tree.remove {T : Type} [LinearOrder T] [DecidableEq T]
    (t : Tree T) (value : T) : Option (Option T × Tree T) :=
  if t.size = 0 then some (none, t)
  else do
    let root_data ← getNode t.data t.root
    if value = root_data.value then
      if t.size = 1 then do
        let (last, _) ← vecPop t.data
        let lastNode ← last
        some (some lastNode.value,
          { data := [], free := [], root := 0, size := 0 })
      else
        match optXor root_data.left root_data.right with
        | some new_root => do
          let (old, d1) ← replaceAt t.data t.root none
          let t1 : Tree T := { data := d1, free := t.free ++ [t.root],
                               root := new_root, size := t.size - 1 }
          let t2 ← t1.clean_tail
          some (some old.value, t2)
        | none => removeGeneral t value true
    else removeGeneral t value false

/-- The iterator `Iter<T>`: the drained arena plus the FIFO queue of slot
indices (head = front). -/
structure Iter (T : Type) where
  data : List (Option (Node T))
  queue : List Nat

/-- `IntoIterator for Tree<T>`: seeds the queue with the root index. -/
def Tree.intoIter {T : Type} (t : Tree T) : Iter T :=
  { data := t.data, queue := [t.root] }

/-- `Iterator::next for Iter<T>`: dequeues an index, vacates that slot
(`none` models the panic when the slot is out of bounds or vacant),
enqueues its children, yields its value.  The inner `Option` is the
iterator's own `None` at exhaustion. -/
def Iter.next {T : Type} (it : Iter T) : Option (Option T × Iter T) :=
  match it.queue with
  | [] => some (none, it)
  | current :: rest =>
    match getNode it.data current with
    | none => none
    | some nd =>
      let d := it.data.set current none
      let q1 := match nd.left with
        | some n => rest ++ [n]
        | none => rest
      let q2 := match nd.right with
        | some n => q1 ++ [n]
        | none => q1
      some (some nd.value, { data := d, queue := q2 })

/-- Repeatedly calls `next` until it reports exhaustion, collecting the
yielded values.  The outer `none` models a panic inside `next` or fuel
exhaustion. -/
def drainIter {T : Type} : Nat → Iter T → Option (List T)
  | 0, _ => none
  | fuel + 1, it =>
    match it.next with
    | none => none
    | some (none, _) => some []
    | some (some v, it') => (drainIter fuel it').map (fun l => v :: l)

/-! ## Invariant predicates

These recompute structural facts from the arena alone, never trusting
stored fields (except where a predicate is explicitly about a stored
field).  All are executable so that concrete states can be checked by
`decide`/`rfl`. -/

/-- Recomputed height of the subtree hanging off link `l`, an absent child
contributing `-1`.  The fuel (always instantiated with `d.length`) bounds
the descent; on the acyclic arenas of interest it is never exhausted. -/
def recHeight {T : Type} (d : List (Option (Node T))) : Nat → Option Nat → Int
  | _, none => -1
  | 0, some _ => -1
  | fuel + 1, some i =>
    match getNode d i with
    | none => -1
    | some nd => 1 + max (recHeight d fuel nd.left) (recHeight d fuel nd.right)

/-- Recomputed balance factor of a node: height of right subtree minus
height of left subtree. -/
def balanceFactor {T : Type} (d : List (Option (Node T))) (nd : Node T) : Int :=
  recHeight d d.length nd.right - recHeight d d.length nd.left

/-- AVL balance: every occupied slot's recomputed balance factor lies in
`{-1, 0, 1}`. -/
def allBalanced {T : Type} (d : List (Option (Node T))) : Bool :=
  d.all (fun s =>
    match s with
    | none => true
    | some nd => decide (-1 ≤ balanceFactor d nd) && decide (balanceFactor d nd ≤ 1))

/-- Height correctness: every occupied slot's stored height equals `1 +`
the maximum of its children's recomputed heights. -/
def heightsOk {T : Type} [DecidableEq T] (d : List (Option (Node T))) : Bool :=
  d.all (fun s =>
    match s with
    | none => true
    | some nd => decide (nd.height =
        1 + max (recHeight d d.length nd.left) (recHeight d d.length nd.right)))

/-- The values reachable through a child link, fuel-bounded as in
`recHeight`. -/
def reachVals {T : Type} (d : List (Option (Node T))) : Nat → Option Nat → List T
  | _, none => []
  | 0, some _ => []
  | fuel + 1, some i =>
    match getNode d i with
    | none => []
    | some nd => nd.value :: (reachVals d fuel nd.left ++ reachVals d fuel nd.right)

/-- Binary-search-tree order: at every occupied slot, every value reachable
through `left` is smaller and every value reachable through `right` larger
than the slot's value. -/
def bstOk {T : Type} [LinearOrder T] (d : List (Option (Node T))) : Bool :=
  d.all (fun s =>
    match s with
    | none => true
    | some nd =>
      (reachVals d d.length nd.left).all (fun v => decide (v < nd.value)) &&
      (reachVals d d.length nd.right).all (fun v => decide (nd.value < v)))

/-- The values held by the occupied slots, in arena order. -/
def valsList {T : Type} (d : List (Option (Node T))) : List T :=
  (d.filterMap id).map (fun nd => nd.value)

/-- No value occurs in two occupied slots. -/
def noDupVals {T : Type} [DecidableEq T] (d : List (Option (Node T))) : Bool :=
  decide (valsList d).Nodup

/-- Arena tightness: the last slot, if any, is occupied. -/
def tightArena {T : Type} (d : List (Option (Node T))) : Bool :=
  match d.getLast? with
  | some none => false
  | _ => true

/-- The number of occupied slots. -/
def occCount {T : Type} : List (Option (Node T)) → Nat
  | [] => 0
  | none :: rest => occCount rest
  | some _ :: rest => occCount rest + 1

/-- `size` equals the exact number of occupied slots. -/
def sizeOk {T : Type} (t : Tree T) : Bool := t.size == occCount t.data

/-- Every child link of an occupied slot refers to an in-bounds occupied
slot. -/
def linksOk {T : Type} (d : List (Option (Node T))) : Bool :=
  d.all (fun s =>
    match s with
    | none => true
    | some nd =>
      (match nd.left with
       | some j => (getNode d j).isSome
       | none => true) &&
      (match nd.right with
       | some j => (getNode d j).isSome
       | none => true))

/-- The root refers to an occupied slot whenever `size` is nonzero. -/
def rootOk {T : Type} (t : Tree T) : Bool :=
  t.size == 0 || (getNode t.data t.root).isSome

/-- The free list holds exactly the in-bounds vacant slot indices, without
duplicates. -/
def freeOk {T : Type} [DecidableEq T] (t : Tree T) : Bool :=
  decide t.free.Nodup &&
  t.free.all (fun i => decide (t.data.get? i = some none)) &&
  (List.range t.data.length).all
    (fun i => !(decide (t.data.get? i = some none)) || decide (i ∈ t.free))

/-- All the spec's §3 invariants at once. -/
def invariantsB {T : Type} [LinearOrder T] [DecidableEq T] (t : Tree T) : Bool :=
  allBalanced t.data && heightsOk t.data && bstOk t.data && noDupVals t.data &&
  tightArena t.data && sizeOk t && linksOk t.data && rootOk t && freeOk t

/-- Folds `insert` over a list of values starting from the empty tree;
`none` when some insertion panics. -/
def insertSeq (vs : List Nat) : Option (Tree Nat) :=
  vs.foldlM (fun t v => (t.insert v).map (fun r => r.2)) Tree.new

/-- The value view of a slot: `none` out of bounds, `some none` vacant,
`some (some v)` occupied by the value `v`. -/
def slotVal {T : Type} (d : List (Option (Node T))) (j : Nat) : Option (Option T) :=
  (d.get? j).map (fun s => s.map (fun nd => nd.value))

/-- Two arenas of the same length whose value views agree at every slot:
the same slots are occupied and hold the same values, only links and
heights may differ. -/
def sameVals {T : Type} (d d' : List (Option (Node T))) : Prop :=
  d.length = d'.length ∧ ∀ j, slotVal d j = slotVal d' j

/-- Relates a tree to the result of a balancing pass: the arena values,
the free list, and `size` are unchanged (the `root` may move). -/
def shapeEq {T : Type} (t t' : Tree T) : Prop :=
  sameVals t.data t'.data ∧ t'.free = t.free ∧ t'.size = t.size

/-! ## Algebraic view of the arena

`BT` is the binary tree a well-formed arena encodes; `decode` reads it off
the slot graph, failing on dangling links or when the fuel gives out
(which, with fuel `data.length + 1`, only happens on a cyclic slot
graph). -/

/-- The decoded shape of a subtree: each node remembers its slot index and
the full `Node` record stored there. -/
inductive BT (T : Type) where
  | leaf : BT T
  | node (l : BT T) (i : Nat) (nd : Node T) (r : BT T) : BT T
deriving DecidableEq

/-- Decode the subtree hanging off a link. -/
def decode {T : Type} (d : List (Option (Node T))) : Nat → Option Nat → Option (BT T)
  | _, none => some BT.leaf
  | 0, some _ => none
  | fuel + 1, some i =>
    match getNode d i with
    | none => none
    | some nd =>
      match decode d fuel nd.left, decode d fuel nd.right with
      | some l, some r => some (BT.node l i nd r)
      | _, _ => none

/-- Slot indices of a decoded subtree, in symmetric order. -/
def BT.idxs {T : Type} : BT T → List Nat
  | BT.leaf => []
  | BT.node l i _ r => l.idxs ++ i :: r.idxs

/-- Values of a decoded subtree, in symmetric order. -/
def BT.vals {T : Type} : BT T → List T
  | BT.leaf => []
  | BT.node l _ nd r => l.vals ++ nd.value :: r.vals

/-- Values of a decoded subtree in preorder, the order `reachVals`
collects them. -/
def BT.pvals {T : Type} : BT T → List T
  | BT.leaf => []
  | BT.node l _ nd r => nd.value :: (l.pvals ++ r.pvals)

/-- Structural height of a decoded subtree, with the empty tree at `-1`. -/
def BT.hgt {T : Type} : BT T → Int
  | BT.leaf => -1
  | BT.node l _ _ r => 1 + max l.hgt r.hgt

/-- Node count of a decoded subtree. -/
def BT.cnt {T : Type} : BT T → Nat
  | BT.leaf => 0
  | BT.node l _ _ r => l.cnt + 1 + r.cnt

/-- Depth of a decoded subtree as a natural number (leaf = 0). -/
def BT.depth {T : Type} : BT T → Nat
  | BT.leaf => 0
  | BT.node l _ _ r => 1 + max l.depth r.depth

/-- Every node's stored `height` field equals the structural height of its
subtree's children plus one: the spec's height-correctness invariant, read
off the decoded tree. -/
def BT.storedOk {T : Type} : BT T → Prop
  | BT.leaf => True
  | BT.node l _ nd r => nd.height = 1 + max l.hgt r.hgt ∧ l.storedOk ∧ r.storedOk

/-- Binary-search-tree order of a decoded subtree. -/
def BT.Ordered {T : Type} [LT T] : BT T → Prop
  | BT.leaf => True
  | BT.node l _ nd r =>
    (∀ x ∈ l.vals, x < nd.value) ∧ (∀ x ∈ r.vals, nd.value < x) ∧ l.Ordered ∧ r.Ordered

/-- One step of a root-to-focus path: the slot `i` holds node `nd`, the
focus hangs off its `left` (`isL = true`) or `right` child link, and the
other child decodes to `sib`. -/
structure Crumb (T : Type) where
  i : Nat
  nd : Node T
  sib : BT T
  isL : Bool

/-- Rebuild the whole tree from a focus subtree and its path to the root
(deepest crumb first). -/
def plugC {T : Type} : List (Crumb T) → BT T → BT T
  | [], f => f
  | c :: cs, f =>
    plugC cs (if c.isL then BT.node f c.i c.nd c.sib else BT.node c.sib c.i c.nd f)

/-- The crumb list `cs` (deepest first) is a faithful description, in
arena `d` with fuel `F`, of the path from the link `fl` (where the focus
hangs) up to the tree's root slot `root`. -/
def crumbsOk {T : Type} (d : List (Option (Node T))) (F : Nat) :
    List (Crumb T) → Option Nat → Nat → Prop
  | [], fl, root => fl = some root
  | c :: cs, fl, root =>
    getNode d c.i = some c.nd ∧
    (if c.isL then c.nd.left = fl ∧ decode d F c.nd.right = some c.sib
     else c.nd.right = fl ∧ decode d F c.nd.left = some c.sib) ∧
    c.sib.storedOk ∧
    crumbsOk d F cs (some c.i) root

/-- The slot indices a crumb list owns: the crumb slots themselves plus
everything in the sibling subtrees. -/
def ctxIdxs {T : Type} (cs : List (Crumb T)) : List Nat :=
  cs.bind (fun c => c.i :: c.sib.idxs)

/-- The comparison constraints a path exerts on a value placed at the
focus. -/
def withinCtx {T : Type} [LT T] : List (Crumb T) → T → Prop
  | [], _ => True
  | c :: cs, x => (if c.isL then x < c.nd.value else c.nd.value < x) ∧ withinCtx cs x

/-- Mutual consistency of a crumb path on its own: each sibling subtree
is ordered and sits, together with its crumb node's value, on the correct
side of every enclosing crumb. -/
def ctxOk {T : Type} [LT T] : List (Crumb T) → Prop
  | [] => True
  | c :: cs =>
    c.sib.Ordered ∧ withinCtx cs c.nd.value ∧
    (∀ v ∈ c.sib.vals,
      (if c.isL then c.nd.value < v else v < c.nd.value) ∧ withinCtx cs v) ∧
    ctxOk cs

/-- The root link: absent for an empty tree, the root slot otherwise. -/
def rootLink {T : Type} (t : Tree T) : Option Nat :=
  if t.size = 0 then none else some t.root

/-- Structural well-formedness carried through the preservation proofs:
the root link decodes (with canonical fuel) to a tree `S` that is
stored-correct and ordered and uses each slot at most once, `size`
counts both the decoded nodes and the occupied slots exactly, the arena
has no vacant tail, the free list holds exactly the vacant in-bounds
slots without duplicates, and an empty tree keeps the root index at 0. -/
structure WFT {T : Type} [LT T] (t : Tree T) (S : BT T) : Prop where
  hdec : decode t.data (t.data.length + 1) (rootLink t) = some S
  hstored : S.storedOk
  hord : S.Ordered
  hnodup : S.idxs.Nodup
  hcnt : S.cnt = t.size
  hocc : occCount t.data = t.size
  htight : tightArena t.data = true
  hfreev : ∀ j ∈ t.free, t.data.get? j = some none
  hfreend : t.free.Nodup
  hfreec : ∀ j, j < t.data.length → t.data.get? j = some none → j ∈ t.free
  hroot0 : t.size = 0 → t.root = 0

/-! ## Claim C1 -/

/-- C1: the claim states that after every public mutating operation on a
tree satisfying the AVL invariants, every node's recomputed balance factor
is in `{-1, 0, 1}`.  The code violates this: inserting `8` into the tree
built from `[10, 5, 15, 3, 7]` (which satisfies all of the spec's
invariants) dispatches `balance_node` on the presence of the left child's
`left` pointer instead of its balance, performs a single right rotation
where a double rotation is required, and leaves the new root (value `5`)
with recomputed balance factor `+2`. -/
theorem c1_insert_leaves_balance_factor_two :
    (insertSeq [10, 5, 15, 3, 7]).map invariantsB = some true ∧
    (insertSeq [10, 5, 15, 3, 7, 8]).map (fun t => allBalanced t.data) = some false ∧
    (insertSeq [10, 5, 15, 3, 7, 8]).bind (fun t =>
      (getNode t.data t.root).map (fun nd => balanceFactor t.data nd)) = some 2 := by
  refine ⟨rfl, rfl, rfl⟩

/-! ## Claim C2 -/

/-- C2 counterexample: the claim states that `get(index)` returns absent
and never panics for any slot index that is no longer occupied, including
an index invalidated by a removal with tail trimming.  In fact `get` does
an unchecked `self.data[index]`: inserting `1` then `2` (where `insert`
returns index `1`), then removing `2` — which trims slot `1` off the
arena's tail — leaves `get(1)` indexing out of bounds, which panics
(modelled by the outer `none`). -/
theorem c2_get_panics_on_trimmed_index :
    (insertSeq [1]).bind (fun t => (t.insert 2).map (fun r => r.1)) = some (some 1) ∧
    ((insertSeq [1, 2]).bind (fun t => (t.remove 2).map (fun r => r.2))).map
      (fun t => t.get 1) = some none := by
  refine ⟨rfl, rfl⟩

/-- C2 amended: for every tree and every index that is in bounds of the
arena, `get` does not panic, and it returns absent when the slot is
vacant; only out-of-bounds indices (possible for stale indices after a
removal with tail trimming) panic. -/
theorem c2_get_inbounds_total {T : Type} (t : Tree T) (i : Nat)
    (h : i < t.data.length) :
    (t.get i).isSome ∧ (t.data.get? i = some none → t.get i = some none) := by
  constructor
  · simp [Tree.get, List.get?_eq_getElem?, List.getElem?_eq_getElem h]
  · intro hv
    simp only [List.get?_eq_getElem?] at hv
    simp [Tree.get, hv]

/-- Witness for `c2_get_inbounds_total` at a concrete input: a one-slot
arena whose slot is vacant. -/
theorem c2_get_inbounds_total_witness :
    0 < (Tree.mk [none] [0] 0 0 : Tree Nat).data.length ∧
    ((Tree.mk [none] [0] 0 0 : Tree Nat).get 0).isSome ∧
    ((Tree.mk [none] [0] 0 0 : Tree Nat).data.get? 0 = some none →
      (Tree.mk [none] [0] 0 0 : Tree Nat).get 0 = some none) :=
  ⟨by decide, c2_get_inbounds_total (Tree.mk [none] [0] 0 0) 0 (by decide)⟩

/-! ## Claim C3 -/

/-- C3: the claim states that consuming iteration never fails and, for
every tree including the empty one, yields the stored values breadth-first
and then returns absent.  On the empty tree the code panics: `into_iter`
seeds the queue with the (meaningless) root index `0` and the first `next`
call indexes `data[0]` of the empty arena.  On nonempty trees the
breadth-first drain does work, as the second conjunct illustrates. -/
theorem c3_empty_tree_iteration_panics :
    (Tree.new (T := Nat)).intoIter.next = none ∧
    (insertSeq [10, 5, 15, 3, 7]).map (fun t =>
      drainIter (t.data.length + 2) t.intoIter) = some (some [10, 5, 15, 3, 7]) := by
  refine ⟨rfl, rfl⟩

/-! ## Shape preservation through the balancing pass

`update_and_balance` (and hence every rotation) only rewrites links and
heights: it never moves a value between slots, changes a slot's occupancy,
the arena's length, the free list, or `size`.  These lemmas make that
precise; they carry the functional-correctness claims C7/C8 and the
accounting claim C9. -/

theorem get?_lt {T : Type} {d : List (Option (Node T))} {i : Nat} {s}
    (h : d.get? i = some s) : i < d.length := by
  by_contra hc
  rw [List.get?_eq_none.2 (le_of_not_lt hc)] at h
  exact Option.noConfusion h

theorem sameVals_refl {T : Type} (d : List (Option (Node T))) : sameVals d d :=
  ⟨rfl, fun _ => rfl⟩

theorem sameVals_trans {T : Type} {a b c : List (Option (Node T))}
    (h1 : sameVals a b) (h2 : sameVals b c) : sameVals a c :=
  ⟨h1.1.trans h2.1, fun j => (h1.2 j).trans (h2.2 j)⟩

theorem modifyNode_sameVals {T : Type} {d : List (Option (Node T))} {i : Nat}
    {f : Node T → Node T} {d' : List (Option (Node T))}
    (h : modifyNode d i f = some d') (hf : ∀ nd, (f nd).value = nd.value) :
    sameVals d d' := by
  unfold modifyNode at h
  cases hg : d.get? i with
  | none => rw [hg] at h; exact Option.noConfusion h
  | some s =>
    cases s with
    | none => rw [hg] at h; exact Option.noConfusion h
    | some n =>
      rw [hg] at h
      obtain rfl : d.set i (some (f n)) = d' := Option.some.inj h
      refine ⟨(List.length_set d i _).symm, fun j => ?_⟩
      by_cases hij : i = j
      · subst hij
        rw [slotVal, slotVal, List.get?_set_eq_of_lt _ (get?_lt hg), hg]
        simp [hf n]
      · rw [slotVal, slotVal, List.get?_set_ne _ _ hij]

theorem shapeEq_refl {T : Type} (t : Tree T) : shapeEq t t :=
  ⟨sameVals_refl _, rfl, rfl⟩

theorem shapeEq_trans {T : Type} {a b c : Tree T}
    (h1 : shapeEq a b) (h2 : shapeEq b c) : shapeEq a c :=
  ⟨sameVals_trans h1.1 h2.1, h2.2.1.trans h1.2.1, h2.2.2.trans h1.2.2⟩

theorem update_height_shape {T : Type} {t : Tree T} {i : Nat} {bf : Int} {t' : Tree T}
    (h : t.update_height i = some (bf, t')) : shapeEq t t' := by
  unfold Tree.update_height at h
  simp only [bind, Option.bind_eq_some] at h
  obtain ⟨node, hn, lh, hl, rh, hr, d, hd, hfin⟩ := h
  obtain ⟨h1, h2⟩ := Prod.mk.inj (Option.some.inj hfin)
  subst h2
  exact ⟨modifyNode_sameVals hd (fun nd => rfl), rfl, rfl⟩

theorem rotate_right_shape {T : Type} {t : Tree T} {i j : Nat} {t' : Tree T}
    (h : t.rotate_right i = some (j, t')) : shapeEq t t' := by
  unfold Tree.rotate_right at h
  simp only [bind, Option.bind_eq_some] at h
  obtain ⟨node, hn, li, hli, leftN, hlN, d1, hd1, d2, hd2, ⟨bf1, t1⟩, h1, ⟨bf2, t2⟩, h2, hfin⟩ := h
  obtain ⟨h3, h4⟩ := Prod.mk.inj (Option.some.inj hfin)
  subst h4
  have s1 : sameVals t.data d1 := modifyNode_sameVals hd1 (fun nd => rfl)
  have s2 : sameVals d1 d2 := modifyNode_sameVals hd2 (fun nd => rfl)
  have sA : shapeEq t { t with data := d2 } := ⟨sameVals_trans s1 s2, rfl, rfl⟩
  have s3 : shapeEq { t with data := d2 } t1 := update_height_shape h1
  have s4 : shapeEq t1 t2 := update_height_shape h2
  exact shapeEq_trans sA (shapeEq_trans s3 s4)

theorem rotate_left_shape {T : Type} {t : Tree T} {i j : Nat} {t' : Tree T}
    (h : t.rotate_left i = some (j, t')) : shapeEq t t' := by
  unfold Tree.rotate_left at h
  simp only [bind, Option.bind_eq_some] at h
  obtain ⟨node, hn, ri, hri, rightN, hrN, d1, hd1, d2, hd2, ⟨bf1, t1⟩, h1, ⟨bf2, t2⟩, h2, hfin⟩ := h
  obtain ⟨h3, h4⟩ := Prod.mk.inj (Option.some.inj hfin)
  subst h4
  have s1 : sameVals t.data d1 := modifyNode_sameVals hd1 (fun nd => rfl)
  have s2 : sameVals d1 d2 := modifyNode_sameVals hd2 (fun nd => rfl)
  have sA : shapeEq t { t with data := d2 } := ⟨sameVals_trans s1 s2, rfl, rfl⟩
  have s3 : shapeEq { t with data := d2 } t1 := update_height_shape h1
  have s4 : shapeEq t1 t2 := update_height_shape h2
  exact shapeEq_trans sA (shapeEq_trans s3 s4)

theorem rotate_left_right_shape {T : Type} {t : Tree T} {i j : Nat} {t' : Tree T}
    (h : t.rotate_left_right i = some (j, t')) : shapeEq t t' := by
  unfold Tree.rotate_left_right at h
  simp only [bind, Option.bind_eq_some] at h
  obtain ⟨node, hn, li, hli, ⟨nl, t1⟩, h1, d, hd, h2⟩ := h
  have s1 : shapeEq t t1 := rotate_left_shape h1
  have s2 : shapeEq t1 { t1 with data := d } := ⟨modifyNode_sameVals hd (fun nd => rfl), rfl, rfl⟩
  have s3 : shapeEq { t1 with data := d } t' := rotate_right_shape h2
  exact shapeEq_trans s1 (shapeEq_trans s2 s3)

theorem rotate_right_left_shape {T : Type} {t : Tree T} {i j : Nat} {t' : Tree T}
    (h : t.rotate_right_left i = some (j, t')) : shapeEq t t' := by
  unfold Tree.rotate_right_left at h
  simp only [bind, Option.bind_eq_some] at h
  obtain ⟨node, hn, ri, hri, ⟨nr, t1⟩, h1, d, hd, h2⟩ := h
  have s1 : shapeEq t t1 := rotate_right_shape h1
  have s2 : shapeEq t1 { t1 with data := d } := ⟨modifyNode_sameVals hd (fun nd => rfl), rfl, rfl⟩
  have s3 : shapeEq { t1 with data := d } t' := rotate_left_shape h2
  exact shapeEq_trans s1 (shapeEq_trans s2 s3)

theorem balance_node_shape {T : Type} {t : Tree T} {i : Nat} {bf : Int} {j : Nat} {t' : Tree T}
    (h : t.balance_node i bf = some (j, t')) : shapeEq t t' := by
  unfold Tree.balance_node at h
  simp only [bind, Option.bind_eq_some] at h
  obtain ⟨node, hn, h⟩ := h
  by_cases hm : bf = -2
  · rw [if_pos hm] at h
    simp only [bind, Option.bind_eq_some] at h
    obtain ⟨li, hli, leftN, hlN, h⟩ := h
    cases hll : leftN.left with
    | some k => rw [hll] at h; exact rotate_right_shape h
    | none => rw [hll] at h; exact rotate_left_right_shape h
  · rw [if_neg hm] at h
    by_cases hp : bf = 2
    · rw [if_pos hp] at h
      simp only [bind, Option.bind_eq_some] at h
      obtain ⟨ri, hri, rightN, hrN, h⟩ := h
      cases hrr : rightN.right with
      | some k => rw [hrr] at h; exact rotate_left_shape h
      | none => rw [hrr] at h; exact rotate_right_left_shape h
    · rw [if_neg hp] at h
      obtain ⟨h1, h2⟩ := Prod.mk.inj (Option.some.inj h)
      subst h2
      exact shapeEq_refl t

theorem uabGo_shape {T : Type} :
    ∀ (l : List Nat) (t t' : Tree T), uabGo t l = some t' → shapeEq t t' := by
  intro l
  induction l with
  | nil =>
    intro t t' h
    obtain rfl : t = t' := Option.some.inj h
    exact shapeEq_refl t
  | cons index rest ih =>
    intro t t' h
    rw [uabGo] at h
    simp only [bind, Option.bind_eq_some] at h
    obtain ⟨⟨bf, t1⟩, h1, ⟨np, t2⟩, h2, h⟩ := h
    have s12 := shapeEq_trans (update_height_shape h1) (balance_node_shape h2)
    cases rest with
    | nil =>
      obtain rfl : { t2 with root := np } = t' := Option.some.inj h
      exact shapeEq_trans s12 ⟨sameVals_refl _, rfl, rfl⟩
    | cons n rest' =>
      simp only [bind, Option.bind_eq_some] at h
      obtain ⟨gf, hgf, d, hd, hrec⟩ := h
      have sm : shapeEq t2 { t2 with data := d } :=
        ⟨modifyNode_sameVals hd (fun nd => by split <;> rfl), rfl, rfl⟩
      exact shapeEq_trans s12 (shapeEq_trans sm (ih _ _ hrec))

theorem update_and_balance_shape {T : Type} {t : Tree T} {l : List Nat} {t' : Tree T}
    (h : t.update_and_balance l = some t') : shapeEq t t' :=
  uabGo_shape _ t t' h

theorem slotVal_set_self {T : Type} {d : List (Option (Node T))} {i : Nat}
    (h : i < d.length) (s : Option (Node T)) :
    slotVal (d.set i s) i = some (s.map (fun nd => nd.value)) := by
  rw [slotVal, List.get?_set_eq_of_lt _ h]; rfl

theorem vecPop_eq_none {α : Type} {l : List α} (h : vecPop l = none) : l = [] := by
  unfold vecPop at h
  cases hg : l.getLast? with
  | none => exact List.getLast?_eq_none.1 hg
  | some x => rw [hg] at h; exact Option.noConfusion h

/-- Common tail of both mutating branches of `insert`: `insert_helper`,
the parent-link update, the balancing pass, and the `size` increment.
`f` abstracts over which link of the parent is set. -/
theorem insert_tail_spec {T : Type} [LinearOrder T] [DecidableEq T]
    {t : Tree T} {v : T} {parent_index : Nat} {f : Option Nat → Node T → Node T}
    (hf : ∀ i nd, (f i nd).value = nd.value) {visited : List Nat}
    {idx : Nat} {t' : Tree T}
    (hacc : t.data.length = t.size + t.free.length)
    (h : (do
        let (ii, t1) ← t.insert_helper v
        let d ← modifyNode t1.data parent_index (f ii)
        let t2 ← Tree.update_and_balance { t1 with data := d } visited
        some (ii, { t2 with size := t2.size + 1 }) : Option (Option Nat × Tree T))
          = some (some idx, t')) :
    t'.get idx = some (some v) ∧ t'.size = t.size + 1 ∧
    (∀ n rest, vecPop t.free = some (n, rest) → idx = n) ∧
    (t.free = [] → idx = t.data.length) := by
  simp only [bind, Option.bind_eq_some] at h
  obtain ⟨⟨ii, t1⟩, hih, d, hd, t2, huab, hfin⟩ := h
  obtain ⟨h1, h2⟩ := Prod.mk.inj (Option.some.inj hfin)
  subst h2
  have hmod : sameVals t1.data d := modifyNode_sameVals hd (fun nd => hf ii nd)
  have huabs : shapeEq { t1 with data := d } t2 := update_and_balance_shape huab
  cases hvp : vecPop t.free with
  | some nr =>
    obtain ⟨n, freeRest⟩ := nr
    simp only [Tree.insert_helper, hvp] at hih
    cases hgn : t.data.get? n with
    | none => rw [hgn] at hih; exact Option.noConfusion hih
    | some s =>
      rw [hgn] at hih
      obtain ⟨hii, ht1⟩ := Prod.mk.inj (Option.some.inj hih)
      subst ht1
      obtain rfl : n = idx := Option.some.inj (hii.trans h1)
      have hsv : slotVal (t.data.set n (some (Node.new v))) n = some (some v) :=
        slotVal_set_self (get?_lt hgn) (some (Node.new v))
      have e1 : slotVal (t.data.set n (some (Node.new v))) n = slotVal d n := hmod.2 n
      have e2 : slotVal d n = slotVal t2.data n := huabs.1.2 n
      have e3 : t2.size = t.size := huabs.2.2
      refine ⟨?_, ?_, ?_, ?_⟩
      · show slotVal t2.data n = some (some v)
        exact (e1.trans e2).symm.trans hsv
      · show t2.size + 1 = t.size + 1
        rw [e3]
      · intro n' rest' hp
        exact (Prod.mk.inj (Option.some.inj hp)).1
      · intro hfr
        rw [hfr] at hvp
        exact Option.noConfusion hvp
  | none =>
    simp only [Tree.insert_helper, hvp] at hih
    obtain ⟨hii, ht1⟩ := Prod.mk.inj (Option.some.inj hih)
    subst ht1
    obtain rfl : t.len = idx := Option.some.inj (hii.trans h1)
    have hfr : t.free = [] := vecPop_eq_none hvp
    have hlen : t.data.length = t.size := by rw [hacc, hfr]; simp
    have hsv : slotVal (t.data ++ [some (Node.new v)]) t.len = some (some v) := by
      show slotVal (t.data ++ [some (Node.new v)]) t.size = some (some v)
      rw [slotVal, ← hlen, List.get?_concat_length]; rfl
    have e1 : slotVal (t.data ++ [some (Node.new v)]) t.len = slotVal d t.len := hmod.2 t.len
    have e2 : slotVal d t.len = slotVal t2.data t.len := huabs.1.2 t.len
    have e3 : t2.size = t.size := huabs.2.2
    refine ⟨?_, ?_, ?_, ?_⟩
    · show slotVal t2.data t.len = some (some v)
      exact (e1.trans e2).symm.trans hsv
    · show t2.size + 1 = t.size + 1
      rw [e3]
    · intro n' rest' hp
      exact Option.noConfusion hp
    · intro _
      show t.len = t.data.length
      rw [hlen]; rfl

/-! ## Claim C7 -/

/-- C7: when `insert` completes with an index on a tree whose arena
accounting is consistent (`data.length = size + free.length`, and an empty
tree has an empty arena — both consequences of the spec's §3 invariants),
the returned index is the slot actually used: the top of the free list if
one exists, otherwise the newly appended arena position; `get` on it
yields the inserted value, and `size` increments by exactly one. -/
theorem c7_insert_returns_used_slot {T : Type} [LinearOrder T] [DecidableEq T]
    (t : Tree T) (v : T) (idx : Nat) (t' : Tree T)
    (h : t.insert v = some (some idx, t'))
    (hacc : t.data.length = t.size + t.free.length)
    (hempty : t.size = 0 → t.data = []) :
    t'.get idx = some (some v) ∧ t'.size = t.size + 1 ∧
    (∀ n rest, vecPop t.free = some (n, rest) → idx = n) ∧
    (t.free = [] → idx = t.data.length) := by
  by_cases hs : t.size = 0
  · rw [Tree.insert, if_pos hs] at h
    obtain ⟨h1, h2⟩ := Prod.mk.inj (Option.some.inj h)
    obtain rfl : (0 : Nat) = idx := Option.some.inj h1
    subst h2
    have hd : t.data = [] := hempty hs
    have hlen : t.free.length = 0 := by rw [hd, hs] at hacc; simpa using hacc.symm
    have hf : t.free = [] := List.length_eq_zero.1 hlen
    refine ⟨?_, by simp [hs], ?_, ?_⟩
    · rw [Tree.get]
      simp [hd, Node.new]
    · intro n rest hp
      rw [hf] at hp
      exact Option.noConfusion hp
    · intro _
      simp [hd]
  · rw [Tree.insert, if_neg hs] at h
    cases hch : t.contains_helper v with
    | none => rw [hch] at h; exact Option.noConfusion h
    | some ch =>
      obtain ⟨b, x⟩ := ch
      rw [hch] at h
      cases b with
      | true =>
        simp only [bind, Option.some_bind] at h
        cases x with
        | none => exact absurd (Prod.mk.inj (Option.some.inj h)).1 (by simp)
        | some ns => exact absurd (Prod.mk.inj (Option.some.inj h)).1 (by simp)
      | false =>
        cases x with
        | none =>
          simp only [bind, Option.some_bind] at h
          exact absurd (Prod.mk.inj (Option.some.inj h)).1 (by simp)
        | some visited =>
          simp only [bind, Option.some_bind, Option.bind_eq_some] at h
          obtain ⟨parent_index, hpi, pn, hpn, h⟩ := h
          by_cases hc1 : v < pn.value
          · rw [if_pos hc1] at h
            exact insert_tail_spec (f := fun i nd => { nd with left := i })
              (fun i nd => rfl) hacc h
          · rw [if_neg hc1] at h
            by_cases hc2 : pn.value < v
            · rw [if_pos hc2] at h
              exact insert_tail_spec (f := fun i nd => { nd with right := i })
                (fun i nd => rfl) hacc h
            · rw [if_neg hc2] at h
              exact Option.noConfusion h

/-- Witness for `c7_insert_returns_used_slot`: inserting `2` into the
one-node tree holding `1` appends at slot `1`. -/
theorem c7_insert_returns_used_slot_witness :
    (Tree.mk [some (Node.mk 1 none none 0)] [] 0 1 : Tree Nat).insert 2 =
      some (some 1, Tree.mk
        [some (Node.mk 1 none (some 1) 1), some (Node.mk 2 none none 0)] [] 0 2) ∧
    ((Tree.mk
        [some (Node.mk 1 none (some 1) 1), some (Node.mk 2 none none 0)] [] 0 2 :
        Tree Nat).get 1 = some (some 2) ∧
     (Tree.mk
        [some (Node.mk 1 none (some 1) 1), some (Node.mk 2 none none 0)] [] 0 2 :
        Tree Nat).size = (Tree.mk [some (Node.mk 1 none none 0)] [] 0 1 : Tree Nat).size + 1 ∧
     (∀ n rest, vecPop (Tree.mk [some (Node.mk 1 none none 0)] [] 0 1 : Tree Nat).free =
        some (n, rest) → 1 = n) ∧
     ((Tree.mk [some (Node.mk 1 none none 0)] [] 0 1 : Tree Nat).free = [] →
        1 = (Tree.mk [some (Node.mk 1 none none 0)] [] 0 1 : Tree Nat).data.length)) :=
  ⟨by decide, c7_insert_returns_used_slot _ 2 1 _ (by decide) (by decide) (by decide)⟩

/-! ## Claim C8 -/

/-- C8: inserting a value already present — one the tree's own `contains`
reports at some slot — returns absent and leaves the tree literally
unchanged: `insert` bails out of `contains_helper`'s found-result before
any mutation. -/
theorem c8_duplicate_insert_is_noop {T : Type} [LinearOrder T] [DecidableEq T]
    (t : Tree T) (v : T) (p : Nat)
    (h : t.contains v = some (some p)) : t.insert v = some (none, t) := by
  by_cases hs : t.size = 0
  · rw [Tree.contains, if_pos hs] at h
    exact absurd (Option.some.inj h) (by simp)
  · rw [Tree.contains, if_neg hs] at h
    cases hch : t.contains_helper v with
    | none => rw [hch] at h; exact Option.noConfusion h
    | some ch =>
      obtain ⟨b, x⟩ := ch
      rw [hch] at h
      cases b with
      | false =>
        simp only [bind, Option.some_bind] at h
        exact absurd (Option.some.inj h) (by simp)
      | true =>
        rw [Tree.insert, if_neg hs, hch]
        cases x <;> rfl

/-- Witness for `c8_duplicate_insert_is_noop`: re-inserting `2` into the
two-node tree holding `1` and `2`. -/
theorem c8_duplicate_insert_is_noop_witness :
    (Tree.mk [some (Node.mk 1 none (some 1) 1), some (Node.mk 2 none none 0)] [] 0 2 :
      Tree Nat).contains 2 = some (some 1) ∧
    (Tree.mk [some (Node.mk 1 none (some 1) 1), some (Node.mk 2 none none 0)] [] 0 2 :
      Tree Nat).insert 2 =
      some (none, Tree.mk
        [some (Node.mk 1 none (some 1) 1), some (Node.mk 2 none none 0)] [] 0 2) :=
  ⟨by decide, c8_duplicate_insert_is_noop _ 2 1 (by decide)⟩

/-! ## Arena accounting lemmas for claim C9 -/


/-- Occupancy contribution of one slot-lookup result. -/
def occB {T : Type} : Option (Option (Node T)) → Nat
  | some (some _) => 1
  | _ => 0

theorem occCount_append {T : Type} (a b : List (Option (Node T))) :
    occCount (a ++ b) = occCount a + occCount b := by
  induction a with
  | nil => simp [occCount]
  | cons s rest ih =>
    cases s <;> simp [occCount, ih] <;> omega

theorem occCount_set {T : Type} :
    ∀ (d : List (Option (Node T))) (i : Nat) (s : Option (Node T)), i < d.length →
    occCount (d.set i s) + occB (d.get? i) = occCount d + occB (some s) := by
  intro d
  induction d with
  | nil => intro i s h; simp at h
  | cons x rest ih =>
    intro i s h
    cases i with
    | zero =>
      cases x <;> cases s <;> simp [occCount, occB, List.set] <;> omega
    | succ n =>
      have hn : n < rest.length := by simpa using h
      have := ih n s hn
      cases x <;> simp [occCount, occB, List.set, List.get?] at this ⊢ <;> omega

theorem occB_eq_of_slotVal {T : Type} {d d' : List (Option (Node T))} {j : Nat}
    (h : slotVal d j = slotVal d' j) : occB (d.get? j) = occB (d'.get? j) := by
  unfold slotVal at h
  cases hg : d.get? j <;> cases hg' : d'.get? j <;>
    rw [hg, hg'] at h <;>
    first
    | rfl
    | exact Option.noConfusion h
    | (rename_i s s'
       cases s <;> cases s' <;> simp [occB] <;> simp at h)

theorem occCount_eq_of_sameVals {T : Type} :
    ∀ {d d' : List (Option (Node T))}, sameVals d d' → occCount d = occCount d' := by
  intro d
  induction d with
  | nil =>
    intro d' h
    have : d' = [] := List.length_eq_zero.1 h.1.symm
    subst this; rfl
  | cons s rest ih =>
    intro d' h
    cases d' with
    | nil => simp [sameVals] at h
    | cons s' rest' =>
      have h0 : occB (some s : Option (Option (Node T))) = occB (some s') := by
        have := occB_eq_of_slotVal (h.2 0)
        simpa [List.get?] using this
      have htail : sameVals rest rest' := by
        refine ⟨by simpa [List.length_cons] using h.1, fun j => ?_⟩
        have := h.2 (j + 1)
        simpa [slotVal, List.get?] using this
      have := ih htail
      cases s <;> cases s' <;> simp [occCount, occB] at h0 ⊢ <;> omega

theorem occCount_dropLast_of_last_vacant {T : Type} {d : List (Option (Node T))}
    (h : d.getLast? = some none) : occCount d.dropLast = occCount d := by
  have hd := List.dropLast_append_getLast? none h
  conv_rhs => rw [← hd]
  rw [occCount_append]
  simp [occCount]

theorem cleanLoop_spec {T : Type} :
    ∀ (fuel : Nat) (d : List (Option (Node T))) (popped : List Nat)
      {d' : List (Option (Node T))} {popped' : List Nat},
      cleanLoop fuel d popped = some (d', popped') →
      (∃ nd, d'.getLast? = some (some nd)) ∧ occCount d' = occCount d := by
  intro fuel
  induction fuel with
  | zero => intro d popped d' popped' h; exact Option.noConfusion h
  | succ fuel ih =>
    intro d popped d' popped' h
    rw [cleanLoop] at h
    cases hg : d.getLast? with
    | none => rw [hg] at h; exact Option.noConfusion h
    | some s =>
      cases s with
      | some nd =>
        rw [hg] at h
        obtain ⟨h1, h2⟩ := Prod.mk.inj (Option.some.inj h)
        subst h1
        exact ⟨⟨nd, hg⟩, rfl⟩
      | none =>
        rw [hg] at h
        obtain ⟨htl, hocc⟩ := ih _ _ h
        exact ⟨htl, hocc.trans (occCount_dropLast_of_last_vacant hg)⟩

/-- What `clean_tail` guarantees on success: tight arena, unchanged
occupancy, unchanged `size` and `root`. -/
theorem clean_tail_spec {T : Type} {t t' : Tree T} (h : t.clean_tail = some t') :
    tightArena t'.data = true ∧ occCount t'.data = occCount t.data ∧
    t'.size = t.size ∧ t'.root = t.root := by
  unfold Tree.clean_tail at h
  simp only [bind, Option.bind_eq_some] at h
  obtain ⟨⟨d, popped⟩, hcl, hfin⟩ := h
  obtain rfl : ({ t with data := d, free := (retainFree t.free popped).1 } : Tree T) = t' :=
    Option.some.inj hfin
  obtain ⟨⟨nd, hlast⟩, hocc⟩ := cleanLoop_spec _ _ _ hcl
  refine ⟨?_, hocc, rfl, rfl⟩
  show tightArena d = true
  rw [tightArena, hlast]



theorem tight_eq_of_sameVals {T : Type} {d d' : List (Option (Node T))}
    (h : sameVals d d') : tightArena d = tightArena d' := by
  unfold tightArena
  rw [List.getLast?_eq_get?, List.getLast?_eq_get?, ← h.1]
  have hsv := h.2 (d.length - 1)
  unfold slotVal at hsv
  cases hg : d.get? (d.length - 1) <;> cases hg' : d'.get? (d.length - 1) <;>
      rw [hg, hg'] at hsv <;> first
    | rfl
    | exact Option.noConfusion hsv
    | (rename_i s s'
       cases s <;> cases s' <;> simp_all)

theorem tight_set_some {T : Type} {d : List (Option (Node T))} {n : Nat}
    (x : Node T) (ht : tightArena d = true) :
    tightArena (d.set n (some x)) = true := by
  unfold tightArena at ht ⊢
  rw [List.getLast?_eq_get?, List.length_set]
  rw [List.getLast?_eq_get?] at ht
  by_cases hn : n = d.length - 1
  · subst hn
    cases hlen : d.get? (d.length - 1) with
    | none =>
      have hle : d.length ≤ d.length - 1 := List.get?_eq_none.1 hlen
      have hd0 : d = [] := List.eq_nil_of_length_eq_zero (by omega)
      subst hd0
      rfl
    | some s => rw [List.get?_set_eq_of_lt _ (get?_lt hlen)]
  · rw [List.get?_set_ne _ _ (fun hc => hn hc)]
    exact ht

theorem tight_concat {T : Type} (d : List (Option (Node T))) (x : Node T) :
    tightArena (d ++ [some x]) = true := by
  unfold tightArena
  rw [List.getLast?_concat]

theorem swapSlots_occ {T : Type} {d d' : List (Option (Node T))} {i j : Nat}
    (h : swapSlots d i j = some d') : occCount d' = occCount d := by
  unfold swapSlots at h
  cases hi : d.get? i with
  | none => rw [hi] at h; exact Option.noConfusion h
  | some a =>
    cases hj : d.get? j with
    | none => rw [hi, hj] at h; exact Option.noConfusion h
    | some b =>
      rw [hi, hj] at h
      obtain rfl : (d.set i b).set j a = d' := Option.some.inj h
      have e1 := occCount_set d i b (get?_lt hi)
      have hij2 : j < (d.set i b).length := by rw [List.length_set]; exact get?_lt hj
      have e2 := occCount_set (d.set i b) j a hij2
      by_cases hij : i = j
      · subst hij
        rw [hi] at hj
        obtain rfl : a = b := Option.some.inj hj
        rw [List.get?_set_eq_of_lt _ (get?_lt hi)] at e2
        rw [hi] at e1
        simp [occB] at e1 e2 ⊢
        omega
      · rw [List.get?_set_ne _ _ hij, hj] at e2
        rw [hi] at e1
        cases a <;> cases b <;> simp [occB] at e1 e2 ⊢ <;> omega

theorem replaceAt_occ {T : Type} {d d' : List (Option (Node T))} {i : Nat}
    {nd : Node T} {v : Option (Node T)}
    (h : replaceAt d i v = some (nd, d')) :
    occCount d' + 1 = occCount d + occB (some v) := by
  unfold replaceAt at h
  cases hg : d.get? i with
  | none => rw [hg] at h; exact Option.noConfusion h
  | some s =>
    cases s with
    | none => rw [hg] at h; exact Option.noConfusion h
    | some n =>
      rw [hg] at h
      obtain ⟨h1, h2⟩ := Prod.mk.inj (Option.some.inj h)
      subst h2
      have := occCount_set d i v (get?_lt hg)
      rw [hg] at this
      simp [occB] at this ⊢
      omega

/-- Arena accounting through the common tail of the two-children removal
case. -/
theorem removeFinish_arena {T : Type} {t : Tree T} {d1 : List (Option (Node T))}
    {ri vi vl vr : Nat} {visited : List Nat} {r : Option T} {t' : Tree T}
    (hocc : occCount d1 = occCount t.data)
    (hsize : t.size = occCount t.data) (hs : t.size ≠ 0)
    (h : removeFinish t d1 ri vi vl vr visited = some (r, t')) :
    tightArena t'.data = true ∧ t'.size = occCount t'.data := by
  unfold removeFinish at h
  simp only [bind, Option.bind_eq_some] at h
  obtain ⟨⟨repl, d2⟩, hrep, sl, hsl, sr, hsr, ⟨oldv, d3⟩, hrep2, t2, huab, t3, hct, hfin⟩ := h
  obtain ⟨h1, h2⟩ := Prod.mk.inj (Option.some.inj hfin)
  subst h2
  have e1 : occCount d2 + 1 = occCount d1 := by
    have := replaceAt_occ hrep; simpa [occB] using this
  have e2 : occCount d3 = occCount d2 := by
    have := replaceAt_occ hrep2; simp [occB] at this; omega
  have huabs : shapeEq { t with data := d3, free := t.free ++ [ri] } t2 :=
    update_and_balance_shape huab
  have e3 : occCount t2.data = occCount d3 := (occCount_eq_of_sameVals huabs.1).symm
  obtain ⟨hct1, hct2, hct3, _⟩ := clean_tail_spec hct
  have e4 : t3.size = t.size := by
    rw [hct3, huabs.2.2]
  refine ⟨hct1, ?_⟩
  show t3.size - 1 = occCount t3.data
  rw [hct2, e3, e2, e4]
  omega



/-- Arena accounting through `removeAt` (the body of `remove` from the
target-slot lookup onward). -/
theorem removeAt_arena {T : Type} {t : Tree T} {ir : Bool} {visited : List Nat}
    {parent_index : Nat} {cil : Bool} {val_index : Nat} {r : Option T} {t' : Tree T}
    (hsize : t.size = occCount t.data) (hs : t.size ≠ 0)
    (h : removeAt t ir visited parent_index cil val_index = some (r, t')) :
    tightArena t'.data = true ∧ t'.size = occCount t'.data := by
  unfold removeAt at h
  simp only [bind, Option.bind_eq_some] at h
  obtain ⟨val_data, hvd, h⟩ := h
  obtain ⟨vv, vl, vr, vh⟩ := val_data
  have splice : ∀ (d1 : List (Option (Node T))), sameVals t.data d1 →
      ∀ (hh : (do
        let (vn, d2) ← replaceAt d1 val_index none
        let t1 : Tree T := { t with data := d2, free := t.free ++ [val_index] }
        let t2 ← t1.update_and_balance visited
        let t3 ← t2.clean_tail
        some (some vn.value, { t3 with size := t3.size - 1 }) : Option (Option T × Tree T))
          = some (r, t')),
      tightArena t'.data = true ∧ t'.size = occCount t'.data := by
    intro d1 s1 hh
    simp only [bind, Option.bind_eq_some] at hh
    obtain ⟨⟨vn, d2⟩, hrep, t2, huab, t3, hct, hfin⟩ := hh
    obtain ⟨h1, h2⟩ := Prod.mk.inj (Option.some.inj hfin)
    subst h2
    have e1 : occCount d2 + 1 = occCount d1 := by
      have := replaceAt_occ hrep; simpa [occB] using this
    have huabs : shapeEq { t with data := d2, free := t.free ++ [val_index] } t2 :=
      update_and_balance_shape huab
    obtain ⟨hct1, hct2, hct3, _⟩ := clean_tail_spec hct
    refine ⟨hct1, ?_⟩
    show t3.size - 1 = occCount t3.data
    have e2 : occCount t2.data = occCount d2 := (occCount_eq_of_sameVals huabs.1).symm
    have e3 : occCount d1 = occCount t.data := (occCount_eq_of_sameVals s1).symm
    have e4 : t3.size = t.size := by rw [hct3, huabs.2.2]
    rw [hct2, e2, e4]
    omega
  cases vl with
  | some val_left =>
    cases vr with
    | some val_right =>
      simp only [bind, Option.bind_eq_some] at h
      obtain ⟨left_data, hld, right_data, hrd, h⟩ := h
      by_cases hcmp : left_data.height > right_data.height
      · rw [if_pos hcmp] at h
        simp only [bind, Option.bind_eq_some] at h
        obtain ⟨⟨current, ld, visited2⟩, hcl, h⟩ := h
        cases hll : ld.left with
        | some n =>
          rw [hll] at h
          simp only [bind, Option.bind_eq_some] at h
          obtain ⟨d1, hd1, h⟩ := h
          exact removeFinish_arena (swapSlots_occ hd1) hsize hs h
        | none =>
          rw [hll] at h
          simp only [bind, Option.bind_eq_some] at h
          obtain ⟨lastv, hlv, d1, hd1, h⟩ := h
          exact removeFinish_arena
            (occCount_eq_of_sameVals (modifyNode_sameVals hd1 (fun nd => rfl))).symm
            hsize hs h
      · rw [if_neg hcmp] at h
        simp only [bind, Option.bind_eq_some] at h
        obtain ⟨⟨current, rd, visited2⟩, hcl, h⟩ := h
        cases hrr : rd.right with
        | some n =>
          rw [hrr] at h
          simp only [bind, Option.bind_eq_some] at h
          obtain ⟨d1, hd1, h⟩ := h
          exact removeFinish_arena (swapSlots_occ hd1) hsize hs h
        | none =>
          rw [hrr] at h
          simp only [bind, Option.bind_eq_some] at h
          obtain ⟨lastv, hlv, d1, hd1, h⟩ := h
          exact removeFinish_arena
            (occCount_eq_of_sameVals (modifyNode_sameVals hd1 (fun nd => rfl))).symm
            hsize hs h
    | none =>
      simp only [optXor, bind, Option.bind_eq_some] at h
      obtain ⟨d1, hd1, h⟩ := h
      exact splice d1 (modifyNode_sameVals hd1 (fun nd => by split <;> rfl))
        (by simp only [bind, Option.bind_eq_some]; exact h)
  | none =>
    cases vr with
    | some val_right =>
      simp only [optXor, bind, Option.bind_eq_some] at h
      obtain ⟨d1, hd1, h⟩ := h
      exact splice d1 (modifyNode_sameVals hd1 (fun nd => by split <;> rfl))
        (by simp only [bind, Option.bind_eq_some]; exact h)
    | none =>
      simp only [optXor, bind, Option.bind_eq_some] at h
      obtain ⟨d1, hd1, h⟩ := h
      exact splice d1 (modifyNode_sameVals hd1 (fun nd => by split <;> rfl))
        (by simp only [bind, Option.bind_eq_some]; exact h)

/-- Arena accounting through `removeGeneral`. -/
theorem removeGeneral_arena {T : Type} [LinearOrder T] [DecidableEq T]
    {t : Tree T} {v : T} {ir : Bool} {r : Option T} {t' : Tree T}
    (hsize : t.size = occCount t.data) (htight : tightArena t.data = true)
    (hs : t.size ≠ 0)
    (h : removeGeneral t v ir = some (r, t')) :
    tightArena t'.data = true ∧ t'.size = occCount t'.data := by
  unfold removeGeneral at h
  simp only [bind, Option.bind_eq_some] at h
  obtain ⟨⟨b, vis?⟩, hch, h⟩ := h
  cases b with
  | false =>
    obtain ⟨h1, h2⟩ := Prod.mk.inj (Option.some.inj h)
    subst h2
    exact ⟨htight, hsize⟩
  | true =>
    simp only [bind, Option.bind_eq_some] at h
    obtain ⟨parent_index, hpi, parent_data, hpd, h⟩ := h
    cases ir with
    | true =>
      simp only [Option.some_bind] at h
      obtain ⟨val_index, hvi, h⟩ := h
      exact removeAt_arena hsize hs h
    | false =>
      cases hdec : decide (v < parent_data.value) with
      | true =>
        rw [hdec] at h
        obtain ⟨val_index, hvi, h⟩ := h
        exact removeAt_arena hsize hs h
      | false =>
        rw [hdec] at h
        obtain ⟨val_index, hvi, h⟩ := h
        exact removeAt_arena hsize hs h



theorem vecPop_mem {α : Type} {l : List α} {x : α} {rest : List α}
    (h : vecPop l = some (x, rest)) : x ∈ l := by
  unfold vecPop at h
  cases hg : l.getLast? with
  | none => rw [hg] at h; exact Option.noConfusion h
  | some y =>
    rw [hg] at h
    obtain ⟨h1, h2⟩ := Prod.mk.inj (Option.some.inj h)
    subst h1
    have hsplit := List.dropLast_append_getLast? y hg
    rw [← hsplit]
    exact List.mem_append_right _ (List.mem_singleton_self y)

/-- Arena accounting through the common tail of both mutating branches of
`insert`. -/
theorem insert_tail_arena {T : Type} [LinearOrder T] [DecidableEq T]
    {t : Tree T} {v : T} {parent_index : Nat} {f : Option Nat → Node T → Node T}
    (hf : ∀ i nd, (f i nd).value = nd.value) {visited : List Nat}
    {ri : Option Nat} {t' : Tree T}
    (htight : tightArena t.data = true)
    (hsize : t.size = occCount t.data)
    (hfree : ∀ i, i ∈ t.free → t.data.get? i = some none)
    (h : (do
        let (ii, t1) ← t.insert_helper v
        let d ← modifyNode t1.data parent_index (f ii)
        let t2 ← Tree.update_and_balance { t1 with data := d } visited
        some (ii, { t2 with size := t2.size + 1 }) : Option (Option Nat × Tree T))
          = some (ri, t')) :
    tightArena t'.data = true ∧ t'.size = occCount t'.data := by
  simp only [bind, Option.bind_eq_some] at h
  obtain ⟨⟨ii, t1⟩, hih, d, hd, t2, huab, hfin⟩ := h
  obtain ⟨h1, h2⟩ := Prod.mk.inj (Option.some.inj hfin)
  subst h2
  have hmod : sameVals t1.data d := modifyNode_sameVals hd (fun nd => hf ii nd)
  have huabs : shapeEq { t1 with data := d } t2 := update_and_balance_shape huab
  have hocc2 : occCount t2.data = occCount t1.data :=
    ((occCount_eq_of_sameVals hmod).trans (occCount_eq_of_sameVals huabs.1)).symm
  have htight2 : tightArena t2.data = tightArena t1.data :=
    ((tight_eq_of_sameVals hmod).trans (tight_eq_of_sameVals huabs.1)).symm
  cases hvp : vecPop t.free with
  | some nr =>
    obtain ⟨n, freeRest⟩ := nr
    simp only [Tree.insert_helper, hvp] at hih
    cases hgn : t.data.get? n with
    | none => rw [hgn] at hih; exact Option.noConfusion hih
    | some s =>
      rw [hgn] at hih
      obtain ⟨hii, ht1⟩ := Prod.mk.inj (Option.some.inj hih)
      subst ht1
      have hvac : t.data.get? n = some none := hfree n (vecPop_mem hvp)
      have hset := occCount_set t.data n (some (Node.new v)) (get?_lt hgn)
      rw [hvac] at hset
      constructor
      · show tightArena t2.data = true
        rw [htight2]
        exact tight_set_some _ htight
      · show t2.size + 1 = occCount t2.data
        rw [hocc2, huabs.2.2]
        show t.size + 1 = occCount (t.data.set n (some (Node.new v)))
        simp [occB] at hset
        omega
  | none =>
    simp only [Tree.insert_helper, hvp] at hih
    obtain ⟨hii, ht1⟩ := Prod.mk.inj (Option.some.inj hih)
    subst ht1
    constructor
    · show tightArena t2.data = true
      rw [htight2]
      exact tight_concat _ _
    · show t2.size + 1 = occCount t2.data
      rw [hocc2, huabs.2.2]
      show t.size + 1 = occCount (t.data ++ [some (Node.new v)])
      rw [occCount_append]
      simp [occCount]
      omega

/-- Arena accounting through `insert`. -/
theorem insert_arena {T : Type} [LinearOrder T] [DecidableEq T]
    {t : Tree T} {v : T} {r : Option Nat} {t' : Tree T}
    (htight : tightArena t.data = true)
    (hsize : t.size = occCount t.data)
    (hfree : ∀ i, i ∈ t.free → t.data.get? i = some none)
    (h : t.insert v = some (r, t')) :
    tightArena t'.data = true ∧ t'.size = occCount t'.data := by
  by_cases hs : t.size = 0
  · rw [Tree.insert, if_pos hs] at h
    obtain ⟨h1, h2⟩ := Prod.mk.inj (Option.some.inj h)
    subst h2
    constructor
    · exact tight_concat _ _
    · show (1 : Nat) = occCount (t.data ++ [some (Node.new v)])
      rw [occCount_append]
      simp [occCount]
      omega
  · rw [Tree.insert, if_neg hs] at h
    cases hch : t.contains_helper v with
    | none => rw [hch] at h; exact Option.noConfusion h
    | some ch =>
      obtain ⟨b, x⟩ := ch
      rw [hch] at h
      cases b with
      | true =>
        simp only [bind, Option.some_bind] at h
        have ht : t' = t := by
          cases x <;> exact ((Prod.mk.inj (Option.some.inj h)).2).symm
        subst ht
        exact ⟨htight, hsize⟩
      | false =>
        cases x with
        | none =>
          simp only [bind, Option.some_bind] at h
          have ht : t' = t := ((Prod.mk.inj (Option.some.inj h)).2).symm
          subst ht
          exact ⟨htight, hsize⟩
        | some visited =>
          simp only [bind, Option.some_bind, Option.bind_eq_some] at h
          obtain ⟨parent_index, hpi, pn, hpn, h⟩ := h
          by_cases hc1 : v < pn.value
          · rw [if_pos hc1] at h
            exact insert_tail_arena (f := fun i nd => { nd with left := i })
              (fun i nd => rfl) htight hsize hfree h
          · rw [if_neg hc1] at h
            by_cases hc2 : pn.value < v
            · rw [if_pos hc2] at h
              exact insert_tail_arena (f := fun i nd => { nd with right := i })
                (fun i nd => rfl) htight hsize hfree h
            · rw [if_neg hc2] at h
              exact Option.noConfusion h

/-- Arena accounting through `remove`. -/
theorem remove_arena {T : Type} [LinearOrder T] [DecidableEq T]
    {t : Tree T} {v : T} {r : Option T} {t' : Tree T}
    (htight : tightArena t.data = true)
    (hsize : t.size = occCount t.data)
    (h : t.remove v = some (r, t')) :
    tightArena t'.data = true ∧ t'.size = occCount t'.data := by
  by_cases hs : t.size = 0
  · rw [Tree.remove, if_pos hs] at h
    have ht : t' = t := ((Prod.mk.inj (Option.some.inj h)).2).symm
    subst ht
    exact ⟨htight, hsize⟩
  · rw [Tree.remove, if_neg hs] at h
    simp only [bind, Option.bind_eq_some] at h
    obtain ⟨root_data, hrd, h⟩ := h
    by_cases heq : v = root_data.value
    · rw [if_pos heq] at h
      by_cases h1 : t.size = 1
      · rw [if_pos h1] at h
        simp only [bind, Option.bind_eq_some] at h
        obtain ⟨⟨last, drest⟩, hvp, lastNode, hln, hfin⟩ := h
        have ht : t' = { data := [], free := [], root := 0, size := 0 } :=
          ((Prod.mk.inj (Option.some.inj hfin)).2).symm
        subst ht
        exact ⟨rfl, rfl⟩
      · rw [if_neg h1] at h
        cases hxor : optXor root_data.left root_data.right with
        | some new_root =>
          rw [hxor] at h
          simp only [bind, Option.bind_eq_some] at h
          obtain ⟨⟨old, d1⟩, hrep, t2, hct, hfin⟩ := h
          have ht : t' = t2 := ((Prod.mk.inj (Option.some.inj hfin)).2).symm
          subst ht
          obtain ⟨hct1, hct2, hct3, _⟩ := clean_tail_spec hct
          have e1 : occCount d1 + 1 = occCount t.data := by
            have := replaceAt_occ hrep; simpa [occB] using this
          refine ⟨hct1, ?_⟩
          rw [hct3, hct2]
          show t.size - 1 = occCount d1
          omega
        | none =>
          rw [hxor] at h
          exact (removeGeneral_arena hsize htight hs h).imp id id
    · rw [if_neg heq] at h
      exact (removeGeneral_arena hsize htight hs h).imp id id


/-! ## Claim C9 -/

/-- C9: after `insert` or `remove` completes on a tree whose arena is
tight, whose `size` matches the occupied-slot count, and whose free-list
entries all point at vacant slots (the spec's §3 invariants), the arena is
again tight — no vacant slot at the tail — and `size` again equals the
exact number of occupied slots.  `contains` and `get` take `&self` and
cannot mutate the tree, so the claim is vacuous for them. -/
theorem c9_arena_tight_and_size_exact {T : Type} [LinearOrder T] [DecidableEq T]
    (t : Tree T) (v : T)
    (htight : tightArena t.data = true)
    (hsize : sizeOk t = true)
    (hfree : ∀ i, i ∈ t.free → t.data.get? i = some none) :
    (∀ r t', t.insert v = some (r, t') →
      tightArena t'.data = true ∧ sizeOk t' = true) ∧
    (∀ r t', t.remove v = some (r, t') →
      tightArena t'.data = true ∧ sizeOk t' = true) := by
  have hsz : t.size = occCount t.data := by simpa [sizeOk] using hsize
  constructor
  · intro r t' h
    obtain ⟨a, b⟩ := insert_arena htight hsz hfree h
    exact ⟨a, by simp [sizeOk, b]⟩
  · intro r t' h
    obtain ⟨a, b⟩ := remove_arena htight hsz h
    exact ⟨a, by simp [sizeOk, b]⟩

/-- Witness for `c9_arena_tight_and_size_exact` on the two-node tree
holding `1` and `2` with value `2`. -/
theorem c9_arena_tight_and_size_exact_witness :
    (tightArena (Tree.mk [some (Node.mk 1 none (some 1) 1), some (Node.mk 2 none none 0)]
        [] 0 2 : Tree Nat).data = true) ∧
    (sizeOk (Tree.mk [some (Node.mk 1 none (some 1) 1), some (Node.mk 2 none none 0)]
        [] 0 2 : Tree Nat) = true) ∧
    ((∀ r t', (Tree.mk [some (Node.mk 1 none (some 1) 1), some (Node.mk 2 none none 0)]
        [] 0 2 : Tree Nat).insert 3 = some (r, t') →
        tightArena t'.data = true ∧ sizeOk t' = true) ∧
     (∀ r t', (Tree.mk [some (Node.mk 1 none (some 1) 1), some (Node.mk 2 none none 0)]
        [] 0 2 : Tree Nat).remove 3 = some (r, t') →
        tightArena t'.data = true ∧ sizeOk t' = true)) :=
  ⟨by decide, by decide,
   c9_arena_tight_and_size_exact _ 3 (by decide) (by decide)
     (fun i hi => absurd hi (List.not_mem_nil i))⟩

/-! ## Decode fundamentals -/


theorem decode_none {T : Type} (d : List (Option (Node T))) (f : Nat) :
    decode d f none = some BT.leaf := by cases f <;> rfl

theorem decode_some_inv {T : Type} {d : List (Option (Node T))} {f : Nat} {i : Nat}
    {bt : BT T} (h : decode d f (some i) = some bt) :
    ∃ f' l nd r, f = f' + 1 ∧ bt = BT.node l i nd r ∧ getNode d i = some nd ∧
      decode d f' nd.left = some l ∧ decode d f' nd.right = some r := by
  cases f with
  | zero => exact Option.noConfusion h
  | succ f' =>
    rw [decode] at h
    cases hn : getNode d i with
    | none => rw [hn] at h; exact Option.noConfusion h
    | some nd =>
      rw [hn] at h
      dsimp only at h
      cases hl : decode d f' nd.left with
      | none => rw [hl] at h; exact Option.noConfusion h
      | some l =>
        cases hr : decode d f' nd.right with
        | none => rw [hl, hr] at h; exact Option.noConfusion h
        | some r =>
          rw [hl, hr] at h
          exact ⟨f', l, nd, r, rfl, (Option.some.inj h).symm, rfl, hl, hr⟩

theorem decode_build {T : Type} {d : List (Option (Node T))} {i : Nat} {nd : Node T}
    {f : Nat} {l r : BT T} (hn : getNode d i = some nd)
    (hl : decode d f nd.left = some l) (hr : decode d f nd.right = some r) :
    decode d (f + 1) (some i) = some (BT.node l i nd r) := by
  simp only [decode, hn, hl, hr]

theorem decode_mono {T : Type} {d : List (Option (Node T))} :
    ∀ {f f' : Nat} {link : Option Nat} {bt : BT T}, decode d f link = some bt →
      f ≤ f' → decode d f' link = some bt := by
  intro f
  induction f with
  | zero =>
    intro f' link bt h _
    cases link with
    | none => rw [decode_none] at h; rw [decode_none]; exact h
    | some i => exact Option.noConfusion h
  | succ f ih =>
    intro f' link bt h hle
    cases link with
    | none => rw [decode_none] at h; rw [decode_none]; exact h
    | some i =>
      obtain ⟨f0, l, nd, r, hf, rfl, hn, hl, hr⟩ := decode_some_inv h
      obtain rfl : f0 = f := by omega
      obtain ⟨f1, hf1⟩ : ∃ f1, f' = f1 + 1 := ⟨f' - 1, by omega⟩
      subst hf1
      exact decode_build hn (ih hl (by omega)) (ih hr (by omega))

theorem decode_min {T : Type} {d : List (Option (Node T))} :
    ∀ {f : Nat} {link : Option Nat} {bt : BT T}, decode d f link = some bt →
      decode d bt.depth link = some bt := by
  intro f
  induction f with
  | zero =>
    intro link bt h
    cases link with
    | none => rw [decode_none] at h; rw [decode_none]; exact h
    | some i => exact Option.noConfusion h
  | succ f ih =>
    intro link bt h
    cases link with
    | none => rw [decode_none] at h; rw [decode_none]; exact h
    | some i =>
      obtain ⟨f0, l, nd, r, hf, rfl, hn, hl, hr⟩ := decode_some_inv h
      obtain rfl : f0 = f := by omega
      have hl' := decode_mono (ih hl) (le_max_left l.depth r.depth)
      have hr' := decode_mono (ih hr) (le_max_right l.depth r.depth)
      show decode d (1 + max l.depth r.depth) (some i) = _
      rw [Nat.add_comm 1 (max l.depth r.depth)]
      exact decode_build hn hl' hr'

theorem decode_agree {T : Type} {d d' : List (Option (Node T))} :
    ∀ {f : Nat} {link : Option Nat} {bt : BT T}, decode d f link = some bt →
      (∀ j, j ∈ bt.idxs → getNode d' j = getNode d j) →
      decode d' f link = some bt := by
  intro f
  induction f with
  | zero =>
    intro link bt h _
    cases link with
    | none => rw [decode_none] at h; rw [decode_none]; exact h
    | some i => exact Option.noConfusion h
  | succ f ih =>
    intro link bt h hag
    cases link with
    | none => rw [decode_none] at h; rw [decode_none]; exact h
    | some i =>
      obtain ⟨f0, l, nd, r, hf, rfl, hn, hl, hr⟩ := decode_some_inv h
      obtain rfl : f0 = f := by omega
      have hmem : i ∈ (BT.node l i nd r).idxs := by
        rw [BT.idxs]; exact List.mem_append_right _ (List.mem_cons_self _ _)
      have hn' : getNode d' i = some nd := (hag i hmem).trans hn
      refine decode_build hn' (ih hl ?_) (ih hr ?_)
      · intro j hj
        exact hag j (by rw [BT.idxs]; exact List.mem_append_left _ hj)
      · intro j hj
        exact hag j (by rw [BT.idxs]; exact List.mem_append_right _ (List.mem_cons_of_mem _ hj))

theorem decode_idxs_occupied {T : Type} {d : List (Option (Node T))} :
    ∀ {f : Nat} {link : Option Nat} {bt : BT T}, decode d f link = some bt →
      ∀ j, j ∈ bt.idxs → ∃ nd, getNode d j = some nd := by
  intro f
  induction f with
  | zero =>
    intro link bt h j hj
    cases link with
    | none =>
      rw [decode_none] at h
      obtain rfl : BT.leaf = bt := Option.some.inj h
      simp [BT.idxs] at hj
    | some i => exact Option.noConfusion h
  | succ f ih =>
    intro link bt h j hj
    cases link with
    | none =>
      rw [decode_none] at h
      obtain rfl : BT.leaf = bt := Option.some.inj h
      simp [BT.idxs] at hj
    | some i =>
      obtain ⟨f0, l, nd, r, hf, rfl, hn, hl, hr⟩ := decode_some_inv h
      obtain rfl : f0 = f := by omega
      rw [BT.idxs] at hj
      rcases List.mem_append.1 hj with hj | hj
      · exact ih hl j hj
      · rcases List.mem_cons.1 hj with rfl | hj
        · exact ⟨nd, hn⟩
        · exact ih hr j hj

theorem getNode_lt {T : Type} {d : List (Option (Node T))} {j : Nat} {nd : Node T}
    (h : getNode d j = some nd) : j < d.length := by
  unfold getNode at h
  cases hg : d.get? j with
  | none => rw [hg] at h; exact Option.noConfusion h
  | some s => exact get?_lt hg

theorem recHeight_decode {T : Type} {d : List (Option (Node T))} :
    ∀ {f : Nat} {link : Option Nat} {bt : BT T}, decode d f link = some bt →
      recHeight d f link = bt.hgt := by
  intro f
  induction f with
  | zero =>
    intro link bt h
    cases link with
    | none =>
      rw [decode_none] at h
      obtain rfl : BT.leaf = bt := Option.some.inj h
      rfl
    | some i => exact Option.noConfusion h
  | succ f ih =>
    intro link bt h
    cases link with
    | none =>
      rw [decode_none] at h
      obtain rfl : BT.leaf = bt := Option.some.inj h
      rfl
    | some i =>
      obtain ⟨f0, l, nd, r, hf, rfl, hn, hl, hr⟩ := decode_some_inv h
      obtain rfl : f0 = f := by omega
      simp only [recHeight, hn, ih hl, ih hr, BT.hgt]

theorem reachVals_decode {T : Type} {d : List (Option (Node T))} :
    ∀ {f : Nat} {link : Option Nat} {bt : BT T}, decode d f link = some bt →
      reachVals d f link = bt.pvals := by
  intro f
  induction f with
  | zero =>
    intro link bt h
    cases link with
    | none =>
      rw [decode_none] at h
      obtain rfl : BT.leaf = bt := Option.some.inj h
      rfl
    | some i => exact Option.noConfusion h
  | succ f ih =>
    intro link bt h
    cases link with
    | none =>
      rw [decode_none] at h
      obtain rfl : BT.leaf = bt := Option.some.inj h
      rfl
    | some i =>
      obtain ⟨f0, l, nd, r, hf, rfl, hn, hl, hr⟩ := decode_some_inv h
      obtain rfl : f0 = f := by omega
      simp only [reachVals, hn, ih hl, ih hr, BT.pvals]

theorem hgt_ge {T : Type} : ∀ (bt : BT T), -1 ≤ bt.hgt := by
  intro bt
  induction bt with
  | leaf => rw [BT.hgt]
  | node l i nd r ihl ihr =>
    rw [BT.hgt]
    have := le_max_left l.hgt r.hgt
    omega

theorem hgt_lt_cnt {T : Type} : ∀ (bt : BT T), bt.hgt + 1 ≤ (bt.cnt : Int) := by
  intro bt
  induction bt with
  | leaf => rw [BT.hgt, BT.cnt]; simp
  | node l i nd r ihl ihr =>
    rw [BT.hgt, BT.cnt]
    rcases max_cases l.hgt r.hgt with ⟨he, _⟩ | ⟨he, _⟩ <;> rw [he] <;> push_cast <;> omega

theorem depth_le_cnt {T : Type} : ∀ (bt : BT T), bt.depth ≤ bt.cnt := by
  intro bt
  induction bt with
  | leaf => rw [BT.depth, BT.cnt]
  | node l i nd r ihl ihr =>
    rw [BT.depth, BT.cnt]
    have h3 : max l.depth r.depth ≤ l.depth + r.depth := max_le (by omega) (by omega)
    omega

theorem cnt_eq_idxs_length {T : Type} : ∀ (bt : BT T), bt.cnt = bt.idxs.length := by
  intro bt
  induction bt with
  | leaf => rfl
  | node l i nd r ihl ihr =>
    rw [BT.cnt, BT.idxs, List.length_append, List.length_cons, ihl, ihr]
    omega

theorem nodup_lt_length_le {n : Nat} : ∀ {l : List Nat}, l.Nodup → (∀ j ∈ l, j < n) →
    l.length ≤ n := by
  intro l hnd hlt
  have hsub : l.toFinset ⊆ Finset.range n := by
    intro x hx
    rw [Finset.mem_range]
    exact hlt x (List.mem_toFinset.1 hx)
  have := Finset.card_le_card hsub
  rw [List.toFinset_card_of_nodup hnd, Finset.card_range] at this
  exact this

theorem ordered_iff_pairwise {T : Type} [LinearOrder T] :
    ∀ (bt : BT T), bt.Ordered ↔ bt.vals.Pairwise (· < ·) := by
  intro bt
  induction bt with
  | leaf => simp [BT.Ordered, BT.vals]
  | node l i nd r ihl ihr =>
    rw [BT.Ordered, BT.vals, List.pairwise_append, List.pairwise_cons, ihl, ihr]
    constructor
    · rintro ⟨h1, h2, h3, h4⟩
      refine ⟨h3, ⟨h2, h4⟩, ?_⟩
      intro x hx y hy
      rcases List.mem_cons.1 hy with rfl | hy
      · exact h1 x hx
      · exact (h1 x hx).trans (h2 y hy)
    · rintro ⟨h1, ⟨h2, h3⟩, h4⟩
      exact ⟨fun x hx => h4 x hx nd.value (List.mem_cons_self _ _), h2, h1, h3⟩

theorem mem_pvals_iff_mem_vals {T : Type} : ∀ (bt : BT T) (x : T),
    x ∈ bt.pvals ↔ x ∈ bt.vals := by
  intro bt
  induction bt with
  | leaf => intro x; rfl
  | node l i nd r ihl ihr =>
    intro x
    rw [BT.pvals, BT.vals]
    simp only [List.mem_cons, List.mem_append, ihl, ihr]
    tauto




theorem wrap8_eq_self {x : Int} (h1 : -128 ≤ x) (h2 : x ≤ 127) : wrap8 x = x := by
  unfold wrap8
  have : (x + 128) % 256 = x + 128 := Int.emod_eq_of_lt (by omega) (by omega)
  omega

theorem getNode_set_ne {T : Type} {d : List (Option (Node T))} {k j : Nat}
    (h : k ≠ j) (s : Option (Node T)) : getNode (d.set k s) j = getNode d j := by
  unfold getNode
  rw [List.get?_set_ne _ _ h]

theorem getNode_set_self {T : Type} {d : List (Option (Node T))} {k : Nat}
    (h : k < d.length) (x : Node T) : getNode (d.set k (some x)) k = some x := by
  unfold getNode
  rw [List.get?_set_eq_of_lt _ h]
  rfl

/-- The stored height a link contributes, for a decoded and
stored-correct subtree: exactly the structural height. -/
theorem heightLink_decode {T : Type} {d : List (Option (Node T))} {F : Nat}
    {link : Option Nat} {B : BT T} (hd : decode d F link = some B)
    (hs : B.storedOk) : heightLink d link = some B.hgt := by
  cases link with
  | none =>
    rw [decode_none] at hd
    obtain rfl : BT.leaf = B := Option.some.inj hd
    rfl
  | some i =>
    obtain ⟨f', l, nd, r, hf, rfl, hn, hl, hr⟩ := decode_some_inv hd
    rw [heightLink, hn]
    rw [BT.storedOk] at hs
    rw [BT.hgt, ← hs.1]
    rfl

/-- A decoded subtree hanging off a `some` link is never a leaf. -/
theorem decode_some_ne_leaf {T : Type} {d : List (Option (Node T))} {F : Nat}
    {i : Nat} (h : decode d F (some i) = some (BT.leaf : BT T)) : False := by
  obtain ⟨f', l, nd, r, _, he, _, _, _⟩ := decode_some_inv h
  exact BT.noConfusion he

/-- Structural height is bounded by the arena length for subtrees with
distinct slots. -/
theorem hgt_le_len {T : Type} {d : List (Option (Node T))} {F : Nat}
    {link : Option Nat} {bt : BT T} (h : decode d F link = some bt)
    (hnd : bt.idxs.Nodup) : bt.hgt + 1 ≤ (d.length : Int) := by
  have h1 := hgt_lt_cnt bt
  have h2 := cnt_eq_idxs_length bt
  have h3 : bt.idxs.length ≤ d.length := by
    refine nodup_lt_length_le hnd ?_
    intro j hj
    obtain ⟨nd, hn⟩ := decode_idxs_occupied h j hj
    exact getNode_lt hn
  have : (bt.cnt : Int) ≤ (d.length : Int) := by exact_mod_cast h2 ▸ h3
  omega

/-- Depth is bounded by the arena length for subtrees with distinct
slots. -/
theorem depth_le_len {T : Type} {d : List (Option (Node T))} {F : Nat}
    {link : Option Nat} {bt : BT T} (h : decode d F link = some bt)
    (hnd : bt.idxs.Nodup) : bt.depth ≤ d.length := by
  have h1 := depth_le_cnt bt
  have h2 := cnt_eq_idxs_length bt
  have h3 : bt.idxs.length ≤ d.length := by
    refine nodup_lt_length_le hnd ?_
    intro j hj
    obtain ⟨nd, hn⟩ := decode_idxs_occupied h j hj
    exact getNode_lt hn
  omega



theorem getNode_get? {T : Type} {d : List (Option (Node T))} {i : Nat} {nd : Node T}
    (h : getNode d i = some nd) : d.get? i = some (some nd) := by
  unfold getNode at h
  cases hg : d.get? i with
  | none => rw [hg] at h; exact Option.noConfusion h
  | some s =>
    rw [hg] at h
    cases s with
    | none => exact Option.noConfusion h
    | some x => rw [Option.some.inj h]

theorem modifyNode_of_get {T : Type} {d : List (Option (Node T))} {i : Nat}
    {nd : Node T} (h : getNode d i = some nd) (f : Node T → Node T) :
    modifyNode d i f = some (d.set i (some (f nd))) := by
  unfold modifyNode
  rw [getNode_get? h]

theorem update_height_eval {T : Type} {t : Tree T} {i : Nat} {nd : Node T}
    {lh rh : Int} (hn : getNode t.data i = some nd)
    (hl : heightLink t.data nd.left = some lh)
    (hr : heightLink t.data nd.right = some rh) :
    t.update_height i = some (wrap8 (rh - lh),
      { t with data := t.data.set i (some { nd with height := wrap8 (1 + max lh rh) }) }) := by
  unfold Tree.update_height
  rw [hn]
  simp only [bind, Option.some_bind, hl, hr, modifyNode_of_get hn]




/-- Full correctness of a right rotation on a decoded, stored-correct
subtree: the result decodes to the rotated shape with correctly stored
heights, the rest of the arena is untouched, and bookkeeping fields are
preserved. -/
theorem rotate_right_correct {T : Type} {t : Tree T} {F : Nat} {i li : Nat}
    {nd lnd : Node T} {LL LR RR : BT T} {j : Nat} {t2 : Tree T}
    (hlen : t.data.length ≤ 125) (hF : t.data.length < F)
    (hn : getNode t.data i = some nd) (hndl : nd.left = some li)
    (hln : getNode t.data li = some lnd)
    (hLL : decode t.data F lnd.left = some LL)
    (hLR : decode t.data F lnd.right = some LR)
    (hRR : decode t.data F nd.right = some RR)
    (hsLL : LL.storedOk) (hsLR : LR.storedOk) (hsRR : RR.storedOk)
    (hnodup : (BT.node (BT.node LL li lnd LR) i nd RR).idxs.Nodup)
    (h : t.rotate_right i = some (j, t2)) :
    j = li ∧
    ∃ nd2 lnd2 : Node T,
      nd2.value = nd.value ∧ lnd2.value = lnd.value ∧
      nd2.height = 1 + max LR.hgt RR.hgt ∧
      lnd2.height = 1 + max LL.hgt (1 + max LR.hgt RR.hgt) ∧
      decode t2.data F (some li) =
        some (BT.node LL li lnd2 (BT.node LR i nd2 RR)) ∧
      t2.data.length = t.data.length ∧
      (∀ k, k ∉ (BT.node (BT.node LL li lnd LR) i nd RR).idxs →
        getNode t2.data k = getNode t.data k) ∧
      t2.free = t.free ∧ t2.size = t.size ∧ t2.root = t.root := by
  -- dissect the nodup hypothesis
  have hnd' := hnodup
  rw [BT.idxs, BT.idxs] at hnd'
  obtain ⟨h12, hIR, hdisj⟩ := List.nodup_append.1 hnd'
  obtain ⟨hLLn, hliLR, hd2⟩ := List.nodup_append.1 h12
  obtain ⟨hliLRm, hLRn⟩ := List.nodup_cons.1 hliLR
  obtain ⟨hiRRm, hRRn⟩ := List.nodup_cons.1 hIR
  have hlii : li ≠ i := by
    intro he
    exact (hdisj (List.mem_append_right _ (List.mem_cons_self _ _))) (he ▸ List.mem_cons_self _ _)
  have hLLf : ∀ k ∈ LL.idxs, k ≠ i ∧ k ≠ li := by
    intro k hk
    constructor
    · intro he
      exact hdisj (List.mem_append_left _ hk) (he ▸ List.mem_cons_self _ _)
    · intro he
      exact hd2 hk (he ▸ List.mem_cons_self _ _)
  have hLRf : ∀ k ∈ LR.idxs, k ≠ i ∧ k ≠ li := by
    intro k hk
    constructor
    · intro he
      exact hdisj (List.mem_append_right _ (List.mem_cons_of_mem _ hk))
        (he ▸ List.mem_cons_self _ _)
    · intro he
      exact hliLRm (he ▸ hk)
  have hRRf : ∀ k ∈ RR.idxs, k ≠ i ∧ k ≠ li := by
    intro k hk
    constructor
    · intro he
      exact hiRRm (he ▸ hk)
    · intro he
      exact hdisj (List.mem_append_right _ (List.mem_cons_self _ _))
        (List.mem_cons_of_mem _ (he ▸ hk))
  -- height bounds
  have hbLL1 := hgt_ge LL
  have hbLR1 := hgt_ge LR
  have hbRR1 := hgt_ge RR
  have hbLL2 := hgt_le_len hLL hLLn
  have hbLR2 := hgt_le_len hLR hLRn
  have hbRR2 := hgt_le_len hRR hRRn
  have hlen' : (t.data.length : Int) ≤ 125 := by exact_mod_cast hlen
  have hmx1 : (-1 : Int) ≤ max LR.hgt RR.hgt := le_trans hbLR1 (le_max_left _ _)
  have hmx2 : max LR.hgt RR.hgt ≤ (t.data.length : Int) - 1 :=
    max_le (by omega) (by omega)
  have hwHi : wrap8 (1 + max LR.hgt RR.hgt) = 1 + max LR.hgt RR.hgt :=
    wrap8_eq_self (by omega) (by omega)
  have hmx3 : (-1 : Int) ≤ max LL.hgt (1 + max LR.hgt RR.hgt) :=
    le_trans hbLL1 (le_max_left _ _)
  have hmx4 : max LL.hgt (1 + max LR.hgt RR.hgt) ≤ (t.data.length : Int) :=
    max_le (by omega) (by omega)
  have hwHli : wrap8 (1 + max LL.hgt (1 + max LR.hgt RR.hgt)) =
      1 + max LL.hgt (1 + max LR.hgt RR.hgt) :=
    wrap8_eq_self (by omega) (by omega)
  -- in-bounds facts
  have hilt : i < t.data.length := getNode_lt hn
  have hlilt : li < t.data.length := getNode_lt hln
  -- symbolically execute rotate_right
  unfold Tree.rotate_right at h
  rw [hn] at h
  dsimp only [bind, Option.some_bind] at h
  rw [hndl] at h
  dsimp only [bind, Option.some_bind] at h
  rw [hln] at h
  dsimp only [bind, Option.some_bind] at h
  rw [modifyNode_of_get hn] at h
  dsimp only [bind, Option.some_bind] at h
  have hln1 : getNode (t.data.set i (some { nd with left := lnd.right })) li = some lnd :=
    (getNode_set_ne (fun he => hlii he.symm) _).trans hln
  rw [modifyNode_of_get hln1] at h
  dsimp only [bind, Option.some_bind] at h
  -- first update_height, at i
  have hn2 : getNode ((t.data.set i (some { nd with left := lnd.right })).set li
      (some { lnd with right := some i })) i = some { nd with left := lnd.right } := by
    rw [getNode_set_ne hlii, getNode_set_self hilt]
  have hagLR : decode ((t.data.set i (some { nd with left := lnd.right })).set li
      (some { lnd with right := some i })) F lnd.right = some LR := by
    refine decode_agree hLR ?_
    intro k hk
    rw [getNode_set_ne (fun he => ((hLRf k hk).2 he.symm)) _,
        getNode_set_ne (fun he => ((hLRf k hk).1 he.symm)) _]
  have hagRR : decode ((t.data.set i (some { nd with left := lnd.right })).set li
      (some { lnd with right := some i })) F nd.right = some RR := by
    refine decode_agree hRR ?_
    intro k hk
    rw [getNode_set_ne (fun he => ((hRRf k hk).2 he.symm)) _,
        getNode_set_ne (fun he => ((hRRf k hk).1 he.symm)) _]
  have huh1 := update_height_eval
    (t := Tree.mk ((t.data.set i (some { nd with left := lnd.right })).set li
      (some { lnd with right := some i })) t.free t.root t.size) (i := i)
    hn2 (heightLink_decode hagLR hsLR) (heightLink_decode hagRR hsRR)
  rw [huh1] at h
  dsimp only [bind, Option.some_bind] at h
  rw [hwHi] at h
  -- second update_height, at li
  have hn3 : getNode (((t.data.set i
      (some { nd with left := lnd.right })).set li
      (some { lnd with right := some i })).set i
      (some { value := nd.value, left := lnd.right, right := nd.right, height := 1 + max LR.hgt RR.hgt })) li =
      some { lnd with right := some i } := by
    rw [getNode_set_ne (fun he => hlii he.symm), getNode_set_self]
    rw [List.length_set]
    exact hlilt
  have hframe3 : ∀ k, k ≠ i → k ≠ li → getNode (((t.data.set i
      (some { nd with left := lnd.right })).set li
      (some { lnd with right := some i })).set i
      (some { value := nd.value, left := lnd.right, right := nd.right, height := 1 + max LR.hgt RR.hgt })) k = getNode t.data k := by
    intro k hk1 hk2
    rw [getNode_set_ne (fun he => hk1 he.symm), getNode_set_ne (fun he => hk2 he.symm),
        getNode_set_ne (fun he => hk1 he.symm)]
  have hagLL3 : decode (((t.data.set i
      (some { nd with left := lnd.right })).set li
      (some { lnd with right := some i })).set i
      (some { value := nd.value, left := lnd.right, right := nd.right, height := 1 + max LR.hgt RR.hgt })) F lnd.left = some LL := by
    refine decode_agree hLL ?_
    intro k hk
    exact hframe3 k (hLLf k hk).1 (hLLf k hk).2
  have hgi3 : getNode (((t.data.set i
      (some { nd with left := lnd.right })).set li
      (some { lnd with right := some i })).set i
      (some { value := nd.value, left := lnd.right, right := nd.right, height := 1 + max LR.hgt RR.hgt })) i =
      some { value := nd.value, left := lnd.right, right := nd.right, height := 1 + max LR.hgt RR.hgt } := by
    rw [getNode_set_self]
    rw [List.length_set, List.length_set]
    exact hilt
  have hr3 : heightLink (((t.data.set i
      (some { nd with left := lnd.right })).set li
      (some { lnd with right := some i })).set i
      (some { value := nd.value, left := lnd.right, right := nd.right, height := 1 + max LR.hgt RR.hgt })) (some i) =
      some (1 + max LR.hgt RR.hgt) := by
    rw [heightLink, hgi3]
    rfl
  have huh2 := update_height_eval
    (t := Tree.mk (((t.data.set i
      (some { nd with left := lnd.right })).set li
      (some { lnd with right := some i })).set i
      (some { value := nd.value, left := lnd.right, right := nd.right, height := 1 + max LR.hgt RR.hgt })) t.free t.root t.size) (i := li)
    hn3 (heightLink_decode hagLL3 hsLL) hr3
  rw [huh2] at h
  dsimp only [bind, Option.some_bind] at h
  rw [hwHli] at h
  obtain ⟨hj, ht2⟩ := Prod.mk.inj (Option.some.inj h)
  subst ht2
  subst hj
  refine ⟨rfl, { value := nd.value, left := lnd.right, right := nd.right, height := 1 + max LR.hgt RR.hgt }, { value := lnd.value, left := lnd.left, right := some i, height := 1 + max LL.hgt (1 + max LR.hgt RR.hgt) }, rfl, rfl, rfl, rfl, ?_, ?_, ?_, rfl, rfl, rfl⟩
  · -- decode the rotated subtree
    show decode ((((t.data.set i _).set li _).set i _).set li _) F (some li) = _
    set d4 := (((t.data.set i (some { nd with left := lnd.right })).set li (some { lnd with right := some i })).set i (some { value := nd.value, left := lnd.right, right := nd.right, height := 1 + max LR.hgt RR.hgt })).set li (some { value := lnd.value, left := lnd.left, right := some i, height := 1 + max LL.hgt (1 + max LR.hgt RR.hgt) }) with hd4
    have hframe4 : ∀ k, k ≠ i → k ≠ li → getNode d4 k = getNode t.data k := by
      intro k hk1 hk2
      rw [hd4, getNode_set_ne (fun he => hk2 he.symm)]
      exact hframe3 k hk1 hk2
    have hgi4 : getNode d4 i =
        some { value := nd.value, left := lnd.right, right := nd.right,
               height := 1 + max LR.hgt RR.hgt } := by
      rw [hd4, getNode_set_ne (fun he => hlii he)]
      exact hgi3
    have hgli4 : getNode d4 li =
        some { value := lnd.value, left := lnd.left, right := some i, height := 1 + max LL.hgt (1 + max LR.hgt RR.hgt) } := by
      rw [hd4, getNode_set_self]
      simp only [List.length_set]
      exact hlilt
    have hagLL4 : decode d4 F lnd.left = some LL :=
      decode_agree hLL (fun k hk => hframe4 k (hLLf k hk).1 (hLLf k hk).2)
    have hagLR4 : decode d4 F lnd.right = some LR :=
      decode_agree hLR (fun k hk => hframe4 k (hLRf k hk).1 (hLRf k hk).2)
    have hagRR4 : decode d4 F nd.right = some RR :=
      decode_agree hRR (fun k hk => hframe4 k (hRRf k hk).1 (hRRf k hk).2)
    -- count bound for the fuel bookkeeping
    have hinb : ∀ k ∈ (BT.node (BT.node LL li lnd LR) i nd RR).idxs,
        k < t.data.length := by
      intro k hk
      rw [BT.idxs, BT.idxs] at hk
      rcases List.mem_append.1 hk with hk | hk
      · rcases List.mem_append.1 hk with hk | hk
        · obtain ⟨x, hx⟩ := decode_idxs_occupied hLL k hk
          exact getNode_lt hx
        · rcases List.mem_cons.1 hk with rfl | hk
          · exact hlilt
          · obtain ⟨x, hx⟩ := decode_idxs_occupied hLR k hk
            exact getNode_lt hx
      · rcases List.mem_cons.1 hk with rfl | hk
        · exact hilt
        · obtain ⟨x, hx⟩ := decode_idxs_occupied hRR k hk
          exact getNode_lt hx
    have hslen := nodup_lt_length_le hnodup hinb
    have hslen2 : LL.idxs.length + LR.idxs.length + RR.idxs.length + 2 ≤
        t.data.length := by
      rw [BT.idxs, BT.idxs] at hslen
      simp only [List.length_append, List.length_cons] at hslen
      omega
    have hdc1 := depth_le_cnt LL
    have hdc2 := depth_le_cnt LR
    have hdc3 := depth_le_cnt RR
    have hce1 := cnt_eq_idxs_length LL
    have hce2 := cnt_eq_idxs_length LR
    have hce3 := cnt_eq_idxs_length RR
    have hinner : decode d4 (max LR.depth RR.depth + 1) (some i) =
        some (BT.node LR i { value := nd.value, left := lnd.right, right := nd.right, height := 1 + max LR.hgt RR.hgt } RR) :=
      decode_build hgi4
        (decode_mono (decode_min hagLR4) (Nat.le_max_left _ _))
        (decode_mono (decode_min hagRR4) (Nat.le_max_right _ _))
    have houter : decode d4 (max LL.depth (max LR.depth RR.depth + 1) + 1) (some li) =
        some (BT.node LL li { value := lnd.value, left := lnd.left, right := some i, height := 1 + max LL.hgt (1 + max LR.hgt RR.hgt) } (BT.node LR i { value := nd.value, left := lnd.right, right := nd.right, height := 1 + max LR.hgt RR.hgt } RR)) :=
      decode_build hgli4
        (decode_mono (decode_min hagLL4) (Nat.le_max_left _ _))
        (decode_mono hinner (Nat.le_max_right _ _))
    refine decode_mono houter ?_
    have hm1 : max LR.depth RR.depth ≤ LR.idxs.length + RR.idxs.length :=
      max_le (by omega) (by omega)
    have hm2 : max LL.depth (max LR.depth RR.depth + 1) ≤
        LL.idxs.length + LR.idxs.length + RR.idxs.length + 1 :=
      max_le (by omega) (by omega)
    omega
  · simp only [List.length_set]
  · intro k hk
    have hk1 : k ≠ i := by
      intro he
      subst he
      exact hk (by rw [BT.idxs]; exact List.mem_append_right _ (List.mem_cons_self _ _))
    have hk2 : k ≠ li := by
      intro he
      subst he
      refine hk ?_
      rw [BT.idxs, BT.idxs]
      exact List.mem_append_left _ (List.mem_append_right _ (List.mem_cons_self _ _))
    rw [getNode_set_ne (fun he => hk2 he.symm)]
    exact hframe3 k hk1 hk2




/-- Mirror of `rotate_right_correct` for a left rotation. -/
theorem rotate_left_correct {T : Type} {t : Tree T} {F : Nat} {i ri : Nat}
    {nd rnd : Node T} {L RL RRt : BT T} {j : Nat} {t2 : Tree T}
    (hlen : t.data.length ≤ 125) (hF : t.data.length < F)
    (hn : getNode t.data i = some nd) (hndr : nd.right = some ri)
    (hrn : getNode t.data ri = some rnd)
    (hL : decode t.data F nd.left = some L)
    (hRL : decode t.data F rnd.left = some RL)
    (hRRt : decode t.data F rnd.right = some RRt)
    (hsL : L.storedOk) (hsRL : RL.storedOk) (hsRRt : RRt.storedOk)
    (hnodup : (BT.node L i nd (BT.node RL ri rnd RRt)).idxs.Nodup)
    (h : t.rotate_left i = some (j, t2)) :
    j = ri ∧
    ∃ nd2 rnd2 : Node T,
      nd2.value = nd.value ∧ rnd2.value = rnd.value ∧
      nd2.height = 1 + max L.hgt RL.hgt ∧
      rnd2.height = 1 + max (1 + max L.hgt RL.hgt) RRt.hgt ∧
      decode t2.data F (some ri) =
        some (BT.node (BT.node L i nd2 RL) ri rnd2 RRt) ∧
      t2.data.length = t.data.length ∧
      (∀ k, k ∉ (BT.node L i nd (BT.node RL ri rnd RRt)).idxs →
        getNode t2.data k = getNode t.data k) ∧
      t2.free = t.free ∧ t2.size = t.size ∧ t2.root = t.root := by
  have hnd' := hnodup
  rw [BT.idxs, BT.idxs] at hnd'
  obtain ⟨hLn, hIR, hdisj⟩ := List.nodup_append.1 hnd'
  obtain ⟨hiRm, hRn⟩ := List.nodup_cons.1 hIR
  obtain ⟨hRLn, hriRR, hd2⟩ := List.nodup_append.1 hRn
  obtain ⟨hriRRm, hRRn⟩ := List.nodup_cons.1 hriRR
  have hrii : ri ≠ i := by
    intro he
    exact hiRm (he ▸ List.mem_append_right _ (List.mem_cons_self _ _))
  have hLf : ∀ k ∈ L.idxs, k ≠ i ∧ k ≠ ri := by
    intro k hk
    constructor
    · intro he
      exact hdisj hk (he ▸ List.mem_cons_self _ _)
    · intro he
      exact hdisj hk (he ▸ List.mem_cons_of_mem _
        (List.mem_append_right _ (List.mem_cons_self _ _)))
  have hRLf : ∀ k ∈ RL.idxs, k ≠ i ∧ k ≠ ri := by
    intro k hk
    constructor
    · intro he
      exact hiRm (he ▸ List.mem_append_left _ hk)
    · intro he
      exact hd2 hk (he ▸ List.mem_cons_self _ _)
  have hRRf : ∀ k ∈ RRt.idxs, k ≠ i ∧ k ≠ ri := by
    intro k hk
    constructor
    · intro he
      exact hiRm (he ▸ List.mem_append_right _ (List.mem_cons_of_mem _ hk))
    · intro he
      exact hriRRm (he ▸ hk)
  have hbL1 := hgt_ge L
  have hbRL1 := hgt_ge RL
  have hbRR1 := hgt_ge RRt
  have hbL2 := hgt_le_len hL hLn
  have hbRL2 := hgt_le_len hRL hRLn
  have hbRR2 := hgt_le_len hRRt hRRn
  have hlen' : (t.data.length : Int) ≤ 125 := by exact_mod_cast hlen
  have hmx1 : (-1 : Int) ≤ max L.hgt RL.hgt := le_trans hbL1 (le_max_left _ _)
  have hmx2 : max L.hgt RL.hgt ≤ (t.data.length : Int) - 1 :=
    max_le (by omega) (by omega)
  have hwHi : wrap8 (1 + max L.hgt RL.hgt) = 1 + max L.hgt RL.hgt :=
    wrap8_eq_self (by omega) (by omega)
  have hmx3 : (-1 : Int) ≤ max (1 + max L.hgt RL.hgt) RRt.hgt :=
    le_trans (by omega) (le_max_left _ _)
  have hmx4 : max (1 + max L.hgt RL.hgt) RRt.hgt ≤ (t.data.length : Int) :=
    max_le (by omega) (by omega)
  have hwHri : wrap8 (1 + max (1 + max L.hgt RL.hgt) RRt.hgt) =
      1 + max (1 + max L.hgt RL.hgt) RRt.hgt :=
    wrap8_eq_self (by omega) (by omega)
  have hilt : i < t.data.length := getNode_lt hn
  have hrilt : ri < t.data.length := getNode_lt hrn
  unfold Tree.rotate_left at h
  rw [hn] at h
  dsimp only [bind, Option.some_bind] at h
  rw [hndr] at h
  dsimp only [bind, Option.some_bind] at h
  rw [hrn] at h
  dsimp only [bind, Option.some_bind] at h
  rw [modifyNode_of_get hn] at h
  dsimp only [bind, Option.some_bind] at h
  have hrn1 : getNode (t.data.set i (some { nd with right := rnd.left })) ri = some rnd :=
    (getNode_set_ne (fun he => hrii he.symm) _).trans hrn
  rw [modifyNode_of_get hrn1] at h
  dsimp only [bind, Option.some_bind] at h
  have hn2 : getNode ((t.data.set i (some { nd with right := rnd.left })).set ri
      (some { rnd with left := some i })) i = some { nd with right := rnd.left } := by
    rw [getNode_set_ne hrii, getNode_set_self hilt]
  have hagL : decode ((t.data.set i (some { nd with right := rnd.left })).set ri
      (some { rnd with left := some i })) F nd.left = some L := by
    refine decode_agree hL ?_
    intro k hk
    rw [getNode_set_ne (fun he => ((hLf k hk).2 he.symm)) _,
        getNode_set_ne (fun he => ((hLf k hk).1 he.symm)) _]
  have hagRL : decode ((t.data.set i (some { nd with right := rnd.left })).set ri
      (some { rnd with left := some i })) F rnd.left = some RL := by
    refine decode_agree hRL ?_
    intro k hk
    rw [getNode_set_ne (fun he => ((hRLf k hk).2 he.symm)) _,
        getNode_set_ne (fun he => ((hRLf k hk).1 he.symm)) _]
  have huh1 := update_height_eval
    (t := Tree.mk ((t.data.set i (some { nd with right := rnd.left })).set ri
      (some { rnd with left := some i })) t.free t.root t.size) (i := i)
    hn2 (heightLink_decode hagL hsL) (heightLink_decode hagRL hsRL)
  rw [huh1] at h
  dsimp only [bind, Option.some_bind] at h
  rw [hwHi] at h
  have hn3 : getNode (((t.data.set i (some { nd with right := rnd.left })).set ri (some { rnd with left := some i })).set i (some { value := nd.value, left := nd.left, right := rnd.left, height := 1 + max L.hgt RL.hgt })) ri = some { rnd with left := some i } := by
    rw [getNode_set_ne hrii.symm, getNode_set_self]
    rw [List.length_set]
    exact hrilt
  have hframe3 : ∀ k, k ≠ i → k ≠ ri → getNode (((t.data.set i (some { nd with right := rnd.left })).set ri (some { rnd with left := some i })).set i (some { value := nd.value, left := nd.left, right := rnd.left, height := 1 + max L.hgt RL.hgt })) k = getNode t.data k := by
    intro k hk1 hk2
    rw [getNode_set_ne (fun he => hk1 he.symm), getNode_set_ne (fun he => hk2 he.symm),
        getNode_set_ne (fun he => hk1 he.symm)]
  have hagRR3 : decode (((t.data.set i (some { nd with right := rnd.left })).set ri (some { rnd with left := some i })).set i (some { value := nd.value, left := nd.left, right := rnd.left, height := 1 + max L.hgt RL.hgt })) F rnd.right = some RRt := by
    refine decode_agree hRRt ?_
    intro k hk
    exact hframe3 k (hRRf k hk).1 (hRRf k hk).2
  have hgi3 : getNode (((t.data.set i (some { nd with right := rnd.left })).set ri (some { rnd with left := some i })).set i (some { value := nd.value, left := nd.left, right := rnd.left, height := 1 + max L.hgt RL.hgt })) i = some { value := nd.value, left := nd.left, right := rnd.left, height := 1 + max L.hgt RL.hgt } := by
    rw [getNode_set_self]
    rw [List.length_set, List.length_set]
    exact hilt
  have hl3 : heightLink (((t.data.set i (some { nd with right := rnd.left })).set ri (some { rnd with left := some i })).set i (some { value := nd.value, left := nd.left, right := rnd.left, height := 1 + max L.hgt RL.hgt })) (some i) = some (1 + max L.hgt RL.hgt) := by
    rw [heightLink, hgi3]
    rfl
  have huh2 := update_height_eval
    (t := Tree.mk (((t.data.set i (some { nd with right := rnd.left })).set ri (some { rnd with left := some i })).set i (some { value := nd.value, left := nd.left, right := rnd.left, height := 1 + max L.hgt RL.hgt })) t.free t.root t.size) (i := ri)
    hn3 hl3 (heightLink_decode hagRR3 hsRRt)
  rw [huh2] at h
  dsimp only [bind, Option.some_bind] at h
  rw [hwHri] at h
  obtain ⟨hj, ht2⟩ := Prod.mk.inj (Option.some.inj h)
  subst ht2
  subst hj
  refine ⟨rfl, { value := nd.value, left := nd.left, right := rnd.left, height := 1 + max L.hgt RL.hgt }, { value := rnd.value, left := some i, right := rnd.right, height := 1 + max (1 + max L.hgt RL.hgt) RRt.hgt }, rfl, rfl, rfl, rfl, ?_, ?_, ?_, rfl, rfl, rfl⟩
  · set d4 := ((((t.data.set i (some { nd with right := rnd.left })).set ri (some { rnd with left := some i })).set i (some { value := nd.value, left := nd.left, right := rnd.left, height := 1 + max L.hgt RL.hgt })).set ri (some { value := rnd.value, left := some i, right := rnd.right, height := 1 + max (1 + max L.hgt RL.hgt) RRt.hgt })) with hd4
    have hframe4 : ∀ k, k ≠ i → k ≠ ri → getNode d4 k = getNode t.data k := by
      intro k hk1 hk2
      rw [hd4, getNode_set_ne (fun he => hk2 he.symm)]
      exact hframe3 k hk1 hk2
    have hgi4 : getNode d4 i = some { value := nd.value, left := nd.left, right := rnd.left, height := 1 + max L.hgt RL.hgt } := by
      rw [hd4, getNode_set_ne hrii]
      exact hgi3
    have hgri4 : getNode d4 ri = some { value := rnd.value, left := some i, right := rnd.right, height := 1 + max (1 + max L.hgt RL.hgt) RRt.hgt } := by
      rw [hd4, getNode_set_self]
      simp only [List.length_set]
      exact hrilt
    have hagL4 : decode d4 F nd.left = some L :=
      decode_agree hL (fun k hk => hframe4 k (hLf k hk).1 (hLf k hk).2)
    have hagRL4 : decode d4 F rnd.left = some RL :=
      decode_agree hRL (fun k hk => hframe4 k (hRLf k hk).1 (hRLf k hk).2)
    have hagRR4 : decode d4 F rnd.right = some RRt :=
      decode_agree hRRt (fun k hk => hframe4 k (hRRf k hk).1 (hRRf k hk).2)
    have hinb : ∀ k ∈ (BT.node L i nd (BT.node RL ri rnd RRt)).idxs,
        k < t.data.length := by
      intro k hk
      rw [BT.idxs, BT.idxs] at hk
      rcases List.mem_append.1 hk with hk | hk
      · obtain ⟨x, hx⟩ := decode_idxs_occupied hL k hk
        exact getNode_lt hx
      · rcases List.mem_cons.1 hk with rfl | hk
        · exact hilt
        · rcases List.mem_append.1 hk with hk | hk
          · obtain ⟨x, hx⟩ := decode_idxs_occupied hRL k hk
            exact getNode_lt hx
          · rcases List.mem_cons.1 hk with rfl | hk
            · exact hrilt
            · obtain ⟨x, hx⟩ := decode_idxs_occupied hRRt k hk
              exact getNode_lt hx
    have hslen := nodup_lt_length_le hnodup hinb
    have hslen2 : L.idxs.length + RL.idxs.length + RRt.idxs.length + 2 ≤
        t.data.length := by
      rw [BT.idxs, BT.idxs] at hslen
      simp only [List.length_append, List.length_cons] at hslen
      omega
    have hdc1 := depth_le_cnt L
    have hdc2 := depth_le_cnt RL
    have hdc3 := depth_le_cnt RRt
    have hce1 := cnt_eq_idxs_length L
    have hce2 := cnt_eq_idxs_length RL
    have hce3 := cnt_eq_idxs_length RRt
    have hinner : decode d4 (max L.depth RL.depth + 1) (some i) =
        some (BT.node L i { value := nd.value, left := nd.left, right := rnd.left, height := 1 + max L.hgt RL.hgt } RL) :=
      decode_build hgi4
        (decode_mono (decode_min hagL4) (Nat.le_max_left _ _))
        (decode_mono (decode_min hagRL4) (Nat.le_max_right _ _))
    have houter : decode d4 (max (max L.depth RL.depth + 1) RRt.depth + 1) (some ri) =
        some (BT.node (BT.node L i { value := nd.value, left := nd.left, right := rnd.left, height := 1 + max L.hgt RL.hgt } RL) ri { value := rnd.value, left := some i, right := rnd.right, height := 1 + max (1 + max L.hgt RL.hgt) RRt.hgt } RRt) :=
      decode_build hgri4
        (decode_mono hinner (Nat.le_max_left _ _))
        (decode_mono (decode_min hagRR4) (Nat.le_max_right _ _))
    refine decode_mono houter ?_
    have hm1 : max L.depth RL.depth ≤ L.idxs.length + RL.idxs.length :=
      max_le (by omega) (by omega)
    have hm2 : max (max L.depth RL.depth + 1) RRt.depth ≤
        L.idxs.length + RL.idxs.length + RRt.idxs.length + 1 :=
      max_le (by omega) (by omega)
    omega
  · simp only [List.length_set]
  · intro k hk
    have hk1 : k ≠ i := by
      intro he
      subst he
      exact hk (by rw [BT.idxs]; exact List.mem_append_right _ (List.mem_cons_self _ _))
    have hk2 : k ≠ ri := by
      intro he
      subst he
      refine hk ?_
      rw [BT.idxs, BT.idxs]
      exact List.mem_append_right _ (List.mem_cons_of_mem _
        (List.mem_append_right _ (List.mem_cons_self _ _)))
    rw [getNode_set_ne (fun he => hk2 he.symm)]
    exact hframe3 k hk1 hk2


/-- The uniform result of `balance_node` on a decoded subtree `S` rooted
at the processed slot: the result decodes at the returned index to a
stored-correct tree with the same values and the same slots in symmetric
order, and the rest of the arena, the bookkeeping fields and the length
are untouched. -/
def rotOut {T : Type} (t : Tree T) (F : Nat) (S : BT T) (np : Nat)
    (t2 : Tree T) : Prop :=
  ∃ S', decode t2.data F (some np) = some S' ∧ S'.storedOk ∧
    S'.vals = S.vals ∧ S'.idxs = S.idxs ∧
    t2.data.length = t.data.length ∧
    (∀ k, k ∉ S.idxs → getNode t2.data k = getNode t.data k) ∧
    t2.free = t.free ∧ t2.size = t.size ∧ t2.root = t.root

/-- Correctness of the left-then-right double rotation (the `-2` case
when the left child has no left child of its own). -/
theorem rotate_left_right_correct {T : Type} {t : Tree T} {F : Nat}
    {i li p : Nat} {nd lnd pnd : Node T} {A B R : BT T} {j : Nat} {t2 : Tree T}
    (hlen : t.data.length ≤ 125) (hF : t.data.length < F)
    (hn : getNode t.data i = some nd) (hndl : nd.left = some li)
    (hln : getNode t.data li = some lnd)
    (hlndl : lnd.left = none) (hlndr : lnd.right = some p)
    (hpn : getNode t.data p = some pnd)
    (hA : decode t.data F pnd.left = some A)
    (hB : decode t.data F pnd.right = some B)
    (hR : decode t.data F nd.right = some R)
    (hsA : A.storedOk) (hsB : B.storedOk) (hsR : R.storedOk)
    (hnodup : (BT.node (BT.node BT.leaf li lnd (BT.node A p pnd B)) i nd R).idxs.Nodup)
    (h : t.rotate_left_right i = some (j, t2)) :
    j = p ∧ rotOut t F (BT.node (BT.node BT.leaf li lnd (BT.node A p pnd B)) i nd R) j t2 := by
  -- shorthand for the full index list
  have hSidx : (BT.node (BT.node BT.leaf li lnd (BT.node A p pnd B)) i nd R).idxs =
      (li :: (A.idxs ++ p :: B.idxs)) ++ i :: R.idxs := by
    simp [BT.idxs]
  have hnd' := hnodup
  rw [hSidx] at hnd'
  obtain ⟨hinn, hIR, hdisj⟩ := List.nodup_append.1 hnd'
  obtain ⟨hiRm, hRn⟩ := List.nodup_cons.1 hIR
  have hii : i ∉ li :: (A.idxs ++ p :: B.idxs) := fun hm => hdisj hm (List.mem_cons_self _ _)
  -- execute: inner rotate_left at li
  unfold Tree.rotate_left_right at h
  rw [hn] at h
  dsimp only [bind, Option.some_bind] at h
  rw [hndl] at h
  dsimp only [bind, Option.some_bind] at h
  simp only [bind, Option.bind_eq_some] at h
  obtain ⟨⟨nl, t1⟩, hrl, d, hd, h2⟩ := h
  have hinnernodup : (BT.node BT.leaf li lnd (BT.node A p pnd B)).idxs.Nodup := by
    simpa [BT.idxs] using hinn
  have hLeafDec : decode t.data F lnd.left = some (BT.leaf : BT T) := by
    rw [hlndl]; exact decode_none _ _
  obtain ⟨hnl, lnd2, pnd2, hv1, hv2, hh1, hh2, hdec1, hlen1, hfr1, hfree1, hsize1, hroot1⟩ :=
    rotate_left_correct hlen hF hln hlndr hpn
      hLeafDec hA hB (trivial : (BT.leaf : BT T).storedOk) hsA hsB hinnernodup hrl
  rw [hnl] at hd
  -- the patch: nd.left := some p
  have hgi1 : getNode t1.data i = some nd := by
    rw [hfr1 i (by simpa [BT.idxs] using hii)]
    exact hn
  rw [modifyNode_of_get hgi1] at hd
  obtain rfl : t1.data.set i (some { nd with left := some p }) = d := Option.some.inj hd
  -- pieces for the outer rotate_right on the patched arena
  obtain ⟨f', IL, pnd2', IR2, hf', hinj, hpn2, hIL, hIR2⟩ := decode_some_inv hdec1
  obtain ⟨e1, e2, e3⟩ :
      IL = BT.node BT.leaf li lnd2 A ∧ pnd2' = pnd2 ∧ IR2 = B := by
    injection hinj with f1 f2 f3 f4
    exact ⟨f1.symm, f3.symm, f4.symm⟩
  rw [e2] at hpn2 hIL hIR2
  rw [e1] at hIL
  rw [e3] at hIR2
  have hf'le : f' ≤ F := by omega
  have hIL' : decode t1.data F pnd2.left = some (BT.node BT.leaf li lnd2 A) :=
    decode_mono hIL hf'le
  have hIR2' : decode t1.data F pnd2.right = some B := decode_mono hIR2 hf'le
  have hpinner : p ∈ li :: (A.idxs ++ p :: B.idxs) :=
    List.mem_cons_of_mem _ (List.mem_append_right _ (List.mem_cons_self _ _))
  have hip : i ≠ p := fun e => hii (by rw [e]; exact hpinner)
  have hilen : i < t.data.length := getNode_lt hn
  have hilen1 : i < t1.data.length := by rw [hlen1]; exact hilen
  have hn2 : getNode (t1.data.set i (some { nd with left := some p })) i =
      some { nd with left := some p } := getNode_set_self hilen1 _
  have hsetfr : ∀ k2, k2 ∈ li :: (A.idxs ++ p :: B.idxs) →
      getNode (t1.data.set i (some { nd with left := some p })) k2 =
        getNode t1.data k2 := by
    intro k2 hk2
    exact getNode_set_ne (fun e => hii (by rw [e]; exact hk2)) _
  have hln2 : getNode (t1.data.set i (some { nd with left := some p })) p =
      some pnd2 := by
    rw [hsetfr p hpinner]; exact hpn2
  have hLL2 : decode (t1.data.set i (some { nd with left := some p })) F pnd2.left =
      some (BT.node BT.leaf li lnd2 A) := by
    refine decode_agree hIL' ?_
    intro j2 hj2
    refine hsetfr j2 ?_
    simp only [BT.idxs, List.nil_append] at hj2
    rcases List.mem_cons.1 hj2 with e | hj2
    · exact e ▸ List.mem_cons_self _ _
    · exact List.mem_cons_of_mem _ (List.mem_append_left _ hj2)
  have hLR2 : decode (t1.data.set i (some { nd with left := some p })) F pnd2.right =
      some B := by
    refine decode_agree hIR2' ?_
    intro j2 hj2
    exact hsetfr j2 (List.mem_cons_of_mem _
      (List.mem_append_right _ (List.mem_cons_of_mem _ hj2)))
  have hRfr : ∀ j2, j2 ∈ R.idxs →
      getNode (t1.data.set i (some { nd with left := some p })) j2 =
        getNode t.data j2 := by
    intro j2 hj2
    have hj2inner : j2 ∉ li :: (A.idxs ++ p :: B.idxs) :=
      fun hm => hdisj hm (List.mem_cons_of_mem _ hj2)
    have hj2i : j2 ≠ i := fun e => hiRm (e ▸ hj2)
    rw [getNode_set_ne (fun e => hj2i e.symm) _]
    exact hfr1 j2 (by simpa [BT.idxs] using hj2inner)
  have hRR2 : decode (t1.data.set i (some { nd with left := some p })) F nd.right =
      some R := decode_agree hR (fun j2 hj2 => hRfr j2 hj2)
  have hidxeq : (BT.node (BT.node (BT.node BT.leaf li lnd2 A) p pnd2 B) i
      { nd with left := some p } R).idxs =
      (BT.node (BT.node BT.leaf li lnd (BT.node A p pnd B)) i nd R).idxs := by
    simp [BT.idxs, List.cons_append, List.append_assoc]
  have hnodup2 : (BT.node (BT.node (BT.node BT.leaf li lnd2 A) p pnd2 B) i
      { nd with left := some p } R).idxs.Nodup := by
    rw [hidxeq]; exact hnodup
  have hlen' : (t1.data.set i (some { nd with left := some p })).length ≤ 125 := by
    rw [List.length_set, hlen1]; exact hlen
  have hF2 : (t1.data.set i (some { nd with left := some p })).length < F := by
    rw [List.length_set, hlen1]; exact hF
  have hsIL : (BT.node BT.leaf li lnd2 A).storedOk := ⟨hh1, trivial, hsA⟩
  obtain ⟨hj, nd3, pnd3, hv3, hv4, hh3, hh4, hdec2, hlen2, hfr2, hfree2, hsize2, hroot2⟩ :=
    rotate_right_correct hlen' hF2 hn2 rfl hln2 hLL2 hLR2 hRR2
      hsIL hsB hsR hnodup2 h2
  refine ⟨hj, ?_⟩
  rw [hj]
  unfold rotOut
  refine ⟨BT.node (BT.node BT.leaf li lnd2 A) p pnd3 (BT.node B i nd3 R), hdec2,
    ⟨?_, ⟨hh1, trivial, hsA⟩, hh3, hsB, hsR⟩, ?_, ?_, ?_, ?_, ?_, ?_, ?_⟩
  · simp [hh4, BT.hgt]
  · simp [BT.vals, hv1, hv2, hv3, hv4, List.cons_append, List.append_assoc]
  · simp [BT.idxs, List.cons_append, List.append_assoc]
  · simpa [List.length_set, hlen1] using hlen2
  · intro k hk
    rw [hSidx] at hk
    have hki : k ≠ i := fun e => hk (e ▸ List.mem_append_right _ (List.mem_cons_self _ _))
    have hkinner : k ∉ li :: (A.idxs ++ p :: B.idxs) :=
      fun hm => hk (List.mem_append_left _ hm)
    have h1 := hfr2 k (by rw [hidxeq, hSidx]; exact hk)
    rw [h1, getNode_set_ne (fun e => hki e.symm) _]
    exact hfr1 k (by simpa [BT.idxs] using hkinner)
  · exact hfree2.trans hfree1
  · exact hsize2.trans hsize1
  · exact hroot2.trans hroot1

/-- Correctness of the right-then-left double rotation (the `2` case
when the right child has a left child). -/
theorem rotate_right_left_correct {T : Type} {t : Tree T} {F : Nat}
    {i ri p : Nat} {nd rnd pnd : Node T} {L A B : BT T} {j : Nat} {t2 : Tree T}
    (hlen : t.data.length ≤ 125) (hF : t.data.length < F)
    (hn : getNode t.data i = some nd) (hndr : nd.right = some ri)
    (hrn : getNode t.data ri = some rnd)
    (hrndr : rnd.right = none) (hrndl : rnd.left = some p)
    (hpn : getNode t.data p = some pnd)
    (hA : decode t.data F pnd.left = some A)
    (hB : decode t.data F pnd.right = some B)
    (hL : decode t.data F nd.left = some L)
    (hsA : A.storedOk) (hsB : B.storedOk) (hsL : L.storedOk)
    (hnodup : (BT.node L i nd (BT.node (BT.node A p pnd B) ri rnd BT.leaf)).idxs.Nodup)
    (h : t.rotate_right_left i = some (j, t2)) :
    j = p ∧ rotOut t F (BT.node L i nd (BT.node (BT.node A p pnd B) ri rnd BT.leaf)) j t2 := by
  have hSidx : (BT.node L i nd (BT.node (BT.node A p pnd B) ri rnd BT.leaf)).idxs =
      L.idxs ++ i :: ((A.idxs ++ p :: B.idxs) ++ ri :: []) := by
    simp [BT.idxs]
  have hInnEq : (BT.node (BT.node A p pnd B) ri rnd BT.leaf).idxs =
      (A.idxs ++ p :: B.idxs) ++ ri :: [] := by
    simp [BT.idxs]
  have hnd' := hnodup
  rw [hSidx] at hnd'
  obtain ⟨hLn, hIR, hdisj⟩ := List.nodup_append.1 hnd'
  obtain ⟨hiIm, hInn⟩ := List.nodup_cons.1 hIR
  -- execute: inner rotate_right at ri
  unfold Tree.rotate_right_left at h
  rw [hn] at h
  dsimp only [bind, Option.some_bind] at h
  rw [hndr] at h
  dsimp only [bind, Option.some_bind] at h
  simp only [bind, Option.bind_eq_some] at h
  obtain ⟨⟨nl, t1⟩, hrr, d, hd, h2⟩ := h
  have hLeafDec : decode t.data F rnd.right = some (BT.leaf : BT T) := by
    rw [hrndr]; exact decode_none _ _
  have hsLeaf : (BT.leaf : BT T).storedOk := trivial
  have hinnernodup : (BT.node (BT.node A p pnd B) ri rnd BT.leaf).idxs.Nodup := by
    rw [hInnEq]; exact hInn
  obtain ⟨hnl, rnd2, pnd2, hv1, hv2, hh1, hh2, hdec1, hlen1, hfr1, hfree1, hsize1, hroot1⟩ :=
    rotate_right_correct hlen hF hrn hrndl hpn hA hB hLeafDec
      hsA hsB hsLeaf hinnernodup hrr
  rw [hnl] at hd
  -- the patch: nd.right := some p
  have hgi1 : getNode t1.data i = some nd := by
    rw [hfr1 i (by rw [hInnEq]; exact hiIm)]
    exact hn
  rw [modifyNode_of_get hgi1] at hd
  obtain rfl : t1.data.set i (some { nd with right := some p }) = d := Option.some.inj hd
  -- invert the decode of the rotated right subtree
  obtain ⟨f', IL, pnd2', IR2, hf', hinj, hpn2, hIL, hIR2⟩ := decode_some_inv hdec1
  obtain ⟨e1, e2, e3⟩ :
      IL = A ∧ pnd2' = pnd2 ∧ IR2 = BT.node B ri rnd2 BT.leaf := by
    injection hinj with f1 f2 f3 f4
    exact ⟨f1.symm, f3.symm, f4.symm⟩
  rw [e2] at hpn2 hIL hIR2
  rw [e1] at hIL
  rw [e3] at hIR2
  have hf'le : f' ≤ F := by omega
  have hIL' : decode t1.data F pnd2.left = some A := decode_mono hIL hf'le
  have hIR2' : decode t1.data F pnd2.right = some (BT.node B ri rnd2 BT.leaf) :=
    decode_mono hIR2 hf'le
  have hpinner : p ∈ (A.idxs ++ p :: B.idxs) ++ ri :: [] :=
    List.mem_append_left _ (List.mem_append_right _ (List.mem_cons_self _ _))
  have hii : i ∉ (A.idxs ++ p :: B.idxs) ++ ri :: [] := hiIm
  have hip : i ≠ p := fun e => hii (by rw [e]; exact hpinner)
  have hilen : i < t.data.length := getNode_lt hn
  have hilen1 : i < t1.data.length := by rw [hlen1]; exact hilen
  have hn2 : getNode (t1.data.set i (some { nd with right := some p })) i =
      some { nd with right := some p } := getNode_set_self hilen1 _
  have hsetfr : ∀ k2, k2 ∈ (A.idxs ++ p :: B.idxs) ++ ri :: [] →
      getNode (t1.data.set i (some { nd with right := some p })) k2 =
        getNode t1.data k2 := by
    intro k2 hk2
    exact getNode_set_ne (fun e => hii (by rw [e]; exact hk2)) _
  have hln2 : getNode (t1.data.set i (some { nd with right := some p })) p =
      some pnd2 := by
    rw [hsetfr p hpinner]; exact hpn2
  have hRL2 : decode (t1.data.set i (some { nd with right := some p })) F pnd2.left =
      some A := by
    refine decode_agree hIL' ?_
    intro j2 hj2
    exact hsetfr j2 (List.mem_append_left _ (List.mem_append_left _ hj2))
  have hRR2 : decode (t1.data.set i (some { nd with right := some p })) F pnd2.right =
      some (BT.node B ri rnd2 BT.leaf) := by
    refine decode_agree hIR2' ?_
    intro j2 hj2
    refine hsetfr j2 ?_
    simp only [BT.idxs] at hj2
    rcases List.mem_append.1 hj2 with hj2 | hj2
    · exact List.mem_append_left _
        (List.mem_append_right _ (List.mem_cons_of_mem _ hj2))
    · exact List.mem_append_right _ hj2
  have hLfr : ∀ j2, j2 ∈ L.idxs →
      getNode (t1.data.set i (some { nd with right := some p })) j2 =
        getNode t.data j2 := by
    intro j2 hj2
    have hj2i : j2 ≠ i := fun e =>
      hdisj hj2 (by rw [e]; exact List.mem_cons_self _ _)
    rw [getNode_set_ne (fun e => hj2i e.symm) _]
    refine hfr1 j2 ?_
    rw [hInnEq]
    exact fun hm => hdisj hj2 (List.mem_cons_of_mem _ hm)
  have hL2 : decode (t1.data.set i (some { nd with right := some p })) F nd.left =
      some L := decode_agree hL (fun j2 hj2 => hLfr j2 hj2)
  have hidxeq : (BT.node L i { nd with right := some p }
      (BT.node A p pnd2 (BT.node B ri rnd2 BT.leaf))).idxs =
      (BT.node L i nd (BT.node (BT.node A p pnd B) ri rnd BT.leaf)).idxs := by
    simp [BT.idxs, List.cons_append, List.append_assoc]
  have hnodup2 : (BT.node L i { nd with right := some p }
      (BT.node A p pnd2 (BT.node B ri rnd2 BT.leaf))).idxs.Nodup := by
    rw [hidxeq]; exact hnodup
  have hlen' : (t1.data.set i (some { nd with right := some p })).length ≤ 125 := by
    rw [List.length_set, hlen1]; exact hlen
  have hF2 : (t1.data.set i (some { nd with right := some p })).length < F := by
    rw [List.length_set, hlen1]; exact hF
  have hsRRt : (BT.node B ri rnd2 BT.leaf).storedOk := ⟨hh1, hsB, trivial⟩
  obtain ⟨hj, nd3, pnd3, hv3, hv4, hh3, hh4, hdec2, hlen2, hfr2, hfree2, hsize2, hroot2⟩ :=
    rotate_left_correct hlen' hF2 hn2 rfl hln2 hL2 hRL2 hRR2
      hsL hsA hsRRt hnodup2 h2
  refine ⟨hj, ?_⟩
  rw [hj]
  unfold rotOut
  refine ⟨BT.node (BT.node L i nd3 A) p pnd3 (BT.node B ri rnd2 BT.leaf), hdec2,
    ⟨?_, ⟨hh3, hsL, hsA⟩, hh1, hsB, trivial⟩, ?_, ?_, ?_, ?_, ?_, ?_, ?_⟩
  · simp [hh4, BT.hgt]
  · simp [BT.vals, hv1, hv2, hv3, hv4, List.cons_append, List.append_assoc]
  · simp [BT.idxs, List.cons_append, List.append_assoc]
  · simpa [List.length_set, hlen1] using hlen2
  · intro k hk
    rw [hSidx] at hk
    have hki : k ≠ i := fun e => hk (by
      rw [e]; exact List.mem_append_right _ (List.mem_cons_self _ _))
    have h1 := hfr2 k (by rw [hidxeq, hSidx]; exact hk)
    rw [h1, getNode_set_ne (fun e => hki e.symm) _]
    refine hfr1 k ?_
    rw [hInnEq]
    exact fun hm => hk (List.mem_append_right _ (List.mem_cons_of_mem _ hm))
  · exact hfree2.trans hfree1
  · exact hsize2.trans hsize1
  · exact hroot2.trans hroot1

theorem decode_depth_le {T : Type} {d : List (Option (Node T))} {f f2 : Nat}
    {link : Option Nat} {bt : BT T} (h : decode d f link = some bt)
    (h2 : bt.depth ≤ f2) : decode d f2 link = some bt :=
  decode_mono (decode_min h) h2

/-- Correctness of `balance_node` on a decoded subtree whose stored data
is correct: whatever rotation the dispatch picks, the result satisfies
`rotOut` (same values in symmetric order, correct stored heights, frame
outside the subtree). -/
theorem balance_node_correct {T : Type} {t : Tree T} {F : Nat} {i : Nat}
    {bf : Int} {np : Nat} {t2 : Tree T} {nd : Node T} {L R : BT T}
    (hlen : t.data.length ≤ 125) (hF : t.data.length < F)
    (hn : getNode t.data i = some nd)
    (hL : decode t.data F nd.left = some L)
    (hR : decode t.data F nd.right = some R)
    (hsL : L.storedOk) (hsR : R.storedOk)
    (hst : nd.height = 1 + max L.hgt R.hgt)
    (hbf : bf = R.hgt - L.hgt)
    (hnodup : (BT.node L i nd R).idxs.Nodup)
    (h : t.balance_node i bf = some (np, t2)) :
    rotOut t F (BT.node L i nd R) np t2 := by
  unfold Tree.balance_node at h
  rw [hn] at h
  dsimp only [bind, Option.some_bind] at h
  by_cases hm2 : bf = -2
  · rw [if_pos hm2] at h
    have hLhgt : L.hgt = R.hgt + 2 := by omega
    cases L with
    | leaf =>
      have := hgt_ge R
      rw [BT.hgt] at hLhgt
      omega
    | node LL li lnd LR =>
      obtain ⟨hstl, hsLL, hsLR⟩ := hsL
      cases hnl : nd.left with
      | none =>
        rw [hnl, decode_none] at hL
        exact BT.noConfusion (Option.some.inj hL)
      | some li0 =>
        rw [hnl] at hL h
        dsimp only [bind, Option.some_bind] at h
        obtain ⟨f', l0, lnd0, r0, hf', hinj, hln, hLL0, hLR0⟩ := decode_some_inv hL
        injection hinj with g1 g2 g3 g4
        rw [← g2] at h hln hnl
        rw [← g3] at hln hLL0 hLR0
        rw [← g1] at hLL0
        rw [← g4] at hLR0
        rw [hln] at h
        dsimp only [bind, Option.some_bind] at h
        have hfle : f' ≤ F := by omega
        cases hll : lnd.left with
        | some k =>
          rw [hll] at h
          obtain ⟨hj, nd2, lnd2, hv1, hv2, hh1, hh2, hdec, hlen2, hfr, hfree, hsize, hroot⟩ :=
            rotate_right_correct hlen hF hn hnl hln (decode_mono hLL0 hfle)
              (decode_mono hLR0 hfle) hR hsLL hsLR hsR hnodup h
          rw [hj]
          unfold rotOut
          refine ⟨BT.node LL li lnd2 (BT.node LR i nd2 R), hdec,
            ⟨?_, hsLL, hh1, hsLR, hsR⟩, ?_, ?_, hlen2, hfr, hfree, hsize, hroot⟩
          · simp [hh2, BT.hgt]
          · simp [BT.vals, hv1, hv2, List.cons_append, List.append_assoc]
          · simp [BT.idxs, List.cons_append, List.append_assoc]
        | none =>
          rw [hll] at h
          rw [hll, decode_none] at hLL0
          obtain rfl : LL = BT.leaf := (Option.some.inj hLL0).symm
          have hLRhgt : 0 ≤ LR.hgt := by
            rw [BT.hgt, BT.hgt] at hLhgt
            have := hgt_ge R
            have := hgt_ge LR
            rcases max_cases (-1 : Int) LR.hgt with ⟨he, _⟩ | ⟨he, _⟩ <;> omega
          cases LR with
          | leaf => rw [BT.hgt] at hLRhgt; omega
          | node A p pnd B =>
            obtain ⟨hstp, hsA, hsB⟩ := hsLR
            cases hlr : lnd.right with
            | none =>
              rw [hlr, decode_none] at hLR0
              exact BT.noConfusion (Option.some.inj hLR0)
            | some p0 =>
              rw [hlr] at hLR0
              obtain ⟨f2, a0, pnd0, b0, hf2, hinj2, hpn, hA0, hB0⟩ := decode_some_inv hLR0
              injection hinj2 with g5 g6 g7 g8
              rw [← g6] at hpn hlr
              rw [← g7] at hpn hA0 hB0
              rw [← g5] at hA0
              rw [← g8] at hB0
              have hf2le : f2 ≤ F := by omega
              obtain ⟨hj, hro⟩ :=
                rotate_left_right_correct hlen hF hn hnl hln hll hlr hpn
                  (decode_mono hA0 hf2le) (decode_mono hB0 hf2le) hR
                  hsA hsB hsR hnodup h
              exact hro
  · rw [if_neg hm2] at h
    by_cases hp2 : bf = 2
    · rw [if_pos hp2] at h
      have hRhgt : R.hgt = L.hgt + 2 := by omega
      cases R with
      | leaf =>
        have := hgt_ge L
        rw [BT.hgt] at hRhgt
        omega
      | node RL ri rnd RRt =>
        obtain ⟨hstr, hsRL, hsRRt⟩ := hsR
        cases hnr : nd.right with
        | none =>
          rw [hnr, decode_none] at hR
          exact BT.noConfusion (Option.some.inj hR)
        | some ri0 =>
          rw [hnr] at hR h
          dsimp only [bind, Option.some_bind] at h
          obtain ⟨f', rl0, rnd0, rr0, hf', hinj, hrn, hRL0, hRR0⟩ := decode_some_inv hR
          injection hinj with g1 g2 g3 g4
          rw [← g2] at h hrn hnr
          rw [← g3] at hrn hRL0 hRR0
          rw [← g1] at hRL0
          rw [← g4] at hRR0
          rw [hrn] at h
          dsimp only [bind, Option.some_bind] at h
          have hfle : f' ≤ F := by omega
          cases hrr : rnd.right with
          | some k =>
            rw [hrr] at h
            obtain ⟨hj, nd2, rnd2, hv1, hv2, hh1, hh2, hdec, hlen2, hfr, hfree, hsize, hroot⟩ :=
              rotate_left_correct hlen hF hn hnr hrn hL (decode_mono hRL0 hfle)
                (decode_mono hRR0 hfle) hsL hsRL hsRRt hnodup h
            rw [hj]
            unfold rotOut
            refine ⟨BT.node (BT.node L i nd2 RL) ri rnd2 RRt, hdec,
              ⟨?_, ⟨hh1, hsL, hsRL⟩, hsRRt⟩, ?_, ?_, hlen2, hfr, hfree, hsize, hroot⟩
            · simp [hh2, BT.hgt]
            · simp [BT.vals, hv1, hv2, List.cons_append, List.append_assoc]
            · simp [BT.idxs, List.cons_append, List.append_assoc]
          | none =>
            rw [hrr] at h
            rw [hrr, decode_none] at hRR0
            obtain rfl : RRt = BT.leaf := (Option.some.inj hRR0).symm
            have hRLhgt : 0 ≤ RL.hgt := by
              rw [BT.hgt, BT.hgt] at hRhgt
              have := hgt_ge L
              have := hgt_ge RL
              rcases max_cases RL.hgt (-1 : Int) with ⟨he, _⟩ | ⟨he, _⟩ <;> omega
            cases RL with
            | leaf => rw [BT.hgt] at hRLhgt; omega
            | node A p pnd B =>
              obtain ⟨hstp, hsA, hsB⟩ := hsRL
              cases hrl : rnd.left with
              | none =>
                rw [hrl, decode_none] at hRL0
                exact BT.noConfusion (Option.some.inj hRL0)
              | some p0 =>
                rw [hrl] at hRL0
                obtain ⟨f2, a0, pnd0, b0, hf2, hinj2, hpn, hA0, hB0⟩ := decode_some_inv hRL0
                injection hinj2 with g5 g6 g7 g8
                rw [← g6] at hpn hrl
                rw [← g7] at hpn hA0 hB0
                rw [← g5] at hA0
                rw [← g8] at hB0
                have hf2le : f2 ≤ F := by omega
                obtain ⟨hj, hro⟩ :=
                  rotate_right_left_correct hlen hF hn hnr hrn hrr hrl hpn
                    (decode_mono hA0 hf2le) (decode_mono hB0 hf2le) hL
                    hsA hsB hsL hnodup h
                exact hro
    · rw [if_neg hp2] at h
      obtain ⟨h1, h2⟩ := Prod.mk.inj (Option.some.inj h)
      rw [← h1, ← h2]
      unfold rotOut
      refine ⟨BT.node L i nd R, ?_, ⟨hst, hsL, hsR⟩, rfl, rfl, rfl,
        fun k _ => rfl, rfl, rfl, rfl⟩
      have hb := decode_build hn hL hR
      refine decode_depth_le hb ?_
      have := depth_le_len hb hnodup
      omega

/-- `update_height` followed by `balance_node` — the per-slot step of
`update_and_balance` — on a decoded subtree whose children are stored-
correct (the slot's own stored height may be stale). -/
theorem uhb_correct {T : Type} {t : Tree T} {F : Nat} {i : Nat}
    {bf : Int} {np : Nat} {t1 t2 : Tree T} {nd : Node T} {L R : BT T}
    (hlen : t.data.length ≤ 125) (hF : t.data.length < F)
    (hn : getNode t.data i = some nd)
    (hL : decode t.data F nd.left = some L)
    (hR : decode t.data F nd.right = some R)
    (hsL : L.storedOk) (hsR : R.storedOk)
    (hnodup : (BT.node L i nd R).idxs.Nodup)
    (h1 : t.update_height i = some (bf, t1))
    (h2 : t1.balance_node i bf = some (np, t2)) :
    rotOut t F (BT.node L i nd R) np t2 := by
  have hnd' := hnodup
  rw [BT.idxs] at hnd'
  obtain ⟨hLn, hIR, hdisj⟩ := List.nodup_append.1 hnd'
  obtain ⟨hiRm, hRn⟩ := List.nodup_cons.1 hIR
  have hiL : i ∉ L.idxs := fun hm => hdisj hm (List.mem_cons_self _ _)
  -- height bounds kill the i8 wrapping
  have hbL := hgt_le_len hL hLn
  have hbR := hgt_le_len hR hRn
  have hgL := hgt_ge L
  have hgR := hgt_ge R
  have hw1 : wrap8 (1 + max L.hgt R.hgt) = 1 + max L.hgt R.hgt := by
    rcases max_cases L.hgt R.hgt with ⟨he, _⟩ | ⟨he, _⟩ <;> rw [he] <;>
      exact wrap8_eq_self (by omega) (by omega)
  have hw2 : wrap8 (R.hgt - L.hgt) = R.hgt - L.hgt :=
    wrap8_eq_self (by omega) (by omega)
  have heval := update_height_eval hn (heightLink_decode hL hsL) (heightLink_decode hR hsR)
  rw [hw1, hw2] at heval
  rw [heval] at h1
  obtain ⟨e1, e2⟩ := Prod.mk.inj (Option.some.inj h1)
  subst e2
  -- state after the height write
  have hilen : i < t.data.length := getNode_lt hn
  have hn1 : getNode (t.data.set i (some { nd with height := 1 + max L.hgt R.hgt })) i =
      some { nd with height := 1 + max L.hgt R.hgt } := getNode_set_self hilen _
  have hL1 : decode (t.data.set i (some { nd with height := 1 + max L.hgt R.hgt })) F
      nd.left = some L := by
    refine decode_agree hL ?_
    intro j hj
    exact getNode_set_ne (fun e => hiL (by rw [e]; exact hj)) _
  have hR1 : decode (t.data.set i (some { nd with height := 1 + max L.hgt R.hgt })) F
      nd.right = some R := by
    refine decode_agree hR ?_
    intro j hj
    exact getNode_set_ne (fun e => hiRm (by rw [e]; exact hj)) _
  have hlen1 : (t.data.set i (some { nd with height := 1 + max L.hgt R.hgt })).length ≤ 125 := by
    rw [List.length_set]; exact hlen
  have hF1 : (t.data.set i (some { nd with height := 1 + max L.hgt R.hgt })).length < F := by
    rw [List.length_set]; exact hF
  have hnodup1 : (BT.node L i { nd with height := 1 + max L.hgt R.hgt } R).idxs.Nodup := by
    rw [BT.idxs]; exact hnd'
  have hro := balance_node_correct hlen1 hF1 hn1 hL1 hR1 hsL hsR rfl e1.symm hnodup1 h2
  obtain ⟨S', hdec, hst, hv, hi, hl, hfr, hfe, hsz, hrt⟩ := hro
  refine ⟨S', hdec, hst, hv, hi, by rw [hl, List.length_set], ?_, hfe, hsz, hrt⟩
  intro k hk
  rw [BT.idxs] at hk
  have hki : k ≠ i := fun e =>
    hk (by rw [e]; exact List.mem_append_right _ (List.mem_cons_self _ _))
  rw [hfr k (by rw [BT.idxs]; exact hk)]
  exact getNode_set_ne (fun e => hki e.symm) _

theorem crumbsOk_agree {T : Type} {d d' : List (Option (Node T))} {F : Nat} :
    ∀ {cs : List (Crumb T)} {fl : Option Nat} {r0 : Nat}, crumbsOk d F cs fl r0 →
      (∀ k, k ∈ ctxIdxs cs → getNode d' k = getNode d k) → crumbsOk d' F cs fl r0 := by
  intro cs
  induction cs with
  | nil => intro fl r0 h _; exact h
  | cons c cs ih =>
    intro fl r0 h hag
    obtain ⟨hcn, hside, hsib, hrest⟩ := h
    have hagc : ∀ k, k ∈ ctxIdxs cs → getNode d' k = getNode d k := by
      intro k hk
      refine hag k ?_
      simp only [ctxIdxs, List.cons_bind] at *
      exact List.mem_append_right _ hk
    have hsibag : ∀ j, j ∈ c.sib.idxs → getNode d' j = getNode d j := by
      intro j hj
      refine hag j ?_
      simp only [ctxIdxs, List.cons_bind]
      exact List.mem_append_left _ (List.mem_cons_of_mem _ hj)
    refine ⟨?_, ?_, hsib, ih hrest hagc⟩
    · rw [hag c.i (by
        simp only [ctxIdxs, List.cons_bind]
        exact List.mem_append_left _ (List.mem_cons_self _ _))]
      exact hcn
    · cases hb : c.isL with
      | true =>
        rw [hb] at hside
        rw [if_pos rfl]
        exact ⟨hside.1, decode_agree hside.2 hsibag⟩
      | false =>
        rw [hb] at hside
        rw [if_neg (by simp)]
        exact ⟨hside.1, decode_agree hside.2 hsibag⟩

theorem plugC_vals_congr {T : Type} :
    ∀ (cs : List (Crumb T)) (X Y : BT T), X.vals = Y.vals →
      (plugC cs X).vals = (plugC cs Y).vals := by
  intro cs
  induction cs with
  | nil => intro X Y h; exact h
  | cons c cs ih =>
    intro X Y h
    rw [plugC, plugC]
    refine ih _ _ ?_
    cases c.isL <;> simp [BT.vals, h]

theorem plugC_idxs_congr {T : Type} :
    ∀ (cs : List (Crumb T)) (X Y : BT T), X.idxs = Y.idxs →
      (plugC cs X).idxs = (plugC cs Y).idxs := by
  intro cs
  induction cs with
  | nil => intro X Y h; exact h
  | cons c cs ih =>
    intro X Y h
    rw [plugC, plugC]
    refine ih _ _ ?_
    cases c.isL <;> simp [BT.idxs, h]

theorem nodup_of_count {l1 l2 : List Nat} (h : l1.Nodup)
    (hc : ∀ a, l1.count a = l2.count a) : l2.Nodup :=
  (List.perm_iff_count.2 hc).nodup h

/-- Correctness of the `update_and_balance` loop: processing the focus
slot and the recorded path (deepest crumb first) produces a tree whose
root decodes to a stored-correct tree with exactly the values and slots
of the zipper-plugged original, leaving everything else untouched. -/
theorem uabGo_correct {T : Type} {F : Nat} :
    ∀ (cs : List (Crumb T)) (t : Tree T) (i : Nat) (nd : Node T) (L R : BT T)
      (r0 : Nat) (t' : Tree T),
      t.data.length ≤ 125 → t.data.length < F →
      getNode t.data i = some nd →
      decode t.data F nd.left = some L →
      decode t.data F nd.right = some R →
      L.storedOk → R.storedOk →
      crumbsOk t.data F cs (some i) r0 →
      (ctxIdxs cs ++ (BT.node L i nd R).idxs).Nodup →
      uabGo t (i :: cs.map Crumb.i) = some t' →
      ∃ S', decode t'.data F (some t'.root) = some S' ∧ S'.storedOk ∧
        S'.vals = (plugC cs (BT.node L i nd R)).vals ∧
        S'.idxs = (plugC cs (BT.node L i nd R)).idxs ∧
        t'.data.length = t.data.length ∧
        (∀ k, k ∉ ctxIdxs cs ++ (BT.node L i nd R).idxs →
          getNode t'.data k = getNode t.data k) ∧
        t'.free = t.free ∧ t'.size = t.size := by
  intro cs
  induction cs with
  | nil =>
    intro t i nd L R r0 t' hlen hF hn hL hR hsL hsR hcs hnodup h
    rw [List.map_nil, uabGo] at h
    simp only [bind, Option.bind_eq_some] at h
    obtain ⟨⟨bf, t1⟩, h1, ⟨np, t2⟩, h2, h⟩ := h
    dsimp only at h
    obtain rfl : { t2 with root := np } = t' := Option.some.inj h
    have hnodupS : (BT.node L i nd R).idxs.Nodup := by
      simpa [ctxIdxs] using hnodup
    obtain ⟨S', hdec, hst, hv, hi, hl, hfr, hfe, hsz, hrt⟩ :=
      uhb_correct hlen hF hn hL hR hsL hsR hnodupS h1 h2
    refine ⟨S', hdec, hst, hv, hi, hl, ?_, hfe, hsz⟩
    intro k hk
    exact hfr k (by simpa [ctxIdxs] using hk)
  | cons c cs' ih =>
    intro t i nd L R r0 t' hlen hF hn hL hR hsL hsR hcs hnodup h
    obtain ⟨hcn, hside, hcsib, hcs'⟩ := hcs
    have hctxeq : ctxIdxs (c :: cs') = (c.i :: c.sib.idxs) ++ ctxIdxs cs' := by
      simp [ctxIdxs]
    rw [hctxeq] at hnodup
    obtain ⟨h1n, hSn, hd1⟩ := List.nodup_append.1 hnodup
    obtain ⟨hcsibn, hctx'n, hd2⟩ := List.nodup_append.1 h1n
    obtain ⟨hcisib, hsibn⟩ := List.nodup_cons.1 hcsibn
    have hiS : i ∈ (BT.node L i nd R).idxs := by
      rw [BT.idxs]; exact List.mem_append_right _ (List.mem_cons_self _ _)
    have hciS : c.i ∉ (BT.node L i nd R).idxs :=
      fun hm => hd1 (List.mem_append_left _ (List.mem_cons_self _ _)) hm
    have hsibS : ∀ k, k ∈ c.sib.idxs → k ∉ (BT.node L i nd R).idxs :=
      fun k hk hm => hd1 (List.mem_append_left _ (List.mem_cons_of_mem _ hk)) hm
    have hctx'S : ∀ k, k ∈ ctxIdxs cs' → k ∉ (BT.node L i nd R).idxs :=
      fun k hk hm => hd1 (List.mem_append_right _ hk) hm
    have hcictx' : c.i ∉ ctxIdxs cs' := fun hm => hd2 (List.mem_cons_self _ _) hm
    -- run the step at slot i
    simp only [List.map_cons] at h
    rw [uabGo] at h
    simp only [bind, Option.bind_eq_some] at h
    obtain ⟨⟨bf, t1⟩, h1, ⟨np, t2⟩, h2, h⟩ := h
    dsimp only at h
    obtain ⟨gf, hgf, h⟩ := h
    obtain ⟨d, hd, h⟩ := h
    obtain ⟨S', hdec, hstS', hvS', hiS'x, hlen2, hfr2, hfree2, hsize2, hroot2⟩ :=
      uhb_correct hlen hF hn hL hR hsL hsR hSn h1 h2
    have hgf2 : getNode t2.data c.i = some c.nd := by
      rw [hfr2 c.i hciS]; exact hcn
    rw [hgf2] at hgf
    obtain rfl : c.nd = gf := Option.some.inj hgf
    have hcilen : c.i < t2.data.length := getNode_lt hgf2
    cases hb : c.isL with
    | true =>
      rw [hb] at hside
      rw [if_pos rfl] at hside
      obtain ⟨hfl, hsibdec⟩ := hside
      rw [modifyNode_of_get hgf2] at hd
      have hdeq := Option.some.inj hd
      have hfc : (if (match c.nd.left with
          | some l => i == l
          | none => false) = true
          then { c.nd with left := some np } else { c.nd with right := some np })
          = { c.nd with left := some np } := by
        rw [hfl]; simp
      rw [hfc] at hdeq
      subst hdeq
      -- pieces for the recursive call
      have hn3 : getNode (t2.data.set c.i (some { c.nd with left := some np })) c.i
          = some { c.nd with left := some np } := getNode_set_self hcilen _
      have hL3 : decode (t2.data.set c.i (some { c.nd with left := some np })) F
          (some np) = some S' := by
        refine decode_agree hdec ?_
        intro j hj
        rw [hiS'x] at hj
        exact getNode_set_ne (fun e => hciS (by rw [e]; exact hj)) _
      have hR3 : decode (t2.data.set c.i (some { c.nd with left := some np })) F
          c.nd.right = some c.sib := by
        refine decode_agree hsibdec ?_
        intro j hj
        rw [getNode_set_ne (fun e => hcisib (by rw [e]; exact hj)) _]
        exact hfr2 j (hsibS j hj)
      have hcs3 : crumbsOk (t2.data.set c.i (some { c.nd with left := some np })) F
          cs' (some c.i) r0 := by
        refine crumbsOk_agree hcs' ?_
        intro k hk
        rw [getNode_set_ne (fun e => hcictx' (by rw [e]; exact hk)) _]
        exact hfr2 k (hctx'S k hk)
      have hnodup3 : (ctxIdxs cs' ++
          (BT.node S' c.i { c.nd with left := some np } c.sib).idxs).Nodup := by
        refine nodup_of_count hnodup ?_
        intro a
        simp only [BT.idxs, hiS'x, List.count_append, List.count_cons]
        omega
      have hlen3 : (t2.data.set c.i (some { c.nd with left := some np })).length
          = t.data.length := by
        rw [List.length_set]; exact hlen2
      obtain ⟨S'', hdec'', hst'', hv'', hi'', hlen'', hfr'', hfree'', hsize''⟩ :=
        ih { t2 with data := t2.data.set c.i (some { c.nd with left := some np }) }
          c.i { c.nd with left := some np } S' c.sib r0 t'
          (by rw [hlen3]; exact hlen) (by rw [hlen3]; exact hF)
          hn3 hL3 hR3 hstS' hcsib hcs3 hnodup3 h
      refine ⟨S'', hdec'', hst'', ?_, ?_, ?_, ?_, ?_, ?_⟩
      · rw [hv'', plugC, hb, if_pos rfl]
        exact plugC_vals_congr cs' _ _ (by simp [BT.vals, hvS'])
      · rw [hi'', plugC, hb, if_pos rfl]
        exact plugC_idxs_congr cs' _ _ (by simp [BT.idxs, hiS'x])
      · rw [hlen'']; exact hlen3
      · intro k hk
        rw [hctxeq] at hk
        have hkS : k ∉ (BT.node L i nd R).idxs :=
          fun hm => hk (List.mem_append_right _ hm)
        have hkci : k ≠ c.i := fun e => hk (by
          rw [e]
          exact List.mem_append_left _ (List.mem_append_left _ (List.mem_cons_self _ _)))
        have hksib : k ∉ c.sib.idxs := fun hm => hk
          (List.mem_append_left _ (List.mem_append_left _ (List.mem_cons_of_mem _ hm)))
        have hkctx' : k ∉ ctxIdxs cs' := fun hm => hk
          (List.mem_append_left _ (List.mem_append_right _ hm))
        have h1 : getNode t'.data k =
            getNode (t2.data.set c.i (some { c.nd with left := some np })) k := by
          refine hfr'' k ?_
          intro hm
          rcases List.mem_append.1 hm with hm | hm
          · exact hkctx' hm
          · rw [BT.idxs] at hm
            rcases List.mem_append.1 hm with hm | hm
            · rw [hiS'x] at hm; exact hkS hm
            · rcases List.mem_cons.1 hm with hm | hm
              · exact hkci hm
              · exact hksib hm
        rw [h1, getNode_set_ne (fun e => hkci e.symm) _]
        exact hfr2 k hkS
      · exact hfree''.trans hfree2
      · exact hsize''.trans hsize2
    | false =>
      rw [hb] at hside
      rw [if_neg (by simp)] at hside
      obtain ⟨hfl, hsibdec⟩ := hside
      rw [modifyNode_of_get hgf2] at hd
      have hdeq := Option.some.inj hd
      have hfc : (if (match c.nd.left with
          | some l => i == l
          | none => false) = true
          then { c.nd with left := some np } else { c.nd with right := some np })
          = { c.nd with right := some np } := by
        cases hcl : c.nd.left with
        | none => simp
        | some l =>
          rw [hcl] at hsibdec
          obtain ⟨f0, sl, snd, sr, _, hseq, _, _, _⟩ := decode_some_inv hsibdec
          have hlsib : l ∈ c.sib.idxs := by
            rw [hseq, BT.idxs]
            exact List.mem_append_right _ (List.mem_cons_self _ _)
          have hne : i ≠ l := fun e => hsibS l hlsib (by rw [← e]; exact hiS)
          simp [beq_eq_false_iff_ne.2 hne]
      rw [hfc] at hdeq
      subst hdeq
      have hn3 : getNode (t2.data.set c.i (some { c.nd with right := some np })) c.i
          = some { c.nd with right := some np } := getNode_set_self hcilen _
      have hR3 : decode (t2.data.set c.i (some { c.nd with right := some np })) F
          (some np) = some S' := by
        refine decode_agree hdec ?_
        intro j hj
        rw [hiS'x] at hj
        exact getNode_set_ne (fun e => hciS (by rw [e]; exact hj)) _
      have hL3 : decode (t2.data.set c.i (some { c.nd with right := some np })) F
          c.nd.left = some c.sib := by
        refine decode_agree hsibdec ?_
        intro j hj
        rw [getNode_set_ne (fun e => hcisib (by rw [e]; exact hj)) _]
        exact hfr2 j (hsibS j hj)
      have hcs3 : crumbsOk (t2.data.set c.i (some { c.nd with right := some np })) F
          cs' (some c.i) r0 := by
        refine crumbsOk_agree hcs' ?_
        intro k hk
        rw [getNode_set_ne (fun e => hcictx' (by rw [e]; exact hk)) _]
        exact hfr2 k (hctx'S k hk)
      have hnodup3 : (ctxIdxs cs' ++
          (BT.node c.sib c.i { c.nd with right := some np } S').idxs).Nodup := by
        refine nodup_of_count hnodup ?_
        intro a
        simp only [BT.idxs, hiS'x, List.count_append, List.count_cons]
        omega
      have hlen3 : (t2.data.set c.i (some { c.nd with right := some np })).length
          = t.data.length := by
        rw [List.length_set]; exact hlen2
      obtain ⟨S'', hdec'', hst'', hv'', hi'', hlen'', hfr'', hfree'', hsize''⟩ :=
        ih { t2 with data := t2.data.set c.i (some { c.nd with right := some np }) }
          c.i { c.nd with right := some np } c.sib S' r0 t'
          (by rw [hlen3]; exact hlen) (by rw [hlen3]; exact hF)
          hn3 hL3 hR3 hcsib hstS' hcs3 hnodup3 h
      refine ⟨S'', hdec'', hst'', ?_, ?_, ?_, ?_, ?_, ?_⟩
      · rw [hv'', plugC, hb, if_neg (by simp)]
        exact plugC_vals_congr cs' _ _ (by simp [BT.vals, hvS'])
      · rw [hi'', plugC, hb, if_neg (by simp)]
        exact plugC_idxs_congr cs' _ _ (by simp [BT.idxs, hiS'x])
      · rw [hlen'']; exact hlen3
      · intro k hk
        rw [hctxeq] at hk
        have hkS : k ∉ (BT.node L i nd R).idxs :=
          fun hm => hk (List.mem_append_right _ hm)
        have hkci : k ≠ c.i := fun e => hk (by
          rw [e]
          exact List.mem_append_left _ (List.mem_append_left _ (List.mem_cons_self _ _)))
        have hksib : k ∉ c.sib.idxs := fun hm => hk
          (List.mem_append_left _ (List.mem_append_left _ (List.mem_cons_of_mem _ hm)))
        have hkctx' : k ∉ ctxIdxs cs' := fun hm => hk
          (List.mem_append_left _ (List.mem_append_right _ hm))
        have h1 : getNode t'.data k =
            getNode (t2.data.set c.i (some { c.nd with right := some np })) k := by
          refine hfr'' k ?_
          intro hm
          rcases List.mem_append.1 hm with hm | hm
          · exact hkctx' hm
          · rw [BT.idxs] at hm
            rcases List.mem_append.1 hm with hm | hm
            · exact hksib hm
            · rcases List.mem_cons.1 hm with hm | hm
              · exact hkci hm
              · rw [hiS'x] at hm; exact hkS hm
        rw [h1, getNode_set_ne (fun e => hkci e.symm) _]
        exact hfr2 k hkS
      · exact hfree''.trans hfree2
      · exact hsize''.trans hsize2

theorem plugC_append {T : Type} :
    ∀ (a b : List (Crumb T)) (X : BT T), plugC (a ++ b) X = plugC b (plugC a X) := by
  intro a
  induction a with
  | nil => intro b X; rfl
  | cons c a ih => intro b X; rw [List.cons_append, plugC, plugC, ih]

theorem withinCtx_append {T : Type} [LT T] :
    ∀ (a b : List (Crumb T)) (v : T),
      withinCtx (a ++ b) v ↔ withinCtx a v ∧ withinCtx b v := by
  intro a
  induction a with
  | nil => intro b v; simp [withinCtx]
  | cons c a ih =>
    intro b v
    rw [List.cons_append, withinCtx, withinCtx, ih]
    tauto

/-- Characterization of an unsuccessful `contains_helper` descent: it
walks a root-to-leaf-edge path, accumulating crumbs; the value's slot on
the final node is absent, and the comparisons taken record that the value
belongs exactly at that absent slot. -/
theorem containsLoop_notfound {T : Type} [LinearOrder T] [DecidableEq T]
    {d : List (Option (Node T))} {F : Nat} {value : T} :
    ∀ (fuel : Nat) (ci : Nat) (c : Node T) (visited : List Nat)
      (cs0 : List (Crumb T)) (L R : BT T) (r0 : Nat) (res : List Nat),
      containsLoop d value fuel ci c visited = some (false, some res) →
      getNode d ci = some c →
      decode d F c.left = some L → decode d F c.right = some R →
      L.storedOk → R.storedOk → c.height = 1 + max L.hgt R.hgt →
      value ≠ c.value →
      crumbsOk d F cs0 (some ci) r0 →
      visited.reverse = ci :: cs0.map Crumb.i →
      withinCtx cs0 value →
      ∃ (cs1 : List (Crumb T)) (pk : Nat) (pn : Node T) (PL PR : BT T),
        getNode d pk = some pn ∧
        decode d F pn.left = some PL ∧ decode d F pn.right = some PR ∧
        PL.storedOk ∧ PR.storedOk ∧ pn.height = 1 + max PL.hgt PR.hgt ∧
        crumbsOk d F (cs1 ++ cs0) (some pk) r0 ∧
        res.reverse = pk :: (cs1 ++ cs0).map Crumb.i ∧
        plugC cs1 (BT.node PL pk pn PR) = BT.node L ci c R ∧
        withinCtx (cs1 ++ cs0) value ∧
        value ≠ pn.value ∧
        (if value < pn.value then pn.left = none else pn.right = none) := by
  intro fuel
  induction fuel with
  | zero =>
    intro ci c visited cs0 L R r0 res h
    exact Option.noConfusion h
  | succ fuel ih =>
    intro ci c visited cs0 L R r0 res h hn hL hR hsL hsR hstc hne hcs0 hv hwc
    rw [containsLoop] at h
    by_cases hch : (c.left.isSome || c.right.isSome) = true
    · rw [if_pos hch] at h
      dsimp only at h
      by_cases hlt : value < c.value
      · rw [if_pos hlt] at h
        cases hcl : c.left with
        | none =>
          rw [hcl] at h
          dsimp only at h
          obtain ⟨e1, e2⟩ := Prod.mk.inj (Option.some.inj h)
          obtain rfl : visited = res := Option.some.inj e2
          refine ⟨[], ci, c, L, R, hn, hL, hR, hsL, hsR, hstc, hcs0, hv, rfl,
            ?_, hne, ?_⟩
          · rw [List.nil_append]
            exact hwc
          · rw [if_pos hlt]
            exact hcl
        | some ni =>
          rw [hcl] at h
          dsimp only at h
          cases hni : getNode d ni with
          | none => rw [hni] at h; exact Option.noConfusion h
          | some nd =>
            rw [hni] at h
            dsimp only at h
            by_cases heq : value = nd.value
            · rw [if_pos heq] at h
              obtain ⟨e1, _⟩ := Prod.mk.inj (Option.some.inj h)
              exact Bool.noConfusion e1
            · rw [if_neg heq] at h
              -- invert the left subtree
              rw [hcl] at hL
              obtain ⟨f', L1, nd0, L2, hf', hinj, hln, hL1, hL2⟩ := decode_some_inv hL
              have e0 : nd0 = nd := Option.some.inj (hln.symm.trans hni)
              rw [e0] at hinj hL1 hL2
              obtain ⟨hstn, hsL1, hsL2⟩ := (by rw [hinj] at hsL; exact hsL :
                (BT.node L1 ni nd L2).storedOk)
              have hfle : f' ≤ F := by omega
              obtain ⟨cs1', pk, pn, PL, PR, o1, o2, o3, o4, o5, o6, o7, o8, o9, o10, o11, o12⟩ :=
                ih ni nd (visited ++ [ni]) (⟨ci, c, R, true⟩ :: cs0) L1 L2 r0 res h
                  hni (decode_mono hL1 hfle) (decode_mono hL2 hfle) hsL1 hsL2 hstn heq
                  ⟨hn, by rw [if_pos rfl]; exact ⟨hcl, hR⟩, hsR, hcs0⟩
                  (by rw [List.reverse_append, List.reverse_singleton,
                        List.singleton_append, hv, List.map_cons])
                  ⟨hlt, hwc⟩
              refine ⟨cs1' ++ [⟨ci, c, R, true⟩], pk, pn, PL, PR, o1, o2, o3, o4, o5, o6,
                ?_, ?_, ?_, ?_, o11, o12⟩
              · rw [List.append_assoc, List.singleton_append]
                exact o7
              · rw [List.append_assoc, List.singleton_append]
                exact o8
              · rw [plugC_append, o9, hinj]
                rfl
              · rw [List.append_assoc, List.singleton_append]
                exact o10
      · rw [if_neg hlt] at h
        have hgt : c.value < value := by
          rcases lt_trichotomy value c.value with h1 | h1 | h1
          · exact absurd h1 hlt
          · exact absurd h1 hne
          · exact h1
        rw [if_pos hgt] at h
        cases hcr : c.right with
        | none =>
          rw [hcr] at h
          dsimp only at h
          obtain ⟨e1, e2⟩ := Prod.mk.inj (Option.some.inj h)
          obtain rfl : visited = res := Option.some.inj e2
          refine ⟨[], ci, c, L, R, hn, hL, hR, hsL, hsR, hstc, hcs0, hv, rfl,
            ?_, hne, ?_⟩
          · rw [List.nil_append]
            exact hwc
          · rw [if_neg hlt]
            exact hcr
        | some ni =>
          rw [hcr] at h
          dsimp only at h
          cases hni : getNode d ni with
          | none => rw [hni] at h; exact Option.noConfusion h
          | some nd =>
            rw [hni] at h
            dsimp only at h
            by_cases heq : value = nd.value
            · rw [if_pos heq] at h
              obtain ⟨e1, _⟩ := Prod.mk.inj (Option.some.inj h)
              exact Bool.noConfusion e1
            · rw [if_neg heq] at h
              rw [hcr] at hR
              obtain ⟨f', R1, nd0, R2, hf', hinj, hrn, hR1, hR2⟩ := decode_some_inv hR
              have e0 : nd0 = nd := Option.some.inj (hrn.symm.trans hni)
              rw [e0] at hinj hR1 hR2
              obtain ⟨hstn, hsR1, hsR2⟩ := (by rw [hinj] at hsR; exact hsR :
                (BT.node R1 ni nd R2).storedOk)
              have hfle : f' ≤ F := by omega
              obtain ⟨cs1', pk, pn, PL, PR, o1, o2, o3, o4, o5, o6, o7, o8, o9, o10, o11, o12⟩ :=
                ih ni nd (visited ++ [ni]) (⟨ci, c, L, false⟩ :: cs0) R1 R2 r0 res h
                  hni (decode_mono hR1 hfle) (decode_mono hR2 hfle) hsR1 hsR2 hstn heq
                  ⟨hn, by rw [if_neg (by simp)]; exact ⟨hcr, hL⟩, hsL, hcs0⟩
                  (by rw [List.reverse_append, List.reverse_singleton,
                        List.singleton_append, hv, List.map_cons])
                  ⟨hgt, hwc⟩
              refine ⟨cs1' ++ [⟨ci, c, L, false⟩], pk, pn, PL, PR, o1, o2, o3, o4, o5, o6,
                ?_, ?_, ?_, ?_, o11, o12⟩
              · rw [List.append_assoc, List.singleton_append]
                exact o7
              · rw [List.append_assoc, List.singleton_append]
                exact o8
              · rw [plugC_append, o9, hinj]
                rfl
              · rw [List.append_assoc, List.singleton_append]
                exact o10
    · rw [if_neg hch] at h
      obtain ⟨e1, e2⟩ := Prod.mk.inj (Option.some.inj h)
      obtain rfl : visited = res := Option.some.inj e2
      have hcl : c.left = none := by
        cases hx : c.left with
        | none => rfl
        | some y => rw [hx] at hch; simp at hch
      have hcr : c.right = none := by
        cases hx : c.right with
        | none => rfl
        | some y => rw [hx] at hch; simp at hch
      refine ⟨[], ci, c, L, R, hn, hL, hR, hsL, hsR, hstc, hcs0, hv, rfl,
        ?_, hne, ?_⟩
      · rw [List.nil_append]
        exact hwc
      · by_cases hlt : value < c.value
        · rw [if_pos hlt]; exact hcl
        · rw [if_neg hlt]; exact hcr

/-- The inorder shape of a plugged zipper is ordered exactly when the
focus is ordered, every focus value satisfies the path's comparison
constraints, and the path is self-consistent. -/
theorem plugC_ordered_iff {T : Type} [LT T] :
    ∀ (cs : List (Crumb T)) (X : BT T),
      (plugC cs X).Ordered ↔
        X.Ordered ∧ (∀ v ∈ X.vals, withinCtx cs v) ∧ ctxOk cs := by
  intro cs
  induction cs with
  | nil =>
    intro X
    simp [plugC, withinCtx, ctxOk]
  | cons c cs ih =>
    intro X
    rw [plugC]
    cases hb : c.isL with
    | true =>
      rw [if_pos rfl, ih]
      constructor
      · rintro ⟨⟨hb1, hb2, hXo, hso⟩, hwv, hctx⟩
        rw [BT.vals] at hwv
        have h1 : ∀ v ∈ X.vals, withinCtx cs v := fun v hv =>
          hwv v (List.mem_append_left _ hv)
        have h2 : withinCtx cs c.nd.value :=
          hwv _ (List.mem_append_right _ (List.mem_cons_self _ _))
        have h3 : ∀ v ∈ c.sib.vals, withinCtx cs v := fun v hv =>
          hwv v (List.mem_append_right _ (List.mem_cons_of_mem _ hv))
        refine ⟨hXo, ?_, hso, h2, ?_, hctx⟩
        · intro v hv
          rw [withinCtx, hb, if_pos rfl]
          exact ⟨hb1 v hv, h1 v hv⟩
        · intro v hv
          rw [hb, if_pos rfl]
          exact ⟨hb2 v hv, h3 v hv⟩
      · rintro ⟨hXo, hwv, hso, hnw, hsw, hctx⟩
        have h1 : ∀ v ∈ X.vals, v < c.nd.value ∧ withinCtx cs v := by
          intro v hv
          have hx := hwv v hv
          rw [withinCtx, hb, if_pos rfl] at hx
          exact hx
        have h2 : ∀ v ∈ c.sib.vals, c.nd.value < v ∧ withinCtx cs v := by
          intro v hv
          have hx := hsw v hv
          rw [hb, if_pos rfl] at hx
          exact hx
        refine ⟨⟨fun v hv => (h1 v hv).1, fun v hv => (h2 v hv).1, hXo, hso⟩, ?_, hctx⟩
        rw [BT.vals]
        intro v hv
        rcases List.mem_append.1 hv with hv | hv
        · exact (h1 v hv).2
        · rcases List.mem_cons.1 hv with hv | hv
          · rw [hv]; exact hnw
          · exact (h2 v hv).2
    | false =>
      rw [if_neg (by simp), ih]
      constructor
      · rintro ⟨⟨hb1, hb2, hso, hXo⟩, hwv, hctx⟩
        rw [BT.vals] at hwv
        have h1 : ∀ v ∈ c.sib.vals, withinCtx cs v := fun v hv =>
          hwv v (List.mem_append_left _ hv)
        have h2 : withinCtx cs c.nd.value :=
          hwv _ (List.mem_append_right _ (List.mem_cons_self _ _))
        have h3 : ∀ v ∈ X.vals, withinCtx cs v := fun v hv =>
          hwv v (List.mem_append_right _ (List.mem_cons_of_mem _ hv))
        refine ⟨hXo, ?_, hso, h2, ?_, hctx⟩
        · intro v hv
          rw [withinCtx, hb, if_neg (by simp)]
          exact ⟨hb2 v hv, h3 v hv⟩
        · intro v hv
          rw [hb, if_neg (by simp)]
          exact ⟨hb1 v hv, h1 v hv⟩
      · rintro ⟨hXo, hwv, hso, hnw, hsw, hctx⟩
        have h1 : ∀ v ∈ X.vals, c.nd.value < v ∧ withinCtx cs v := by
          intro v hv
          have hx := hwv v hv
          rw [withinCtx, hb, if_neg (by simp)] at hx
          exact hx
        have h2 : ∀ v ∈ c.sib.vals, v < c.nd.value ∧ withinCtx cs v := by
          intro v hv
          have hx := hsw v hv
          rw [hb, if_neg (by simp)] at hx
          exact hx
        refine ⟨⟨fun v hv => (h2 v hv).1, fun v hv => (h1 v hv).1, hso, hXo⟩, ?_, hctx⟩
        rw [BT.vals]
        intro v hv
        rcases List.mem_append.1 hv with hv | hv
        · exact (h2 v hv).2
        · rcases List.mem_cons.1 hv with hv | hv
          · rw [hv]; exact hnw
          · exact (h1 v hv).2

theorem plugC_idxs_count {T : Type} :
    ∀ (cs : List (Crumb T)) (X : BT T) (a : Nat),
      (plugC cs X).idxs.count a = (ctxIdxs cs ++ X.idxs).count a := by
  intro cs
  induction cs with
  | nil => intro X a; simp [plugC, ctxIdxs]
  | cons c cs ih =>
    intro X a
    rw [plugC, ih]
    have hctxeq : ctxIdxs (c :: cs) = (c.i :: c.sib.idxs) ++ ctxIdxs cs := by
      simp [ctxIdxs]
    rw [hctxeq]
    cases c.isL
    · rw [if_neg (by simp)]
      simp only [BT.idxs, List.count_append, List.count_cons, List.cons_append]
      omega
    · rw [if_pos rfl]
      simp only [BT.idxs, List.count_append, List.count_cons, List.cons_append]
      omega

theorem plugC_idxs_perm {T : Type} (cs : List (Crumb T)) (X : BT T) :
    (plugC cs X).idxs.Perm (ctxIdxs cs ++ X.idxs) :=
  List.perm_iff_count.2 (fun a => by rw [plugC_idxs_count])

theorem plugC_vals_count {T : Type} [DecidableEq T] :
    ∀ (cs : List (Crumb T)) (X : BT T) (a : T),
      (plugC cs X).vals.count a =
        (cs.bind (fun c => c.nd.value :: c.sib.vals) ++ X.vals).count a := by
  intro cs
  induction cs with
  | nil => intro X a; simp [plugC]
  | cons c cs ih =>
    intro X a
    rw [plugC, ih]
    have hb2 : ((c :: cs).bind (fun c => c.nd.value :: c.sib.vals)) =
        (c.nd.value :: c.sib.vals) ++ cs.bind (fun c => c.nd.value :: c.sib.vals) := by
      simp
    rw [hb2]
    cases c.isL
    · rw [if_neg (by simp)]
      simp only [BT.vals, List.count_append, List.count_cons, List.cons_append]
      omega
    · rw [if_pos rfl]
      simp only [BT.vals, List.count_append, List.count_cons, List.cons_append]
      omega

theorem plugC_vals_perm {T : Type} [DecidableEq T] (cs : List (Crumb T)) (X : BT T) :
    (plugC cs X).vals.Perm (cs.bind (fun c => c.nd.value :: c.sib.vals) ++ X.vals) :=
  List.perm_iff_count.2 (fun a => by rw [plugC_vals_count])

/-- Any duplicate-free list of occupied slot indices is no longer than
the occupied-slot count. -/
theorem nodup_occ_le {T : Type} :
    ∀ (d : List (Option (Node T))) (l : List Nat), l.Nodup →
      (∀ j ∈ l, (getNode d j).isSome = true) → l.length ≤ occCount d := by
  intro d
  induction d with
  | nil =>
    intro l hnd hocc
    cases l with
    | nil => simp [occCount]
    | cons a l =>
      have := hocc a (List.mem_cons_self _ _)
      simp [getNode] at this
  | cons x rest ih =>
    intro l hnd hocc
    have hl'nd : ((l.filter (fun j => !(j == 0))).map (fun j => j - 1)).Nodup := by
      refine List.Nodup.map_on ?_ (hnd.filter _)
      intro a ha b hb hab
      have ha0 : a ≠ 0 := by
        have := (List.mem_filter.1 ha).2
        simpa using this
      have hb0 : b ≠ 0 := by
        have := (List.mem_filter.1 hb).2
        simpa using this
      omega
    have hl'occ : ∀ k ∈ (l.filter (fun j => !(j == 0))).map (fun j => j - 1),
        (getNode rest k).isSome = true := by
      intro k hk
      obtain ⟨j, hj, hjk⟩ := List.mem_map.1 hk
      have hj0 : j ≠ 0 := by
        have := (List.mem_filter.1 hj).2
        simpa using this
      have hjl : j ∈ l := (List.mem_filter.1 hj).1
      have hjo := hocc j hjl
      obtain ⟨j', rfl⟩ : ∃ j', j = j' + 1 := ⟨j - 1, by omega⟩
      have hk' : j' = k := by omega
      rw [← hk']
      simpa [getNode] using hjo
    have hlen' := ih _ hl'nd hl'occ
    have hmaplen : ((l.filter (fun j => !(j == 0))).map (fun j => j - 1)).length =
        (l.filter (fun j => !(j == 0))).length := List.length_map _ _
    have hsplit : l.length =
        (l.filter (fun j => j == 0)).length + (l.filter (fun j => !(j == 0))).length := by
      rw [← List.countP_eq_length_filter, ← List.countP_eq_length_filter]
      have h0 := List.length_eq_countP_add_countP (fun j : Nat => j == 0) l
      have hcong : List.countP (fun a : Nat => decide ¬((a == 0) = true)) l =
          List.countP (fun j : Nat => !(j == 0)) l := by
        refine List.countP_congr ?_
        intro a _
        by_cases h : a = 0 <;> simp [h]
      rw [hcong] at h0
      exact h0
    have hcount0 : (l.filter (fun j => j == 0)).length = l.count 0 := by
      rw [List.count, List.countP_eq_length_filter]
    cases x with
    | some nd =>
      have hc1 : l.count 0 ≤ 1 := List.nodup_iff_count_le_one.1 hnd 0
      rw [occCount]
      omega
    | none =>
      have h0m : (0 : Nat) ∉ l := by
        intro hm
        have := hocc 0 hm
        simp [getNode] at this
      have hc0 : l.count 0 = 0 := List.count_eq_zero.2 h0m
      rw [occCount]
      omega

/-- When the decoded tree accounts for every occupied slot by count,
every occupied slot index belongs to it. -/
theorem occupied_mem {T : Type} {d : List (Option (Node T))} {F : Nat}
    {link : Option Nat} {S : BT T}
    (hdec : decode d F link = some S) (hnd : S.idxs.Nodup)
    (hcnt : occCount d = S.cnt) :
    ∀ j nd, getNode d j = some nd → j ∈ S.idxs := by
  intro j nd hj
  by_contra hmem
  have hl : (j :: S.idxs).Nodup := List.nodup_cons.2 ⟨hmem, hnd⟩
  have hall : ∀ k ∈ j :: S.idxs, (getNode d k).isSome = true := by
    intro k hk
    rcases List.mem_cons.1 hk with rfl | hk
    · rw [hj]; rfl
    · obtain ⟨nd2, hnd2⟩ := decode_idxs_occupied hdec k hk
      rw [hnd2]; rfl
  have hle := nodup_occ_le d _ hl hall
  rw [List.length_cons, ← cnt_eq_idxs_length] at hle
  omega

/-- Every slot of a decoded tree carries a decoded subtree, inheriting
stored-correctness and order. -/
theorem decode_subtree {T : Type} [LT T] {d : List (Option (Node T))} :
    ∀ {f : Nat} {link : Option Nat} {bt : BT T}, decode d f link = some bt →
      ∀ j, j ∈ bt.idxs → ∃ sub : BT T, decode d f (some j) = some sub ∧
        sub.idxs.Sublist bt.idxs ∧ (bt.storedOk → sub.storedOk) ∧
        (bt.Ordered → sub.Ordered) := by
  intro f
  induction f with
  | zero =>
    intro link bt h j hj
    cases link with
    | none =>
      rw [decode_none] at h
      obtain rfl : BT.leaf = bt := Option.some.inj h
      rw [BT.idxs] at hj
      exact absurd hj (List.not_mem_nil _)
    | some i => exact Option.noConfusion h
  | succ f ih =>
    intro link bt h j hj
    cases link with
    | none =>
      rw [decode_none] at h
      obtain rfl : BT.leaf = bt := Option.some.inj h
      rw [BT.idxs] at hj
      exact absurd hj (List.not_mem_nil _)
    | some i =>
      obtain ⟨f', l, nd, r, hf, rfl, hn, hl, hr⟩ := decode_some_inv h
      obtain rfl : f' = f := by omega
      rw [BT.idxs] at hj
      rcases List.mem_append.1 hj with hjl | hjr
      · obtain ⟨sub, hs1, hs2, hs3, hs4⟩ := ih hl j hjl
        refine ⟨sub, decode_mono hs1 (by omega), ?_, ?_, ?_⟩
        · rw [BT.idxs]
          exact hs2.trans (List.sublist_append_left _ _)
        · intro hst
          exact hs3 hst.2.1
        · intro hord
          exact hs4 hord.2.2.1
      · rcases List.mem_cons.1 hjr with rfl | hjr
        · exact ⟨BT.node l j nd r, h, List.Sublist.refl _, fun hs => hs, fun ho => ho⟩
        · obtain ⟨sub, hs1, hs2, hs3, hs4⟩ := ih hr j hjr
          refine ⟨sub, decode_mono hs1 (by omega), ?_, ?_, ?_⟩
          · rw [BT.idxs]
            refine hs2.trans ?_
            refine List.Sublist.trans ?_ (List.sublist_append_right _ _)
            exact List.sublist_cons_self _ _
          · intro hst
            exact hs3 hst.2.2
          · intro hord
            exact hs4 hord.2.2.2

/-- The inorder values are the stored values read off the inorder slot
list. -/
theorem decode_vals_map {T : Type} {d : List (Option (Node T))} :
    ∀ {f : Nat} {link : Option Nat} {bt : BT T}, decode d f link = some bt →
      bt.vals.map Option.some =
        bt.idxs.map (fun j => (getNode d j).map Node.value) := by
  intro f
  induction f with
  | zero =>
    intro link bt h
    cases link with
    | none =>
      rw [decode_none] at h
      obtain rfl : BT.leaf = bt := Option.some.inj h
      rfl
    | some i => exact Option.noConfusion h
  | succ f ih =>
    intro link bt h
    cases link with
    | none =>
      rw [decode_none] at h
      obtain rfl : BT.leaf = bt := Option.some.inj h
      rfl
    | some i =>
      obtain ⟨f', l, nd, r, hf, rfl, hn, hl, hr⟩ := decode_some_inv h
      obtain rfl : f' = f := by omega
      rw [BT.vals, BT.idxs, List.map_append, List.map_append, List.map_cons,
        List.map_cons, ih hl, ih hr, hn]
      rfl

/-- Distinct slots of a duplicate-free decoded tree store distinct
values. -/
theorem decode_distinct_values {T : Type} {d : List (Option (Node T))}
    {F : Nat} {link : Option Nat} {S : BT T}
    (hdec : decode d F link = some S) (hvnd : S.vals.Nodup) :
    ∀ j1 j2 nd1 nd2, j1 ∈ S.idxs → j2 ∈ S.idxs →
      getNode d j1 = some nd1 → getNode d j2 = some nd2 → j1 ≠ j2 →
      nd1.value ≠ nd2.value := by
  intro j1 j2 nd1 nd2 hj1 hj2 hn1 hn2 hne
  have hmapnd : (S.vals.map Option.some).Nodup :=
    hvnd.map (Option.some_injective T)
  rw [decode_vals_map hdec] at hmapnd
  have hpw : S.idxs.Pairwise (fun a b =>
      (getNode d a).map Node.value ≠ (getNode d b).map Node.value) :=
    List.pairwise_map.1 hmapnd
  have hsym : Symmetric (fun a b : Nat =>
      (getNode d a).map Node.value ≠ (getNode d b).map Node.value) :=
    fun a b hab => hab.symm
  have := hpw.forall hsym hj1 hj2 hne
  rw [hn1, hn2] at this
  intro he
  exact this (by simp [he])

theorem ordered_vals_nodup {T : Type} [LinearOrder T] {S : BT T}
    (h : S.Ordered) : S.vals.Nodup :=
  ((ordered_iff_pairwise S).1 h).imp (fun hlt => ne_of_lt hlt)

/-- A well-formed tree accounts for every occupied slot inside the
decoded tree. -/
theorem wft_occupied_mem {T : Type} [LinearOrder T] {t : Tree T} {S : BT T}
    (hwf : WFT t S) : ∀ j nd, getNode t.data j = some nd → j ∈ S.idxs :=
  occupied_mem hwf.hdec hwf.hnodup (by rw [hwf.hocc, hwf.hcnt])

/-- Occupied slot of a well-formed tree: decoded subtree with the needed
bookkeeping (children decode with arena-length fuel and distinct slots). -/
theorem wft_slot_subtree {T : Type} [LinearOrder T] {t : Tree T} {S : BT T}
    (hwf : WFT t S) {j : Nat} {nd : Node T} (hj : getNode t.data j = some nd) :
    ∃ l r : BT T,
      decode t.data t.data.length nd.left = some l ∧
      decode t.data t.data.length nd.right = some r ∧
      nd.height = 1 + max l.hgt r.hgt ∧
      (∀ x ∈ l.vals, x < nd.value) ∧ (∀ x ∈ r.vals, nd.value < x) ∧
      l.Ordered ∧ r.Ordered ∧ l.storedOk ∧ r.storedOk := by
  have hmem := wft_occupied_mem hwf j nd hj
  obtain ⟨sub, hs1, hs2, hs3, hs4⟩ := decode_subtree hwf.hdec j hmem
  obtain ⟨f', l, nd0, r, hf, rfl, hn0, hl, hr⟩ := decode_some_inv hs1
  have e0 : nd0 = nd := Option.some.inj (hn0.symm.trans hj)
  rw [e0] at hl hr hs2 hs3 hs4
  have hsubnd : (BT.node l j nd r).idxs.Nodup := hwf.hnodup.sublist hs2
  rw [BT.idxs] at hsubnd
  obtain ⟨hln, hIR, _⟩ := List.nodup_append.1 hsubnd
  obtain ⟨_, hrn⟩ := List.nodup_cons.1 hIR
  have hst := hs3 hwf.hstored
  have hord := hs4 hwf.hord
  refine ⟨l, r, ?_, ?_, hst.1, hord.1, hord.2.1, hord.2.2.1, hord.2.2.2,
    hst.2.1, hst.2.2⟩
  · refine decode_depth_le hl ?_
    exact depth_le_len hl hln
  · refine decode_depth_le hr ?_
    exact depth_le_len hr hrn

/-- A well-formed tree satisfies the executable height-correctness
check: every stored height equals the independently recomputed one. -/
theorem wft_heightsOk {T : Type} [LinearOrder T] [DecidableEq T]
    {t : Tree T} {S : BT T} (hwf : WFT t S) : heightsOk t.data = true := by
  rw [heightsOk, List.all_eq_true]
  intro s hs
  cases s with
  | none => rfl
  | some nd =>
    obtain ⟨j, hj⟩ := List.mem_iff_get?.1 hs
    have hjn : getNode t.data j = some nd := by
      unfold getNode
      rw [hj]
      rfl
    obtain ⟨l, r, hl, hr, hh, _, _, _, _, _, _⟩ := wft_slot_subtree hwf hjn
    rw [decide_eq_true_eq, recHeight_decode hl, recHeight_decode hr]
    exact hh

/-- A well-formed tree satisfies the executable binary-search-order
check. -/
theorem wft_bstOk {T : Type} [LinearOrder T] {t : Tree T} {S : BT T}
    (hwf : WFT t S) : bstOk t.data = true := by
  rw [bstOk, List.all_eq_true]
  intro s hs
  cases s with
  | none => rfl
  | some nd =>
    obtain ⟨j, hj⟩ := List.mem_iff_get?.1 hs
    have hjn : getNode t.data j = some nd := by
      unfold getNode
      rw [hj]
      rfl
    obtain ⟨l, r, hl, hr, _, hbl, hbr, _, _, _, _⟩ := wft_slot_subtree hwf hjn
    rw [Bool.and_eq_true, List.all_eq_true, List.all_eq_true]
    constructor
    · intro v hv
      rw [reachVals_decode hl] at hv
      rw [decide_eq_true_eq]
      exact hbl v ((mem_pvals_iff_mem_vals l v).1 hv)
    · intro v hv
      rw [reachVals_decode hr] at hv
      rw [decide_eq_true_eq]
      exact hbr v ((mem_pvals_iff_mem_vals r v).1 hv)

/-- A well-formed tree stores no value twice: occupied slots hold
pairwise distinct values. -/
theorem wft_distinct {T : Type} [LinearOrder T] {t : Tree T} {S : BT T}
    (hwf : WFT t S) :
    ∀ j1 j2 nd1 nd2, getNode t.data j1 = some nd1 →
      getNode t.data j2 = some nd2 → j1 ≠ j2 → nd1.value ≠ nd2.value := by
  intro j1 j2 nd1 nd2 h1 h2 hne
  exact decode_distinct_values hwf.hdec (ordered_vals_nodup hwf.hord)
    j1 j2 nd1 nd2 (wft_occupied_mem hwf j1 nd1 h1) (wft_occupied_mem hwf j2 nd2 h2)
    h1 h2 hne

/-- A well-formed tree satisfies the executable link check: children of
occupied slots are in-bounds occupied slots. -/
theorem wft_linksOk {T : Type} [LinearOrder T] {t : Tree T} {S : BT T}
    (hwf : WFT t S) : linksOk t.data = true := by
  rw [linksOk, List.all_eq_true]
  intro s hs
  cases s with
  | none => rfl
  | some nd =>
    obtain ⟨j, hj⟩ := List.mem_iff_get?.1 hs
    have hjn : getNode t.data j = some nd := by
      unfold getNode
      rw [hj]
      rfl
    obtain ⟨l, r, hl, hr, _, _, _, _, _, _, _⟩ := wft_slot_subtree hwf hjn
    rw [Bool.and_eq_true]
    constructor
    · cases hcl : nd.left with
      | none => rfl
      | some k =>
        rw [hcl] at hl
        obtain ⟨_, _, knd, _, _, _, hkn, _, _⟩ := decode_some_inv hl
        simp [hkn]
    · cases hcr : nd.right with
      | none => rfl
      | some k =>
        rw [hcr] at hr
        obtain ⟨_, _, knd, _, _, _, hkn, _, _⟩ := decode_some_inv hr
        simp [hkn]

/-- A well-formed tree satisfies the executable root check. -/
theorem wft_rootOk {T : Type} [LinearOrder T] {t : Tree T} {S : BT T}
    (hwf : WFT t S) : rootOk t = true := by
  rw [rootOk]
  by_cases hsz : t.size = 0
  · simp [hsz]
  · have hdec := hwf.hdec
    rw [rootLink, if_neg hsz] at hdec
    cases hS : S with
    | leaf =>
      rw [hS] at hdec
      exact absurd hdec decode_some_ne_leaf
    | node l i nd r =>
      rw [hS] at hdec
      obtain ⟨_, _, nd0, _, _, heq, hn0, _, _⟩ := decode_some_inv hdec
      simp [hsz, hn0]

/-- A well-formed tree satisfies the executable free-list check. -/
theorem wft_freeOk {T : Type} [LinearOrder T] [DecidableEq T]
    {t : Tree T} {S : BT T} (hwf : WFT t S) : freeOk t = true := by
  rw [freeOk, Bool.and_eq_true, Bool.and_eq_true]
  refine ⟨⟨by simp [hwf.hfreend], ?_⟩, ?_⟩
  · rw [List.all_eq_true]
    intro j hj
    rw [decide_eq_true_eq]
    exact hwf.hfreev j hj
  · rw [List.all_eq_true]
    intro j hj
    rw [List.mem_range] at hj
    by_cases hv : t.data.get? j = some none
    · rw [Bool.or_eq_true]
      refine Or.inr ?_
      rw [decide_eq_true_eq]
      exact hwf.hfreec j hj hv
    · rw [Bool.or_eq_true]
      refine Or.inl ?_
      rw [Bool.not_eq_true']
      rw [decide_eq_false_iff_not]
      exact hv

theorem crumbsOk_mono {T : Type} {d : List (Option (Node T))} {F F' : Nat} :
    ∀ {cs : List (Crumb T)} {fl : Option Nat} {r0 : Nat}, crumbsOk d F cs fl r0 →
      F ≤ F' → crumbsOk d F' cs fl r0 := by
  intro cs
  induction cs with
  | nil => intro fl r0 h _; exact h
  | cons c cs ih =>
    intro fl r0 h hle
    obtain ⟨hcn, hside, hsib, hrest⟩ := h
    refine ⟨hcn, ?_, hsib, ih hrest hle⟩
    cases hb : c.isL with
    | true =>
      rw [hb] at hside
      rw [if_pos rfl] at hside ⊢
      exact ⟨hside.1, decode_mono hside.2 hle⟩
    | false =>
      rw [hb] at hside
      rw [if_neg (by simp)] at hside ⊢
      exact ⟨hside.1, decode_mono hside.2 hle⟩

theorem vecPop_decomp {α : Type} {l : List α} {x : α} {rest : List α}
    (h : vecPop l = some (x, rest)) : l = rest ++ [x] := by
  unfold vecPop at h
  cases hg : l.getLast? with
  | none => rw [hg] at h; exact Option.noConfusion h
  | some y =>
    rw [hg] at h
    obtain ⟨h1, h2⟩ := Prod.mk.inj (Option.some.inj h)
    have hne : l ≠ [] := by
      intro he
      rw [he] at hg
      exact Option.noConfusion hg
    have hgl : l.getLast hne = y := by
      rw [List.getLast?_eq_getLast l hne] at hg
      exact Option.some.inj hg
    rw [← h2, ← h1, ← hgl]
    exact (List.dropLast_append_getLast hne).symm

theorem occCount_eq_length_of_novacant {T : Type} :
    ∀ (d : List (Option (Node T))),
      (∀ j, j < d.length → d.get? j ≠ some none) → occCount d = d.length := by
  intro d
  induction d with
  | nil => intro _; rfl
  | cons x rest ih =>
    intro hnov
    cases x with
    | none =>
      exact absurd (by rfl : ((none :: rest : List (Option (Node T))).get? 0) = some none)
        (hnov 0 (by simp))
    | some nd =>
      rw [occCount, List.length_cons, ih]
      intro j hj
      exact hnov (j + 1) (by simpa using hj)

theorem sameVals_vacant {T : Type} {d d' : List (Option (Node T))}
    (h : sameVals d d') (j : Nat) : d.get? j = some none ↔ d'.get? j = some none := by
  have hs := h.2 j
  unfold slotVal at hs
  cases hg : d.get? j with
  | none =>
    cases hg' : d'.get? j with
    | none => simp
    | some s' =>
      rw [hg, hg'] at hs
      exact absurd hs (by simp)
  | some s =>
    cases hg' : d'.get? j with
    | none =>
      rw [hg, hg'] at hs
      exact absurd hs (by simp)
    | some s' =>
      rw [hg, hg'] at hs
      have hmap : s.map (fun nd => nd.value) = s'.map (fun nd => nd.value) :=
        Option.some.inj hs
      cases s with
      | none =>
        cases s' with
        | none => simp
        | some nd' => exact absurd hmap (by simp)
      | some nd =>
        cases s' with
        | none => exact absurd hmap (by simp)
        | some nd' => simp

/-- Characterization of `insert_helper` on a well-kept arena: it
installs a fresh node in a previously vacant (or brand-new) slot and
touches nothing else; the free list shrinks by exactly that slot. -/
theorem insert_helper_spec {T : Type} {t : Tree T} {v : T}
    {ii0 : Option Nat} {t1 : Tree T}
    (hfreev : ∀ j ∈ t.free, t.data.get? j = some none)
    (hfreend : t.free.Nodup)
    (hfreec : ∀ j, j < t.data.length → t.data.get? j = some none → j ∈ t.free)
    (hocc : occCount t.data = t.size)
    (h : t.insert_helper v = some (ii0, t1)) :
    ∃ n0 : Nat,
      ii0 = some n0 ∧
      getNode t.data n0 = none ∧
      n0 < t1.data.length ∧
      getNode t1.data n0 = some (Node.new v) ∧
      (∀ k, k ≠ n0 → getNode t1.data k = getNode t.data k) ∧
      (∀ k, k ≠ n0 → t1.data.get? k = t.data.get? k) ∧
      t.data.length ≤ t1.data.length ∧ t1.data.length ≤ t.data.length + 1 ∧
      occCount t1.data = occCount t.data + 1 ∧
      (tightArena t.data = true → tightArena t1.data = true) ∧
      (∀ j ∈ t1.free, j ≠ n0 ∧ j ∈ t.free) ∧
      t1.free.Nodup ∧
      (∀ j, j < t1.data.length → t1.data.get? j = some none → j ∈ t1.free) ∧
      t1.root = t.root ∧ t1.size = t.size := by
  unfold Tree.insert_helper at h
  cases hvp : vecPop t.free with
  | some p =>
    obtain ⟨n0, rest⟩ := p
    rw [hvp] at h
    dsimp only at h
    have hmem : n0 ∈ t.free := vecPop_mem hvp
    have hvac : t.data.get? n0 = some none := hfreev n0 hmem
    rw [hvac] at h
    dsimp only at h
    obtain ⟨e1, e2⟩ := Prod.mk.inj (Option.some.inj h)
    have hn0lt : n0 < t.data.length := get?_lt hvac
    have hdecf : t.free = rest ++ [n0] := vecPop_decomp hvp
    have hfr : rest.Nodup ∧ n0 ∉ rest := by
      rw [hdecf] at hfreend
      obtain ⟨h1, h2, h3⟩ := List.nodup_append.1 hfreend
      exact ⟨h1, fun hm => h3 hm (List.mem_cons_self _ _)⟩
    refine ⟨n0, e1.symm, ?_, ?_, ?_, ?_, ?_, ?_, ?_, ?_, ?_, ?_, ?_, ?_, ?_, ?_⟩
    · unfold getNode
      rw [hvac]
      rfl
    · rw [← e2]
      simpa using hn0lt
    · rw [← e2]
      exact getNode_set_self hn0lt _
    · intro k hk
      rw [← e2]
      exact getNode_set_ne (fun e => hk e.symm) _
    · intro k hk
      rw [← e2]
      exact List.get?_set_ne _ _ (fun e => hk e.symm)
    · rw [← e2]
      simp
    · rw [← e2]
      simp
    · rw [← e2]
      show occCount (t.data.set n0 (some (Node.new v))) = occCount t.data + 1
      have hset := occCount_set t.data n0 (some (Node.new v)) hn0lt
      rw [hvac] at hset
      simp only [occB] at hset
      omega
    · intro ht
      rw [← e2]
      exact tight_set_some _ ht
    · intro j hj
      rw [← e2] at hj
      refine ⟨fun e => hfr.2 (e ▸ hj), ?_⟩
      rw [hdecf]
      exact List.mem_append_left _ hj
    · rw [← e2]
      exact hfr.1
    · intro j hjlt hjv
      rw [← e2] at hjlt hjv ⊢
      simp only [List.length_set] at hjlt
      have hjn0 : j ≠ n0 := by
        intro e
        rw [e, List.get?_set_eq_of_lt _ hn0lt] at hjv
        exact Option.noConfusion (Option.some.inj hjv)
      rw [List.get?_set_ne _ _ (fun e => hjn0 e.symm)] at hjv
      have := hfreec j hjlt hjv
      rw [hdecf] at this
      rcases List.mem_append.1 this with hm | hm
      · exact hm
      · rcases List.mem_cons.1 hm with rfl | hm
        · exact absurd rfl hjn0
        · exact absurd hm (List.not_mem_nil _)
    · rw [← e2]
    · rw [← e2]
  | none =>
    rw [hvp] at h
    dsimp only at h
    have hfnil : t.free = [] := vecPop_eq_none hvp
    obtain ⟨e1, e2⟩ := Prod.mk.inj (Option.some.inj h)
    have hnov : ∀ j, j < t.data.length → t.data.get? j ≠ some none := by
      intro j hj hv
      have := hfreec j hj hv
      rw [hfnil] at this
      exact absurd this (List.not_mem_nil _)
    have hoccfull : occCount t.data = t.data.length :=
      occCount_eq_length_of_novacant t.data hnov
    refine ⟨t.data.length, ?_, ?_, ?_, ?_, ?_, ?_, ?_, ?_, ?_, ?_, ?_, ?_, ?_, ?_, ?_⟩
    · rw [← e1, Tree.len, ← hocc, hoccfull]
    · unfold getNode
      rw [List.get?_eq_none.2 (le_refl _)]
      rfl
    · rw [← e2]
      simp
    · rw [← e2]
      unfold getNode
      rw [List.get?_concat_length]
      rfl
    · intro k hk
      rw [← e2]
      unfold getNode
      rcases Nat.lt_trichotomy k t.data.length with hlt | heq | hgt
      · rw [List.get?_append hlt]
      · exact absurd heq hk
      · rw [List.get?_eq_none.2 (by simp; omega), List.get?_eq_none.2 (by omega)]
    · intro k hk
      rw [← e2]
      rcases Nat.lt_trichotomy k t.data.length with hlt | heq | hgt
      · rw [List.get?_append hlt]
      · exact absurd heq hk
      · rw [List.get?_eq_none.2 (by simp; omega), List.get?_eq_none.2 (by omega)]
    · rw [← e2]
      simp
    · rw [← e2]
      simp
    · rw [← e2]
      rw [occCount_append]
      rfl
    · intro _
      rw [← e2]
      exact tight_concat _ _
    · intro j hj
      rw [← e2] at hj
      rw [hfnil] at hj
      exact absurd hj (List.not_mem_nil _)
    · rw [← e2]
      rw [hfnil]
      exact List.nodup_nil
    · intro j hjlt hjv
      rw [← e2] at hjlt hjv
      simp only [List.length_append, List.length_cons, List.length_nil] at hjlt
      rcases Nat.lt_trichotomy j t.data.length with hlt | heq | hgt
      · rw [List.get?_append hlt] at hjv
        exact absurd hjv (hnov j hlt)
      · rw [heq, List.get?_concat_length] at hjv
        exact Option.noConfusion (Option.some.inj hjv)
      · omega
    · rw [← e2]
    · rw [← e2]

/-- The mutating tail of `insert` when the new value belongs below the
left (absent) child of the final search node: allocation, parent patch,
and balancing pass preserve well-formedness and grow the tree by one. -/
theorem insert_mut_left {T : Type} [LinearOrder T] [DecidableEq T]
    {t : Tree T} {S : BT T} {v : T} {cs1 : List (Crumb T)} {pk : Nat}
    {pn : Node T} {PR : BT T} {ii0 : Option Nat} {t1 : Tree T}
    {d2 : List (Option (Node T))} {visited : List Nat} {t2 : Tree T}
    (hlen : t.data.length ≤ 124)
    (hwf : WFT t S)
    (ho1 : getNode t.data pk = some pn)
    (ho3 : decode t.data (t.data.length + 1) pn.right = some PR)
    (ho5 : PR.storedOk)
    (ho7 : crumbsOk t.data (t.data.length + 1) cs1 (some pk) t.root)
    (ho9 : plugC cs1 (BT.node BT.leaf pk pn PR) = S)
    (ho10 : withinCtx cs1 v)
    (hvp : v < pn.value)
    (hvis : visited.reverse = pk :: cs1.map Crumb.i)
    (hih : t.insert_helper v = some (ii0, t1))
    (hd2 : modifyNode t1.data pk (fun nd => { nd with left := ii0 }) = some d2)
    (huab : Tree.update_and_balance { t1 with data := d2 } visited = some t2) :
    ∃ S' : BT T, WFT ({ t2 with size := t2.size + 1 }) S' ∧
      t2.data.length ≤ t.data.length + 1 ∧ t2.size + 1 = t.size + 1 := by
  obtain ⟨n0, hii0, hfresh, hn0lt, hn0new, hfr1, hfr1g, hlenL, hlenU, hocc1,
    htight1, hfree1v, hfree1nd, hfree1c, hroot1, hsize1⟩ :=
    insert_helper_spec hwf.hfreev hwf.hfreend hwf.hfreec hwf.hocc hih
  have hfreshS : n0 ∉ S.idxs := by
    intro hm
    obtain ⟨nd, hnd⟩ := decode_idxs_occupied hwf.hdec n0 hm
    rw [hfresh] at hnd
    exact Option.noConfusion hnd
  have hpermS : S.idxs.Perm (ctxIdxs cs1 ++ (BT.node BT.leaf pk pn PR).idxs) := by
    rw [← ho9]
    exact plugC_idxs_perm cs1 _
  have hfocidx : (BT.node BT.leaf pk pn PR).idxs = pk :: PR.idxs := by
    simp [BT.idxs]
  have hnodup2 : (ctxIdxs cs1 ++ (pk :: PR.idxs)).Nodup := by
    rw [← hfocidx]
    exact hpermS.nodup hwf.hnodup
  obtain ⟨hctxn, hfocn, hdisj⟩ := List.nodup_append.1 hnodup2
  obtain ⟨hpkPR, hPRn⟩ := List.nodup_cons.1 hfocn
  have hmemS : ∀ k, k ∈ ctxIdxs cs1 ++ (pk :: PR.idxs) → k ∈ S.idxs := by
    intro k hk
    rw [hpermS.mem_iff, hfocidx]
    exact hk
  have hne_n0 : ∀ k, k ∈ ctxIdxs cs1 ++ (pk :: PR.idxs) → k ≠ n0 :=
    fun k hk e => hfreshS (by rw [← e]; exact hmemS k hk)
  have hpkn0 : pk ≠ n0 :=
    hne_n0 pk (List.mem_append_right _ (List.mem_cons_self _ _))
  have hpk1 : getNode t1.data pk = some pn := by
    rw [hfr1 pk hpkn0]
    exact ho1
  have hpklt1 : pk < t1.data.length := getNode_lt hpk1
  rw [hii0] at hd2
  rw [modifyNode_of_get hpk1] at hd2
  obtain rfl : t1.data.set pk (some { pn with left := some n0 }) = d2 :=
    Option.some.inj hd2
  have hn0d2 : getNode (t1.data.set pk (some { pn with left := some n0 })) n0 =
      some (Node.new v) := by
    rw [getNode_set_ne hpkn0 _]
    exact hn0new
  have hpkd2 : getNode (t1.data.set pk (some { pn with left := some n0 })) pk =
      some { pn with left := some n0 } := getNode_set_self hpklt1 _
  have hagree : ∀ k, k ∈ ctxIdxs cs1 ++ (pk :: PR.idxs) → k ≠ pk →
      getNode (t1.data.set pk (some { pn with left := some n0 })) k =
        getNode t.data k := by
    intro k hk hkpk
    rw [getNode_set_ne (fun e => hkpk e.symm) _]
    exact hfr1 k (hne_n0 k hk)
  have hLnew : decode (t1.data.set pk (some { pn with left := some n0 }))
      (t.data.length + 2) (some n0) =
      some (BT.node BT.leaf n0 (Node.new v) BT.leaf) :=
    decode_build hn0d2 (decode_none _ _) (decode_none _ _)
  have hRd2 : decode (t1.data.set pk (some { pn with left := some n0 }))
      (t.data.length + 2) pn.right = some PR := by
    refine decode_agree (decode_mono ho3 (by omega)) ?_
    intro j hj
    exact hagree j (List.mem_append_right _ (List.mem_cons_of_mem _ hj))
      (fun e => hpkPR (by rw [← e]; exact hj))
  have hcs2 : crumbsOk (t1.data.set pk (some { pn with left := some n0 }))
      (t.data.length + 2) cs1 (some pk) t.root := by
    refine crumbsOk_agree (crumbsOk_mono ho7 (by omega)) ?_
    intro k hk
    refine hagree k (List.mem_append_left _ hk) ?_
    intro e
    exact hdisj hk (by rw [e]; exact List.mem_cons_self _ _)
  have hnewidx : (BT.node (BT.node BT.leaf n0 (Node.new v) BT.leaf) pk
      { pn with left := some n0 } PR).idxs = n0 :: pk :: PR.idxs := by
    simp [BT.idxs]
  have hnodup3 : (ctxIdxs cs1 ++ (BT.node (BT.node BT.leaf n0 (Node.new v) BT.leaf)
      pk { pn with left := some n0 } PR).idxs).Nodup := by
    rw [hnewidx]
    refine List.nodup_append.2 ⟨hctxn, ?_, ?_⟩
    · refine List.nodup_cons.2 ⟨?_, hfocn⟩
      intro hm
      exact hne_n0 n0 (List.mem_append_right _ hm) rfl
    · intro a ha hm
      rcases List.mem_cons.1 hm with rfl | hm
      · exact hne_n0 a (List.mem_append_left _ ha) rfl
      · exact hdisj ha hm
  unfold Tree.update_and_balance at huab
  rw [hvis] at huab
  obtain ⟨hsv, hfree2, hsize2⟩ := uabGo_shape _ _ _ huab
  have hts1 : t2.size = t1.size := hsize2
  have hts : t2.size = t.size := hts1.trans hsize1
  have htf : t2.free = t1.free := hfree2
  obtain ⟨S', hdec', hst', hv', hi', hlen', hfr', hfree', hsize'⟩ :=
    uabGo_correct cs1
      { t1 with data := t1.data.set pk (some { pn with left := some n0 }) }
      pk { pn with left := some n0 }
      (BT.node BT.leaf n0 (Node.new v) BT.leaf) PR t.root t2
      (by show (t1.data.set pk (some { pn with left := some n0 })).length ≤ 125
          rw [List.length_set]; omega)
      (by show (t1.data.set pk (some { pn with left := some n0 })).length <
            t.data.length + 2
          rw [List.length_set]; omega)
      hpkd2 hLnew hRd2
      (⟨by norm_num [Node.new, BT.hgt], trivial, trivial⟩ :
        (BT.node BT.leaf n0 (Node.new v) BT.leaf).storedOk)
      ho5 hcs2 hnodup3 huab
  have hlent2 : t2.data.length = t1.data.length := by
    rw [hlen']
    simp
  have hnodupS' : S'.idxs.Nodup := by
    rw [hi']
    exact (plugC_idxs_perm cs1 _).symm.nodup hnodup3
  have hordplug : (plugC cs1 (BT.node (BT.node BT.leaf n0 (Node.new v) BT.leaf) pk
      { pn with left := some n0 } PR)).Ordered := by
    obtain ⟨hfoc_ord, hfoc_wc, hctxOk⟩ := (plugC_ordered_iff cs1
      (BT.node BT.leaf pk pn PR)).1 (by rw [ho9]; exact hwf.hord)
    refine (plugC_ordered_iff cs1 _).2 ⟨?_, ?_, hctxOk⟩
    · refine ⟨?_, hfoc_ord.2.1, ⟨?_, ?_, trivial, trivial⟩, hfoc_ord.2.2.2⟩
      · intro x hx
        simp [BT.vals, Node.new] at hx
        rw [hx]
        exact hvp
      · intro x hx
        rw [BT.vals] at hx
        exact absurd hx (List.not_mem_nil _)
      · intro x hx
        rw [BT.vals] at hx
        exact absurd hx (List.not_mem_nil _)
    · intro u hu
      simp [BT.vals, Node.new] at hu
      rcases hu with rfl | rfl | hu
      · exact ho10
      · exact hfoc_wc _ (by simp [BT.vals])
      · exact hfoc_wc u (by simp [BT.vals, hu])
  have hordS' : S'.Ordered := by
    rw [ordered_iff_pairwise, hv']
    exact (ordered_iff_pairwise _).1 hordplug
  have hcntS' : S'.cnt = t.size + 1 := by
    have h1 : S'.idxs.length = (ctxIdxs cs1).length + (n0 :: pk :: PR.idxs).length := by
      rw [hi', (plugC_idxs_perm cs1 _).length_eq, List.length_append, hnewidx]
    have h2 : S.idxs.length = (ctxIdxs cs1).length + (pk :: PR.idxs).length := by
      rw [hpermS.length_eq, List.length_append, hfocidx]
    have h3 := cnt_eq_idxs_length S'
    have h4 := cnt_eq_idxs_length S
    have h5 := hwf.hcnt
    simp only [List.length_cons] at h1 h2
    omega
  have hoccd2 : occCount (t1.data.set pk (some { pn with left := some n0 })) =
      occCount t1.data := by
    have hset := occCount_set t1.data pk (some { pn with left := some n0 }) hpklt1
    rw [getNode_get? hpk1] at hset
    simp only [occB] at hset
    omega
  refine ⟨S', ⟨?_, hst', hordS', hnodupS', ?_, ?_, ?_, ?_, ?_, ?_, ?_⟩, ?_, ?_⟩
  · rw [rootLink, if_neg (by simp)]
    show decode t2.data (t2.data.length + 1) (some t2.root) = some S'
    refine decode_depth_le hdec' ?_
    have hd := depth_le_len hdec' hnodupS'
    omega
  · show S'.cnt = t2.size + 1
    rw [hcntS', hts]
  · show occCount t2.data = t2.size + 1
    rw [← occCount_eq_of_sameVals hsv]
    show occCount (t1.data.set pk (some { pn with left := some n0 })) = t2.size + 1
    rw [hoccd2, hocc1, hwf.hocc, hts]
  · show tightArena t2.data = true
    rw [← tight_eq_of_sameVals hsv]
    show tightArena (t1.data.set pk (some { pn with left := some n0 })) = true
    exact tight_set_some _ (htight1 hwf.htight)
  · intro j hj
    show t2.data.get? j = some none
    have hj0 : j ∈ t2.free := hj
    rw [htf] at hj0
    have hj1 := hfree1v j hj0
    have hvac1 : t1.data.get? j = some none := by
      rw [hfr1g j hj1.1]
      exact hwf.hfreev j hj1.2
    have hjpk : j ≠ pk := by
      intro e
      rw [e, getNode_get? hpk1] at hvac1
      exact Option.noConfusion (Option.some.inj hvac1)
    have hvacd2 : (t1.data.set pk (some { pn with left := some n0 })).get? j =
        some none := by
      rw [List.get?_set_ne _ _ (fun e => hjpk e.symm)]
      exact hvac1
    exact (sameVals_vacant hsv j).1 hvacd2
  · show t2.free.Nodup
    rw [htf]
    exact hfree1nd
  · intro j hjlt hjv
    show j ∈ t2.free
    rw [htf]
    have hjv0 : t2.data.get? j = some none := hjv
    have hvacd2 : (t1.data.set pk (some { pn with left := some n0 })).get? j =
        some none := (sameVals_vacant hsv j).2 hjv0
    have hjpk : j ≠ pk := by
      intro e
      rw [e, List.get?_set_eq_of_lt _ hpklt1] at hvacd2
      exact Option.noConfusion (Option.some.inj hvacd2)
    have hvac1 : t1.data.get? j = some none := by
      rw [List.get?_set_ne _ _ (fun e => hjpk e.symm)] at hvacd2
      exact hvacd2
    refine hfree1c j ?_ hvac1
    have hjlt0 : j < t2.data.length := hjlt
    rw [hlent2] at hjlt0
    exact hjlt0
  · intro h0
    simp at h0
  · rw [hlent2]
    exact hlenU
  · omega

/-- Mirror of `insert_mut_left` for a new value that belongs below the
right (absent) child of the final search node. -/
theorem insert_mut_right {T : Type} [LinearOrder T] [DecidableEq T]
    {t : Tree T} {S : BT T} {v : T} {cs1 : List (Crumb T)} {pk : Nat}
    {pn : Node T} {PL : BT T} {ii0 : Option Nat} {t1 : Tree T}
    {d2 : List (Option (Node T))} {visited : List Nat} {t2 : Tree T}
    (hlen : t.data.length ≤ 124)
    (hwf : WFT t S)
    (ho1 : getNode t.data pk = some pn)
    (ho3 : decode t.data (t.data.length + 1) pn.left = some PL)
    (ho5 : PL.storedOk)
    (ho7 : crumbsOk t.data (t.data.length + 1) cs1 (some pk) t.root)
    (ho9 : plugC cs1 (BT.node PL pk pn BT.leaf) = S)
    (ho10 : withinCtx cs1 v)
    (hvp : pn.value < v)
    (hvis : visited.reverse = pk :: cs1.map Crumb.i)
    (hih : t.insert_helper v = some (ii0, t1))
    (hd2 : modifyNode t1.data pk (fun nd => { nd with right := ii0 }) = some d2)
    (huab : Tree.update_and_balance { t1 with data := d2 } visited = some t2) :
    ∃ S' : BT T, WFT ({ t2 with size := t2.size + 1 }) S' ∧
      t2.data.length ≤ t.data.length + 1 ∧ t2.size + 1 = t.size + 1 := by
  obtain ⟨n0, hii0, hfresh, hn0lt, hn0new, hfr1, hfr1g, hlenL, hlenU, hocc1,
    htight1, hfree1v, hfree1nd, hfree1c, hroot1, hsize1⟩ :=
    insert_helper_spec hwf.hfreev hwf.hfreend hwf.hfreec hwf.hocc hih
  have hfreshS : n0 ∉ S.idxs := by
    intro hm
    obtain ⟨nd, hnd⟩ := decode_idxs_occupied hwf.hdec n0 hm
    rw [hfresh] at hnd
    exact Option.noConfusion hnd
  have hpermS : S.idxs.Perm (ctxIdxs cs1 ++ (BT.node PL pk pn BT.leaf).idxs) := by
    rw [← ho9]
    exact plugC_idxs_perm cs1 _
  have hfocidx : (BT.node PL pk pn BT.leaf).idxs = PL.idxs ++ [pk] := by
    simp [BT.idxs]
  have hnodup2 : (ctxIdxs cs1 ++ (PL.idxs ++ [pk])).Nodup := by
    rw [← hfocidx]
    exact hpermS.nodup hwf.hnodup
  obtain ⟨hctxn, hfocn, hdisj⟩ := List.nodup_append.1 hnodup2
  obtain ⟨hPLn, _, hd2'⟩ := List.nodup_append.1 hfocn
  have hpkPL : pk ∉ PL.idxs := fun hm => hd2' hm (List.mem_cons_self _ _)
  have hmemS : ∀ k, k ∈ ctxIdxs cs1 ++ (PL.idxs ++ [pk]) → k ∈ S.idxs := by
    intro k hk
    rw [hpermS.mem_iff, hfocidx]
    exact hk
  have hne_n0 : ∀ k, k ∈ ctxIdxs cs1 ++ (PL.idxs ++ [pk]) → k ≠ n0 :=
    fun k hk e => hfreshS (by rw [← e]; exact hmemS k hk)
  have hpkn0 : pk ≠ n0 :=
    hne_n0 pk (List.mem_append_right _ (List.mem_append_right _ (List.mem_cons_self _ _)))
  have hpk1 : getNode t1.data pk = some pn := by
    rw [hfr1 pk hpkn0]
    exact ho1
  have hpklt1 : pk < t1.data.length := getNode_lt hpk1
  rw [hii0] at hd2
  rw [modifyNode_of_get hpk1] at hd2
  obtain rfl : t1.data.set pk (some { pn with right := some n0 }) = d2 :=
    Option.some.inj hd2
  have hn0d2 : getNode (t1.data.set pk (some { pn with right := some n0 })) n0 =
      some (Node.new v) := by
    rw [getNode_set_ne hpkn0 _]
    exact hn0new
  have hpkd2 : getNode (t1.data.set pk (some { pn with right := some n0 })) pk =
      some { pn with right := some n0 } := getNode_set_self hpklt1 _
  have hagree : ∀ k, k ∈ ctxIdxs cs1 ++ (PL.idxs ++ [pk]) → k ≠ pk →
      getNode (t1.data.set pk (some { pn with right := some n0 })) k =
        getNode t.data k := by
    intro k hk hkpk
    rw [getNode_set_ne (fun e => hkpk e.symm) _]
    exact hfr1 k (hne_n0 k hk)
  have hRnew : decode (t1.data.set pk (some { pn with right := some n0 }))
      (t.data.length + 2) (some n0) =
      some (BT.node BT.leaf n0 (Node.new v) BT.leaf) :=
    decode_build hn0d2 (decode_none _ _) (decode_none _ _)
  have hLd2 : decode (t1.data.set pk (some { pn with right := some n0 }))
      (t.data.length + 2) pn.left = some PL := by
    refine decode_agree (decode_mono ho3 (by omega)) ?_
    intro j hj
    exact hagree j (List.mem_append_right _ (List.mem_append_left _ hj))
      (fun e => hpkPL (by rw [← e]; exact hj))
  have hcs2 : crumbsOk (t1.data.set pk (some { pn with right := some n0 }))
      (t.data.length + 2) cs1 (some pk) t.root := by
    refine crumbsOk_agree (crumbsOk_mono ho7 (by omega)) ?_
    intro k hk
    refine hagree k (List.mem_append_left _ hk) ?_
    intro e
    exact hdisj hk (by rw [e]; exact List.mem_append_right _ (List.mem_cons_self _ _))
  have hnewidx : (BT.node PL pk { pn with right := some n0 }
      (BT.node BT.leaf n0 (Node.new v) BT.leaf)).idxs = PL.idxs ++ [pk, n0] := by
    simp [BT.idxs]
  have hnodup3 : (ctxIdxs cs1 ++ (BT.node PL pk { pn with right := some n0 }
      (BT.node BT.leaf n0 (Node.new v) BT.leaf)).idxs).Nodup := by
    rw [hnewidx]
    refine List.nodup_append.2 ⟨hctxn, ?_, ?_⟩
    · refine List.nodup_append.2 ⟨hPLn, ?_, ?_⟩
      · refine List.nodup_cons.2 ⟨?_, List.nodup_singleton _⟩
        intro hm
        rcases List.mem_singleton.1 hm with rfl
        exact hpkn0 rfl
      · intro a ha hm
        rcases List.mem_cons.1 hm with rfl | hm
        · exact hpkPL ha
        · rcases List.mem_singleton.1 hm with rfl
          exact hne_n0 a (List.mem_append_right _ (List.mem_append_left _ ha)) rfl
    · intro a ha hm
      rcases List.mem_append.1 hm with hm | hm
      · exact hdisj ha (List.mem_append_left _ hm)
      · rcases List.mem_cons.1 hm with rfl | hm
        · exact hdisj ha (List.mem_append_right _ (List.mem_cons_self _ _))
        · rcases List.mem_singleton.1 hm with rfl
          exact hne_n0 a (List.mem_append_left _ ha) rfl
  unfold Tree.update_and_balance at huab
  rw [hvis] at huab
  obtain ⟨hsv, hfree2, hsize2⟩ := uabGo_shape _ _ _ huab
  have hts1 : t2.size = t1.size := hsize2
  have hts : t2.size = t.size := hts1.trans hsize1
  have htf : t2.free = t1.free := hfree2
  obtain ⟨S', hdec', hst', hv', hi', hlen', hfr', hfree', hsize'⟩ :=
    uabGo_correct cs1
      { t1 with data := t1.data.set pk (some { pn with right := some n0 }) }
      pk { pn with right := some n0 }
      PL (BT.node BT.leaf n0 (Node.new v) BT.leaf) t.root t2
      (by show (t1.data.set pk (some { pn with right := some n0 })).length ≤ 125
          rw [List.length_set]; omega)
      (by show (t1.data.set pk (some { pn with right := some n0 })).length <
            t.data.length + 2
          rw [List.length_set]; omega)
      hpkd2 hLd2 hRnew ho5
      (⟨by norm_num [Node.new, BT.hgt], trivial, trivial⟩ :
        (BT.node BT.leaf n0 (Node.new v) BT.leaf).storedOk)
      hcs2 hnodup3 huab
  have hlent2 : t2.data.length = t1.data.length := by
    rw [hlen']
    simp
  have hnodupS' : S'.idxs.Nodup := by
    rw [hi']
    exact (plugC_idxs_perm cs1 _).symm.nodup hnodup3
  have hordplug : (plugC cs1 (BT.node PL pk { pn with right := some n0 }
      (BT.node BT.leaf n0 (Node.new v) BT.leaf))).Ordered := by
    obtain ⟨hfoc_ord, hfoc_wc, hctxOk⟩ := (plugC_ordered_iff cs1
      (BT.node PL pk pn BT.leaf)).1 (by rw [ho9]; exact hwf.hord)
    refine (plugC_ordered_iff cs1 _).2 ⟨?_, ?_, hctxOk⟩
    · refine ⟨hfoc_ord.1, ?_, hfoc_ord.2.2.1, ⟨?_, ?_, trivial, trivial⟩⟩
      · intro x hx
        simp [BT.vals, Node.new] at hx
        rw [hx]
        exact hvp
      · intro x hx
        rw [BT.vals] at hx
        exact absurd hx (List.not_mem_nil _)
      · intro x hx
        rw [BT.vals] at hx
        exact absurd hx (List.not_mem_nil _)
    · intro u hu
      simp [BT.vals, Node.new] at hu
      rcases hu with hu | rfl | rfl
      · exact hfoc_wc u (by simp [BT.vals, hu])
      · exact hfoc_wc _ (by simp [BT.vals])
      · exact ho10
  have hordS' : S'.Ordered := by
    rw [ordered_iff_pairwise, hv']
    exact (ordered_iff_pairwise _).1 hordplug
  have hcntS' : S'.cnt = t.size + 1 := by
    have h1 : S'.idxs.length = (ctxIdxs cs1).length + (PL.idxs ++ [pk, n0]).length := by
      rw [hi', (plugC_idxs_perm cs1 _).length_eq, List.length_append, hnewidx]
    have h2 : S.idxs.length = (ctxIdxs cs1).length + (PL.idxs ++ [pk]).length := by
      rw [hpermS.length_eq, List.length_append, hfocidx]
    have h3 := cnt_eq_idxs_length S'
    have h4 := cnt_eq_idxs_length S
    have h5 := hwf.hcnt
    simp only [List.length_append, List.length_cons, List.length_nil] at h1 h2
    omega
  have hoccd2 : occCount (t1.data.set pk (some { pn with right := some n0 })) =
      occCount t1.data := by
    have hset := occCount_set t1.data pk (some { pn with right := some n0 }) hpklt1
    rw [getNode_get? hpk1] at hset
    simp only [occB] at hset
    omega
  refine ⟨S', ⟨?_, hst', hordS', hnodupS', ?_, ?_, ?_, ?_, ?_, ?_, ?_⟩, ?_, ?_⟩
  · rw [rootLink, if_neg (by simp)]
    show decode t2.data (t2.data.length + 1) (some t2.root) = some S'
    refine decode_depth_le hdec' ?_
    have hd := depth_le_len hdec' hnodupS'
    omega
  · show S'.cnt = t2.size + 1
    rw [hcntS', hts]
  · show occCount t2.data = t2.size + 1
    rw [← occCount_eq_of_sameVals hsv]
    show occCount (t1.data.set pk (some { pn with right := some n0 })) = t2.size + 1
    rw [hoccd2, hocc1, hwf.hocc, hts]
  · show tightArena t2.data = true
    rw [← tight_eq_of_sameVals hsv]
    show tightArena (t1.data.set pk (some { pn with right := some n0 })) = true
    exact tight_set_some _ (htight1 hwf.htight)
  · intro j hj
    show t2.data.get? j = some none
    have hj0 : j ∈ t2.free := hj
    rw [htf] at hj0
    have hj1 := hfree1v j hj0
    have hvac1 : t1.data.get? j = some none := by
      rw [hfr1g j hj1.1]
      exact hwf.hfreev j hj1.2
    have hjpk : j ≠ pk := by
      intro e
      rw [e, getNode_get? hpk1] at hvac1
      exact Option.noConfusion (Option.some.inj hvac1)
    have hvacd2 : (t1.data.set pk (some { pn with right := some n0 })).get? j =
        some none := by
      rw [List.get?_set_ne _ _ (fun e => hjpk e.symm)]
      exact hvac1
    exact (sameVals_vacant hsv j).1 hvacd2
  · show t2.free.Nodup
    rw [htf]
    exact hfree1nd
  · intro j hjlt hjv
    show j ∈ t2.free
    rw [htf]
    have hjv0 : t2.data.get? j = some none := hjv
    have hvacd2 : (t1.data.set pk (some { pn with right := some n0 })).get? j =
        some none := (sameVals_vacant hsv j).2 hjv0
    have hjpk : j ≠ pk := by
      intro e
      rw [e, List.get?_set_eq_of_lt _ hpklt1] at hvacd2
      exact Option.noConfusion (Option.some.inj hvacd2)
    have hvac1 : t1.data.get? j = some none := by
      rw [List.get?_set_ne _ _ (fun e => hjpk e.symm)] at hvacd2
      exact hvacd2
    refine hfree1c j ?_ hvac1
    have hjlt0 : j < t2.data.length := hjlt
    rw [hlent2] at hjlt0
    exact hjlt0
  · intro h0
    simp at h0
  · rw [hlent2]
    exact hlenU
  · omega

theorem occCount_zero_all_none {T : Type} :
    ∀ {d : List (Option (Node T))}, occCount d = 0 → ∀ s ∈ d, s = none := by
  intro d
  induction d with
  | nil => intro _ s hs; exact absurd hs (List.not_mem_nil _)
  | cons x rest ih =>
    intro h s hs
    cases x with
    | none =>
      rcases List.mem_cons.1 hs with rfl | hs
      · rfl
      · exact ih (by rw [occCount] at h; exact h) s hs
    | some nd =>
      rw [occCount] at h
      omega

theorem arena_empty_of {T : Type} {d : List (Option (Node T))}
    (hocc : occCount d = 0) (htight : tightArena d = true) : d = [] := by
  cases hd : d with
  | nil => rfl
  | cons x rest =>
    exfalso
    have hne : d ≠ [] := by rw [hd]; exact List.cons_ne_nil _ _
    have hlast := List.getLast_mem hne
    have hnone : d.getLast hne = none :=
      occCount_zero_all_none hocc _ hlast
    have hgl : d.getLast? = some none := by
      rw [List.getLast?_eq_getLast d hne, hnone]
    rw [tightArena, hgl] at htight
    exact Bool.noConfusion htight

/-- `insert` preserves well-formedness: on a well-formed tree with room
for one more node, every completed insertion yields a well-formed tree,
and a reported non-insertion leaves the tree untouched. -/
theorem insert_wf {T : Type} [LinearOrder T] [DecidableEq T]
    {t : Tree T} {v : T} {ii : Option Nat} {t' : Tree T} {S : BT T}
    (hlen : t.data.length ≤ 124)
    (hwf : WFT t S)
    (h : t.insert v = some (ii, t')) :
    ∃ S' : BT T, WFT t' S' ∧ t'.data.length ≤ t.data.length + 1 ∧
      (ii = none → t' = t) := by
  unfold Tree.insert at h
  by_cases hsz : t.size = 0
  · rw [if_pos hsz] at h
    obtain ⟨e1, e2⟩ := Prod.mk.inj (Option.some.inj h)
    have hdnil : t.data = [] := arena_empty_of (by rw [hwf.hocc, hsz]) hwf.htight
    have hfnil : t.free = [] := by
      refine List.eq_nil_iff_forall_not_mem.2 ?_
      intro j hj
      have hv := hwf.hfreev j hj
      rw [hdnil] at hv
      simp at hv
    have hroot : t.root = 0 := hwf.hroot0 hsz
    subst e2
    refine ⟨BT.node BT.leaf 0 (Node.new v) BT.leaf,
      ⟨?_, ⟨by norm_num [Node.new, BT.hgt], trivial, trivial⟩,
        ⟨by simp [BT.vals], by simp [BT.vals], trivial, trivial⟩,
        by simp [BT.idxs], ?_, ?_, ?_, ?_, ?_, ?_, ?_⟩, ?_, ?_⟩
    · show decode (t.data ++ [some (Node.new v)])
        ((t.data ++ [some (Node.new v)]).length + 1)
        (rootLink { t with data := t.data ++ [some (Node.new v)], size := 1 }) =
        some (BT.node BT.leaf 0 (Node.new v) BT.leaf)
      rw [rootLink, if_neg (by simp), hdnil]
      show decode [some (Node.new v)] 2 (some t.root) =
        some (BT.node BT.leaf 0 (Node.new v) BT.leaf)
      rw [hroot]
      rfl
    · show (BT.node BT.leaf 0 (Node.new v) BT.leaf).cnt = 1
      rfl
    · show occCount (t.data ++ [some (Node.new v)]) = 1
      rw [hdnil]
      rfl
    · show tightArena (t.data ++ [some (Node.new v)]) = true
      exact tight_concat _ _
    · intro j hj
      rw [hfnil] at hj
      exact absurd hj (List.not_mem_nil _)
    · show t.free.Nodup
      rw [hfnil]
      exact List.nodup_nil
    · intro j hjlt hjv
      rw [hdnil] at hjlt hjv
      simp at hjlt
      rw [hjlt] at hjv
      simp at hjv
    · intro h0
      simp at h0
    · simp
    · intro hii
      rw [← e1] at hii
      exact Option.noConfusion hii
  · rw [if_neg hsz] at h
    simp only [bind, Option.bind_eq_some] at h
    obtain ⟨ch, hch, h⟩ := h
    have hdec0 : decode t.data (t.data.length + 1) (some t.root) = some S := by
      have hd := hwf.hdec
      rw [rootLink, if_neg hsz] at hd
      exact hd
    obtain ⟨f', L, rn, R, hf, hSeq, hrn, hL0, hR0⟩ := decode_some_inv hdec0
    have hf2 : f' = t.data.length := by omega
    subst hf2
    have hstored := hwf.hstored
    rw [hSeq] at hstored
    obtain ⟨hstr, hsL, hsR⟩ := hstored
    unfold Tree.contains_helper at hch
    simp only [bind, Option.bind_eq_some] at hch
    obtain ⟨cur, hcur, hch⟩ := hch
    have ecur : cur = rn := Option.some.inj (hcur.symm.trans hrn)
    rw [ecur] at hch
    by_cases hveq : v = rn.value
    · rw [if_pos hveq] at hch
      obtain rfl : (true, (none : Option (List Nat))) = ch := Option.some.inj hch
      dsimp only at h
      obtain ⟨e1, e2⟩ := Prod.mk.inj (Option.some.inj h)
      exact ⟨S, e2 ▸ hwf, by rw [← e2]; omega, fun _ => e2.symm⟩
    · rw [if_neg hveq] at hch
      obtain ⟨found, vis?⟩ := ch
      cases found with
      | true =>
        cases vis? with
        | none =>
          dsimp only at h
          obtain ⟨e1, e2⟩ := Prod.mk.inj (Option.some.inj h)
          exact ⟨S, e2 ▸ hwf, by rw [← e2]; omega, fun _ => e2.symm⟩
        | some vs =>
          dsimp only at h
          obtain ⟨e1, e2⟩ := Prod.mk.inj (Option.some.inj h)
          exact ⟨S, e2 ▸ hwf, by rw [← e2]; omega, fun _ => e2.symm⟩
      | false =>
        cases vis? with
        | none =>
          dsimp only at h
          obtain ⟨e1, e2⟩ := Prod.mk.inj (Option.some.inj h)
          exact ⟨S, e2 ▸ hwf, by rw [← e2]; omega, fun _ => e2.symm⟩
        | some visited =>
          dsimp only at h
          simp only [bind, Option.bind_eq_some] at h
          obtain ⟨pidx, hpidx, pn0, hpn0, h⟩ := h
          have hL1 : decode t.data (t.data.length + 1) rn.left = some L :=
            decode_mono hL0 (by omega)
          have hR1 : decode t.data (t.data.length + 1) rn.right = some R :=
            decode_mono hR0 (by omega)
          obtain ⟨cs1, pk, pn, PL, PR, o1, o2, o3, o4, o5, o6, o7, o8, o9, o10,
            o11, o12⟩ :=
            containsLoop_notfound (t.data.length + 1) t.root rn [t.root] [] L R
              t.root visited hch hrn hL1 hR1 hsL hsR hstr hveq rfl (by simp) trivial
          rw [List.append_nil] at o7 o8 o10
          rw [← hSeq] at o9
          have hpk : pidx = pk := by
            rw [List.getLast?_eq_head?_reverse, o8] at hpidx
            exact (Option.some.inj hpidx).symm
          subst hpk
          have hpne : pn0 = pn := Option.some.inj (hpn0.symm.trans o1)
          rw [hpne] at h
          by_cases hvp : v < pn.value
          · rw [if_pos hvp] at h
            rw [if_pos hvp] at o12
            rw [o12, decode_none] at o2
            obtain rfl : BT.leaf = PL := Option.some.inj o2
            simp only [bind, Option.bind_eq_some] at h
            obtain ⟨⟨ii0, t1⟩, hih, d2, hd2, t2, huab, hfin⟩ := h
            obtain ⟨e1, e2⟩ := Prod.mk.inj (Option.some.inj hfin)
            obtain ⟨S', hwf', hlen', hsz'⟩ :=
              insert_mut_left hlen hwf o1 o3 o5 o7 o9 o10 hvp o8 hih hd2 huab
            refine ⟨S', ?_, ?_, ?_⟩
            · rw [← e2]
              exact hwf'
            · rw [← e2]
              exact hlen'
            · intro hii
              obtain ⟨n0, hii0, _⟩ :=
                insert_helper_spec hwf.hfreev hwf.hfreend hwf.hfreec hwf.hocc hih
              rw [hii0] at e1
              rw [← e1] at hii
              exact Option.noConfusion hii
          · rw [if_neg hvp] at h
            have hgt : pn.value < v := by
              rcases lt_trichotomy v pn.value with h1 | h1 | h1
              · exact absurd h1 hvp
              · exact absurd h1 o11
              · exact h1
            rw [if_pos hgt] at h
            rw [if_neg hvp] at o12
            rw [o12, decode_none] at o3
            obtain rfl : BT.leaf = PR := Option.some.inj o3
            simp only [bind, Option.bind_eq_some] at h
            obtain ⟨⟨ii0, t1⟩, hih, d2, hd2, t2, huab, hfin⟩ := h
            obtain ⟨e1, e2⟩ := Prod.mk.inj (Option.some.inj hfin)
            obtain ⟨S', hwf', hlen', hsz'⟩ :=
              insert_mut_right hlen hwf o1 o2 o4 o7 o9 o10 hgt o8 hih hd2 huab
            refine ⟨S', ?_, ?_, ?_⟩
            · rw [← e2]
              exact hwf'
            · rw [← e2]
              exact hlen'
            · intro hii
              obtain ⟨n0, hii0, _⟩ :=
                insert_helper_spec hwf.hfreev hwf.hfreend hwf.hfreec hwf.hocc hih
              rw [hii0] at e1
              rw [← e1] at hii
              exact Option.noConfusion hii

theorem swapRemove_perm : ∀ (l : List Nat) (n : Nat) (x : Nat),
    l.getLast? = some x → n < l.length →
    (swapRemove l n).Perm (l.eraseIdx n) := by
  intro l
  induction l with
  | nil => intro n x _ hn; simp at hn
  | cons a l ih =>
    intro n x hgl hn
    cases l with
    | nil =>
      obtain rfl : n = 0 := by simp at hn; omega
      obtain rfl : x = a := by simpa using hgl.symm
      unfold swapRemove
      rw [hgl]
      simp [List.eraseIdx]
    | cons b l' =>
      rw [List.getLast?_cons_cons] at hgl
      cases n with
      | zero =>
        unfold swapRemove
        rw [List.getLast?_cons_cons, hgl]
        show ((x :: b :: l').dropLast).Perm ((a :: b :: l').eraseIdx 0)
        rw [List.dropLast_cons_of_ne_nil (List.cons_ne_nil _ _)]
        show (x :: (b :: l').dropLast).Perm (b :: l')
        have hne : (b :: l') ≠ [] := List.cons_ne_nil _ _
        have hdecomp : (b :: l').dropLast ++ [x] = b :: l' := by
          have hgl2 : (b :: l').getLast hne = x := by
            rw [List.getLast?_eq_getLast _ hne] at hgl
            exact Option.some.inj hgl
          rw [← hgl2]
          exact List.dropLast_append_getLast hne
        have hstep : (([x] ++ (b :: l').dropLast).Perm ((b :: l').dropLast ++ [x])) :=
          List.perm_append_comm
        rw [hdecomp] at hstep
        exact hstep
      | succ n =>
        have hset : (a :: b :: l').set (n + 1) x = a :: ((b :: l').set n x) := rfl
        have hsetne : (b :: l').set n x ≠ [] := by
          intro he
          have := congrArg List.length he
          rw [List.length_set] at this
          simp at this
        unfold swapRemove
        rw [List.getLast?_cons_cons, hgl]
        dsimp only
        rw [hset, List.dropLast_cons_of_ne_nil hsetne]
        show (a :: ((b :: l').set n x).dropLast).Perm
          ((a :: b :: l').eraseIdx (n + 1))
        have hrec := ih n x hgl (by simp at hn ⊢; omega)
        unfold swapRemove at hrec
        rw [hgl] at hrec
        exact hrec.cons a

theorem findIdx?_beq_spec : ∀ {l : List Nat} {n i : Nat},
    l.findIdx? (fun p => i == p) = some n → n < l.length ∧ l.get? n = some i := by
  intro l
  induction l with
  | nil => intro n i h; exact Option.noConfusion h
  | cons x rest ih =>
    intro n i h
    rw [List.findIdx?_cons] at h
    by_cases hp : (i == x) = true
    · rw [if_pos hp] at h
      obtain rfl : (0 : Nat) = n := Option.some.inj h
      refine ⟨by simp, ?_⟩
      simp at hp
      rw [hp]
      rfl
    · rw [if_neg hp] at h
      rw [List.findIdx?_succ] at h
      obtain ⟨m, hm, rfl⟩ := Option.map_eq_some'.1 h
      obtain ⟨h1, h2⟩ := ih hm
      refine ⟨by simp; omega, by simpa using h2⟩

theorem swapRemove_spec {l : List Nat} {n i : Nat}
    (hnd : l.Nodup) (hget : l.get? n = some i) :
    (∀ j, j ∈ swapRemove l n ↔ j ∈ l ∧ j ≠ i) ∧ (swapRemove l n).Nodup := by
  have hlt : n < l.length := by
    rw [List.get?_eq_getElem?] at hget
    exact (List.getElem?_eq_some.1 hget).1
  have hgi : l[n] = i := by
    rw [List.get?_eq_getElem?, List.getElem?_eq_getElem hlt] at hget
    exact Option.some.inj hget
  have hne : l ≠ [] := by
    intro he
    rw [he] at hlt
    simp at hlt
  obtain ⟨x, hgl⟩ : ∃ x, l.getLast? = some x :=
    ⟨l.getLast hne, List.getLast?_eq_getLast _ hne⟩
  have hperm : (swapRemove l n).Perm (l.erase i) := by
    refine (swapRemove_perm l n x hgl hlt).trans ?_
    have := List.erase_getElem hlt (l := l)
    rw [hgi] at this
    exact this.symm
  constructor
  · intro j
    rw [hperm.mem_iff, List.Nodup.mem_erase_iff hnd]
    tauto
  · exact hperm.symm.nodup (hnd.erase i)

theorem retainFree_spec : ∀ (free popped : List Nat), free.Nodup → popped.Nodup →
    (∀ j, j ∈ (retainFree free popped).1 ↔ j ∈ free ∧ j ∉ popped) ∧
    (retainFree free popped).1.Nodup := by
  intro free
  induction free with
  | nil =>
    intro popped _ _
    constructor
    · intro j
      simp [retainFree]
    · simp [retainFree]
  | cons i rest ih =>
    intro popped hfnd hpnd
    obtain ⟨hirest, hrestnd⟩ := List.nodup_cons.1 hfnd
    rw [retainFree]
    cases hf : popped.findIdx? (fun p => i == p) with
    | none =>
      have hinp : i ∉ popped := by
        intro hm
        have := List.findIdx?_eq_none_iff.1 hf i hm
        simp at this
      obtain ⟨hm, hn⟩ := ih popped hrestnd hpnd
      dsimp only
      constructor
      · intro j
        rw [List.mem_cons, hm j]
        constructor
        · rintro (rfl | ⟨hj1, hj2⟩)
          · exact ⟨List.mem_cons_self _ _, hinp⟩
          · exact ⟨List.mem_cons_of_mem _ hj1, hj2⟩
        · rintro ⟨hj1, hj2⟩
          rcases List.mem_cons.1 hj1 with rfl | hj1
          · exact Or.inl rfl
          · exact Or.inr ⟨hj1, hj2⟩
      · refine List.nodup_cons.2 ⟨?_, hn⟩
        intro hm2
        exact hirest ((hm i).1 hm2).1
    | some n =>
      obtain ⟨hlt, hget⟩ := findIdx?_beq_spec hf
      obtain ⟨hsm, hsn⟩ := swapRemove_spec hpnd hget
      obtain ⟨hm, hn⟩ := ih (swapRemove popped n) hrestnd hsn
      have hip : i ∈ popped := List.get?_mem hget
      constructor
      · intro j
        rw [hm j]
        constructor
        · rintro ⟨hj1, hj2⟩
          rw [hsm j] at hj2
          push_neg at hj2
          by_cases hji : j = i
          · exact absurd (hji ▸ hj1) hirest
          · exact ⟨List.mem_cons_of_mem _ hj1, fun hjp => hji (hj2 hjp)⟩
        · rintro ⟨hj1, hj2⟩
          rcases List.mem_cons.1 hj1 with rfl | hj1
          · exact absurd hip hj2
          · refine ⟨hj1, ?_⟩
            rw [hsm j]
            exact fun hc => hj2 hc.1
      · exact hn

/-- Full characterization of the tail-popping loop: the result is the
prefix of the arena up to the last occupied slot, and the popped list
collects exactly the dropped (vacant) indices. -/
theorem cleanLoop_full {T : Type} :
    ∀ (fuel : Nat) (d : List (Option (Node T))) (popped : List Nat)
      {d' : List (Option (Node T))} {popped' : List Nat},
      cleanLoop fuel d popped = some (d', popped') →
      d'.length ≤ d.length ∧
      d' = d.take d'.length ∧
      (∀ j, d'.length ≤ j → j < d.length → d.get? j = some none) ∧
      (∀ p, p ∈ popped' ↔ p ∈ popped ∨ (d'.length ≤ p ∧ p < d.length)) := by
  intro fuel
  induction fuel with
  | zero => intro d popped d' popped' h; exact Option.noConfusion h
  | succ fuel ih =>
    intro d popped d' popped' h
    rw [cleanLoop] at h
    cases hg : d.getLast? with
    | none => rw [hg] at h; exact Option.noConfusion h
    | some s =>
      cases s with
      | some nd =>
        rw [hg] at h
        obtain ⟨e1, e2⟩ := Prod.mk.inj (Option.some.inj h)
        subst e1
        subst e2
        refine ⟨le_refl _, (List.take_length d).symm, ?_, ?_⟩
        · intro j h1 h2
          omega
        · intro p
          constructor
          · intro hp
            exact Or.inl hp
          · rintro (hp | hp)
            · exact hp
            · omega
      | none =>
        rw [hg] at h
        have hne : d ≠ [] := by
          intro he
          rw [he] at hg
          exact Option.noConfusion hg
        have hlpos : 0 < d.length := List.length_pos.2 hne
        obtain ⟨h1, h2, h3, h4⟩ := ih d.dropLast (popped ++ [d.length - 1]) h
        have hdl : d.dropLast.length = d.length - 1 := List.length_dropLast d
        have hvac : d.get? (d.length - 1) = some none := by
          rw [← List.getLast?_eq_get?]
          exact hg
        rw [hdl] at h1 h3 h4
        refine ⟨by omega, ?_, ?_, ?_⟩
        · have hdt : d.dropLast = d.take (d.length - 1) := List.dropLast_eq_take d
          conv_lhs => rw [h2, hdt, List.take_take]
          rw [min_eq_left (by omega : d'.length ≤ d.length - 1)]
        · intro j hj1 hj2
          rcases Nat.lt_or_ge j (d.length - 1) with hj3 | hj3
          · have := h3 j hj1 (by omega)
            rw [← this]
            have hdt : d.dropLast = d.take (d.length - 1) := List.dropLast_eq_take d
            rw [hdt, List.get?_take hj3]
          · have hj4 : j = d.length - 1 := by omega
            rw [hj4]
            exact hvac
        · intro p
          rw [h4 p, List.mem_append, List.mem_singleton]
          constructor
          · rintro ((hp | rfl) | hp)
            · exact Or.inl hp
            · exact Or.inr ⟨by omega, by omega⟩
            · exact Or.inr ⟨hp.1, by omega⟩
          · rintro (hp | ⟨hp1, hp2⟩)
            · exact Or.inl (Or.inl hp)
            · rcases Nat.lt_or_ge p (d.length - 1) with hp3 | hp3
              · exact Or.inr ⟨hp1, by omega⟩
              · exact Or.inl (Or.inr (by omega))

theorem cleanLoop_nodup {T : Type} :
    ∀ (fuel : Nat) (d : List (Option (Node T))) (popped : List Nat)
      {d' : List (Option (Node T))} {popped' : List Nat},
      cleanLoop fuel d popped = some (d', popped') →
      popped.Nodup → (∀ p ∈ popped, d.length ≤ p) → popped'.Nodup := by
  intro fuel
  induction fuel with
  | zero => intro d popped d' popped' h; exact Option.noConfusion h
  | succ fuel ih =>
    intro d popped d' popped' h hnd hbd
    rw [cleanLoop] at h
    cases hg : d.getLast? with
    | none => rw [hg] at h; exact Option.noConfusion h
    | some s =>
      cases s with
      | some nd =>
        rw [hg] at h
        obtain ⟨e1, e2⟩ := Prod.mk.inj (Option.some.inj h)
        rw [← e2]
        exact hnd
      | none =>
        rw [hg] at h
        have hne : d ≠ [] := by
          intro he
          rw [he] at hg
          exact Option.noConfusion hg
        have hlpos : 0 < d.length := List.length_pos.2 hne
        refine ih d.dropLast (popped ++ [d.length - 1]) h ?_ ?_
        · refine List.nodup_append.2 ⟨hnd, List.nodup_singleton _, ?_⟩
          intro a ha hm
          rcases List.mem_singleton.1 hm with rfl
          have := hbd _ ha
          omega
        · intro p hp
          rw [List.length_dropLast]
          rcases List.mem_append.1 hp with hp | hp
          · have := hbd _ hp
            omega
          · rcases List.mem_singleton.1 hp with rfl
            omega

/-- Full characterization of `clean_tail` on an arena whose free list is
exact: the arena is truncated to its last occupied slot (every slot view
is unchanged), and the free list keeps exactly its in-bounds entries. -/
theorem clean_tail_full {T : Type} {t t3 : Tree T}
    (hfreev : ∀ j ∈ t.free, t.data.get? j = some none)
    (hfreend : t.free.Nodup)
    (hfreec : ∀ j, j < t.data.length → t.data.get? j = some none → j ∈ t.free)
    (h : t.clean_tail = some t3) :
    t3.data.length ≤ t.data.length ∧
    (∀ j, j < t3.data.length → t3.data.get? j = t.data.get? j) ∧
    (∀ j, getNode t3.data j = getNode t.data j) ∧
    occCount t3.data = occCount t.data ∧
    tightArena t3.data = true ∧
    (∀ j ∈ t3.free, t3.data.get? j = some none) ∧
    t3.free.Nodup ∧
    (∀ j, j < t3.data.length → t3.data.get? j = some none → j ∈ t3.free) ∧
    (∀ j ∈ t3.free, j ∈ t.free) ∧
    t3.size = t.size ∧ t3.root = t.root := by
  have hspec := clean_tail_spec h
  unfold Tree.clean_tail at h
  simp only [bind, Option.bind_eq_some] at h
  obtain ⟨⟨d', popped⟩, hcl, hfin⟩ := h
  obtain rfl : ({ t with data := d', free := (retainFree t.free popped).1 } : Tree T)
      = t3 := Option.some.inj hfin
  obtain ⟨h1, h2, h3, h4⟩ := cleanLoop_full _ _ _ hcl
  have hpnd : popped.Nodup := cleanLoop_nodup _ _ _ hcl List.nodup_nil (by simp)
  obtain ⟨hrm, hrnd⟩ := retainFree_spec t.free popped hfreend hpnd
  have hpm : ∀ p, p ∈ popped ↔ d'.length ≤ p ∧ p < t.data.length := by
    intro p
    rw [h4 p]
    simp
  have hget : ∀ j, j < d'.length → d'.get? j = t.data.get? j := by
    intro j hj
    rw [h2, List.get?_take (by omega : j < d'.length)]
  -- slot views
  refine ⟨h1, hget, ?_, hspec.2.1, hspec.1, ?_, hrnd, ?_, ?_, rfl, rfl⟩
  · intro j
    rcases Nat.lt_or_ge j d'.length with hj | hj
    · unfold getNode
      rw [hget j hj]
    · have hd'n : d'.get? j = none := List.get?_eq_none.2 hj
      rcases Nat.lt_or_ge j t.data.length with hj2 | hj2
      · have := h3 j hj hj2
        unfold getNode
        rw [hd'n, this]
        rfl
      · have : t.data.get? j = none := List.get?_eq_none.2 hj2
        unfold getNode
        rw [hd'n, this]
  · intro j hj
    have hj2 := (hrm j).1 hj
    have hvac := hfreev j hj2.1
    have hjlt : j < t.data.length := get?_lt hvac
    have hjlt' : j < d'.length := by
      by_contra hge
      exact hj2.2 ((hpm j).2 ⟨by omega, hjlt⟩)
    show d'.get? j = some none
    rw [hget j hjlt']
    exact hvac
  · intro j hjlt hjv
    have hjlt2 : j < d'.length := hjlt
    have hjv0 : t.data.get? j = some none := by
      have := hget j hjlt2
      rw [← this]
      exact hjv
    refine (hrm j).2 ⟨hfreec j (by omega) hjv0, ?_⟩
    intro hp
    have := (hpm j).1 hp
    omega
  · intro j hj
    exact ((hrm j).1 hj).1

/-- Characterization of a successful `contains_helper` descent: the
final recorded node is the parent; the value sits in the child on the
side the final comparison took. -/
theorem containsLoop_found {T : Type} [LinearOrder T] [DecidableEq T]
    {d : List (Option (Node T))} {F : Nat} {value : T} :
    ∀ (fuel : Nat) (ci : Nat) (c : Node T) (visited : List Nat)
      (cs0 : List (Crumb T)) (L R : BT T) (r0 : Nat) (res : List Nat),
      containsLoop d value fuel ci c visited = some (true, some res) →
      getNode d ci = some c →
      decode d F c.left = some L → decode d F c.right = some R →
      L.storedOk → R.storedOk → c.height = 1 + max L.hgt R.hgt →
      value ≠ c.value →
      crumbsOk d F cs0 (some ci) r0 →
      visited.reverse = ci :: cs0.map Crumb.i →
      withinCtx cs0 value →
      ∃ (cs1 : List (Crumb T)) (pk : Nat) (pn : Node T) (PL PR : BT T),
        getNode d pk = some pn ∧
        decode d F pn.left = some PL ∧ decode d F pn.right = some PR ∧
        PL.storedOk ∧ PR.storedOk ∧ pn.height = 1 + max PL.hgt PR.hgt ∧
        crumbsOk d F (cs1 ++ cs0) (some pk) r0 ∧
        res.reverse = pk :: (cs1 ++ cs0).map Crumb.i ∧
        plugC cs1 (BT.node PL pk pn PR) = BT.node L ci c R ∧
        withinCtx (cs1 ++ cs0) value ∧
        value ≠ pn.value ∧
        (if value < pn.value
         then ∃ vi vnd, pn.left = some vi ∧ getNode d vi = some vnd ∧
           vnd.value = value
         else ∃ vi vnd, pn.right = some vi ∧ getNode d vi = some vnd ∧
           vnd.value = value) := by
  intro fuel
  induction fuel with
  | zero =>
    intro ci c visited cs0 L R r0 res h
    exact Option.noConfusion h
  | succ fuel ih =>
    intro ci c visited cs0 L R r0 res h hn hL hR hsL hsR hstc hne hcs0 hv hwc
    rw [containsLoop] at h
    by_cases hch : (c.left.isSome || c.right.isSome) = true
    · rw [if_pos hch] at h
      dsimp only at h
      by_cases hlt : value < c.value
      · rw [if_pos hlt] at h
        cases hcl : c.left with
        | none =>
          rw [hcl] at h
          dsimp only at h
          obtain ⟨e1, _⟩ := Prod.mk.inj (Option.some.inj h)
          exact Bool.noConfusion e1
        | some ni =>
          rw [hcl] at h
          dsimp only at h
          cases hni : getNode d ni with
          | none => rw [hni] at h; exact Option.noConfusion h
          | some nd =>
            rw [hni] at h
            dsimp only at h
            by_cases heq : value = nd.value
            · rw [if_pos heq] at h
              obtain ⟨e1, e2⟩ := Prod.mk.inj (Option.some.inj h)
              obtain rfl : visited = res := Option.some.inj e2
              refine ⟨[], ci, c, L, R, hn, hL, hR, hsL, hsR, hstc, hcs0, hv, rfl,
                ?_, hne, ?_⟩
              · rw [List.nil_append]
                exact hwc
              · rw [if_pos hlt]
                exact ⟨ni, nd, hcl, hni, heq.symm⟩
            · rw [if_neg heq] at h
              rw [hcl] at hL
              obtain ⟨f', L1, nd0, L2, hf', hinj, hln, hL1, hL2⟩ := decode_some_inv hL
              have e0 : nd0 = nd := Option.some.inj (hln.symm.trans hni)
              rw [e0] at hinj hL1 hL2
              obtain ⟨hstn, hsL1, hsL2⟩ := (by rw [hinj] at hsL; exact hsL :
                (BT.node L1 ni nd L2).storedOk)
              have hfle : f' ≤ F := by omega
              obtain ⟨cs1', pk, pn, PL, PR, o1, o2, o3, o4, o5, o6, o7, o8, o9, o10,
                o11, o12⟩ :=
                ih ni nd (visited ++ [ni]) (⟨ci, c, R, true⟩ :: cs0) L1 L2 r0 res h
                  hni (decode_mono hL1 hfle) (decode_mono hL2 hfle) hsL1 hsL2 hstn heq
                  ⟨hn, by rw [if_pos rfl]; exact ⟨hcl, hR⟩, hsR, hcs0⟩
                  (by rw [List.reverse_append, List.reverse_singleton,
                        List.singleton_append, hv, List.map_cons])
                  ⟨hlt, hwc⟩
              refine ⟨cs1' ++ [⟨ci, c, R, true⟩], pk, pn, PL, PR, o1, o2, o3, o4, o5, o6,
                ?_, ?_, ?_, ?_, o11, o12⟩
              · rw [List.append_assoc, List.singleton_append]
                exact o7
              · rw [List.append_assoc, List.singleton_append]
                exact o8
              · rw [plugC_append, o9, hinj]
                rfl
              · rw [List.append_assoc, List.singleton_append]
                exact o10
      · rw [if_neg hlt] at h
        have hgt : c.value < value := by
          rcases lt_trichotomy value c.value with h1 | h1 | h1
          · exact absurd h1 hlt
          · exact absurd h1 hne
          · exact h1
        rw [if_pos hgt] at h
        cases hcr : c.right with
        | none =>
          rw [hcr] at h
          dsimp only at h
          obtain ⟨e1, _⟩ := Prod.mk.inj (Option.some.inj h)
          exact Bool.noConfusion e1
        | some ni =>
          rw [hcr] at h
          dsimp only at h
          cases hni : getNode d ni with
          | none => rw [hni] at h; exact Option.noConfusion h
          | some nd =>
            rw [hni] at h
            dsimp only at h
            by_cases heq : value = nd.value
            · rw [if_pos heq] at h
              obtain ⟨e1, e2⟩ := Prod.mk.inj (Option.some.inj h)
              obtain rfl : visited = res := Option.some.inj e2
              refine ⟨[], ci, c, L, R, hn, hL, hR, hsL, hsR, hstc, hcs0, hv, rfl,
                ?_, hne, ?_⟩
              · rw [List.nil_append]
                exact hwc
              · rw [if_neg hlt]
                exact ⟨ni, nd, hcr, hni, heq.symm⟩
            · rw [if_neg heq] at h
              rw [hcr] at hR
              obtain ⟨f', R1, nd0, R2, hf', hinj, hrn, hR1, hR2⟩ := decode_some_inv hR
              have e0 : nd0 = nd := Option.some.inj (hrn.symm.trans hni)
              rw [e0] at hinj hR1 hR2
              obtain ⟨hstn, hsR1, hsR2⟩ := (by rw [hinj] at hsR; exact hsR :
                (BT.node R1 ni nd R2).storedOk)
              have hfle : f' ≤ F := by omega
              obtain ⟨cs1', pk, pn, PL, PR, o1, o2, o3, o4, o5, o6, o7, o8, o9, o10,
                o11, o12⟩ :=
                ih ni nd (visited ++ [ni]) (⟨ci, c, L, false⟩ :: cs0) R1 R2 r0 res h
                  hni (decode_mono hR1 hfle) (decode_mono hR2 hfle) hsR1 hsR2 hstn heq
                  ⟨hn, by rw [if_neg (by simp)]; exact ⟨hcr, hL⟩, hsL, hcs0⟩
                  (by rw [List.reverse_append, List.reverse_singleton,
                        List.singleton_append, hv, List.map_cons])
                  ⟨hgt, hwc⟩
              refine ⟨cs1' ++ [⟨ci, c, L, false⟩], pk, pn, PL, PR, o1, o2, o3, o4, o5, o6,
                ?_, ?_, ?_, ?_, o11, o12⟩
              · rw [List.append_assoc, List.singleton_append]
                exact o7
              · rw [List.append_assoc, List.singleton_append]
                exact o8
              · rw [plugC_append, o9, hinj]
                rfl
              · rw [List.append_assoc, List.singleton_append]
                exact o10
    · rw [if_neg hch] at h
      obtain ⟨e1, _⟩ := Prod.mk.inj (Option.some.inj h)
      exact Bool.noConfusion e1

/-- Crumb paths compose: a path from a link down at `fl` up to `mid`
followed by a path from `mid` up to `root`. -/
theorem crumbsOk_append2 {T : Type} {d : List (Option (Node T))} {F : Nat} :
    ∀ (cs cs2 : List (Crumb T)) (fl : Option Nat) (mid root : Nat),
      crumbsOk d F cs fl mid → crumbsOk d F cs2 (some mid) root →
      crumbsOk d F (cs ++ cs2) fl root := by
  intro cs
  induction cs with
  | nil =>
    intro cs2 fl mid root h1 h2
    have he : fl = some mid := h1
    rw [List.nil_append, he]
    exact h2
  | cons c cs ih =>
    intro cs2 fl mid root h1 h2
    obtain ⟨ha, hb, hc, hd⟩ := h1
    exact ⟨ha, hb, hc, ih cs2 _ _ _ hd h2⟩

/-- Two mutually consistent crumb paths concatenate to a consistent path
when the inner one respects the outer one's comparison constraints. -/
theorem ctxOk_append {T : Type} [LT T] :
    ∀ (cs1 cs2 : List (Crumb T)), ctxOk cs1 → ctxOk cs2 →
      (∀ c ∈ cs1, withinCtx cs2 c.nd.value ∧ ∀ v ∈ c.sib.vals, withinCtx cs2 v) →
      ctxOk (cs1 ++ cs2) := by
  intro cs1
  induction cs1 with
  | nil => intro cs2 _ h2 _; exact h2
  | cons c cs ih =>
    intro cs2 h1 h2 hcond
    obtain ⟨hso, hwc, hsv, hrest⟩ := h1
    refine ⟨hso, ?_, ?_,
      ih cs2 hrest h2 (fun c' hc' => hcond c' (List.mem_cons_of_mem _ hc'))⟩
    · show withinCtx (cs ++ cs2) c.nd.value
      rw [withinCtx_append]
      exact ⟨hwc, (hcond c (List.mem_cons_self _ _)).1⟩
    · intro v hv
      obtain ⟨hside, hwcv⟩ := hsv v hv
      refine ⟨hside, ?_⟩
      show withinCtx (cs ++ cs2) v
      rw [withinCtx_append]
      exact ⟨hwcv, (hcond c (List.mem_cons_self _ _)).2 v hv⟩

/-- Plugging through right-edge crumbs only prepends values: the focus
subtree's values stay a suffix. -/
theorem plug_allR_vals {T : Type} :
    ∀ (cs : List (Crumb T)) (X : BT T), (∀ c ∈ cs, c.isL = false) →
      ∃ pre, (plugC cs X).vals = pre ++ X.vals := by
  intro cs
  induction cs with
  | nil => intro X _; exact ⟨[], rfl⟩
  | cons c cs ih =>
    intro X hall
    rw [plugC, hall c (List.mem_cons_self _ _), if_neg (by simp)]
    obtain ⟨pre, hp⟩ :=
      ih (BT.node c.sib c.i c.nd X) (fun c' h => hall c' (List.mem_cons_of_mem _ h))
    refine ⟨pre ++ (c.sib.vals ++ [c.nd.value]), ?_⟩
    rw [hp, BT.vals]
    simp

/-- Plugging through left-edge crumbs only appends values: the focus
subtree's values stay a prefix. -/
theorem plug_allL_vals {T : Type} :
    ∀ (cs : List (Crumb T)) (X : BT T), (∀ c ∈ cs, c.isL = true) →
      ∃ suf, (plugC cs X).vals = X.vals ++ suf := by
  intro cs
  induction cs with
  | nil => intro X _; exact ⟨[], (List.append_nil _).symm⟩
  | cons c cs ih =>
    intro X hall
    rw [plugC, hall c (List.mem_cons_self _ _), if_pos rfl]
    obtain ⟨suf, hp⟩ :=
      ih (BT.node X c.i c.nd c.sib) (fun c' h => hall c' (List.mem_cons_of_mem _ h))
    refine ⟨c.nd.value :: c.sib.vals ++ suf, ?_⟩
    rw [hp, BT.vals]
    simp

/-- The right-spine climb of the two-children removal case, in zipper
form: it descends the rightmost edge of the subtree at `cur0`, recording
right-edge crumbs, and stops at the in-order-last node, whose `right`
pointer is absent. -/
theorem climbRight_spec {T : Type} {d : List (Option (Node T))} {F : Nat} :
    ∀ (fuel cur0 : Nat) (cd0 : Node T) (vis0 : List Nat) (A : BT T)
      (cur : Nat) (ld : Node T) (vis2 : List Nat),
      climbRight d fuel cur0 cd0 vis0 = some (cur, ld, vis2) →
      getNode d cur0 = some cd0 →
      decode d F (some cur0) = some A → A.storedOk →
      ∃ (csR : List (Crumb T)) (LW : BT T),
        getNode d cur = some ld ∧ ld.right = none ∧
        decode d F ld.left = some LW ∧ LW.storedOk ∧
        ld.height = 1 + max LW.hgt (-1) ∧
        crumbsOk d F csR (some cur) cur0 ∧
        (∀ c ∈ csR, c.isL = false) ∧
        plugC csR (BT.node LW cur ld BT.leaf) = A ∧
        vis2 = vis0 ++ (csR.map Crumb.i).reverse := by
  intro fuel
  induction fuel with
  | zero =>
    intro cur0 cd0 vis0 A cur ld vis2 h
    exact fun _ _ _ => Option.noConfusion h
  | succ fuel ih =>
    intro cur0 cd0 vis0 A cur ld vis2 h hn0 hA hsA
    obtain ⟨f', L0, nd0, R0, hf, hinj, hn0d, hL0, hR0⟩ := decode_some_inv hA
    have e0 : nd0 = cd0 := Option.some.inj (hn0d.symm.trans hn0)
    rw [e0] at hinj hL0 hR0
    rw [hinj] at hsA
    obtain ⟨hst0, hsL0, hsR0⟩ := hsA
    have hfle : f' ≤ F := by omega
    rw [climbRight] at h
    cases hr : cd0.right with
    | none =>
      rw [hr] at h
      obtain ⟨e1, e2⟩ := Prod.mk.inj (Option.some.inj h)
      obtain ⟨e3, e4⟩ := Prod.mk.inj e2
      subst e1
      subst e3
      subst e4
      have hR0leaf : R0 = BT.leaf := by
        rw [hr, decode_none] at hR0
        exact (Option.some.inj hR0).symm
      refine ⟨[], L0, hn0, hr, decode_mono hL0 hfle, hsL0, ?_, rfl, ?_, ?_, ?_⟩
      · rw [hst0, hR0leaf]
        rfl
      · intro c hc
        exact absurd hc (List.not_mem_nil _)
      · rw [hinj, hR0leaf]
        rfl
      · simp
    | some n =>
      rw [hr] at h
      dsimp only at h
      rw [hr] at hR0
      obtain ⟨f2, R1, nd1, R2, hf2, hinj1, hn1, hR1, hR2⟩ := decode_some_inv hR0
      cases hgn : getNode d n with
      | none =>
        rw [hgn] at h
        exact Option.noConfusion h
      | some nd =>
        rw [hgn] at h
        have e5 : nd1 = nd := Option.some.inj (hn1.symm.trans hgn)
        obtain ⟨csR', LW, o1, o2, o3, o4, o5, o6, o7, o8, o9⟩ :=
          ih n nd (vis0 ++ [cur0]) R0 cur ld vis2 h hgn (decode_mono hR0 hfle) hsR0
        refine ⟨csR' ++ [⟨cur0, cd0, L0, false⟩], LW, o1, o2, o3, o4, o5, ?_, ?_, ?_, ?_⟩
        · refine crumbsOk_append2 csR' _ (some cur) n cur0 o6
            ⟨hn0, ?_, hsL0, rfl⟩
          rw [if_neg (by simp)]
          exact ⟨hr, decode_mono hL0 hfle⟩
        · intro c hc
          rcases List.mem_append.1 hc with hc | hc
          · exact o7 c hc
          · rcases List.mem_cons.1 hc with rfl | hc
            · rfl
            · exact absurd hc (List.not_mem_nil _)
        · rw [plugC_append, o8, plugC]
          show plugC [] (if false = true then _ else BT.node L0 cur0 cd0 R0) = A
          rw [if_neg (by simp)]
          exact hinj.symm
        · rw [o9]
          simp

/-- Mirror of `climbRight_spec` along `left` pointers: descent to the
in-order-first node of the subtree at `cur0`. -/
theorem climbLeft_spec {T : Type} {d : List (Option (Node T))} {F : Nat} :
    ∀ (fuel cur0 : Nat) (cd0 : Node T) (vis0 : List Nat) (A : BT T)
      (cur : Nat) (rd : Node T) (vis2 : List Nat),
      climbLeft d fuel cur0 cd0 vis0 = some (cur, rd, vis2) →
      getNode d cur0 = some cd0 →
      decode d F (some cur0) = some A → A.storedOk →
      ∃ (csR : List (Crumb T)) (RW : BT T),
        getNode d cur = some rd ∧ rd.left = none ∧
        decode d F rd.right = some RW ∧ RW.storedOk ∧
        rd.height = 1 + max (-1) RW.hgt ∧
        crumbsOk d F csR (some cur) cur0 ∧
        (∀ c ∈ csR, c.isL = true) ∧
        plugC csR (BT.node BT.leaf cur rd RW) = A ∧
        vis2 = vis0 ++ (csR.map Crumb.i).reverse := by
  intro fuel
  induction fuel with
  | zero =>
    intro cur0 cd0 vis0 A cur rd vis2 h
    exact fun _ _ _ => Option.noConfusion h
  | succ fuel ih =>
    intro cur0 cd0 vis0 A cur rd vis2 h hn0 hA hsA
    obtain ⟨f', L0, nd0, R0, hf, hinj, hn0d, hL0, hR0⟩ := decode_some_inv hA
    have e0 : nd0 = cd0 := Option.some.inj (hn0d.symm.trans hn0)
    rw [e0] at hinj hL0 hR0
    rw [hinj] at hsA
    obtain ⟨hst0, hsL0, hsR0⟩ := hsA
    have hfle : f' ≤ F := by omega
    rw [climbLeft] at h
    cases hl : cd0.left with
    | none =>
      rw [hl] at h
      obtain ⟨e1, e2⟩ := Prod.mk.inj (Option.some.inj h)
      obtain ⟨e3, e4⟩ := Prod.mk.inj e2
      subst e1
      subst e3
      subst e4
      have hL0leaf : L0 = BT.leaf := by
        rw [hl, decode_none] at hL0
        exact (Option.some.inj hL0).symm
      refine ⟨[], R0, hn0, hl, decode_mono hR0 hfle, hsR0, ?_, rfl, ?_, ?_, ?_⟩
      · rw [hst0, hL0leaf]
        rfl
      · intro c hc
        exact absurd hc (List.not_mem_nil _)
      · rw [hinj, hL0leaf]
        rfl
      · simp
    | some n =>
      rw [hl] at h
      dsimp only at h
      rw [hl] at hL0
      obtain ⟨f2, L1, nd1, L2, hf2, hinj1, hn1, hL1, hL2⟩ := decode_some_inv hL0
      cases hgn : getNode d n with
      | none =>
        rw [hgn] at h
        exact Option.noConfusion h
      | some nd =>
        rw [hgn] at h
        obtain ⟨csR', RW, o1, o2, o3, o4, o5, o6, o7, o8, o9⟩ :=
          ih n nd (vis0 ++ [cur0]) L0 cur rd vis2 h hgn (decode_mono hL0 hfle) hsL0
        refine ⟨csR' ++ [⟨cur0, cd0, R0, true⟩], RW, o1, o2, o3, o4, o5, ?_, ?_, ?_, ?_⟩
        · refine crumbsOk_append2 csR' _ (some cur) n cur0 o6
            ⟨hn0, ?_, hsR0, rfl⟩
          rw [if_pos rfl]
          exact ⟨hl, decode_mono hR0 hfle⟩
        · intro c hc
          rcases List.mem_append.1 hc with hc | hc
          · exact o7 c hc
          · rcases List.mem_cons.1 hc with rfl | hc
            · rfl
            · exact absurd hc (List.not_mem_nil _)
        · rw [plugC_append, o8, plugC]
          show plugC [] (if true = true then BT.node L0 cur0 cd0 R0 else _) = A
          rw [if_pos rfl]
          exact hinj.symm
        · rw [o9]
          simp

/-- The search loop always reports a visited list alongside its verdict. -/
theorem containsLoop_some_vis {T : Type} [LinearOrder T] [DecidableEq T]
    {d : List (Option (Node T))} {value : T} :
    ∀ (fuel ci : Nat) (c : Node T) (vis : List Nat) (b : Bool) (o : Option (List Nat)),
      containsLoop d value fuel ci c vis = some (b, o) → ∃ l, o = some l := by
  intro fuel
  induction fuel with
  | zero =>
    intro ci c vis b o h
    exact Option.noConfusion h
  | succ fuel ih =>
    intro ci c vis b o h
    rw [containsLoop] at h
    by_cases hch : (c.left.isSome || c.right.isSome) = true
    · rw [if_pos hch] at h
      dsimp only at h
      by_cases hlt : value < c.value
      · rw [if_pos hlt] at h
        cases hcl : c.left with
        | none =>
          rw [hcl] at h
          obtain ⟨_, e2⟩ := Prod.mk.inj (Option.some.inj h)
          exact ⟨vis, e2.symm⟩
        | some ni =>
          rw [hcl] at h
          dsimp only at h
          cases hni : getNode d ni with
          | none => rw [hni] at h; exact Option.noConfusion h
          | some nd =>
            rw [hni] at h
            dsimp only at h
            by_cases heq : value = nd.value
            · rw [if_pos heq] at h
              obtain ⟨_, e2⟩ := Prod.mk.inj (Option.some.inj h)
              exact ⟨vis, e2.symm⟩
            · rw [if_neg heq] at h
              exact ih ni nd (vis ++ [ni]) b o h
      · rw [if_neg hlt] at h
        by_cases hgt : c.value < value
        · rw [if_pos hgt] at h
          cases hcr : c.right with
          | none =>
            rw [hcr] at h
            obtain ⟨_, e2⟩ := Prod.mk.inj (Option.some.inj h)
            exact ⟨vis, e2.symm⟩
          | some ni =>
            rw [hcr] at h
            dsimp only at h
            cases hni : getNode d ni with
            | none => rw [hni] at h; exact Option.noConfusion h
            | some nd =>
              rw [hni] at h
              dsimp only at h
              by_cases heq : value = nd.value
              · rw [if_pos heq] at h
                obtain ⟨_, e2⟩ := Prod.mk.inj (Option.some.inj h)
                exact ⟨vis, e2.symm⟩
              · rw [if_neg heq] at h
                exact ih ni nd (vis ++ [ni]) b o h
        · rw [if_neg hgt] at h
          dsimp only at h
          cases hni : getNode d ci with
          | none => rw [hni] at h; exact Option.noConfusion h
          | some nd =>
            rw [hni] at h
            dsimp only at h
            by_cases heq : value = nd.value
            · rw [if_pos heq] at h
              obtain ⟨_, e2⟩ := Prod.mk.inj (Option.some.inj h)
              exact ⟨vis, e2.symm⟩
            · rw [if_neg heq] at h
              exact ih ci nd (vis ++ [ci]) b o h
    · rw [if_neg hch] at h
      obtain ⟨_, e2⟩ := Prod.mk.inj (Option.some.inj h)
      exact ⟨vis, e2.symm⟩

/-- A value obeying every comparison constraint of an ordered context can
only appear in the focus subtree. -/
theorem mem_plug_focus {T : Type} [LinearOrder T] :
    ∀ (cs : List (Crumb T)) (X : BT T) (v : T),
      withinCtx cs v → ctxOk cs → v ∈ (plugC cs X).vals → v ∈ X.vals := by
  intro cs
  induction cs with
  | nil => intro X v _ _ h; exact h
  | cons c cs ih =>
    intro X v hw hctx h
    obtain ⟨hw1, hw2⟩ := hw
    obtain ⟨hso, hwcn, hsv, hrest⟩ := hctx
    rw [plugC] at h
    have h2 := ih _ v hw2 hrest h
    cases hb : c.isL with
    | true =>
      rw [hb] at hw1
      rw [if_pos rfl] at hw1
      rw [hb, if_pos rfl] at h2
      rw [BT.vals] at h2
      rcases List.mem_append.1 h2 with h3 | h3
      · exact h3
      · rcases List.mem_cons.1 h3 with rfl | h3
        · exact absurd hw1 (lt_irrefl _)
        · have := (hsv v h3).1
          rw [hb, if_pos rfl] at this
          exact absurd hw1 (asymm this)
    | false =>
      rw [hb] at hw1
      rw [if_neg (by simp)] at hw1
      rw [hb, if_neg (by simp)] at h2
      rw [BT.vals] at h2
      rcases List.mem_append.1 h2 with h3 | h3
      · have := (hsv v h3).1
        rw [hb, if_neg (by simp)] at this
        exact absurd hw1 (asymm this)
      · rcases List.mem_cons.1 h3 with rfl | h3
        · exact absurd hw1 (lt_irrefl _)
        · exact h3

/-- On a decoded subtree that does not hold the value, the search loop
terminates with a not-found verdict. -/
theorem containsLoop_absent {T : Type} [LinearOrder T] [DecidableEq T]
    {d : List (Option (Node T))} {value : T} :
    ∀ (f ci : Nat) (c : Node T) (vis : List Nat) (S0 : BT T),
      decode d f (some ci) = some S0 →
      getNode d ci = some c →
      value ∉ S0.vals →
      ∃ vis', containsLoop d value f ci c vis = some (false, some vis') := by
  intro f
  induction f with
  | zero =>
    intro ci c vis S0 hdec
    exact absurd hdec (by simp [decode])
  | succ f ih =>
    intro ci c vis S0 hdec hn hnv
    obtain ⟨f', L, nd0, R, hf, hinj, hn0, hL, hR⟩ := decode_some_inv hdec
    have e0 : nd0 = c := Option.some.inj (hn0.symm.trans hn)
    rw [e0] at hinj hL hR
    obtain rfl : f' = f := by omega
    rw [hinj] at hnv
    rw [BT.vals] at hnv
    have hnvL : value ∉ L.vals := fun hm => hnv (List.mem_append_left _ hm)
    have hnvR : value ∉ R.vals :=
      fun hm => hnv (List.mem_append_right _ (List.mem_cons_of_mem _ hm))
    have hnvc : value ≠ c.value :=
      fun e => hnv (List.mem_append_right _ (by rw [e]; exact List.mem_cons_self _ _))
    rw [containsLoop]
    by_cases hch : (c.left.isSome || c.right.isSome) = true
    · rw [if_pos hch]
      dsimp only
      by_cases hlt : value < c.value
      · rw [if_pos hlt]
        cases hcl : c.left with
        | none => exact ⟨vis, rfl⟩
        | some ni =>
          rw [hcl] at hL
          obtain ⟨f2, L1, nd1, L2, hf2, hinj1, hn1, hL1, hL2⟩ := decode_some_inv hL
          have hnev : value ≠ nd1.value := by
            intro e
            refine hnvL ?_
            rw [hinj1, BT.vals]
            exact List.mem_append_right _ (by rw [e]; exact List.mem_cons_self _ _)
          obtain ⟨vis', hloop⟩ := ih ni nd1 (vis ++ [ni]) L hL hn1 hnvL
          dsimp only
          rw [hn1]
          dsimp only
          rw [if_neg hnev]
          exact ⟨vis', hloop⟩
      · rw [if_neg hlt]
        have hgt : c.value < value := by
          rcases lt_trichotomy value c.value with h1 | h1 | h1
          · exact absurd h1 hlt
          · exact absurd h1 hnvc
          · exact h1
        rw [if_pos hgt]
        cases hcr : c.right with
        | none => exact ⟨vis, rfl⟩
        | some ni =>
          rw [hcr] at hR
          obtain ⟨f2, R1, nd1, R2, hf2, hinj1, hn1, hR1, hR2⟩ := decode_some_inv hR
          have hnev : value ≠ nd1.value := by
            intro e
            refine hnvR ?_
            rw [hinj1, BT.vals]
            exact List.mem_append_right _ (by rw [e]; exact List.mem_cons_self _ _)
          obtain ⟨vis', hloop⟩ := ih ni nd1 (vis ++ [ni]) R hR hn1 hnvR
          dsimp only
          rw [hn1]
          dsimp only
          rw [if_neg hnev]
          exact ⟨vis', hloop⟩
    · rw [if_neg hch]
      exact ⟨vis, rfl⟩

/-- A well-formed tree that does not hold a value reports it absent from
`contains`, without failing. -/
theorem contains_absent {T : Type} [LinearOrder T] [DecidableEq T]
    {t : Tree T} {S : BT T} {v : T} (hwf : WFT t S) (hv : v ∉ S.vals) :
    t.contains v = some none := by
  rw [Tree.contains]
  by_cases hs : t.size = 0
  · rw [if_pos hs]
  · rw [if_neg hs]
    have hdec := hwf.hdec
    rw [rootLink, if_neg hs] at hdec
    obtain ⟨f', L, rn, R, hf, hinj, hn, hL, hR⟩ := decode_some_inv hdec
    have hne : v ≠ rn.value := by
      intro e
      refine hv ?_
      rw [hinj, BT.vals]
      exact List.mem_append_right _ (by rw [e]; exact List.mem_cons_self _ _)
    obtain ⟨vis', hloop⟩ :=
      containsLoop_absent (t.data.length + 1) t.root rn [t.root] S hdec hn hv
    have hch : t.contains_helper v = some (false, some vis') := by
      rw [Tree.contains_helper]
      show (getNode t.data t.root).bind _ = _
      rw [hn, Option.some_bind]
      rw [if_neg hne]
      exact hloop
    show (t.contains_helper v).bind _ = _
    rw [hch, Option.some_bind]

/-- Common tail of every mutating `remove` path: after the arena surgery
produced `d3` (one slot vacated, handed to the free list as `ri`), the
recorded path is replayed by `update_and_balance` and the tail trimmed;
the result is again well-formed, with exactly one copy of the removed
value gone. -/
theorem rebuild_wf {T : Type} [LinearOrder T] [DecidableEq T]
    {t : Tree T} {S : BT T} {v : T} {d3 : List (Option (Node T))} {ri : Nat}
    {i0 : Nat} {nd0 : Node T} {L0 R0 : BT T} {csA : List (Crumb T)}
    {visited : List Nat} {t2 t3 : Tree T}
    (hwf : WFT t S)
    (hlen : t.data.length ≤ 125)
    (hlen3 : d3.length = t.data.length)
    (hn0 : getNode d3 i0 = some nd0)
    (hLd : decode d3 (t.data.length + 1) nd0.left = some L0)
    (hRd : decode d3 (t.data.length + 1) nd0.right = some R0)
    (hsL : L0.storedOk) (hsR : R0.storedOk)
    (hcs : crumbsOk d3 (t.data.length + 1) csA (some i0) t.root)
    (hnd : (ctxIdxs csA ++ (BT.node L0 i0 nd0 R0).idxs).Nodup)
    (hop : (plugC csA (BT.node L0 i0 nd0 R0)).Ordered)
    (hvalsc : ∀ x, (plugC csA (BT.node L0 i0 nd0 R0)).vals.count x +
      (if v = x then 1 else 0) = S.vals.count x)
    (hidxc : (ctxIdxs csA ++ (BT.node L0 i0 nd0 R0).idxs).length + 1 = S.idxs.length)
    (hocc3 : occCount d3 + 1 = occCount t.data)
    (hfv : ∀ j ∈ t.free ++ [ri], d3.get? j = some none)
    (hfnd : (t.free ++ [ri]).Nodup)
    (hfc : ∀ j, j < d3.length → d3.get? j = some none → j ∈ t.free ++ [ri])
    (hcnt2 : 2 ≤ S.cnt)
    (hvis : visited.reverse = i0 :: csA.map Crumb.i)
    (huab : Tree.update_and_balance { t with data := d3, free := t.free ++ [ri] }
      visited = some t2)
    (hct : t2.clean_tail = some t3) :
    ∃ S', WFT { t3 with size := t3.size - 1 } S' ∧
      t3.data.length ≤ t.data.length ∧ t3.size = t.size ∧
      (∀ x, S'.vals.count x + (if v = x then 1 else 0) = S.vals.count x) := by
  unfold Tree.update_and_balance at huab
  rw [hvis] at huab
  obtain ⟨hsv, hfree2, hsize2⟩ := uabGo_shape _ _ _ huab
  have hsv3 : sameVals d3 t2.data := hsv
  have htf : t2.free = t.free ++ [ri] := hfree2
  have hts : t2.size = t.size := hsize2
  obtain ⟨S', hdec', hst', hv', hi', hlen', hfr', hfree', hsize'⟩ :=
    uabGo_correct csA { t with data := d3, free := t.free ++ [ri] } i0 nd0 L0 R0
      t.root t2
      (by show d3.length ≤ 125; omega)
      (by show d3.length < t.data.length + 1; omega)
      hn0 hLd hRd hsL hsR hcs hnd huab
  have hlen2 : t2.data.length = d3.length := hlen'
  have hnodupS' : S'.idxs.Nodup := by
    rw [hi']
    exact (plugC_idxs_perm csA _).symm.nodup hnd
  have hordS' : S'.Ordered := by
    rw [ordered_iff_pairwise, hv']
    exact (ordered_iff_pairwise _).1 hop
  have hcS : S'.cnt + 1 = S.cnt := by
    have h1 := cnt_eq_idxs_length S'
    have h2 := cnt_eq_idxs_length S
    have h3 : S'.idxs.length = (ctxIdxs csA ++ (BT.node L0 i0 nd0 R0).idxs).length := by
      rw [hi', (plugC_idxs_perm csA _).length_eq]
    omega
  have hfv2 : ∀ j ∈ t2.free, t2.data.get? j = some none := by
    intro j hj
    rw [htf] at hj
    exact (sameVals_vacant hsv3 j).1 (hfv j hj)
  have hfnd2 : t2.free.Nodup := by
    rw [htf]
    exact hfnd
  have hfc2 : ∀ j, j < t2.data.length → t2.data.get? j = some none → j ∈ t2.free := by
    intro j hjlt hjv
    rw [htf]
    refine hfc j (by omega) ((sameVals_vacant hsv3 j).2 hjv)
  obtain ⟨hc1, hc2, hc3, hc4, hc5, hc6, hc7, hc8, hc9, hc10, hc11⟩ :=
    clean_tail_full hfv2 hfnd2 hfc2 hct
  have hdec3 : decode t3.data (t.data.length + 1) (some t3.root) = some S' := by
    rw [hc11]
    exact decode_agree hdec' (fun j _ => hc3 j)
  have hwcnt := hwf.hcnt
  have hwocc := hwf.hocc
  refine ⟨S', ⟨?_, hst', hordS', hnodupS', ?_, ?_, ?_, ?_, ?_, ?_, ?_⟩, ?_, ?_, ?_⟩
  · have hne : ¬(({ t3 with size := t3.size - 1 } : Tree T).size = 0) := by
      show ¬(t3.size - 1 = 0)
      omega
    rw [rootLink, if_neg hne]
    show decode t3.data (t3.data.length + 1) (some t3.root) = some S'
    refine decode_depth_le hdec3 ?_
    have hd := depth_le_len hdec3 hnodupS'
    omega
  · show S'.cnt = t3.size - 1
    omega
  · show occCount t3.data = t3.size - 1
    rw [hc4, ← occCount_eq_of_sameVals hsv3]
    omega
  · exact hc5
  · exact hc6
  · exact hc7
  · exact hc8
  · intro h0
    exact absurd h0 (by show ¬(t3.size - 1 = 0); omega)
  · omega
  · omega
  · intro x
    rw [hv']
    exact hvalsc x

/-- The per-crumb comparison a path constraint induces. -/
theorem withinCtx_mem {T : Type} [LT T] :
    ∀ {cs : List (Crumb T)} {x : T} {c : Crumb T}, withinCtx cs x → c ∈ cs →
      (if c.isL then x < c.nd.value else c.nd.value < x) := by
  intro cs
  induction cs with
  | nil =>
    intro x c _ hm
    exact absurd hm (List.not_mem_nil _)
  | cons c0 cs ih =>
    intro x c hw hm
    obtain ⟨hw1, hw2⟩ := hw
    rcases List.mem_cons.1 hm with rfl | hm
    · exact hw1
    · exact ih hw2 hm

/-- The per-crumb facts a consistent context provides about one of its
crumbs. -/
theorem ctxOk_mem {T : Type} [LT T] :
    ∀ {cs : List (Crumb T)} {c : Crumb T}, ctxOk cs → c ∈ cs →
      c.sib.Ordered ∧
      (∀ v ∈ c.sib.vals, (if c.isL then c.nd.value < v else v < c.nd.value)) := by
  intro cs
  induction cs with
  | nil =>
    intro c _ hm
    exact absurd hm (List.not_mem_nil _)
  | cons c0 cs ih =>
    intro c hctx hm
    obtain ⟨hso, _, hsv, hrest⟩ := hctx
    rcases List.mem_cons.1 hm with rfl | hm
    · exact ⟨hso, fun v hv => (hsv v hv).1⟩
    · exact ih hrest hm

/-- `mem::swap` on two occupied slots, evaluated. -/
theorem swapSlots_eval {T : Type} {d : List (Option (Node T))} {i j : Nat}
    {x y : Node T} (hi : getNode d i = some x) (hj : getNode d j = some y) :
    swapSlots d i j = some ((d.set i (some y)).set j (some x)) := by
  unfold swapSlots
  rw [getNode_get? hi, getNode_get? hj]

/-- Free-list exactness after a surgery that vacates exactly the
previously occupied slot `ri` and does not change any other slot's
occupancy. -/
theorem free_facts {T : Type} [LT T] {t : Tree T} {S : BT T} (hwf : WFT t S)
    {d3 : List (Option (Node T))} {ri : Nat} {rnd : Node T}
    (hlen3 : d3.length = t.data.length)
    (hri : getNode t.data ri = some rnd)
    (hriv : d3.get? ri = some none)
    (hfr : ∀ j, j < t.data.length → j ≠ ri →
      (d3.get? j = some none ↔ t.data.get? j = some none)) :
    (∀ j ∈ t.free ++ [ri], d3.get? j = some none) ∧
    (t.free ++ [ri]).Nodup ∧
    (∀ j, j < d3.length → d3.get? j = some none → j ∈ t.free ++ [ri]) := by
  have hrin : ri ∉ t.free := by
    intro hm
    have := hwf.hfreev ri hm
    rw [getNode_get? hri] at this
    exact Option.noConfusion (Option.some.inj this)
  refine ⟨?_, ?_, ?_⟩
  · intro j hj
    rcases List.mem_append.1 hj with hj | hj
    · have hv := hwf.hfreev j hj
      have hjlt : j < t.data.length := get?_lt hv
      have hjri : j ≠ ri := fun e => hrin (e ▸ hj)
      exact (hfr j hjlt hjri).2 hv
    · rcases List.mem_cons.1 hj with rfl | hj
      · exact hriv
      · exact absurd hj (List.not_mem_nil _)
  · refine List.nodup_append.2 ⟨hwf.hfreend, List.nodup_singleton _, ?_⟩
    intro a ha hm
    rcases List.mem_cons.1 hm with rfl | hm
    · exact hrin ha
    · exact absurd hm (List.not_mem_nil _)
  · intro j hjlt hjv
    by_cases hjri : j = ri
    · exact List.mem_append_right _ (by rw [hjri]; exact List.mem_cons_self _ _)
    · refine List.mem_append_left _ ?_
      exact hwf.hfreec j (by omega) ((hfr j (by omega) hjri).1 hjv)

/-- Reading a slot index off the head of the reversed visited list. -/
theorem getLast?_of_reverse_cons {l : List Nat} {x : Nat} {r : List Nat}
    (h : l.reverse = x :: r) : l.getLast? = some x := by
  rw [← List.head?_reverse, h]
  rfl

/-- Evaluation of `removeFinish` on known slot contents: the freed slot's
node value moves into the target slot, whose child pointers are re-read
from the post-vacate arena; then the path is replayed and the tail
trimmed. -/
theorem removeFinish_eval {T : Type} {t : Tree T} {d1 : List (Option (Node T))}
    {ri vi vl vr : Nat} {vis : List Nat} {r : Option T} {t' : Tree T}
    {ldn vin : Node T} {slv srv : Option (Node T)}
    (hri : d1.get? ri = some (some ldn))
    (hsl : (d1.set ri none).get? vl = some slv)
    (hsr : (d1.set ri none).get? vr = some srv)
    (hvi : (d1.set ri none).get? vi = some (some vin))
    (h : removeFinish t d1 ri vi vl vr vis = some (r, t')) :
    r = some vin.value ∧
    ∃ t2 t3, Tree.update_and_balance
        { t with
            data := (d1.set ri none).set vi (some
              { value := ldn.value, left := slv.map (fun _ => vl),
                right := srv.map (fun _ => vr), height := 0 }),
            free := t.free ++ [ri] } vis = some t2 ∧
      t2.clean_tail = some t3 ∧ t' = { t3 with size := t3.size - 1 } := by
  unfold removeFinish at h
  simp only [bind, Option.bind_eq_some] at h
  obtain ⟨⟨repl, d2⟩, hrep, sl, hsl2, sr, hsr2, ⟨oldv, d3⟩, hrep2, t2, huab, t3,
    hct, hfin⟩ := h
  unfold replaceAt at hrep
  rw [hri] at hrep
  obtain ⟨e1, e2⟩ := Prod.mk.inj (Option.some.inj hrep)
  rw [← e2] at hsl2 hsr2 hrep2
  have esl : sl = slv := (Option.some.inj (hsl.symm.trans hsl2)).symm
  have esr : sr = srv := (Option.some.inj (hsr.symm.trans hsr2)).symm
  rw [esl, esr, ← e1] at hrep2
  unfold replaceAt at hrep2
  rw [hvi] at hrep2
  obtain ⟨e3, e4⟩ := Prod.mk.inj (Option.some.inj hrep2)
  rw [← e4] at huab
  obtain ⟨e5, e6⟩ := Prod.mk.inj (Option.some.inj hfin)
  refine ⟨?_, t2, t3, huab, hct, e6.symm⟩
  rw [← e5, ← e3]

/-- Unfolding of `List.bind` on a cons. -/
theorem bind_cons_eq {A B : Type} (c : A) (cs : List A) (f : A → List B) :
    (c :: cs).bind f = f c ++ cs.bind f := rfl

/-- `List.bind` distributes over append. -/
theorem bind_append_eq {A B : Type} (l1 l2 : List A) (f : A → List B) :
    (l1 ++ l2).bind f = l1.bind f ++ l2.bind f := by
  induction l1 with
  | nil => rfl
  | cons x xs ih =>
    show f x ++ (xs ++ l2).bind f = (f x ++ xs.bind f) ++ l2.bind f
    rw [ih, List.append_assoc]

/-- Membership in a bind through one of its generators. -/
theorem mem_bind_of {A B : Type} {f : A → List B} {c : A} {x : B} :
    ∀ {cs : List A}, c ∈ cs → x ∈ f c → x ∈ cs.bind f := by
  intro cs
  induction cs with
  | nil => intro h; exact absurd h (List.not_mem_nil _)
  | cons y ys ih =>
    intro hc hx
    rw [bind_cons_eq]
    rcases List.mem_cons.1 hc with rfl | hc
    · exact List.mem_append_left _ hx
    · exact List.mem_append_right _ (ih hc hx)

/-- Unfolding of `ctxIdxs` on a cons. -/
theorem ctxIdxs_cons {T : Type} (c : Crumb T) (cs : List (Crumb T)) :
    ctxIdxs (c :: cs) = (c.i :: c.sib.idxs) ++ ctxIdxs cs := rfl

/-- `ctxIdxs` distributes over append. -/
theorem ctxIdxs_append {T : Type} (l1 l2 : List (Crumb T)) :
    ctxIdxs (l1 ++ l2) = ctxIdxs l1 ++ ctxIdxs l2 :=
  bind_append_eq l1 l2 _

/-- A nonempty crumb path owns its root slot. -/
theorem crumbsOk_root_mem {T : Type} {d : List (Option (Node T))} {F : Nat} :
    ∀ {cs : List (Crumb T)} {fl : Option Nat} {r0 : Nat}, crumbsOk d F cs fl r0 →
      cs = [] ∨ r0 ∈ ctxIdxs cs := by
  intro cs
  induction cs with
  | nil => intro fl r0 _; exact Or.inl rfl
  | cons c cs ih =>
    intro fl r0 h
    obtain ⟨_, _, _, hrest⟩ := h
    right
    rcases ih hrest with he | hm
    · rw [he] at hrest
      have h2 : some c.i = some r0 := hrest
      have e := Option.some.inj h2
      show r0 ∈ (c :: cs).bind (fun c => c.i :: c.sib.idxs)
      rw [bind_cons_eq]
      exact List.mem_append_left _ (by rw [← e]; exact List.mem_cons_self _ _)
    · show r0 ∈ (c :: cs).bind (fun c => c.i :: c.sib.idxs)
      rw [bind_cons_eq]
      exact List.mem_append_right _ hm


/-- The two-children removal, taller-left side, relocation subcase: the
in-order predecessor (found by the right-spine climb from the left child)
has a left child `w`; the predecessor's slot content is swapped with
`w`'s, slot `w` is vacated, and the predecessor's value replaces the
target's.  The result is well-formed with exactly one copy of the
target's value gone. -/
theorem removeTwoL_swap_wf {T : Type} [LinearOrder T] [DecidableEq T]
    {t : Tree T} {S : BT T} {csV : List (Crumb T)} {vi : Nat} {vnd : Node T}
    {a b : Nat} {VA VB : BT T} {visited1 : List Nat} {land : Node T}
    {cur : Nat} {ld : Node T} {vis2 : List Nat} {w : Nat}
    {d1 : List (Option (Node T))} {r : Option T} {t' : Tree T}
    (hlen : t.data.length ≤ 125)
    (hwf : WFT t S)
    (hvn : getNode t.data vi = some vnd)
    (hA : decode t.data (t.data.length + 1) (some a) = some VA)
    (hB : decode t.data (t.data.length + 1) (some b) = some VB)
    (hsVA : VA.storedOk) (hsVB : VB.storedOk)
    (hcsV : crumbsOk t.data (t.data.length + 1) csV (some vi) t.root)
    (hplug : plugC csV (BT.node VA vi vnd VB) = S)
    (hvis1 : visited1.reverse = vi :: csV.map Crumb.i)
    (hland : getNode t.data a = some land)
    (hclimb : climbRight t.data (t.data.length + 1) a land visited1 =
      some (cur, ld, vis2))
    (hw : ld.left = some w)
    (hd1 : swapSlots t.data cur w = some d1)
    (hfin : removeFinish t d1 w vi a b vis2 = some (r, t')) :
    ∃ S', WFT t' S' ∧ t'.data.length ≤ t.data.length ∧ t'.size + 1 = t.size ∧
      r = some vnd.value ∧
      (∀ x, S'.vals.count x + (if vnd.value = x then 1 else 0) = S.vals.count x) := by
  obtain ⟨csR, LW, o1, o2, o3, o4, o5, o6, o7, o8, o9⟩ :=
    climbRight_spec _ a land visited1 VA cur ld vis2 hclimb hland hA hsVA
  rw [hw] at o3
  obtain ⟨fW, WL, wnd, WR, hfW, hLWeq, hwn, hWL0, hWR0⟩ := decode_some_inv o3
  obtain rfl : fW = t.data.length := by omega
  rw [hLWeq] at o4 o8
  obtain ⟨hwst, hsWL, hsWR⟩ := o4
  obtain ⟨fB, B1, bnd, B2, hfB, hBeq, hbn, hB1, hB2⟩ := decode_some_inv hB
  have hcount1 : ∀ k : Nat, S.idxs.count k ≤ 1 :=
    List.nodup_iff_count_le_one.1 hwf.hnodup
  have hcntVA : ∀ k : Nat, VA.idxs.count k = (ctxIdxs csR).count k +
      WL.idxs.count k + WR.idxs.count k + (if w = k then 1 else 0) +
      (if cur = k then 1 else 0) := by
    intro k
    rw [← o8, plugC_idxs_count, List.count_append]
    have e3 : (BT.node (BT.node WL w wnd WR) cur ld BT.leaf).idxs =
        (WL.idxs ++ w :: WR.idxs) ++ cur :: [] := rfl
    rw [e3]
    simp only [List.count_append, List.count_cons, List.count_nil, beq_iff_eq]
    omega
  have hcntS : ∀ k : Nat, S.idxs.count k = (ctxIdxs csV).count k +
      VA.idxs.count k + VB.idxs.count k + (if vi = k then 1 else 0) := by
    intro k
    rw [← hplug, plugC_idxs_count, List.count_append]
    have e5 : (BT.node VA vi vnd VB).idxs = VA.idxs ++ vi :: VB.idxs := rfl
    rw [e5]
    simp only [List.count_append, List.count_cons, beq_iff_eq]
    omega
  have hsplitS : ∀ k : Nat, (ctxIdxs csV).count k + (ctxIdxs csR).count k +
      WL.idxs.count k + WR.idxs.count k + VB.idxs.count k +
      (if w = k then 1 else 0) + (if cur = k then 1 else 0) +
      (if vi = k then 1 else 0) ≤ 1 := by
    intro k
    have h1 := hcntS k
    have h2 := hcntVA k
    have h3 := hcount1 k
    omega
  have hdisj3 : ∀ k : Nat, 1 ≤ (ctxIdxs csV).count k + (ctxIdxs csR).count k +
      WL.idxs.count k + WR.idxs.count k + VB.idxs.count k →
      k ≠ cur ∧ k ≠ w ∧ k ≠ vi := by
    intro k hk
    have h := hsplitS k
    refine ⟨?_, ?_, ?_⟩ <;> intro e <;> subst e <;> rw [if_pos rfl] at h <;> omega
  have hcvi : cur ≠ vi := by
    have h := hsplitS vi
    intro e
    rw [e] at h
    rw [if_pos rfl] at h
    omega
  have hwvi : w ≠ vi := by
    have h := hsplitS vi
    intro e
    rw [e] at h
    rw [if_pos rfl] at h
    omega
  have hcw : cur ≠ w := by
    have h := hsplitS w
    intro e
    rw [e] at h
    rw [if_pos rfl] at h
    omega
  have hbd : b ≠ cur ∧ b ≠ w ∧ b ≠ vi := by
    refine hdisj3 b ?_
    have hbm : b ∈ VB.idxs := by
      rw [hBeq]
      exact List.mem_append_right _ (List.mem_cons_self _ _)
    have := List.count_pos_iff_mem.2 hbm
    omega
  obtain ⟨hbc, hbw, hbvi⟩ := hbd
  have hamem : a = cur ∨ a ∈ ctxIdxs csR := by
    rcases crumbsOk_root_mem o6 with he | hm
    · left
      rw [he] at o6
      have h2 : some cur = some a := o6
      exact (Option.some.inj h2).symm
    · right
      exact hm
  have ha3 : a = cur ∨ (a ≠ cur ∧ a ≠ w ∧ a ≠ vi) := by
    rcases hamem with he | hm
    · exact Or.inl he
    · right
      have := List.count_pos_iff_mem.2 hm
      exact hdisj3 a (by omega)
  have haw : a ≠ w := by
    rcases ha3 with he | hp
    · rw [he]; exact hcw
    · exact hp.2.1
  have havi : a ≠ vi := by
    rcases ha3 with he | hp
    · rw [he]; exact hcvi
    · exact hp.2.2
  have hvilt : vi < t.data.length := getNode_lt hvn
  have hcurlt : cur < t.data.length := getNode_lt o1
  have hwlt : w < t.data.length := getNode_lt hwn
  rw [swapSlots_eval o1 hwn] at hd1
  obtain rfl : (t.data.set cur (some wnd)).set w (some ld) = d1 :=
    Option.some.inj hd1
  have hd1w : ((t.data.set cur (some wnd)).set w (some ld)).get? w =
      some (some ld) := by
    rw [List.get?_set_eq_of_lt _ (by rw [List.length_set]; exact hwlt)]
  have hsetset : ((t.data.set cur (some wnd)).set w (some ld)).set w none =
      (t.data.set cur (some wnd)).set w none := by
    rw [List.set_set]
  have hg2a : ∃ z : Node T, ((t.data.set cur (some wnd)).set w none).get? a =
      some (some z) := by
    rcases ha3 with he | hp
    · refine ⟨wnd, ?_⟩
      rw [he]
      rw [List.get?_set_ne _ _ (fun e => hcw e.symm)]
      rw [List.get?_set_eq_of_lt _ hcurlt]
    · refine ⟨land, ?_⟩
      rw [List.get?_set_ne _ _ (fun e => hp.2.1 e.symm)]
      rw [List.get?_set_ne _ _ (fun e => hp.1 e.symm)]
      exact getNode_get? hland
  have hg2b : ((t.data.set cur (some wnd)).set w none).get? b =
      some (some bnd) := by
    rw [List.get?_set_ne _ _ (fun e => hbw e.symm)]
    rw [List.get?_set_ne _ _ (fun e => hbc e.symm)]
    exact getNode_get? hbn
  have hg2vi : ((t.data.set cur (some wnd)).set w none).get? vi =
      some (some vnd) := by
    rw [List.get?_set_ne _ _ hwvi]
    rw [List.get?_set_ne _ _ hcvi]
    exact getNode_get? hvn
  obtain ⟨z, hg2az⟩ := hg2a
  obtain ⟨hr, t2, t3, huab, hct, ht'⟩ :=
    removeFinish_eval hd1w (by rw [hsetset]; exact hg2az)
      (by rw [hsetset]; exact hg2b) (by rw [hsetset]; exact hg2vi) hfin
  rw [hsetset] at huab
  simp only [Option.map_some'] at huab
  set replN : Node T :=
    { value := ld.value, left := some a, right := some b, height := 0 } with hreplN
  set d3 : List (Option (Node T)) :=
    ((t.data.set cur (some wnd)).set w none).set vi (some replN) with hd3
  have hlen3 : d3.length = t.data.length := by
    rw [hd3, List.length_set, List.length_set, List.length_set]
  have hg3 : ∀ k, k ≠ cur → k ≠ w → k ≠ vi → getNode d3 k = getNode t.data k := by
    intro k h1 h2 h3
    rw [hd3, getNode_set_ne (fun e => h3 e.symm), getNode_set_ne (fun e => h2 e.symm),
      getNode_set_ne (fun e => h1 e.symm)]
  have hget3 : ∀ k, k ≠ cur → k ≠ w → k ≠ vi → d3.get? k = t.data.get? k := by
    intro k h1 h2 h3
    rw [hd3, List.get?_set_ne _ _ (fun e => h3 e.symm),
      List.get?_set_ne _ _ (fun e => h2 e.symm),
      List.get?_set_ne _ _ (fun e => h1 e.symm)]
  have hg3vi : getNode d3 vi = some replN := by
    rw [hd3]
    exact getNode_set_self (by rw [List.length_set, List.length_set]; exact hvilt) _
  have hg3cur : getNode d3 cur = some wnd := by
    rw [hd3, getNode_set_ne (fun e => hcvi e.symm), getNode_set_ne (fun e => hcw e.symm)]
    exact getNode_set_self hcurlt _
  have hg3w : d3.get? w = some none := by
    rw [hd3, List.get?_set_ne _ _ (fun e => hwvi e.symm)]
    rw [List.get?_set_eq_of_lt _ (by rw [List.length_set]; exact hwlt)]
  have hWLne : ∀ k, k ∈ WL.idxs → k ≠ cur ∧ k ≠ w ∧ k ≠ vi := by
    intro k hk
    refine hdisj3 k ?_
    have := List.count_pos_iff_mem.2 hk
    omega
  have hWRne : ∀ k, k ∈ WR.idxs → k ≠ cur ∧ k ≠ w ∧ k ≠ vi := by
    intro k hk
    refine hdisj3 k ?_
    have := List.count_pos_iff_mem.2 hk
    omega
  have hVBne : ∀ k, k ∈ VB.idxs → k ≠ cur ∧ k ≠ w ∧ k ≠ vi := by
    intro k hk
    refine hdisj3 k ?_
    have := List.count_pos_iff_mem.2 hk
    omega
  have hctxVne : ∀ k, k ∈ ctxIdxs csV → k ≠ cur ∧ k ≠ w ∧ k ≠ vi := by
    intro k hk
    refine hdisj3 k ?_
    have := List.count_pos_iff_mem.2 hk
    omega
  have hctxRne : ∀ k, k ∈ ctxIdxs csR → k ≠ cur ∧ k ≠ w ∧ k ≠ vi := by
    intro k hk
    refine hdisj3 k ?_
    have := List.count_pos_iff_mem.2 hk
    omega
  have hWL3 : decode d3 t.data.length wnd.left = some WL :=
    decode_agree hWL0 (fun j hj =>
      hg3 j (hWLne j hj).1 (hWLne j hj).2.1 (hWLne j hj).2.2)
  have hWR3 : decode d3 t.data.length wnd.right = some WR :=
    decode_agree hWR0 (fun j hj =>
      hg3 j (hWRne j hj).1 (hWRne j hj).2.1 (hWRne j hj).2.2)
  have hreloc : decode d3 (t.data.length + 1) (some cur) =
      some (BT.node WL cur wnd WR) := decode_build hg3cur hWL3 hWR3
  have hVB3 : decode d3 (t.data.length + 1) (some b) = some VB :=
    decode_agree hB (fun j hj =>
      hg3 j (hVBne j hj).1 (hVBne j hj).2.1 (hVBne j hj).2.2)
  have hcsV3 : crumbsOk d3 (t.data.length + 1) csV (some vi) t.root :=
    crumbsOk_agree hcsV (fun k hk =>
      hg3 k (hctxVne k hk).1 (hctxVne k hk).2.1 (hctxVne k hk).2.2)
  have hvcntVA : ∀ x : T, VA.vals.count x =
      (csR.bind (fun c => c.nd.value :: c.sib.vals)).count x + WL.vals.count x +
      WR.vals.count x + (if wnd.value = x then 1 else 0) +
      (if ld.value = x then 1 else 0) := by
    intro x
    rw [← o8, plugC_vals_count, List.count_append]
    have e3 : (BT.node (BT.node WL w wnd WR) cur ld BT.leaf).vals =
        (WL.vals ++ wnd.value :: WR.vals) ++ ld.value :: [] := rfl
    rw [e3]
    simp only [List.count_append, List.count_cons, List.count_nil, beq_iff_eq]
    omega
  have hvcntS : ∀ x : T, S.vals.count x =
      (csV.bind (fun c => c.nd.value :: c.sib.vals)).count x + VA.vals.count x +
      VB.vals.count x + (if vnd.value = x then 1 else 0) := by
    intro x
    rw [← hplug, plugC_vals_count, List.count_append]
    have e5 : (BT.node VA vi vnd VB).vals = VA.vals ++ vnd.value :: VB.vals := rfl
    rw [e5]
    simp only [List.count_append, List.count_cons, beq_iff_eq]
    omega
  have hmemVA : ∀ x : T,
      1 ≤ (csR.bind (fun c => c.nd.value :: c.sib.vals)).count x +
        WL.vals.count x + WR.vals.count x + (if wnd.value = x then 1 else 0) +
        (if ld.value = x then 1 else 0) → x ∈ VA.vals := by
    intro x hx
    have := hvcntVA x
    exact List.count_pos_iff_mem.1 (by omega)
  have hmemFocus : ∀ x : T, x ∈ VA.vals → x ∈ (BT.node VA vi vnd VB).vals := by
    intro x hx
    exact List.mem_append_left _ hx
  have hldVA : ld.value ∈ VA.vals := by
    refine hmemVA _ ?_
    rw [if_pos rfl]
    omega
  have hSord := hwf.hord
  rw [← hplug] at hSord
  obtain ⟨hfoc_ord, hfoc_wc, hctxV⟩ := (plugC_ordered_iff csV _).1 hSord
  obtain ⟨hAlt, hBgt, hAo, hBo⟩ := hfoc_ord
  have hVAord2 := hAo
  rw [← o8] at hVAord2
  obtain ⟨hfocR_ord, hfocR_wc, hctxR⟩ := (plugC_ordered_iff csR _).1 hVAord2
  obtain ⟨hLWlt, hld2, hLWo, hleafo⟩ := hfocR_ord
  have hldlt : ld.value < vnd.value := hAlt _ hldVA
  have hocc3 : occCount d3 + 1 = occCount t.data := by
    have s1 := occCount_set t.data cur (some wnd) hcurlt
    rw [getNode_get? o1] at s1
    have s2 := occCount_set (t.data.set cur (some wnd)) w none
      (by rw [List.length_set]; exact hwlt)
    rw [List.get?_set_ne _ _ hcw, getNode_get? hwn] at s2
    have s3 := occCount_set ((t.data.set cur (some wnd)).set w none) vi
      (some replN) (by rw [List.length_set, List.length_set]; exact hvilt)
    rw [hg2vi] at s3
    rw [hd3]
    simp only [occB] at s1 s2 s3
    omega
  have hfr : ∀ j, j < t.data.length → j ≠ w →
      (d3.get? j = some none ↔ t.data.get? j = some none) := by
    intro j hjlt hjw
    by_cases hjc : j = cur
    · subst hjc
      constructor
      · intro hx
        rw [getNode_get? hg3cur] at hx
        exact absurd (Option.some.inj hx) (by simp)
      · intro hx
        rw [getNode_get? o1] at hx
        exact absurd (Option.some.inj hx) (by simp)
    · by_cases hjvi : j = vi
      · subst hjvi
        constructor
        · intro hx
          rw [getNode_get? hg3vi] at hx
          exact absurd (Option.some.inj hx) (by simp)
        · intro hx
          rw [getNode_get? hvn] at hx
          exact absurd (Option.some.inj hx) (by simp)
      · rw [hget3 j hjc hjw hjvi]
  obtain ⟨hfv, hfnd, hfc⟩ := free_facts hwf hlen3 hwn hg3w hfr
  have l1 : S.idxs.length = (ctxIdxs csV).length + VA.idxs.length + 1 +
      VB.idxs.length := by
    rw [← hplug, (plugC_idxs_perm csV _).length_eq]
    have e5 : (BT.node VA vi vnd VB).idxs = VA.idxs ++ vi :: VB.idxs := rfl
    rw [e5]
    simp only [List.length_append, List.length_cons]
    omega
  have l2 : VA.idxs.length = (ctxIdxs csR).length + WL.idxs.length +
      WR.idxs.length + 2 := by
    rw [← o8, (plugC_idxs_perm csR _).length_eq]
    have e6 : (BT.node (BT.node WL w wnd WR) cur ld BT.leaf).idxs =
        (WL.idxs ++ w :: WR.idxs) ++ cur :: [] := rfl
    rw [e6]
    simp only [List.length_append, List.length_cons, List.length_nil]
    omega
  have hcnt2 : 2 ≤ S.cnt := by
    rw [cnt_eq_idxs_length]
    omega
  rcases csR with _ | ⟨cH, csR'⟩
  · -- the climb stopped at the target's left child itself
    have hca : cur = a := by
      have h2 : some cur = some a := o6
      exact Option.some.inj h2
    have hVAeq : VA = BT.node (BT.node WL w wnd WR) cur ld BT.leaf := o8.symm
    have hvis2 : vis2 = visited1 := by
      rw [o9]
      simp
    have hrelA : decode d3 (t.data.length + 1) (some a) =
        some (BT.node WL cur wnd WR) := by
      rw [← hca]
      exact hreloc
    have hnd : (ctxIdxs csV ++ (BT.node (BT.node WL cur wnd WR) vi replN
        VB).idxs).Nodup := by
      rw [List.nodup_iff_count_le_one]
      intro k
      have h1 := hsplitS k
      rw [show (ctxIdxs ([] : List (Crumb T))).count k = 0 from rfl] at h1
      have e7 : (BT.node (BT.node WL cur wnd WR) vi replN VB).idxs =
          (WL.idxs ++ cur :: WR.idxs) ++ vi :: VB.idxs := rfl
      rw [List.count_append, e7]
      simp only [List.count_append, List.count_cons, beq_iff_eq]
      omega
    have hVAvals : VA.vals = (WL.vals ++ wnd.value :: WR.vals) ++ ld.value :: [] := by
      rw [hVAeq]
      rfl
    have hop : (plugC csV (BT.node (BT.node WL cur wnd WR) vi replN
        VB)).Ordered := by
      refine (plugC_ordered_iff _ _).2 ⟨⟨?_, ?_, hLWo, hBo⟩, ?_, hctxV⟩
      · intro x hx
        exact hLWlt x hx
      · intro x hx
        exact lt_trans hldlt (hBgt x hx)
      · intro u hu
        have e8 : (BT.node (BT.node WL cur wnd WR) vi replN VB).vals =
            (WL.vals ++ wnd.value :: WR.vals) ++ ld.value :: VB.vals := rfl
        rw [e8] at hu
        rcases List.mem_append.1 hu with hu | hu
        · refine hfoc_wc u (hmemFocus u ?_)
          rw [hVAvals]
          exact List.mem_append_left _ hu
        · rcases List.mem_cons.1 hu with heq | hu
          · rw [heq]
            exact hfoc_wc _ (hmemFocus _ hldVA)
          · exact hfoc_wc u (List.mem_append_right _ (List.mem_cons_of_mem _ hu))
    have hvalsc : ∀ x : T, (plugC csV (BT.node (BT.node WL cur wnd WR) vi replN
        VB)).vals.count x + (if vnd.value = x then 1 else 0) = S.vals.count x := by
      intro x
      rw [plugC_vals_count, List.count_append]
      have e8 : (BT.node (BT.node WL cur wnd WR) vi replN VB).vals =
          (WL.vals ++ wnd.value :: WR.vals) ++ ld.value :: VB.vals := rfl
      rw [e8]
      have h1 := hvcntS x
      have h2 := hvcntVA x
      rw [show ((([] : List (Crumb T))).bind
        (fun c => c.nd.value :: c.sib.vals)).count x = 0 from rfl] at h2
      simp only [List.count_append, List.count_cons, beq_iff_eq]
      omega
    have hidxc : (ctxIdxs csV ++ (BT.node (BT.node WL cur wnd WR) vi replN
        VB).idxs).length + 1 = S.idxs.length := by
      have e7 : (BT.node (BT.node WL cur wnd WR) vi replN VB).idxs =
          (WL.idxs ++ cur :: WR.idxs) ++ vi :: VB.idxs := rfl
      rw [e7]
      rw [show (ctxIdxs ([] : List (Crumb T))).length = 0 from rfl] at l2
      simp only [List.length_append, List.length_cons, List.length_nil]
      omega
    have hvisR : vis2.reverse = vi :: csV.map Crumb.i := by
      rw [hvis2]
      exact hvis1
    obtain ⟨S', hWFT, hl3, hsz3, hcnts⟩ :=
      rebuild_wf hwf hlen hlen3 hg3vi hrelA hVB3 ⟨hwst, hsWL, hsWR⟩ hsVB hcsV3
        hnd hop hvalsc hidxc hocc3 hfv hfnd hfc hcnt2 hvisR huab hct
    refine ⟨S', ?_, ?_, ?_, hr, hcnts⟩
    · rw [ht']
      exact hWFT
    · rw [ht']
      show t3.data.length ≤ t.data.length
      exact hl3
    · rw [ht']
      show t3.size - 1 + 1 = t.size
      have hc := hwf.hcnt
      omega
  · -- the climb descended at least one edge
    obtain ⟨hcHn, hcHside, hcHsib, hcsR'⟩ := o6
    have hcHL : cH.isL = false := o7 cH (List.mem_cons_self _ _)
    rw [hcHL] at hcHside
    rw [if_neg (by simp)] at hcHside
    obtain ⟨hcHr, hcHl⟩ := hcHside
    have hctxRc : ∀ k : Nat, (ctxIdxs (cH :: csR')).count k =
        cH.sib.idxs.count k + (ctxIdxs csR').count k +
        (if cH.i = k then 1 else 0) := by
      intro k
      rw [ctxIdxs_cons]
      simp only [List.count_append, List.count_cons, beq_iff_eq]
      omega
    have hctxRv : ∀ x : T, ((cH :: csR').bind
        (fun c => c.nd.value :: c.sib.vals)).count x =
        cH.sib.vals.count x + (csR'.bind
          (fun c => c.nd.value :: c.sib.vals)).count x +
        (if cH.nd.value = x then 1 else 0) := by
      intro x
      rw [bind_cons_eq]
      simp only [List.count_append, List.count_cons, beq_iff_eq]
      omega
    have hcHne : cH.i ≠ cur ∧ cH.i ≠ w ∧ cH.i ≠ vi := by
      refine hdisj3 cH.i ?_
      have hm : cH.i ∈ ctxIdxs (cH :: csR') := by
        rw [ctxIdxs_cons]
        exact List.mem_append_left _ (List.mem_cons_self _ _)
      have := List.count_pos_iff_mem.2 hm
      omega
    have hsibsub : ∀ k, k ∈ cH.sib.idxs → k ∈ ctxIdxs (cH :: csR') := by
      intro k hk
      rw [ctxIdxs_cons]
      exact List.mem_append_left _ (List.mem_cons_of_mem _ hk)
    have hctxR'sub : ∀ k, k ∈ ctxIdxs csR' → k ∈ ctxIdxs (cH :: csR') := by
      intro k hk
      rw [ctxIdxs_cons]
      exact List.mem_append_right _ hk
    have hg3cH : getNode d3 cH.i = some cH.nd := by
      rw [hg3 cH.i hcHne.1 hcHne.2.1 hcHne.2.2]
      exact hcHn
    have hsib3 : decode d3 (t.data.length + 1) cH.nd.left = some cH.sib :=
      decode_agree hcHl (fun j hj =>
        (fun h => hg3 j h.1 h.2.1 h.2.2) (hctxRne j (hsibsub j hj)))
    have hcsR'3 : crumbsOk d3 (t.data.length + 1) csR' (some cH.i) a :=
      crumbsOk_agree hcsR' (fun k hk =>
        (fun h => hg3 k h.1 h.2.1 h.2.2) (hctxRne k (hctxR'sub k hk)))
    have hconsV3 : crumbsOk d3 (t.data.length + 1)
        ((⟨vi, replN, VB, true⟩ : Crumb T) :: csV) (some a) t.root := by
      refine ⟨hg3vi, ?_, hsVB, hcsV3⟩
      rw [if_pos rfl]
      exact ⟨rfl, hVB3⟩
    have hcsA : crumbsOk d3 (t.data.length + 1)
        (csR' ++ (⟨vi, replN, VB, true⟩ : Crumb T) :: csV) (some cH.i) t.root :=
      crumbsOk_append2 csR' _ (some cH.i) a t.root hcsR'3 hconsV3
    have hRd : decode d3 (t.data.length + 1) cH.nd.right =
        some (BT.node WL cur wnd WR) := by
      rw [hcHr]
      exact hreloc
    have hvisR : vis2.reverse = cH.i ::
        (csR' ++ (⟨vi, replN, VB, true⟩ : Crumb T) :: csV).map Crumb.i := by
      rw [o9, List.reverse_append, List.reverse_reverse, hvis1]
      simp
    have hctxAe : ctxIdxs (csR' ++ (⟨vi, replN, VB, true⟩ : Crumb T) :: csV) =
        ctxIdxs csR' ++ ((vi :: VB.idxs) ++ ctxIdxs csV) := by
      rw [ctxIdxs_append, ctxIdxs_cons]
    have hctxAc : ∀ k : Nat, (ctxIdxs (csR' ++
        (⟨vi, replN, VB, true⟩ : Crumb T) :: csV)).count k =
        (ctxIdxs csR').count k + VB.idxs.count k + (ctxIdxs csV).count k +
        (if vi = k then 1 else 0) := by
      intro k
      rw [hctxAe]
      simp only [List.count_append, List.count_cons, beq_iff_eq]
      omega
    have hnd : (ctxIdxs (csR' ++ (⟨vi, replN, VB, true⟩ : Crumb T) :: csV) ++
        (BT.node cH.sib cH.i cH.nd (BT.node WL cur wnd WR)).idxs).Nodup := by
      rw [List.nodup_iff_count_le_one]
      intro k
      have h1 := hsplitS k
      have h2 := hctxRc k
      rw [List.count_append, hctxAc]
      have e7 : (BT.node cH.sib cH.i cH.nd (BT.node WL cur wnd WR)).idxs =
          cH.sib.idxs ++ cH.i :: (WL.idxs ++ cur :: WR.idxs) := rfl
      rw [e7]
      simp only [List.count_append, List.count_cons, beq_iff_eq]
      omega
    obtain ⟨hsibO, hwcH, hsvH, hctxR''⟩ := hctxR
    have hsideH : ∀ v ∈ cH.sib.vals, v < cH.nd.value := by
      intro v hv
      have h2 := (hsvH v hv).1
      rw [hcHL] at h2
      rw [if_neg (by simp)] at h2
      exact h2
    have hldwcR : withinCtx (cH :: csR') ld.value := by
      refine hfocR_wc _ ?_
      show ld.value ∈ (BT.node WL w wnd WR).vals ++ ld.value :: []
      exact List.mem_append_right _ (List.mem_cons_self _ _)
    have hcHlt : cH.nd.value < ld.value := by
      have h2 := hldwcR.1
      rw [hcHL] at h2
      rw [if_neg (by simp)] at h2
      exact h2
    have hLWsub : ∀ x : T, x ∈ WL.vals ++ wnd.value :: WR.vals →
        withinCtx (cH :: csR') x := by
      intro x hx
      refine hfocR_wc _ ?_
      show x ∈ (BT.node WL w wnd WR).vals ++ ld.value :: []
      exact List.mem_append_left _ hx
    have hbindVA : ∀ x : T,
        x ∈ ((cH :: csR').bind (fun c => c.nd.value :: c.sib.vals)) →
        x ∈ VA.vals := by
      intro x hx
      refine hmemVA x ?_
      have := List.count_pos_iff_mem.2 hx
      omega
    have hFRVA : ∀ x : T, x ∈ WL.vals ++ wnd.value :: WR.vals → x ∈ VA.vals := by
      intro x hx
      refine hmemVA x ?_
      rcases List.mem_append.1 hx with hx | hx
      · have := List.count_pos_iff_mem.2 hx
        omega
      · rcases List.mem_cons.1 hx with heq | hx
        · rw [heq, if_pos rfl]
          omega
        · have := List.count_pos_iff_mem.2 hx
          omega
    have hLWltR : ∀ x ∈ WL.vals ++ wnd.value :: WR.vals, x < ld.value := by
      intro x hx
      exact hLWlt x hx
    have hwv : ∀ u ∈ (BT.node cH.sib cH.i cH.nd (BT.node WL cur wnd WR)).vals,
        withinCtx (csR' ++ (⟨vi, replN, VB, true⟩ : Crumb T) :: csV) u := by
      intro u hu
      have e8 : (BT.node cH.sib cH.i cH.nd (BT.node WL cur wnd WR)).vals =
          cH.sib.vals ++ cH.nd.value :: (WL.vals ++ wnd.value :: WR.vals) := rfl
      rw [e8] at hu
      rw [withinCtx_append]
      have hget : withinCtx csR' u ∧ u < ld.value ∧ u ∈ VA.vals := by
        rcases List.mem_append.1 hu with hu | hu
        · refine ⟨(hsvH u hu).2, lt_trans (hsideH u hu) hcHlt, ?_⟩
          refine hbindVA u ?_
          rw [bind_cons_eq]
          exact List.mem_append_left _ (List.mem_cons_of_mem _ hu)
        · rcases List.mem_cons.1 hu with heq | hu
          · refine ⟨by rw [heq]; exact hwcH, by rw [heq]; exact hcHlt, ?_⟩
            rw [heq]
            refine hbindVA _ ?_
            rw [bind_cons_eq]
            exact List.mem_append_left _ (List.mem_cons_self _ _)
          · exact ⟨(hLWsub u hu).2, hLWltR u hu, hFRVA u hu⟩
      refine ⟨hget.1, ?_, hfoc_wc u (hmemFocus u hget.2.2)⟩
      rw [if_pos rfl]
      exact hget.2.1
    have hmid : ctxOk ((⟨vi, replN, VB, true⟩ : Crumb T) :: csV) := by
      refine ⟨hBo, ?_, ?_, hctxV⟩
      · exact hfoc_wc _ (hmemFocus _ hldVA)
      · intro u hu
        refine ⟨?_, hfoc_wc u
          (List.mem_append_right _ (List.mem_cons_of_mem _ hu))⟩
        rw [if_pos rfl]
        exact lt_trans hldlt (hBgt u hu)
    have hcondR : ∀ c ∈ csR',
        withinCtx ((⟨vi, replN, VB, true⟩ : Crumb T) :: csV) c.nd.value ∧
        ∀ v ∈ c.sib.vals,
          withinCtx ((⟨vi, replN, VB, true⟩ : Crumb T) :: csV) v := by
      intro c hc
      have hcisL : c.isL = false := o7 c (List.mem_cons_of_mem _ hc)
      have h1 : c.nd.value < ld.value := by
        have h := withinCtx_mem hldwcR.2 hc
        rw [hcisL] at h
        rw [if_neg (by simp)] at h
        exact h
      have hcmemVA : c.nd.value ∈ VA.vals := by
        refine hbindVA _ ?_
        rw [bind_cons_eq]
        refine List.mem_append_right _ ?_
        exact mem_bind_of hc (List.mem_cons_self _ _)
      constructor
      · refine ⟨?_, hfoc_wc _ (hmemFocus _ hcmemVA)⟩
        rw [if_pos rfl]
        exact h1
      · intro v hv
        have h2 := (ctxOk_mem hctxR'' hc).2 v hv
        rw [hcisL] at h2
        rw [if_neg (by simp)] at h2
        have hvVA : v ∈ VA.vals := by
          refine hbindVA v ?_
          rw [bind_cons_eq]
          refine List.mem_append_right _ ?_
          exact mem_bind_of hc (List.mem_cons_of_mem _ hv)
        refine ⟨?_, hfoc_wc v (hmemFocus v hvVA)⟩
        rw [if_pos rfl]
        exact lt_trans h2 h1
    have hctxA : ctxOk (csR' ++ (⟨vi, replN, VB, true⟩ : Crumb T) :: csV) :=
      ctxOk_append csR' _ hctxR'' hmid hcondR
    have hop : (plugC (csR' ++ (⟨vi, replN, VB, true⟩ : Crumb T) :: csV)
        (BT.node cH.sib cH.i cH.nd (BT.node WL cur wnd WR))).Ordered := by
      refine (plugC_ordered_iff _ _).2 ⟨⟨hsideH, ?_, hsibO, hLWo⟩, hwv, hctxA⟩
      intro x hx
      have h2 := (hLWsub x hx).1
      rw [hcHL] at h2
      rw [if_neg (by simp)] at h2
      exact h2
    have hvalsc : ∀ x : T,
        (plugC (csR' ++ (⟨vi, replN, VB, true⟩ : Crumb T) :: csV)
          (BT.node cH.sib cH.i cH.nd (BT.node WL cur wnd WR))).vals.count x +
        (if vnd.value = x then 1 else 0) = S.vals.count x := by
      intro x
      rw [plugC_vals_count, List.count_append]
      have hbA : ((csR' ++ (⟨vi, replN, VB, true⟩ : Crumb T) :: csV).bind
          (fun c => c.nd.value :: c.sib.vals)).count x =
          (csR'.bind (fun c => c.nd.value :: c.sib.vals)).count x +
          VB.vals.count x +
          (csV.bind (fun c => c.nd.value :: c.sib.vals)).count x +
          (if ld.value = x then 1 else 0) := by
        rw [bind_append_eq, bind_cons_eq]
        simp only [List.count_append, List.count_cons, beq_iff_eq]
        omega
      rw [hbA]
      have e8 : (BT.node cH.sib cH.i cH.nd (BT.node WL cur wnd WR)).vals =
          cH.sib.vals ++ cH.nd.value :: (WL.vals ++ wnd.value :: WR.vals) := rfl
      rw [e8]
      have h1 := hvcntS x
      have h2 := hvcntVA x
      have h3 := hctxRv x
      rw [h3] at h2
      simp only [List.count_append, List.count_cons, beq_iff_eq]
      omega
    have hidxc : (ctxIdxs (csR' ++ (⟨vi, replN, VB, true⟩ : Crumb T) :: csV) ++
        (BT.node cH.sib cH.i cH.nd (BT.node WL cur wnd WR)).idxs).length + 1 =
        S.idxs.length := by
      have hl4 : (ctxIdxs (cH :: csR')).length =
          cH.sib.idxs.length + (ctxIdxs csR').length + 1 := by
        rw [ctxIdxs_cons]
        simp only [List.length_append, List.length_cons]
        omega
      have hlA : (ctxIdxs (csR' ++ (⟨vi, replN, VB, true⟩ : Crumb T) ::
          csV)).length = (ctxIdxs csR').length + 1 + VB.idxs.length +
          (ctxIdxs csV).length := by
        rw [hctxAe]
        simp only [List.length_append, List.length_cons]
        omega
      rw [List.length_append, hlA]
      have e7 : (BT.node cH.sib cH.i cH.nd (BT.node WL cur wnd WR)).idxs =
          cH.sib.idxs ++ cH.i :: (WL.idxs ++ cur :: WR.idxs) := rfl
      rw [e7]
      simp only [List.length_append, List.length_cons]
      omega
    obtain ⟨S', hWFT, hl3, hsz3, hcnts⟩ :=
      rebuild_wf hwf hlen hlen3 hg3cH hsib3 hRd hcHsib ⟨hwst, hsWL, hsWR⟩ hcsA
        hnd hop hvalsc hidxc hocc3 hfv hfnd hfc hcnt2 hvisR huab hct
    refine ⟨S', ?_, ?_, ?_, hr, hcnts⟩
    · rw [ht']
      exact hWFT
    · rw [ht']
      show t3.data.length ≤ t.data.length
      exact hl3
    · rw [ht']
      show t3.size - 1 + 1 = t.size
      have hc := hwf.hcnt
      omega


/-- The two-children removal, taller-left side, clearing subcase: the
in-order predecessor has no children; its parent's `right` pointer is
cleared, its slot vacated, and its value replaces the target's. -/
theorem removeTwoL_clear_wf {T : Type} [LinearOrder T] [DecidableEq T]
    {t : Tree T} {S : BT T} {csV : List (Crumb T)} {vi : Nat} {vnd : Node T}
    {a b : Nat} {VA VB : BT T} {visited1 : List Nat} {land : Node T}
    {cur : Nat} {ld : Node T} {vis2 : List Nat} {lastv : Nat}
    {d1 : List (Option (Node T))} {r : Option T} {t' : Tree T}
    (hlen : t.data.length ≤ 125)
    (hwf : WFT t S)
    (hvn : getNode t.data vi = some vnd)
    (hA : decode t.data (t.data.length + 1) (some a) = some VA)
    (hB : decode t.data (t.data.length + 1) (some b) = some VB)
    (hsVA : VA.storedOk) (hsVB : VB.storedOk)
    (hcsV : crumbsOk t.data (t.data.length + 1) csV (some vi) t.root)
    (hplug : plugC csV (BT.node VA vi vnd VB) = S)
    (hvis1 : visited1.reverse = vi :: csV.map Crumb.i)
    (hland : getNode t.data a = some land)
    (hclimb : climbRight t.data (t.data.length + 1) a land visited1 =
      some (cur, ld, vis2))
    (hw : ld.left = none)
    (hlast : vis2.getLast? = some lastv)
    (hd1 : modifyNode t.data lastv (fun nd => { nd with right := none }) = some d1)
    (hfin : removeFinish t d1 cur vi a b vis2 = some (r, t')) :
    ∃ S', WFT t' S' ∧ t'.data.length ≤ t.data.length ∧ t'.size + 1 = t.size ∧
      r = some vnd.value ∧
      (∀ x, S'.vals.count x + (if vnd.value = x then 1 else 0) = S.vals.count x) := by
  obtain ⟨csR, LW, o1, o2, o3, o4, o5, o6, o7, o8, o9⟩ :=
    climbRight_spec _ a land visited1 VA cur ld vis2 hclimb hland hA hsVA
  rw [hw, decode_none] at o3
  have hLW : BT.leaf = LW := Option.some.inj o3
  rw [← hLW] at o8
  obtain ⟨fB, B1, bnd, B2, hfB, hBeq, hbn, hB1, hB2⟩ := decode_some_inv hB
  have hcount1 : ∀ k : Nat, S.idxs.count k ≤ 1 :=
    List.nodup_iff_count_le_one.1 hwf.hnodup
  have hcntVA : ∀ k : Nat, VA.idxs.count k = (ctxIdxs csR).count k +
      (if cur = k then 1 else 0) := by
    intro k
    rw [← o8, plugC_idxs_count, List.count_append]
    have e3 : (BT.node BT.leaf cur ld BT.leaf).idxs = ([] : List Nat) ++ cur :: [] := rfl
    rw [e3]
    simp only [List.count_append, List.count_cons, List.count_nil, beq_iff_eq]
    omega
  have hcntS : ∀ k : Nat, S.idxs.count k = (ctxIdxs csV).count k +
      VA.idxs.count k + VB.idxs.count k + (if vi = k then 1 else 0) := by
    intro k
    rw [← hplug, plugC_idxs_count, List.count_append]
    have e5 : (BT.node VA vi vnd VB).idxs = VA.idxs ++ vi :: VB.idxs := rfl
    rw [e5]
    simp only [List.count_append, List.count_cons, beq_iff_eq]
    omega
  have hsplitS : ∀ k : Nat, (ctxIdxs csV).count k + (ctxIdxs csR).count k +
      VB.idxs.count k + (if cur = k then 1 else 0) +
      (if vi = k then 1 else 0) ≤ 1 := by
    intro k
    have h1 := hcntS k
    have h2 := hcntVA k
    have h3 := hcount1 k
    omega
  have hdisj2 : ∀ k : Nat, 1 ≤ (ctxIdxs csV).count k + (ctxIdxs csR).count k +
      VB.idxs.count k → k ≠ cur ∧ k ≠ vi := by
    intro k hk
    have h := hsplitS k
    refine ⟨?_, ?_⟩ <;> intro e <;> subst e <;> rw [if_pos rfl] at h <;> omega
  have hcvi : cur ≠ vi := by
    have h := hsplitS vi
    intro e
    rw [e] at h
    rw [if_pos rfl] at h
    omega
  have hbd : b ≠ cur ∧ b ≠ vi := by
    refine hdisj2 b ?_
    have hbm : b ∈ VB.idxs := by
      rw [hBeq]
      exact List.mem_append_right _ (List.mem_cons_self _ _)
    have := List.count_pos_iff_mem.2 hbm
    omega
  obtain ⟨hbc, hbvi⟩ := hbd
  have hvilt : vi < t.data.length := getNode_lt hvn
  have hcurlt : cur < t.data.length := getNode_lt o1
  have hvcntVA : ∀ x : T, VA.vals.count x =
      (csR.bind (fun c => c.nd.value :: c.sib.vals)).count x +
      (if ld.value = x then 1 else 0) := by
    intro x
    rw [← o8, plugC_vals_count, List.count_append]
    have e3 : (BT.node BT.leaf cur ld BT.leaf).vals = ([] : List T) ++ ld.value :: [] := rfl
    rw [e3]
    simp only [List.count_append, List.count_cons, List.count_nil, beq_iff_eq]
    omega
  have hvcntS : ∀ x : T, S.vals.count x =
      (csV.bind (fun c => c.nd.value :: c.sib.vals)).count x + VA.vals.count x +
      VB.vals.count x + (if vnd.value = x then 1 else 0) := by
    intro x
    rw [← hplug, plugC_vals_count, List.count_append]
    have e5 : (BT.node VA vi vnd VB).vals = VA.vals ++ vnd.value :: VB.vals := rfl
    rw [e5]
    simp only [List.count_append, List.count_cons, beq_iff_eq]
    omega
  have hmemVA : ∀ x : T,
      1 ≤ (csR.bind (fun c => c.nd.value :: c.sib.vals)).count x +
        (if ld.value = x then 1 else 0) → x ∈ VA.vals := by
    intro x hx
    have := hvcntVA x
    exact List.count_pos_iff_mem.1 (by omega)
  have hmemFocus : ∀ x : T, x ∈ VA.vals → x ∈ (BT.node VA vi vnd VB).vals := by
    intro x hx
    exact List.mem_append_left _ hx
  have hldVA : ld.value ∈ VA.vals := by
    refine hmemVA _ ?_
    rw [if_pos rfl]
    omega
  have hSord := hwf.hord
  rw [← hplug] at hSord
  obtain ⟨hfoc_ord, hfoc_wc, hctxV⟩ := (plugC_ordered_iff csV _).1 hSord
  obtain ⟨hAlt, hBgt, hAo, hBo⟩ := hfoc_ord
  have hVAord2 := hAo
  rw [← o8] at hVAord2
  obtain ⟨hfocR_ord, hfocR_wc, hctxR⟩ := (plugC_ordered_iff csR _).1 hVAord2
  have hldlt : ld.value < vnd.value := hAlt _ hldVA
  have l1 : S.idxs.length = (ctxIdxs csV).length + VA.idxs.length + 1 +
      VB.idxs.length := by
    rw [← hplug, (plugC_idxs_perm csV _).length_eq]
    have e5 : (BT.node VA vi vnd VB).idxs = VA.idxs ++ vi :: VB.idxs := rfl
    rw [e5]
    simp only [List.length_append, List.length_cons]
    omega
  have l2 : VA.idxs.length = (ctxIdxs csR).length + 1 := by
    rw [← o8, (plugC_idxs_perm csR _).length_eq]
    have e6 : (BT.node BT.leaf cur ld BT.leaf).idxs = ([] : List Nat) ++ cur :: [] := rfl
    rw [e6]
    simp only [List.length_append, List.length_cons, List.length_nil]
  have hcnt2 : 2 ≤ S.cnt := by
    rw [cnt_eq_idxs_length]
    omega
  have hamem0 := crumbsOk_root_mem o6
  rcases csR with _ | ⟨cH, csR'⟩
  · -- the predecessor is the target's left child itself
    have hca : cur = a := by
      have h2 : some cur = some a := o6
      exact Option.some.inj h2
    have hVAeq : VA = BT.node BT.leaf cur ld BT.leaf := o8.symm
    have hvis2 : vis2 = visited1 := by
      rw [o9]
      simp
    have hlastvi : vi = lastv := by
      rw [hvis2] at hlast
      rw [getLast?_of_reverse_cons hvis1] at hlast
      exact Option.some.inj hlast
    subst hlastvi
    rw [modifyNode_of_get hvn] at hd1
    obtain rfl : t.data.set vi (some { vnd with right := none }) = d1 :=
      Option.some.inj hd1
    have hd1cur : (t.data.set vi (some { vnd with right := none })).get? cur =
        some (some ld) := by
      rw [List.get?_set_ne _ _ (fun e => hcvi e.symm)]
      exact getNode_get? o1
    have hg2a : ((t.data.set vi (some { vnd with right := none })).set cur
        none).get? a = some none := by
      rw [← hca]
      rw [List.get?_set_eq_of_lt _ (by rw [List.length_set]; exact hcurlt)]
    have hg2b : ((t.data.set vi (some { vnd with right := none })).set cur
        none).get? b = some (some bnd) := by
      rw [List.get?_set_ne _ _ (fun e => hbc e.symm)]
      rw [List.get?_set_ne _ _ (fun e => hbvi e.symm)]
      exact getNode_get? hbn
    have hg2vi : ((t.data.set vi (some { vnd with right := none })).set cur
        none).get? vi = some (some { vnd with right := none }) := by
      rw [List.get?_set_ne _ _ hcvi]
      rw [List.get?_set_eq_of_lt _ hvilt]
    obtain ⟨hr, t2, t3, huab, hct, ht'⟩ :=
      removeFinish_eval hd1cur hg2a hg2b hg2vi hfin
    simp only [Option.map_none', Option.map_some'] at huab
    set replN : Node T :=
      { value := ld.value, left := none, right := some b, height := 0 } with hreplN
    set d3 : List (Option (Node T)) :=
      ((t.data.set vi (some { vnd with right := none })).set cur none).set vi
        (some replN) with hd3
    have hlen3 : d3.length = t.data.length := by
      rw [hd3, List.length_set, List.length_set, List.length_set]
    have hg3 : ∀ k, k ≠ cur → k ≠ vi → getNode d3 k = getNode t.data k := by
      intro k h1 h2
      rw [hd3, getNode_set_ne (fun e => h2 e.symm), getNode_set_ne (fun e => h1 e.symm),
        getNode_set_ne (fun e => h2 e.symm)]
    have hget3 : ∀ k, k ≠ cur → k ≠ vi → d3.get? k = t.data.get? k := by
      intro k h1 h2
      rw [hd3, List.get?_set_ne _ _ (fun e => h2 e.symm),
        List.get?_set_ne _ _ (fun e => h1 e.symm),
        List.get?_set_ne _ _ (fun e => h2 e.symm)]
    have hg3vi : getNode d3 vi = some replN := by
      rw [hd3]
      exact getNode_set_self (by rw [List.length_set, List.length_set]; exact hvilt) _
    have hg3cur : d3.get? cur = some none := by
      rw [hd3, List.get?_set_ne _ _ (fun e => hcvi e.symm)]
      rw [List.get?_set_eq_of_lt _ (by rw [List.length_set]; exact hcurlt)]
    have hVBne : ∀ k, k ∈ VB.idxs → k ≠ cur ∧ k ≠ vi := by
      intro k hk
      refine hdisj2 k ?_
      have := List.count_pos_iff_mem.2 hk
      omega
    have hctxVne : ∀ k, k ∈ ctxIdxs csV → k ≠ cur ∧ k ≠ vi := by
      intro k hk
      refine hdisj2 k ?_
      have := List.count_pos_iff_mem.2 hk
      omega
    have hVB3 : decode d3 (t.data.length + 1) (some b) = some VB :=
      decode_agree hB (fun j hj => hg3 j (hVBne j hj).1 (hVBne j hj).2)
    have hcsV3 : crumbsOk d3 (t.data.length + 1) csV (some vi) t.root :=
      crumbsOk_agree hcsV (fun k hk => hg3 k (hctxVne k hk).1 (hctxVne k hk).2)
    have hocc3 : occCount d3 + 1 = occCount t.data := by
      have s1 := occCount_set t.data vi (some { vnd with right := none }) hvilt
      rw [getNode_get? hvn] at s1
      have s2 := occCount_set (t.data.set vi (some { vnd with right := none }))
        cur none (by rw [List.length_set]; exact hcurlt)
      rw [hd1cur] at s2
      have s3 := occCount_set ((t.data.set vi
        (some { vnd with right := none })).set cur none) vi (some replN)
        (by rw [List.length_set, List.length_set]; exact hvilt)
      rw [hg2vi] at s3
      rw [hd3]
      simp only [occB] at s1 s2 s3
      omega
    have hfr : ∀ j, j < t.data.length → j ≠ cur →
        (d3.get? j = some none ↔ t.data.get? j = some none) := by
      intro j hjlt hjc
      by_cases hjvi : j = vi
      · subst hjvi
        constructor
        · intro hx
          rw [getNode_get? hg3vi] at hx
          exact absurd (Option.some.inj hx) (by simp)
        · intro hx
          rw [getNode_get? hvn] at hx
          exact absurd (Option.some.inj hx) (by simp)
      · rw [hget3 j hjc hjvi]
    obtain ⟨hfv, hfnd, hfc⟩ := free_facts hwf hlen3 o1 hg3cur hfr
    have hnd : (ctxIdxs csV ++ (BT.node BT.leaf vi replN VB).idxs).Nodup := by
      rw [List.nodup_iff_count_le_one]
      intro k
      have h1 := hsplitS k
      rw [show (ctxIdxs ([] : List (Crumb T))).count k = 0 from rfl] at h1
      have e7 : (BT.node BT.leaf vi replN VB).idxs = ([] : List Nat) ++ vi :: VB.idxs := rfl
      rw [List.count_append, e7]
      simp only [List.count_append, List.count_cons, List.count_nil, beq_iff_eq]
      omega
    have hop : (plugC csV (BT.node BT.leaf vi replN VB)).Ordered := by
      refine (plugC_ordered_iff _ _).2 ⟨⟨?_, ?_, trivial, hBo⟩, ?_, hctxV⟩
      · intro x hx
        exact absurd hx (List.not_mem_nil _)
      · intro x hx
        exact lt_trans hldlt (hBgt x hx)
      · intro u hu
        have e8 : (BT.node BT.leaf vi replN VB).vals = ([] : List T) ++ ld.value :: VB.vals := rfl
        rw [e8] at hu
        rcases List.mem_append.1 hu with hu | hu
        · exact absurd hu (List.not_mem_nil _)
        · rcases List.mem_cons.1 hu with heq | hu
          · rw [heq]
            exact hfoc_wc _ (hmemFocus _ hldVA)
          · exact hfoc_wc u (List.mem_append_right _ (List.mem_cons_of_mem _ hu))
    have hvalsc : ∀ x : T, (plugC csV (BT.node BT.leaf vi replN VB)).vals.count x +
        (if vnd.value = x then 1 else 0) = S.vals.count x := by
      intro x
      rw [plugC_vals_count, List.count_append]
      have e8 : (BT.node BT.leaf vi replN VB).vals = ([] : List T) ++ ld.value :: VB.vals := rfl
      rw [e8]
      have h1 := hvcntS x
      have h2 := hvcntVA x
      rw [show ((([] : List (Crumb T))).bind
        (fun c => c.nd.value :: c.sib.vals)).count x = 0 from rfl] at h2
      simp only [List.count_append, List.count_cons, List.count_nil, beq_iff_eq]
      omega
    have hidxc : (ctxIdxs csV ++ (BT.node BT.leaf vi replN VB).idxs).length + 1 =
        S.idxs.length := by
      have e7 : (BT.node BT.leaf vi replN VB).idxs = ([] : List Nat) ++ vi :: VB.idxs := rfl
      rw [e7]
      rw [show (ctxIdxs ([] : List (Crumb T))).length = 0 from rfl] at l2
      simp only [List.length_append, List.length_cons, List.length_nil]
      omega
    have hvisR : vis2.reverse = vi :: csV.map Crumb.i := by
      rw [hvis2]
      exact hvis1
    obtain ⟨S', hWFT, hl3, hsz3, hcnts⟩ :=
      rebuild_wf hwf hlen hlen3 hg3vi (decode_none _ _) hVB3 trivial hsVB hcsV3
        hnd hop hvalsc hidxc hocc3 hfv hfnd hfc hcnt2 hvisR huab hct
    refine ⟨S', ?_, ?_, ?_, ?_, hcnts⟩
    · rw [ht']
      exact hWFT
    · rw [ht']
      show t3.data.length ≤ t.data.length
      exact hl3
    · rw [ht']
      show t3.size - 1 + 1 = t.size
      have hc := hwf.hcnt
      omega
    · rw [hr]
  · -- the climb descended at least one edge
    obtain ⟨hcHn, hcHside, hcHsib, hcsR'⟩ := o6
    have hcHL : cH.isL = false := o7 cH (List.mem_cons_self _ _)
    rw [hcHL] at hcHside
    rw [if_neg (by simp)] at hcHside
    obtain ⟨hcHr, hcHl⟩ := hcHside
    have hctxRc : ∀ k : Nat, (ctxIdxs (cH :: csR')).count k =
        cH.sib.idxs.count k + (ctxIdxs csR').count k +
        (if cH.i = k then 1 else 0) := by
      intro k
      rw [ctxIdxs_cons]
      simp only [List.count_append, List.count_cons, beq_iff_eq]
      omega
    have hctxRv : ∀ x : T, ((cH :: csR').bind
        (fun c => c.nd.value :: c.sib.vals)).count x =
        cH.sib.vals.count x + (csR'.bind
          (fun c => c.nd.value :: c.sib.vals)).count x +
        (if cH.nd.value = x then 1 else 0) := by
      intro x
      rw [bind_cons_eq]
      simp only [List.count_append, List.count_cons, beq_iff_eq]
      omega
    have hcHne : cH.i ≠ cur ∧ cH.i ≠ vi := by
      refine hdisj2 cH.i ?_
      have hm : cH.i ∈ ctxIdxs (cH :: csR') := by
        rw [ctxIdxs_cons]
        exact List.mem_append_left _ (List.mem_cons_self _ _)
      have := List.count_pos_iff_mem.2 hm
      omega
    have hsibsub : ∀ k, k ∈ cH.sib.idxs → k ∈ ctxIdxs (cH :: csR') := by
      intro k hk
      rw [ctxIdxs_cons]
      exact List.mem_append_left _ (List.mem_cons_of_mem _ hk)
    have hctxR'sub : ∀ k, k ∈ ctxIdxs csR' → k ∈ ctxIdxs (cH :: csR') := by
      intro k hk
      rw [ctxIdxs_cons]
      exact List.mem_append_right _ hk
    have hctxRne : ∀ k, k ∈ ctxIdxs (cH :: csR') → k ≠ cur ∧ k ≠ vi := by
      intro k hk
      refine hdisj2 k ?_
      have := List.count_pos_iff_mem.2 hk
      omega
    have hvisR : vis2.reverse = cH.i ::
        (csR'.map Crumb.i ++ vi :: csV.map Crumb.i) := by
      rw [o9, List.reverse_append, List.reverse_reverse, hvis1]
      simp
    have hlastcH : cH.i = lastv := by
      rw [getLast?_of_reverse_cons hvisR] at hlast
      exact Option.some.inj hlast
    subst hlastcH
    rw [modifyNode_of_get hcHn] at hd1
    obtain rfl : t.data.set cH.i (some { cH.nd with right := none }) = d1 :=
      Option.some.inj hd1
    have hd1cur : (t.data.set cH.i (some { cH.nd with right := none })).get? cur =
        some (some ld) := by
      rw [List.get?_set_ne _ _ hcHne.1]
      exact getNode_get? o1
    have hamem2 : a ∈ ctxIdxs (cH :: csR') := by
      rcases hamem0 with he | hm
      · exact absurd he (by simp)
      · exact hm
    have hane : a ≠ cur ∧ a ≠ vi := by
      refine hdisj2 a ?_
      have := List.count_pos_iff_mem.2 hamem2
      omega
    have hg2a : ∃ z : Node T, ((t.data.set cH.i
        (some { cH.nd with right := none })).set cur none).get? a =
        some (some z) := by
      by_cases hach : a = cH.i
      · refine ⟨{ cH.nd with right := none }, ?_⟩
        rw [List.get?_set_ne _ _ (fun e => hane.1 e.symm)]
        rw [hach]
        rw [List.get?_set_eq_of_lt _ (getNode_lt hcHn)]
      · refine ⟨land, ?_⟩
        rw [List.get?_set_ne _ _ (fun e => hane.1 e.symm)]
        rw [List.get?_set_ne _ _ (fun e => hach e.symm)]
        exact getNode_get? hland
    have hg2b : ((t.data.set cH.i (some { cH.nd with right := none })).set cur
        none).get? b = some (some bnd) := by
      rw [List.get?_set_ne _ _ (fun e => hbc e.symm)]
      rw [List.get?_set_ne _ _ ?hbch]
      case hbch =>
        intro e
        have hbm : b ∈ VB.idxs := by
          rw [hBeq]
          exact List.mem_append_right _ (List.mem_cons_self _ _)
        have h1 := hsplitS b
        have h2 := hctxRc b
        have h3 := List.count_pos_iff_mem.2 hbm
        rw [e] at h2
        rw [if_pos rfl] at h2
        omega
      exact getNode_get? hbn
    have hg2vi : ((t.data.set cH.i (some { cH.nd with right := none })).set cur
        none).get? vi = some (some vnd) := by
      rw [List.get?_set_ne _ _ hcvi]
      rw [List.get?_set_ne _ _ hcHne.2]
      exact getNode_get? hvn
    obtain ⟨z, hg2az⟩ := hg2a
    obtain ⟨hr, t2, t3, huab, hct, ht'⟩ :=
      removeFinish_eval hd1cur hg2az hg2b hg2vi hfin
    simp only [Option.map_some'] at huab
    set replN : Node T :=
      { value := ld.value, left := some a, right := some b, height := 0 } with hreplN
    set d3 : List (Option (Node T)) :=
      ((t.data.set cH.i (some { cH.nd with right := none })).set cur none).set vi
        (some replN) with hd3
    have hlen3 : d3.length = t.data.length := by
      rw [hd3, List.length_set, List.length_set, List.length_set]
    have hg3 : ∀ k, k ≠ cH.i → k ≠ cur → k ≠ vi →
        getNode d3 k = getNode t.data k := by
      intro k h1 h2 h3
      rw [hd3, getNode_set_ne (fun e => h3 e.symm), getNode_set_ne (fun e => h2 e.symm),
        getNode_set_ne (fun e => h1 e.symm)]
    have hget3 : ∀ k, k ≠ cH.i → k ≠ cur → k ≠ vi →
        d3.get? k = t.data.get? k := by
      intro k h1 h2 h3
      rw [hd3, List.get?_set_ne _ _ (fun e => h3 e.symm),
        List.get?_set_ne _ _ (fun e => h2 e.symm),
        List.get?_set_ne _ _ (fun e => h1 e.symm)]
    have hg3vi : getNode d3 vi = some replN := by
      rw [hd3]
      exact getNode_set_self (by rw [List.length_set, List.length_set]; exact hvilt) _
    have hg3cur : d3.get? cur = some none := by
      rw [hd3, List.get?_set_ne _ _ (fun e => hcvi e.symm)]
      rw [List.get?_set_eq_of_lt _ (by rw [List.length_set]; exact hcurlt)]
    have hg3cH : getNode d3 cH.i = some { cH.nd with right := none } := by
      rw [hd3, getNode_set_ne (fun e => hcHne.2 e.symm),
        getNode_set_ne (fun e => hcHne.1 e.symm)]
      exact getNode_set_self (getNode_lt hcHn) _
    have hVBne : ∀ k, k ∈ VB.idxs → k ≠ cH.i ∧ k ≠ cur ∧ k ≠ vi := by
      intro k hk
      have h1 := hsplitS k
      have h2 := hctxRc k
      have h3 := List.count_pos_iff_mem.2 hk
      have hd := hdisj2 k (by omega)
      refine ⟨?_, hd.1, hd.2⟩
      intro e
      rw [← e, if_pos rfl] at h2
      omega
    have hctxVne : ∀ k, k ∈ ctxIdxs csV → k ≠ cH.i ∧ k ≠ cur ∧ k ≠ vi := by
      intro k hk
      have h1 := hsplitS k
      have h2 := hctxRc k
      have h3 := List.count_pos_iff_mem.2 hk
      have hd := hdisj2 k (by omega)
      refine ⟨?_, hd.1, hd.2⟩
      intro e
      rw [← e, if_pos rfl] at h2
      omega
    have hsibne : ∀ k, k ∈ cH.sib.idxs → k ≠ cH.i ∧ k ≠ cur ∧ k ≠ vi := by
      intro k hk
      have h1 := hsplitS k
      have h2 := hctxRc k
      have h3 := List.count_pos_iff_mem.2 hk
      have h4 := List.count_pos_iff_mem.2 (hsibsub k hk)
      have hd := hdisj2 k (by omega)
      refine ⟨?_, hd.1, hd.2⟩
      intro e
      rw [← e, if_pos rfl] at h2
      omega
    have hctxR'ne : ∀ k, k ∈ ctxIdxs csR' → k ≠ cH.i ∧ k ≠ cur ∧ k ≠ vi := by
      intro k hk
      have h1 := hsplitS k
      have h2 := hctxRc k
      have h3 := List.count_pos_iff_mem.2 hk
      have h4 := List.count_pos_iff_mem.2 (hctxR'sub k hk)
      have hd := hdisj2 k (by omega)
      refine ⟨?_, hd.1, hd.2⟩
      intro e
      rw [← e, if_pos rfl] at h2
      omega
    have hVB3 : decode d3 (t.data.length + 1) (some b) = some VB :=
      decode_agree hB (fun j hj =>
        hg3 j (hVBne j hj).1 (hVBne j hj).2.1 (hVBne j hj).2.2)
    have hcsV3 : crumbsOk d3 (t.data.length + 1) csV (some vi) t.root :=
      crumbsOk_agree hcsV (fun k hk =>
        hg3 k (hctxVne k hk).1 (hctxVne k hk).2.1 (hctxVne k hk).2.2)
    have hsib3 : decode d3 (t.data.length + 1) cH.nd.left = some cH.sib :=
      decode_agree hcHl (fun j hj =>
        hg3 j (hsibne j hj).1 (hsibne j hj).2.1 (hsibne j hj).2.2)
    have hcsR'3 : crumbsOk d3 (t.data.length + 1) csR' (some cH.i) a :=
      crumbsOk_agree hcsR' (fun k hk =>
        hg3 k (hctxR'ne k hk).1 (hctxR'ne k hk).2.1 (hctxR'ne k hk).2.2)
    have hconsV3 : crumbsOk d3 (t.data.length + 1)
        ((⟨vi, replN, VB, true⟩ : Crumb T) :: csV) (some a) t.root := by
      refine ⟨hg3vi, ?_, hsVB, hcsV3⟩
      rw [if_pos rfl]
      exact ⟨rfl, hVB3⟩
    have hcsA : crumbsOk d3 (t.data.length + 1)
        (csR' ++ (⟨vi, replN, VB, true⟩ : Crumb T) :: csV) (some cH.i) t.root :=
      crumbsOk_append2 csR' _ (some cH.i) a t.root hcsR'3 hconsV3
    have hocc3 : occCount d3 + 1 = occCount t.data := by
      have s1 := occCount_set t.data cH.i
        (some { value := cH.nd.value, left := cH.nd.left, right := none,
                height := cH.nd.height })
        (getNode_lt hcHn)
      rw [getNode_get? hcHn] at s1
      have s2 := occCount_set (t.data.set cH.i
        (some { value := cH.nd.value, left := cH.nd.left, right := none,
                height := cH.nd.height }))
        cur none (by rw [List.length_set]; exact hcurlt)
      rw [hd1cur] at s2
      have s3 := occCount_set ((t.data.set cH.i
        (some { value := cH.nd.value, left := cH.nd.left, right := none,
                height := cH.nd.height })).set cur none) vi (some replN)
        (by rw [List.length_set, List.length_set]; exact hvilt)
      rw [hg2vi] at s3
      rw [hd3]
      show occCount (((t.data.set cH.i
        (some { value := cH.nd.value, left := cH.nd.left, right := none,
                height := cH.nd.height })).set cur none).set vi (some replN)) + 1 =
        occCount t.data
      simp only [occB] at s1 s2 s3
      omega
    have hfr : ∀ j, j < t.data.length → j ≠ cur →
        (d3.get? j = some none ↔ t.data.get? j = some none) := by
      intro j hjlt hjc
      by_cases hjcH : j = cH.i
      · subst hjcH
        constructor
        · intro hx
          rw [getNode_get? hg3cH] at hx
          exact absurd (Option.some.inj hx) (by simp)
        · intro hx
          rw [getNode_get? hcHn] at hx
          exact absurd (Option.some.inj hx) (by simp)
      · by_cases hjvi : j = vi
        · subst hjvi
          constructor
          · intro hx
            rw [getNode_get? hg3vi] at hx
            exact absurd (Option.some.inj hx) (by simp)
          · intro hx
            rw [getNode_get? hvn] at hx
            exact absurd (Option.some.inj hx) (by simp)
        · rw [hget3 j hjcH hjc hjvi]
    obtain ⟨hfv, hfnd, hfc⟩ := free_facts hwf hlen3 o1 hg3cur hfr
    have hctxAe : ctxIdxs (csR' ++ (⟨vi, replN, VB, true⟩ : Crumb T) :: csV) =
        ctxIdxs csR' ++ ((vi :: VB.idxs) ++ ctxIdxs csV) := by
      rw [ctxIdxs_append, ctxIdxs_cons]
    have hnd : (ctxIdxs (csR' ++ (⟨vi, replN, VB, true⟩ : Crumb T) :: csV) ++
        (BT.node cH.sib cH.i { cH.nd with right := none } BT.leaf).idxs).Nodup := by
      rw [List.nodup_iff_count_le_one]
      intro k
      have h1 := hsplitS k
      have h2 := hctxRc k
      rw [List.count_append, hctxAe]
      have e7 : (BT.node cH.sib cH.i { cH.nd with right := none } BT.leaf).idxs =
          cH.sib.idxs ++ cH.i :: [] := rfl
      rw [e7]
      simp only [List.count_append, List.count_cons, List.count_nil, beq_iff_eq]
      omega
    obtain ⟨hsibO, hwcH, hsvH, hctxR''⟩ := hctxR
    have hsideH : ∀ v ∈ cH.sib.vals, v < cH.nd.value := by
      intro v hv
      have h2 := (hsvH v hv).1
      rw [hcHL] at h2
      rw [if_neg (by simp)] at h2
      exact h2
    have hldwcR : withinCtx (cH :: csR') ld.value := by
      refine hfocR_wc _ ?_
      show ld.value ∈ ([] : List T) ++ ld.value :: []
      exact List.mem_append_right _ (List.mem_cons_self _ _)
    have hcHlt : cH.nd.value < ld.value := by
      have h2 := hldwcR.1
      rw [hcHL] at h2
      rw [if_neg (by simp)] at h2
      exact h2
    have hbindVA : ∀ x : T,
        x ∈ ((cH :: csR').bind (fun c => c.nd.value :: c.sib.vals)) →
        x ∈ VA.vals := by
      intro x hx
      refine hmemVA x ?_
      have := List.count_pos_iff_mem.2 hx
      omega
    have hwv : ∀ u ∈ (BT.node cH.sib cH.i { cH.nd with right := none }
        BT.leaf).vals,
        withinCtx (csR' ++ (⟨vi, replN, VB, true⟩ : Crumb T) :: csV) u := by
      intro u hu
      have e8 : (BT.node cH.sib cH.i { cH.nd with right := none } BT.leaf).vals =
          cH.sib.vals ++ cH.nd.value :: [] := rfl
      rw [e8] at hu
      rw [withinCtx_append]
      have hget : withinCtx csR' u ∧ u < ld.value ∧ u ∈ VA.vals := by
        rcases List.mem_append.1 hu with hu | hu
        · refine ⟨(hsvH u hu).2, lt_trans (hsideH u hu) hcHlt, ?_⟩
          refine hbindVA u ?_
          rw [bind_cons_eq]
          exact List.mem_append_left _ (List.mem_cons_of_mem _ hu)
        · rcases List.mem_cons.1 hu with heq | hu
          · refine ⟨by rw [heq]; exact hwcH, by rw [heq]; exact hcHlt, ?_⟩
            rw [heq]
            refine hbindVA _ ?_
            rw [bind_cons_eq]
            exact List.mem_append_left _ (List.mem_cons_self _ _)
          · exact absurd hu (List.not_mem_nil _)
      refine ⟨hget.1, ?_, hfoc_wc u (hmemFocus u hget.2.2)⟩
      rw [if_pos rfl]
      exact hget.2.1
    have hmid : ctxOk ((⟨vi, replN, VB, true⟩ : Crumb T) :: csV) := by
      refine ⟨hBo, ?_, ?_, hctxV⟩
      · exact hfoc_wc _ (hmemFocus _ hldVA)
      · intro u hu
        refine ⟨?_, hfoc_wc u
          (List.mem_append_right _ (List.mem_cons_of_mem _ hu))⟩
        rw [if_pos rfl]
        exact lt_trans hldlt (hBgt u hu)
    have hcondR : ∀ c ∈ csR',
        withinCtx ((⟨vi, replN, VB, true⟩ : Crumb T) :: csV) c.nd.value ∧
        ∀ v ∈ c.sib.vals,
          withinCtx ((⟨vi, replN, VB, true⟩ : Crumb T) :: csV) v := by
      intro c hc
      have hcisL : c.isL = false := o7 c (List.mem_cons_of_mem _ hc)
      have h1 : c.nd.value < ld.value := by
        have h := withinCtx_mem hldwcR.2 hc
        rw [hcisL] at h
        rw [if_neg (by simp)] at h
        exact h
      have hcmemVA : c.nd.value ∈ VA.vals := by
        refine hbindVA _ ?_
        rw [bind_cons_eq]
        refine List.mem_append_right _ ?_
        exact mem_bind_of hc (List.mem_cons_self _ _)
      constructor
      · refine ⟨?_, hfoc_wc _ (hmemFocus _ hcmemVA)⟩
        rw [if_pos rfl]
        exact h1
      · intro v hv
        have h2 := (ctxOk_mem hctxR'' hc).2 v hv
        rw [hcisL] at h2
        rw [if_neg (by simp)] at h2
        have hvVA : v ∈ VA.vals := by
          refine hbindVA v ?_
          rw [bind_cons_eq]
          refine List.mem_append_right _ ?_
          exact mem_bind_of hc (List.mem_cons_of_mem _ hv)
        refine ⟨?_, hfoc_wc v (hmemFocus v hvVA)⟩
        rw [if_pos rfl]
        exact lt_trans h2 h1
    have hctxA : ctxOk (csR' ++ (⟨vi, replN, VB, true⟩ : Crumb T) :: csV) :=
      ctxOk_append csR' _ hctxR'' hmid hcondR
    have hop : (plugC (csR' ++ (⟨vi, replN, VB, true⟩ : Crumb T) :: csV)
        (BT.node cH.sib cH.i { cH.nd with right := none } BT.leaf)).Ordered := by
      refine (plugC_ordered_iff _ _).2 ⟨⟨hsideH, ?_, hsibO, trivial⟩, hwv, hctxA⟩
      intro x hx
      exact absurd hx (List.not_mem_nil _)
    have hvalsc : ∀ x : T,
        (plugC (csR' ++ (⟨vi, replN, VB, true⟩ : Crumb T) :: csV)
          (BT.node cH.sib cH.i { cH.nd with right := none } BT.leaf)).vals.count x +
        (if vnd.value = x then 1 else 0) = S.vals.count x := by
      intro x
      rw [plugC_vals_count, List.count_append]
      have hbA : ((csR' ++ (⟨vi, replN, VB, true⟩ : Crumb T) :: csV).bind
          (fun c => c.nd.value :: c.sib.vals)).count x =
          (csR'.bind (fun c => c.nd.value :: c.sib.vals)).count x +
          VB.vals.count x +
          (csV.bind (fun c => c.nd.value :: c.sib.vals)).count x +
          (if ld.value = x then 1 else 0) := by
        rw [bind_append_eq, bind_cons_eq]
        simp only [List.count_append, List.count_cons, beq_iff_eq]
        omega
      rw [hbA]
      have e8 : (BT.node cH.sib cH.i { cH.nd with right := none } BT.leaf).vals =
          cH.sib.vals ++ cH.nd.value :: [] := rfl
      rw [e8]
      have h1 := hvcntS x
      have h2 := hvcntVA x
      have h3 := hctxRv x
      rw [h3] at h2
      simp only [List.count_append, List.count_cons, List.count_nil, beq_iff_eq]
      omega
    have hidxc : (ctxIdxs (csR' ++ (⟨vi, replN, VB, true⟩ : Crumb T) :: csV) ++
        (BT.node cH.sib cH.i { cH.nd with right := none } BT.leaf).idxs).length +
        1 = S.idxs.length := by
      have hl4 : (ctxIdxs (cH :: csR')).length =
          cH.sib.idxs.length + (ctxIdxs csR').length + 1 := by
        rw [ctxIdxs_cons]
        simp only [List.length_append, List.length_cons]
        omega
      rw [List.length_append, hctxAe]
      have e7 : (BT.node cH.sib cH.i { cH.nd with right := none } BT.leaf).idxs =
          cH.sib.idxs ++ cH.i :: [] := rfl
      rw [e7]
      simp only [List.length_append, List.length_cons, List.length_nil]
      omega
    have hRd : decode d3 (t.data.length + 1)
        ({ cH.nd with right := none } : Node T).right = some BT.leaf :=
      decode_none _ _
    have hvisR2 : vis2.reverse = cH.i ::
        (csR' ++ (⟨vi, replN, VB, true⟩ : Crumb T) :: csV).map Crumb.i := by
      rw [hvisR]
      simp
    obtain ⟨S', hWFT, hl3, hsz3, hcnts⟩ :=
      rebuild_wf hwf hlen hlen3 hg3cH hsib3 hRd hcHsib trivial hcsA
        hnd hop hvalsc hidxc hocc3 hfv hfnd hfc hcnt2 hvisR2 huab hct
    refine ⟨S', ?_, ?_, ?_, hr, hcnts⟩
    · rw [ht']
      exact hWFT
    · rw [ht']
      show t3.data.length ≤ t.data.length
      exact hl3
    · rw [ht']
      show t3.size - 1 + 1 = t.size
      have hc := hwf.hcnt
      omega

/-- The two-children removal, right-side (right at least as tall) swapping
subcase: the in-order successor still has a right child; the two slots are
swapped, the successor's slot vacated, and its value replaces the
target's. -/
theorem removeTwoR_swap_wf {T : Type} [LinearOrder T] [DecidableEq T]
    {t : Tree T} {S : BT T} {csV : List (Crumb T)} {vi : Nat} {vnd : Node T}
    {a b : Nat} {VA VB : BT T} {visited1 : List Nat} {rnd0 : Node T}
    {cur : Nat} {rd : Node T} {vis2 : List Nat} {w : Nat}
    {d1 : List (Option (Node T))} {r : Option T} {t' : Tree T}
    (hlen : t.data.length ≤ 125)
    (hwf : WFT t S)
    (hvn : getNode t.data vi = some vnd)
    (hA : decode t.data (t.data.length + 1) (some a) = some VA)
    (hB : decode t.data (t.data.length + 1) (some b) = some VB)
    (hsVA : VA.storedOk) (hsVB : VB.storedOk)
    (hcsV : crumbsOk t.data (t.data.length + 1) csV (some vi) t.root)
    (hplug : plugC csV (BT.node VA vi vnd VB) = S)
    (hvis1 : visited1.reverse = vi :: csV.map Crumb.i)
    (hrnd0 : getNode t.data b = some rnd0)
    (hclimb : climbLeft t.data (t.data.length + 1) b rnd0 visited1 =
      some (cur, rd, vis2))
    (hw : rd.right = some w)
    (hd1 : swapSlots t.data cur w = some d1)
    (hfin : removeFinish t d1 w vi a b vis2 = some (r, t')) :
    ∃ S', WFT t' S' ∧ t'.data.length ≤ t.data.length ∧ t'.size + 1 = t.size ∧
      r = some vnd.value ∧
      (∀ x, S'.vals.count x + (if vnd.value = x then 1 else 0) = S.vals.count x) := by
  obtain ⟨csR, RW, o1, o2, o3, o4, o5, o6, o7, o8, o9⟩ :=
    climbLeft_spec _ b rnd0 visited1 VB cur rd vis2 hclimb hrnd0 hB hsVB
  rw [hw] at o3
  obtain ⟨fW, WL, wnd, WR, hfW, hRWeq, hwn, hWL0, hWR0⟩ := decode_some_inv o3
  obtain rfl : fW = t.data.length := by omega
  rw [hRWeq] at o4 o8
  obtain ⟨hwst, hsWL, hsWR⟩ := o4
  obtain ⟨fA, A1, adn, A2, hfA, hAeq, han, hA1, hA2⟩ := decode_some_inv hA
  have hcount1 : ∀ k : Nat, S.idxs.count k ≤ 1 :=
    List.nodup_iff_count_le_one.1 hwf.hnodup
  have hcntVB : ∀ k : Nat, VB.idxs.count k = (ctxIdxs csR).count k +
      WL.idxs.count k + WR.idxs.count k + (if w = k then 1 else 0) +
      (if cur = k then 1 else 0) := by
    intro k
    rw [← o8, plugC_idxs_count, List.count_append]
    have e3 : (BT.node BT.leaf cur rd (BT.node WL w wnd WR)).idxs =
        ([] : List Nat) ++ cur :: (WL.idxs ++ w :: WR.idxs) := rfl
    rw [e3]
    simp only [List.count_append, List.count_cons, List.count_nil, beq_iff_eq]
    omega
  have hcntS : ∀ k : Nat, S.idxs.count k = (ctxIdxs csV).count k +
      VA.idxs.count k + VB.idxs.count k + (if vi = k then 1 else 0) := by
    intro k
    rw [← hplug, plugC_idxs_count, List.count_append]
    have e5 : (BT.node VA vi vnd VB).idxs = VA.idxs ++ vi :: VB.idxs := rfl
    rw [e5]
    simp only [List.count_append, List.count_cons, beq_iff_eq]
    omega
  have hsplitS : ∀ k : Nat, (ctxIdxs csV).count k + (ctxIdxs csR).count k +
      WL.idxs.count k + WR.idxs.count k + VA.idxs.count k +
      (if w = k then 1 else 0) + (if cur = k then 1 else 0) +
      (if vi = k then 1 else 0) ≤ 1 := by
    intro k
    have h1 := hcntS k
    have h2 := hcntVB k
    have h3 := hcount1 k
    omega
  have hdisj3 : ∀ k : Nat, 1 ≤ (ctxIdxs csV).count k + (ctxIdxs csR).count k +
      WL.idxs.count k + WR.idxs.count k + VA.idxs.count k →
      k ≠ cur ∧ k ≠ w ∧ k ≠ vi := by
    intro k hk
    have h := hsplitS k
    refine ⟨?_, ?_, ?_⟩ <;> intro e <;> subst e <;> rw [if_pos rfl] at h <;> omega
  have hcvi : cur ≠ vi := by
    have h := hsplitS vi
    intro e
    rw [e] at h
    rw [if_pos rfl] at h
    omega
  have hwvi : w ≠ vi := by
    have h := hsplitS vi
    intro e
    rw [e] at h
    rw [if_pos rfl] at h
    omega
  have hcw : cur ≠ w := by
    have h := hsplitS w
    intro e
    rw [e] at h
    rw [if_pos rfl] at h
    omega
  have had : a ≠ cur ∧ a ≠ w ∧ a ≠ vi := by
    refine hdisj3 a ?_
    have ham : a ∈ VA.idxs := by
      rw [hAeq]
      exact List.mem_append_right _ (List.mem_cons_self _ _)
    have := List.count_pos_iff_mem.2 ham
    omega
  obtain ⟨hac, haw, havi⟩ := had
  have hbmem : b = cur ∨ b ∈ ctxIdxs csR := by
    rcases crumbsOk_root_mem o6 with he | hm
    · left
      rw [he] at o6
      have h2 : some cur = some b := o6
      exact (Option.some.inj h2).symm
    · right
      exact hm
  have hb3 : b = cur ∨ (b ≠ cur ∧ b ≠ w ∧ b ≠ vi) := by
    rcases hbmem with he | hm
    · exact Or.inl he
    · right
      have := List.count_pos_iff_mem.2 hm
      exact hdisj3 b (by omega)
  have hbw : b ≠ w := by
    rcases hb3 with he | hp
    · rw [he]; exact hcw
    · exact hp.2.1
  have hbvi : b ≠ vi := by
    rcases hb3 with he | hp
    · rw [he]; exact hcvi
    · exact hp.2.2
  have hvilt : vi < t.data.length := getNode_lt hvn
  have hcurlt : cur < t.data.length := getNode_lt o1
  have hwlt : w < t.data.length := getNode_lt hwn
  rw [swapSlots_eval o1 hwn] at hd1
  obtain rfl : (t.data.set cur (some wnd)).set w (some rd) = d1 :=
    Option.some.inj hd1
  have hd1w : ((t.data.set cur (some wnd)).set w (some rd)).get? w =
      some (some rd) := by
    rw [List.get?_set_eq_of_lt _ (by rw [List.length_set]; exact hwlt)]
  have hsetset : ((t.data.set cur (some wnd)).set w (some rd)).set w none =
      (t.data.set cur (some wnd)).set w none := by
    rw [List.set_set]
  have hg2a : ((t.data.set cur (some wnd)).set w none).get? a =
      some (some adn) := by
    rw [List.get?_set_ne _ _ (fun e => haw e.symm)]
    rw [List.get?_set_ne _ _ (fun e => hac e.symm)]
    exact getNode_get? han
  have hg2b : ∃ z : Node T, ((t.data.set cur (some wnd)).set w none).get? b =
      some (some z) := by
    rcases hb3 with he | hp
    · refine ⟨wnd, ?_⟩
      rw [he]
      rw [List.get?_set_ne _ _ (fun e => hcw e.symm)]
      rw [List.get?_set_eq_of_lt _ hcurlt]
    · refine ⟨rnd0, ?_⟩
      rw [List.get?_set_ne _ _ (fun e => hp.2.1 e.symm)]
      rw [List.get?_set_ne _ _ (fun e => hp.1 e.symm)]
      exact getNode_get? hrnd0
  have hg2vi : ((t.data.set cur (some wnd)).set w none).get? vi =
      some (some vnd) := by
    rw [List.get?_set_ne _ _ hwvi]
    rw [List.get?_set_ne _ _ hcvi]
    exact getNode_get? hvn
  obtain ⟨z, hg2bz⟩ := hg2b
  obtain ⟨hr, t2, t3, huab, hct, ht'⟩ :=
    removeFinish_eval hd1w (by rw [hsetset]; exact hg2a)
      (by rw [hsetset]; exact hg2bz) (by rw [hsetset]; exact hg2vi) hfin
  rw [hsetset] at huab
  simp only [Option.map_some'] at huab
  set replN : Node T :=
    { value := rd.value, left := some a, right := some b, height := 0 } with hreplN
  set d3 : List (Option (Node T)) :=
    ((t.data.set cur (some wnd)).set w none).set vi (some replN) with hd3
  have hlen3 : d3.length = t.data.length := by
    rw [hd3, List.length_set, List.length_set, List.length_set]
  have hg3 : ∀ k, k ≠ cur → k ≠ w → k ≠ vi → getNode d3 k = getNode t.data k := by
    intro k h1 h2 h3
    rw [hd3, getNode_set_ne (fun e => h3 e.symm), getNode_set_ne (fun e => h2 e.symm),
      getNode_set_ne (fun e => h1 e.symm)]
  have hget3 : ∀ k, k ≠ cur → k ≠ w → k ≠ vi → d3.get? k = t.data.get? k := by
    intro k h1 h2 h3
    rw [hd3, List.get?_set_ne _ _ (fun e => h3 e.symm),
      List.get?_set_ne _ _ (fun e => h2 e.symm),
      List.get?_set_ne _ _ (fun e => h1 e.symm)]
  have hg3vi : getNode d3 vi = some replN := by
    rw [hd3]
    exact getNode_set_self (by rw [List.length_set, List.length_set]; exact hvilt) _
  have hg3cur : getNode d3 cur = some wnd := by
    rw [hd3, getNode_set_ne (fun e => hcvi e.symm), getNode_set_ne (fun e => hcw e.symm)]
    exact getNode_set_self hcurlt _
  have hg3w : d3.get? w = some none := by
    rw [hd3, List.get?_set_ne _ _ (fun e => hwvi e.symm)]
    rw [List.get?_set_eq_of_lt _ (by rw [List.length_set]; exact hwlt)]
  have hWLne : ∀ k, k ∈ WL.idxs → k ≠ cur ∧ k ≠ w ∧ k ≠ vi := by
    intro k hk
    refine hdisj3 k ?_
    have := List.count_pos_iff_mem.2 hk
    omega
  have hWRne : ∀ k, k ∈ WR.idxs → k ≠ cur ∧ k ≠ w ∧ k ≠ vi := by
    intro k hk
    refine hdisj3 k ?_
    have := List.count_pos_iff_mem.2 hk
    omega
  have hVAne : ∀ k, k ∈ VA.idxs → k ≠ cur ∧ k ≠ w ∧ k ≠ vi := by
    intro k hk
    refine hdisj3 k ?_
    have := List.count_pos_iff_mem.2 hk
    omega
  have hctxVne : ∀ k, k ∈ ctxIdxs csV → k ≠ cur ∧ k ≠ w ∧ k ≠ vi := by
    intro k hk
    refine hdisj3 k ?_
    have := List.count_pos_iff_mem.2 hk
    omega
  have hctxRne : ∀ k, k ∈ ctxIdxs csR → k ≠ cur ∧ k ≠ w ∧ k ≠ vi := by
    intro k hk
    refine hdisj3 k ?_
    have := List.count_pos_iff_mem.2 hk
    omega
  have hWL3 : decode d3 t.data.length wnd.left = some WL :=
    decode_agree hWL0 (fun j hj =>
      hg3 j (hWLne j hj).1 (hWLne j hj).2.1 (hWLne j hj).2.2)
  have hWR3 : decode d3 t.data.length wnd.right = some WR :=
    decode_agree hWR0 (fun j hj =>
      hg3 j (hWRne j hj).1 (hWRne j hj).2.1 (hWRne j hj).2.2)
  have hreloc : decode d3 (t.data.length + 1) (some cur) =
      some (BT.node WL cur wnd WR) := decode_build hg3cur hWL3 hWR3
  have hVA3 : decode d3 (t.data.length + 1) (some a) = some VA :=
    decode_agree hA (fun j hj =>
      hg3 j (hVAne j hj).1 (hVAne j hj).2.1 (hVAne j hj).2.2)
  have hcsV3 : crumbsOk d3 (t.data.length + 1) csV (some vi) t.root :=
    crumbsOk_agree hcsV (fun k hk =>
      hg3 k (hctxVne k hk).1 (hctxVne k hk).2.1 (hctxVne k hk).2.2)
  have hvcntVB : ∀ x : T, VB.vals.count x =
      (csR.bind (fun c => c.nd.value :: c.sib.vals)).count x + WL.vals.count x +
      WR.vals.count x + (if wnd.value = x then 1 else 0) +
      (if rd.value = x then 1 else 0) := by
    intro x
    rw [← o8, plugC_vals_count, List.count_append]
    have e3 : (BT.node BT.leaf cur rd (BT.node WL w wnd WR)).vals =
        ([] : List T) ++ rd.value :: (WL.vals ++ wnd.value :: WR.vals) := rfl
    rw [e3]
    simp only [List.count_append, List.count_cons, List.count_nil, beq_iff_eq]
    omega
  have hvcntS : ∀ x : T, S.vals.count x =
      (csV.bind (fun c => c.nd.value :: c.sib.vals)).count x + VA.vals.count x +
      VB.vals.count x + (if vnd.value = x then 1 else 0) := by
    intro x
    rw [← hplug, plugC_vals_count, List.count_append]
    have e5 : (BT.node VA vi vnd VB).vals = VA.vals ++ vnd.value :: VB.vals := rfl
    rw [e5]
    simp only [List.count_append, List.count_cons, beq_iff_eq]
    omega
  have hmemVB : ∀ x : T,
      1 ≤ (csR.bind (fun c => c.nd.value :: c.sib.vals)).count x +
        WL.vals.count x + WR.vals.count x + (if wnd.value = x then 1 else 0) +
        (if rd.value = x then 1 else 0) → x ∈ VB.vals := by
    intro x hx
    have := hvcntVB x
    exact List.count_pos_iff_mem.1 (by omega)
  have hmemFocus : ∀ x : T, x ∈ VB.vals → x ∈ (BT.node VA vi vnd VB).vals := by
    intro x hx
    exact List.mem_append_right _ (List.mem_cons_of_mem _ hx)
  have hrdVB : rd.value ∈ VB.vals := by
    refine hmemVB _ ?_
    rw [if_pos rfl]
    omega
  have hSord := hwf.hord
  rw [← hplug] at hSord
  obtain ⟨hfoc_ord, hfoc_wc, hctxV⟩ := (plugC_ordered_iff csV _).1 hSord
  obtain ⟨hAlt, hBgt, hAo, hBo⟩ := hfoc_ord
  have hVBord2 := hBo
  rw [← o8] at hVBord2
  obtain ⟨hfocR_ord, hfocR_wc, hctxR⟩ := (plugC_ordered_iff csR _).1 hVBord2
  obtain ⟨hleaf1, hRWgt, hleafo, hRWo⟩ := hfocR_ord
  have hrdgt : vnd.value < rd.value := hBgt _ hrdVB
  have hocc3 : occCount d3 + 1 = occCount t.data := by
    have s1 := occCount_set t.data cur (some wnd) hcurlt
    rw [getNode_get? o1] at s1
    have s2 := occCount_set (t.data.set cur (some wnd)) w none
      (by rw [List.length_set]; exact hwlt)
    rw [List.get?_set_ne _ _ hcw, getNode_get? hwn] at s2
    have s3 := occCount_set ((t.data.set cur (some wnd)).set w none) vi
      (some replN) (by rw [List.length_set, List.length_set]; exact hvilt)
    rw [hg2vi] at s3
    rw [hd3]
    simp only [occB] at s1 s2 s3
    omega
  have hfr : ∀ j, j < t.data.length → j ≠ w →
      (d3.get? j = some none ↔ t.data.get? j = some none) := by
    intro j hjlt hjw
    by_cases hjc : j = cur
    · subst hjc
      constructor
      · intro hx
        rw [getNode_get? hg3cur] at hx
        exact absurd (Option.some.inj hx) (by simp)
      · intro hx
        rw [getNode_get? o1] at hx
        exact absurd (Option.some.inj hx) (by simp)
    · by_cases hjvi : j = vi
      · subst hjvi
        constructor
        · intro hx
          rw [getNode_get? hg3vi] at hx
          exact absurd (Option.some.inj hx) (by simp)
        · intro hx
          rw [getNode_get? hvn] at hx
          exact absurd (Option.some.inj hx) (by simp)
      · rw [hget3 j hjc hjw hjvi]
  obtain ⟨hfv, hfnd, hfc⟩ := free_facts hwf hlen3 hwn hg3w hfr
  have l1 : S.idxs.length = (ctxIdxs csV).length + VA.idxs.length + 1 +
      VB.idxs.length := by
    rw [← hplug, (plugC_idxs_perm csV _).length_eq]
    have e5 : (BT.node VA vi vnd VB).idxs = VA.idxs ++ vi :: VB.idxs := rfl
    rw [e5]
    simp only [List.length_append, List.length_cons]
    omega
  have l2 : VB.idxs.length = (ctxIdxs csR).length + WL.idxs.length +
      WR.idxs.length + 2 := by
    rw [← o8, (plugC_idxs_perm csR _).length_eq]
    have e6 : (BT.node BT.leaf cur rd (BT.node WL w wnd WR)).idxs =
        ([] : List Nat) ++ cur :: (WL.idxs ++ w :: WR.idxs) := rfl
    rw [e6]
    simp only [List.length_append, List.length_cons, List.length_nil]
    omega
  have hcnt2 : 2 ≤ S.cnt := by
    rw [cnt_eq_idxs_length]
    omega
  rcases csR with _ | ⟨cH, csR'⟩
  · -- the climb stopped at the target's right child itself
    have hcb : cur = b := by
      have h2 : some cur = some b := o6
      exact Option.some.inj h2
    have hVBeq : VB = BT.node BT.leaf cur rd (BT.node WL w wnd WR) := o8.symm
    have hvis2 : vis2 = visited1 := by
      rw [o9]
      simp
    have hrelB : decode d3 (t.data.length + 1) (some b) =
        some (BT.node WL cur wnd WR) := by
      rw [← hcb]
      exact hreloc
    have hnd : (ctxIdxs csV ++ (BT.node VA vi replN
        (BT.node WL cur wnd WR)).idxs).Nodup := by
      rw [List.nodup_iff_count_le_one]
      intro k
      have h1 := hsplitS k
      rw [show (ctxIdxs ([] : List (Crumb T))).count k = 0 from rfl] at h1
      have e7 : (BT.node VA vi replN (BT.node WL cur wnd WR)).idxs =
          VA.idxs ++ vi :: (WL.idxs ++ cur :: WR.idxs) := rfl
      rw [List.count_append, e7]
      simp only [List.count_append, List.count_cons, beq_iff_eq]
      omega
    have hVBvals : VB.vals = ([] : List T) ++ rd.value ::
        (WL.vals ++ wnd.value :: WR.vals) := by
      rw [hVBeq]
      rfl
    have hop : (plugC csV (BT.node VA vi replN
        (BT.node WL cur wnd WR))).Ordered := by
      refine (plugC_ordered_iff _ _).2 ⟨⟨?_, ?_, hAo, hRWo⟩, ?_, hctxV⟩
      · intro x hx
        exact lt_trans (hAlt x hx) hrdgt
      · intro x hx
        exact hRWgt x hx
      · intro u hu
        have e8 : (BT.node VA vi replN (BT.node WL cur wnd WR)).vals =
            VA.vals ++ rd.value :: (WL.vals ++ wnd.value :: WR.vals) := rfl
        rw [e8] at hu
        rcases List.mem_append.1 hu with hu | hu
        · exact hfoc_wc u (List.mem_append_left _ hu)
        · rcases List.mem_cons.1 hu with heq | hu
          · rw [heq]
            exact hfoc_wc _ (hmemFocus _ hrdVB)
          · refine hfoc_wc u (hmemFocus u ?_)
            rw [hVBvals]
            exact List.mem_append_right _ (List.mem_cons_of_mem _ hu)
    have hvalsc : ∀ x : T, (plugC csV (BT.node VA vi replN
        (BT.node WL cur wnd WR))).vals.count x +
        (if vnd.value = x then 1 else 0) = S.vals.count x := by
      intro x
      rw [plugC_vals_count, List.count_append]
      have e8 : (BT.node VA vi replN (BT.node WL cur wnd WR)).vals =
          VA.vals ++ rd.value :: (WL.vals ++ wnd.value :: WR.vals) := rfl
      rw [e8]
      have h1 := hvcntS x
      have h2 := hvcntVB x
      rw [show ((([] : List (Crumb T))).bind
        (fun c => c.nd.value :: c.sib.vals)).count x = 0 from rfl] at h2
      simp only [List.count_append, List.count_cons, beq_iff_eq]
      omega
    have hidxc : (ctxIdxs csV ++ (BT.node VA vi replN
        (BT.node WL cur wnd WR)).idxs).length + 1 = S.idxs.length := by
      have e7 : (BT.node VA vi replN (BT.node WL cur wnd WR)).idxs =
          VA.idxs ++ vi :: (WL.idxs ++ cur :: WR.idxs) := rfl
      rw [e7]
      rw [show (ctxIdxs ([] : List (Crumb T))).length = 0 from rfl] at l2
      simp only [List.length_append, List.length_cons, List.length_nil]
      omega
    have hvisR : vis2.reverse = vi :: csV.map Crumb.i := by
      rw [hvis2]
      exact hvis1
    obtain ⟨S', hWFT, hl3, hsz3, hcnts⟩ :=
      rebuild_wf hwf hlen hlen3 hg3vi hVA3 hrelB hsVA ⟨hwst, hsWL, hsWR⟩ hcsV3
        hnd hop hvalsc hidxc hocc3 hfv hfnd hfc hcnt2 hvisR huab hct
    refine ⟨S', ?_, ?_, ?_, hr, hcnts⟩
    · rw [ht']
      exact hWFT
    · rw [ht']
      show t3.data.length ≤ t.data.length
      exact hl3
    · rw [ht']
      show t3.size - 1 + 1 = t.size
      have hc := hwf.hcnt
      omega
  · -- the climb descended at least one edge
    obtain ⟨hcHn, hcHside, hcHsib, hcsR'⟩ := o6
    have hcHL : cH.isL = true := o7 cH (List.mem_cons_self _ _)
    rw [hcHL] at hcHside
    rw [if_pos rfl] at hcHside
    obtain ⟨hcHl, hcHr⟩ := hcHside
    have hctxRc : ∀ k : Nat, (ctxIdxs (cH :: csR')).count k =
        cH.sib.idxs.count k + (ctxIdxs csR').count k +
        (if cH.i = k then 1 else 0) := by
      intro k
      rw [ctxIdxs_cons]
      simp only [List.count_append, List.count_cons, beq_iff_eq]
      omega
    have hctxRv : ∀ x : T, ((cH :: csR').bind
        (fun c => c.nd.value :: c.sib.vals)).count x =
        cH.sib.vals.count x + (csR'.bind
          (fun c => c.nd.value :: c.sib.vals)).count x +
        (if cH.nd.value = x then 1 else 0) := by
      intro x
      rw [bind_cons_eq]
      simp only [List.count_append, List.count_cons, beq_iff_eq]
      omega
    have hcHne : cH.i ≠ cur ∧ cH.i ≠ w ∧ cH.i ≠ vi := by
      refine hdisj3 cH.i ?_
      have hm : cH.i ∈ ctxIdxs (cH :: csR') := by
        rw [ctxIdxs_cons]
        exact List.mem_append_left _ (List.mem_cons_self _ _)
      have := List.count_pos_iff_mem.2 hm
      omega
    have hsibsub : ∀ k, k ∈ cH.sib.idxs → k ∈ ctxIdxs (cH :: csR') := by
      intro k hk
      rw [ctxIdxs_cons]
      exact List.mem_append_left _ (List.mem_cons_of_mem _ hk)
    have hctxR'sub : ∀ k, k ∈ ctxIdxs csR' → k ∈ ctxIdxs (cH :: csR') := by
      intro k hk
      rw [ctxIdxs_cons]
      exact List.mem_append_right _ hk
    have hg3cH : getNode d3 cH.i = some cH.nd := by
      rw [hg3 cH.i hcHne.1 hcHne.2.1 hcHne.2.2]
      exact hcHn
    have hsib3 : decode d3 (t.data.length + 1) cH.nd.right = some cH.sib :=
      decode_agree hcHr (fun j hj =>
        (fun h => hg3 j h.1 h.2.1 h.2.2) (hctxRne j (hsibsub j hj)))
    have hcsR'3 : crumbsOk d3 (t.data.length + 1) csR' (some cH.i) b :=
      crumbsOk_agree hcsR' (fun k hk =>
        (fun h => hg3 k h.1 h.2.1 h.2.2) (hctxRne k (hctxR'sub k hk)))
    have hconsV3 : crumbsOk d3 (t.data.length + 1)
        ((⟨vi, replN, VA, false⟩ : Crumb T) :: csV) (some b) t.root := by
      refine ⟨hg3vi, ?_, hsVA, hcsV3⟩
      rw [if_neg (by simp)]
      exact ⟨rfl, hVA3⟩
    have hcsA : crumbsOk d3 (t.data.length + 1)
        (csR' ++ (⟨vi, replN, VA, false⟩ : Crumb T) :: csV) (some cH.i) t.root :=
      crumbsOk_append2 csR' _ (some cH.i) b t.root hcsR'3 hconsV3
    have hLd2 : decode d3 (t.data.length + 1) cH.nd.left =
        some (BT.node WL cur wnd WR) := by
      rw [hcHl]
      exact hreloc
    have hvisR : vis2.reverse = cH.i ::
        (csR' ++ (⟨vi, replN, VA, false⟩ : Crumb T) :: csV).map Crumb.i := by
      rw [o9, List.reverse_append, List.reverse_reverse, hvis1]
      simp
    have hctxAe : ctxIdxs (csR' ++ (⟨vi, replN, VA, false⟩ : Crumb T) :: csV) =
        ctxIdxs csR' ++ ((vi :: VA.idxs) ++ ctxIdxs csV) := by
      rw [ctxIdxs_append, ctxIdxs_cons]
    have hctxAc : ∀ k : Nat, (ctxIdxs (csR' ++
        (⟨vi, replN, VA, false⟩ : Crumb T) :: csV)).count k =
        (ctxIdxs csR').count k + VA.idxs.count k + (ctxIdxs csV).count k +
        (if vi = k then 1 else 0) := by
      intro k
      rw [hctxAe]
      simp only [List.count_append, List.count_cons, beq_iff_eq]
      omega
    have hnd : (ctxIdxs (csR' ++ (⟨vi, replN, VA, false⟩ : Crumb T) :: csV) ++
        (BT.node (BT.node WL cur wnd WR) cH.i cH.nd cH.sib).idxs).Nodup := by
      rw [List.nodup_iff_count_le_one]
      intro k
      have h1 := hsplitS k
      have h2 := hctxRc k
      rw [List.count_append, hctxAc]
      have e7 : (BT.node (BT.node WL cur wnd WR) cH.i cH.nd cH.sib).idxs =
          (WL.idxs ++ cur :: WR.idxs) ++ cH.i :: cH.sib.idxs := rfl
      rw [e7]
      simp only [List.count_append, List.count_cons, beq_iff_eq]
      omega
    obtain ⟨hsibO, hwcH, hsvH, hctxR''⟩ := hctxR
    have hsideH : ∀ v ∈ cH.sib.vals, cH.nd.value < v := by
      intro v hv
      have h2 := (hsvH v hv).1
      rw [hcHL] at h2
      rw [if_pos rfl] at h2
      exact h2
    have hrdwcR : withinCtx (cH :: csR') rd.value := by
      refine hfocR_wc _ ?_
      show rd.value ∈ ([] : List T) ++ rd.value :: (WL.vals ++ wnd.value :: WR.vals)
      exact List.mem_append_right _ (List.mem_cons_self _ _)
    have hcHgt : rd.value < cH.nd.value := by
      have h2 := hrdwcR.1
      rw [hcHL] at h2
      rw [if_pos rfl] at h2
      exact h2
    have hRWsub : ∀ x : T, x ∈ WL.vals ++ wnd.value :: WR.vals →
        withinCtx (cH :: csR') x := by
      intro x hx
      refine hfocR_wc _ ?_
      show x ∈ ([] : List T) ++ rd.value :: (WL.vals ++ wnd.value :: WR.vals)
      exact List.mem_append_right _ (List.mem_cons_of_mem _ hx)
    have hbindVB : ∀ x : T,
        x ∈ ((cH :: csR').bind (fun c => c.nd.value :: c.sib.vals)) →
        x ∈ VB.vals := by
      intro x hx
      refine hmemVB x ?_
      have := List.count_pos_iff_mem.2 hx
      omega
    have hFRVB : ∀ x : T, x ∈ WL.vals ++ wnd.value :: WR.vals → x ∈ VB.vals := by
      intro x hx
      refine hmemVB x ?_
      rcases List.mem_append.1 hx with hx | hx
      · have := List.count_pos_iff_mem.2 hx
        omega
      · rcases List.mem_cons.1 hx with heq | hx
        · rw [heq, if_pos rfl]
          omega
        · have := List.count_pos_iff_mem.2 hx
          omega
    have hRWgtR : ∀ x ∈ WL.vals ++ wnd.value :: WR.vals, rd.value < x := by
      intro x hx
      exact hRWgt x hx
    have hwv : ∀ u ∈ (BT.node (BT.node WL cur wnd WR) cH.i cH.nd cH.sib).vals,
        withinCtx (csR' ++ (⟨vi, replN, VA, false⟩ : Crumb T) :: csV) u := by
      intro u hu
      have e8 : (BT.node (BT.node WL cur wnd WR) cH.i cH.nd cH.sib).vals =
          (WL.vals ++ wnd.value :: WR.vals) ++ cH.nd.value :: cH.sib.vals := rfl
      rw [e8] at hu
      rw [withinCtx_append]
      have hget : withinCtx csR' u ∧ rd.value < u ∧ u ∈ VB.vals := by
        rcases List.mem_append.1 hu with hu | hu
        · exact ⟨(hRWsub u hu).2, hRWgtR u hu, hFRVB u hu⟩
        · rcases List.mem_cons.1 hu with heq | hu
          · refine ⟨by rw [heq]; exact hwcH, by rw [heq]; exact hcHgt, ?_⟩
            rw [heq]
            refine hbindVB _ ?_
            rw [bind_cons_eq]
            exact List.mem_append_left _ (List.mem_cons_self _ _)
          · refine ⟨(hsvH u hu).2, lt_trans hcHgt (hsideH u hu), ?_⟩
            refine hbindVB u ?_
            rw [bind_cons_eq]
            exact List.mem_append_left _ (List.mem_cons_of_mem _ hu)
      refine ⟨hget.1, ?_, hfoc_wc u (hmemFocus u hget.2.2)⟩
      rw [if_neg (by simp)]
      exact hget.2.1
    have hmid : ctxOk ((⟨vi, replN, VA, false⟩ : Crumb T) :: csV) := by
      refine ⟨hAo, ?_, ?_, hctxV⟩
      · exact hfoc_wc _ (hmemFocus _ hrdVB)
      · intro u hu
        refine ⟨?_, hfoc_wc u (List.mem_append_left _ hu)⟩
        rw [if_neg (by simp)]
        exact lt_trans (hAlt u hu) hrdgt
    have hcondR : ∀ c ∈ csR',
        withinCtx ((⟨vi, replN, VA, false⟩ : Crumb T) :: csV) c.nd.value ∧
        ∀ v ∈ c.sib.vals,
          withinCtx ((⟨vi, replN, VA, false⟩ : Crumb T) :: csV) v := by
      intro c hc
      have hcisL : c.isL = true := o7 c (List.mem_cons_of_mem _ hc)
      have h1 : rd.value < c.nd.value := by
        have h := withinCtx_mem hrdwcR.2 hc
        rw [hcisL] at h
        rw [if_pos rfl] at h
        exact h
      have hcmemVB : c.nd.value ∈ VB.vals := by
        refine hbindVB _ ?_
        rw [bind_cons_eq]
        refine List.mem_append_right _ ?_
        exact mem_bind_of hc (List.mem_cons_self _ _)
      constructor
      · refine ⟨?_, hfoc_wc _ (hmemFocus _ hcmemVB)⟩
        rw [if_neg (by simp)]
        exact h1
      · intro v hv
        have h2 := (ctxOk_mem hctxR'' hc).2 v hv
        rw [hcisL] at h2
        rw [if_pos rfl] at h2
        have hvVB : v ∈ VB.vals := by
          refine hbindVB v ?_
          rw [bind_cons_eq]
          refine List.mem_append_right _ ?_
          exact mem_bind_of hc (List.mem_cons_of_mem _ hv)
        refine ⟨?_, hfoc_wc v (hmemFocus v hvVB)⟩
        rw [if_neg (by simp)]
        exact lt_trans h1 h2
    have hctxA : ctxOk (csR' ++ (⟨vi, replN, VA, false⟩ : Crumb T) :: csV) :=
      ctxOk_append csR' _ hctxR'' hmid hcondR
    have hop : (plugC (csR' ++ (⟨vi, replN, VA, false⟩ : Crumb T) :: csV)
        (BT.node (BT.node WL cur wnd WR) cH.i cH.nd cH.sib)).Ordered := by
      refine (plugC_ordered_iff _ _).2 ⟨⟨?_, hsideH, hRWo, hsibO⟩, hwv, hctxA⟩
      intro x hx
      have h2 := (hRWsub x hx).1
      rw [hcHL] at h2
      rw [if_pos rfl] at h2
      exact h2
    have hvalsc : ∀ x : T,
        (plugC (csR' ++ (⟨vi, replN, VA, false⟩ : Crumb T) :: csV)
          (BT.node (BT.node WL cur wnd WR) cH.i cH.nd cH.sib)).vals.count x +
        (if vnd.value = x then 1 else 0) = S.vals.count x := by
      intro x
      rw [plugC_vals_count, List.count_append]
      have hbA : ((csR' ++ (⟨vi, replN, VA, false⟩ : Crumb T) :: csV).bind
          (fun c => c.nd.value :: c.sib.vals)).count x =
          (csR'.bind (fun c => c.nd.value :: c.sib.vals)).count x +
          VA.vals.count x +
          (csV.bind (fun c => c.nd.value :: c.sib.vals)).count x +
          (if rd.value = x then 1 else 0) := by
        rw [bind_append_eq, bind_cons_eq]
        simp only [List.count_append, List.count_cons, beq_iff_eq]
        omega
      rw [hbA]
      have e8 : (BT.node (BT.node WL cur wnd WR) cH.i cH.nd cH.sib).vals =
          (WL.vals ++ wnd.value :: WR.vals) ++ cH.nd.value :: cH.sib.vals := rfl
      rw [e8]
      have h1 := hvcntS x
      have h2 := hvcntVB x
      have h3 := hctxRv x
      rw [h3] at h2
      simp only [List.count_append, List.count_cons, beq_iff_eq]
      omega
    have hidxc : (ctxIdxs (csR' ++ (⟨vi, replN, VA, false⟩ : Crumb T) :: csV) ++
        (BT.node (BT.node WL cur wnd WR) cH.i cH.nd cH.sib).idxs).length + 1 =
        S.idxs.length := by
      have hl4 : (ctxIdxs (cH :: csR')).length =
          cH.sib.idxs.length + (ctxIdxs csR').length + 1 := by
        rw [ctxIdxs_cons]
        simp only [List.length_append, List.length_cons]
        omega
      have hlA : (ctxIdxs (csR' ++ (⟨vi, replN, VA, false⟩ : Crumb T) ::
          csV)).length = (ctxIdxs csR').length + 1 + VA.idxs.length +
          (ctxIdxs csV).length := by
        rw [hctxAe]
        simp only [List.length_append, List.length_cons]
        omega
      rw [List.length_append, hlA]
      have e7 : (BT.node (BT.node WL cur wnd WR) cH.i cH.nd cH.sib).idxs =
          (WL.idxs ++ cur :: WR.idxs) ++ cH.i :: cH.sib.idxs := rfl
      rw [e7]
      simp only [List.length_append, List.length_cons]
      omega
    obtain ⟨S', hWFT, hl3, hsz3, hcnts⟩ :=
      rebuild_wf hwf hlen hlen3 hg3cH hLd2 hsib3 ⟨hwst, hsWL, hsWR⟩ hcHsib hcsA
        hnd hop hvalsc hidxc hocc3 hfv hfnd hfc hcnt2 hvisR huab hct
    refine ⟨S', ?_, ?_, ?_, hr, hcnts⟩
    · rw [ht']
      exact hWFT
    · rw [ht']
      show t3.data.length ≤ t.data.length
      exact hl3
    · rw [ht']
      show t3.size - 1 + 1 = t.size
      have hc := hwf.hcnt
      omega

/-- The two-children removal, right-side (right at least as tall) clearing
subcase: the in-order successor has no children; its parent's `left`
pointer is cleared, its slot vacated, and its value replaces the
target's. -/
theorem removeTwoR_clear_wf {T : Type} [LinearOrder T] [DecidableEq T]
    {t : Tree T} {S : BT T} {csV : List (Crumb T)} {vi : Nat} {vnd : Node T}
    {a b : Nat} {VA VB : BT T} {visited1 : List Nat} {rnd0 : Node T}
    {cur : Nat} {rd : Node T} {vis2 : List Nat} {lastv : Nat}
    {d1 : List (Option (Node T))} {r : Option T} {t' : Tree T}
    (hlen : t.data.length ≤ 125)
    (hwf : WFT t S)
    (hvn : getNode t.data vi = some vnd)
    (hA : decode t.data (t.data.length + 1) (some a) = some VA)
    (hB : decode t.data (t.data.length + 1) (some b) = some VB)
    (hsVA : VA.storedOk) (hsVB : VB.storedOk)
    (hcsV : crumbsOk t.data (t.data.length + 1) csV (some vi) t.root)
    (hplug : plugC csV (BT.node VA vi vnd VB) = S)
    (hvis1 : visited1.reverse = vi :: csV.map Crumb.i)
    (hrnd0 : getNode t.data b = some rnd0)
    (hclimb : climbLeft t.data (t.data.length + 1) b rnd0 visited1 =
      some (cur, rd, vis2))
    (hw : rd.right = none)
    (hlast : vis2.getLast? = some lastv)
    (hd1 : modifyNode t.data lastv (fun nd => { nd with left := none }) = some d1)
    (hfin : removeFinish t d1 cur vi a b vis2 = some (r, t')) :
    ∃ S', WFT t' S' ∧ t'.data.length ≤ t.data.length ∧ t'.size + 1 = t.size ∧
      r = some vnd.value ∧
      (∀ x, S'.vals.count x + (if vnd.value = x then 1 else 0) = S.vals.count x) := by
  obtain ⟨csR, RW, o1, o2, o3, o4, o5, o6, o7, o8, o9⟩ :=
    climbLeft_spec _ b rnd0 visited1 VB cur rd vis2 hclimb hrnd0 hB hsVB
  rw [hw, decode_none] at o3
  have hRW : BT.leaf = RW := Option.some.inj o3
  rw [← hRW] at o8
  obtain ⟨fA, A1, adn, A2, hfA, hAeq, han, hA1, hA2⟩ := decode_some_inv hA
  have hcount1 : ∀ k : Nat, S.idxs.count k ≤ 1 :=
    List.nodup_iff_count_le_one.1 hwf.hnodup
  have hcntVB : ∀ k : Nat, VB.idxs.count k = (ctxIdxs csR).count k +
      (if cur = k then 1 else 0) := by
    intro k
    rw [← o8, plugC_idxs_count, List.count_append]
    have e3 : (BT.node BT.leaf cur rd BT.leaf).idxs = ([] : List Nat) ++ cur :: [] := rfl
    rw [e3]
    simp only [List.count_append, List.count_cons, List.count_nil, beq_iff_eq]
    omega
  have hcntS : ∀ k : Nat, S.idxs.count k = (ctxIdxs csV).count k +
      VA.idxs.count k + VB.idxs.count k + (if vi = k then 1 else 0) := by
    intro k
    rw [← hplug, plugC_idxs_count, List.count_append]
    have e5 : (BT.node VA vi vnd VB).idxs = VA.idxs ++ vi :: VB.idxs := rfl
    rw [e5]
    simp only [List.count_append, List.count_cons, beq_iff_eq]
    omega
  have hsplitS : ∀ k : Nat, (ctxIdxs csV).count k + (ctxIdxs csR).count k +
      VA.idxs.count k + (if cur = k then 1 else 0) +
      (if vi = k then 1 else 0) ≤ 1 := by
    intro k
    have h1 := hcntS k
    have h2 := hcntVB k
    have h3 := hcount1 k
    omega
  have hdisj2 : ∀ k : Nat, 1 ≤ (ctxIdxs csV).count k + (ctxIdxs csR).count k +
      VA.idxs.count k → k ≠ cur ∧ k ≠ vi := by
    intro k hk
    have h := hsplitS k
    refine ⟨?_, ?_⟩ <;> intro e <;> subst e <;> rw [if_pos rfl] at h <;> omega
  have hcvi : cur ≠ vi := by
    have h := hsplitS vi
    intro e
    rw [e] at h
    rw [if_pos rfl] at h
    omega
  have had : a ≠ cur ∧ a ≠ vi := by
    refine hdisj2 a ?_
    have ham : a ∈ VA.idxs := by
      rw [hAeq]
      exact List.mem_append_right _ (List.mem_cons_self _ _)
    have := List.count_pos_iff_mem.2 ham
    omega
  obtain ⟨hac, havi⟩ := had
  have hvilt : vi < t.data.length := getNode_lt hvn
  have hcurlt : cur < t.data.length := getNode_lt o1
  have hvcntVB : ∀ x : T, VB.vals.count x =
      (csR.bind (fun c => c.nd.value :: c.sib.vals)).count x +
      (if rd.value = x then 1 else 0) := by
    intro x
    rw [← o8, plugC_vals_count, List.count_append]
    have e3 : (BT.node BT.leaf cur rd BT.leaf).vals = ([] : List T) ++ rd.value :: [] := rfl
    rw [e3]
    simp only [List.count_append, List.count_cons, List.count_nil, beq_iff_eq]
    omega
  have hvcntS : ∀ x : T, S.vals.count x =
      (csV.bind (fun c => c.nd.value :: c.sib.vals)).count x + VA.vals.count x +
      VB.vals.count x + (if vnd.value = x then 1 else 0) := by
    intro x
    rw [← hplug, plugC_vals_count, List.count_append]
    have e5 : (BT.node VA vi vnd VB).vals = VA.vals ++ vnd.value :: VB.vals := rfl
    rw [e5]
    simp only [List.count_append, List.count_cons, beq_iff_eq]
    omega
  have hmemVB : ∀ x : T,
      1 ≤ (csR.bind (fun c => c.nd.value :: c.sib.vals)).count x +
        (if rd.value = x then 1 else 0) → x ∈ VB.vals := by
    intro x hx
    have := hvcntVB x
    exact List.count_pos_iff_mem.1 (by omega)
  have hmemFocus : ∀ x : T, x ∈ VB.vals → x ∈ (BT.node VA vi vnd VB).vals := by
    intro x hx
    exact List.mem_append_right _ (List.mem_cons_of_mem _ hx)
  have hrdVB : rd.value ∈ VB.vals := by
    refine hmemVB _ ?_
    rw [if_pos rfl]
    omega
  have hSord := hwf.hord
  rw [← hplug] at hSord
  obtain ⟨hfoc_ord, hfoc_wc, hctxV⟩ := (plugC_ordered_iff csV _).1 hSord
  obtain ⟨hAlt, hBgt, hAo, hBo⟩ := hfoc_ord
  have hVBord2 := hBo
  rw [← o8] at hVBord2
  obtain ⟨hfocR_ord, hfocR_wc, hctxR⟩ := (plugC_ordered_iff csR _).1 hVBord2
  have hrdgt : vnd.value < rd.value := hBgt _ hrdVB
  have l1 : S.idxs.length = (ctxIdxs csV).length + VA.idxs.length + 1 +
      VB.idxs.length := by
    rw [← hplug, (plugC_idxs_perm csV _).length_eq]
    have e5 : (BT.node VA vi vnd VB).idxs = VA.idxs ++ vi :: VB.idxs := rfl
    rw [e5]
    simp only [List.length_append, List.length_cons]
    omega
  have l2 : VB.idxs.length = (ctxIdxs csR).length + 1 := by
    rw [← o8, (plugC_idxs_perm csR _).length_eq]
    have e6 : (BT.node BT.leaf cur rd BT.leaf).idxs = ([] : List Nat) ++ cur :: [] := rfl
    rw [e6]
    simp only [List.length_append, List.length_cons, List.length_nil]
  have hcnt2 : 2 ≤ S.cnt := by
    rw [cnt_eq_idxs_length]
    omega
  have hbmem0 := crumbsOk_root_mem o6
  rcases csR with _ | ⟨cH, csR'⟩
  · -- the successor is the target's right child itself
    have hcb : cur = b := by
      have h2 : some cur = some b := o6
      exact Option.some.inj h2
    have hVBeq : VB = BT.node BT.leaf cur rd BT.leaf := o8.symm
    have hvis2 : vis2 = visited1 := by
      rw [o9]
      simp
    have hlastvi : vi = lastv := by
      rw [hvis2] at hlast
      rw [getLast?_of_reverse_cons hvis1] at hlast
      exact Option.some.inj hlast
    subst hlastvi
    rw [modifyNode_of_get hvn] at hd1
    obtain rfl : t.data.set vi (some { vnd with left := none }) = d1 :=
      Option.some.inj hd1
    have hd1cur : (t.data.set vi (some { vnd with left := none })).get? cur =
        some (some rd) := by
      rw [List.get?_set_ne _ _ (fun e => hcvi e.symm)]
      exact getNode_get? o1
    have hg2a : ((t.data.set vi (some { vnd with left := none })).set cur
        none).get? a = some (some adn) := by
      rw [List.get?_set_ne _ _ (fun e => hac e.symm)]
      rw [List.get?_set_ne _ _ (fun e => havi e.symm)]
      exact getNode_get? han
    have hg2b : ((t.data.set vi (some { vnd with left := none })).set cur
        none).get? b = some none := by
      rw [← hcb]
      rw [List.get?_set_eq_of_lt _ (by rw [List.length_set]; exact hcurlt)]
    have hg2vi : ((t.data.set vi (some { vnd with left := none })).set cur
        none).get? vi = some (some { vnd with left := none }) := by
      rw [List.get?_set_ne _ _ hcvi]
      rw [List.get?_set_eq_of_lt _ hvilt]
    obtain ⟨hr, t2, t3, huab, hct, ht'⟩ :=
      removeFinish_eval hd1cur hg2a hg2b hg2vi hfin
    simp only [Option.map_none', Option.map_some'] at huab
    set replN : Node T :=
      { value := rd.value, left := some a, right := none, height := 0 } with hreplN
    set d3 : List (Option (Node T)) :=
      ((t.data.set vi (some { vnd with left := none })).set cur none).set vi
        (some replN) with hd3
    have hlen3 : d3.length = t.data.length := by
      rw [hd3, List.length_set, List.length_set, List.length_set]
    have hg3 : ∀ k, k ≠ cur → k ≠ vi → getNode d3 k = getNode t.data k := by
      intro k h1 h2
      rw [hd3, getNode_set_ne (fun e => h2 e.symm), getNode_set_ne (fun e => h1 e.symm),
        getNode_set_ne (fun e => h2 e.symm)]
    have hget3 : ∀ k, k ≠ cur → k ≠ vi → d3.get? k = t.data.get? k := by
      intro k h1 h2
      rw [hd3, List.get?_set_ne _ _ (fun e => h2 e.symm),
        List.get?_set_ne _ _ (fun e => h1 e.symm),
        List.get?_set_ne _ _ (fun e => h2 e.symm)]
    have hg3vi : getNode d3 vi = some replN := by
      rw [hd3]
      exact getNode_set_self (by rw [List.length_set, List.length_set]; exact hvilt) _
    have hg3cur : d3.get? cur = some none := by
      rw [hd3, List.get?_set_ne _ _ (fun e => hcvi e.symm)]
      rw [List.get?_set_eq_of_lt _ (by rw [List.length_set]; exact hcurlt)]
    have hVAne : ∀ k, k ∈ VA.idxs → k ≠ cur ∧ k ≠ vi := by
      intro k hk
      refine hdisj2 k ?_
      have := List.count_pos_iff_mem.2 hk
      omega
    have hctxVne : ∀ k, k ∈ ctxIdxs csV → k ≠ cur ∧ k ≠ vi := by
      intro k hk
      refine hdisj2 k ?_
      have := List.count_pos_iff_mem.2 hk
      omega
    have hVA3 : decode d3 (t.data.length + 1) (some a) = some VA :=
      decode_agree hA (fun j hj => hg3 j (hVAne j hj).1 (hVAne j hj).2)
    have hcsV3 : crumbsOk d3 (t.data.length + 1) csV (some vi) t.root :=
      crumbsOk_agree hcsV (fun k hk => hg3 k (hctxVne k hk).1 (hctxVne k hk).2)
    have hocc3 : occCount d3 + 1 = occCount t.data := by
      have s1 := occCount_set t.data vi (some { vnd with left := none }) hvilt
      rw [getNode_get? hvn] at s1
      have s2 := occCount_set (t.data.set vi (some { vnd with left := none }))
        cur none (by rw [List.length_set]; exact hcurlt)
      rw [hd1cur] at s2
      have s3 := occCount_set ((t.data.set vi
        (some { vnd with left := none })).set cur none) vi (some replN)
        (by rw [List.length_set, List.length_set]; exact hvilt)
      rw [hg2vi] at s3
      rw [hd3]
      simp only [occB] at s1 s2 s3
      omega
    have hfr : ∀ j, j < t.data.length → j ≠ cur →
        (d3.get? j = some none ↔ t.data.get? j = some none) := by
      intro j hjlt hjc
      by_cases hjvi : j = vi
      · subst hjvi
        constructor
        · intro hx
          rw [getNode_get? hg3vi] at hx
          exact absurd (Option.some.inj hx) (by simp)
        · intro hx
          rw [getNode_get? hvn] at hx
          exact absurd (Option.some.inj hx) (by simp)
      · rw [hget3 j hjc hjvi]
    obtain ⟨hfv, hfnd, hfc⟩ := free_facts hwf hlen3 o1 hg3cur hfr
    have hnd : (ctxIdxs csV ++ (BT.node VA vi replN BT.leaf).idxs).Nodup := by
      rw [List.nodup_iff_count_le_one]
      intro k
      have h1 := hsplitS k
      rw [show (ctxIdxs ([] : List (Crumb T))).count k = 0 from rfl] at h1
      have e7 : (BT.node VA vi replN BT.leaf).idxs = VA.idxs ++ vi :: [] := rfl
      rw [List.count_append, e7]
      simp only [List.count_append, List.count_cons, List.count_nil, beq_iff_eq]
      omega
    have hop : (plugC csV (BT.node VA vi replN BT.leaf)).Ordered := by
      refine (plugC_ordered_iff _ _).2 ⟨⟨?_, ?_, hAo, trivial⟩, ?_, hctxV⟩
      · intro x hx
        exact lt_trans (hAlt x hx) hrdgt
      · intro x hx
        exact absurd hx (List.not_mem_nil _)
      · intro u hu
        have e8 : (BT.node VA vi replN BT.leaf).vals = VA.vals ++ rd.value :: [] := rfl
        rw [e8] at hu
        rcases List.mem_append.1 hu with hu | hu
        · exact hfoc_wc u (List.mem_append_left _ hu)
        · rcases List.mem_cons.1 hu with heq | hu
          · rw [heq]
            exact hfoc_wc _ (hmemFocus _ hrdVB)
          · exact absurd hu (List.not_mem_nil _)
    have hvalsc : ∀ x : T, (plugC csV (BT.node VA vi replN BT.leaf)).vals.count x +
        (if vnd.value = x then 1 else 0) = S.vals.count x := by
      intro x
      rw [plugC_vals_count, List.count_append]
      have e8 : (BT.node VA vi replN BT.leaf).vals = VA.vals ++ rd.value :: [] := rfl
      rw [e8]
      have h1 := hvcntS x
      have h2 := hvcntVB x
      rw [show ((([] : List (Crumb T))).bind
        (fun c => c.nd.value :: c.sib.vals)).count x = 0 from rfl] at h2
      simp only [List.count_append, List.count_cons, List.count_nil, beq_iff_eq]
      omega
    have hidxc : (ctxIdxs csV ++ (BT.node VA vi replN BT.leaf).idxs).length + 1 =
        S.idxs.length := by
      have e7 : (BT.node VA vi replN BT.leaf).idxs = VA.idxs ++ vi :: [] := rfl
      rw [e7]
      rw [show (ctxIdxs ([] : List (Crumb T))).length = 0 from rfl] at l2
      simp only [List.length_append, List.length_cons, List.length_nil]
      omega
    have hvisR : vis2.reverse = vi :: csV.map Crumb.i := by
      rw [hvis2]
      exact hvis1
    obtain ⟨S', hWFT, hl3, hsz3, hcnts⟩ :=
      rebuild_wf hwf hlen hlen3 hg3vi hVA3 (decode_none _ _) hsVA trivial hcsV3
        hnd hop hvalsc hidxc hocc3 hfv hfnd hfc hcnt2 hvisR huab hct
    refine ⟨S', ?_, ?_, ?_, ?_, hcnts⟩
    · rw [ht']
      exact hWFT
    · rw [ht']
      show t3.data.length ≤ t.data.length
      exact hl3
    · rw [ht']
      show t3.size - 1 + 1 = t.size
      have hc := hwf.hcnt
      omega
    · rw [hr]
  · -- the climb descended at least one edge
    obtain ⟨hcHn, hcHside, hcHsib, hcsR'⟩ := o6
    have hcHL : cH.isL = true := o7 cH (List.mem_cons_self _ _)
    rw [hcHL] at hcHside
    rw [if_pos rfl] at hcHside
    obtain ⟨hcHl, hcHr⟩ := hcHside
    have hctxRc : ∀ k : Nat, (ctxIdxs (cH :: csR')).count k =
        cH.sib.idxs.count k + (ctxIdxs csR').count k +
        (if cH.i = k then 1 else 0) := by
      intro k
      rw [ctxIdxs_cons]
      simp only [List.count_append, List.count_cons, beq_iff_eq]
      omega
    have hctxRv : ∀ x : T, ((cH :: csR').bind
        (fun c => c.nd.value :: c.sib.vals)).count x =
        cH.sib.vals.count x + (csR'.bind
          (fun c => c.nd.value :: c.sib.vals)).count x +
        (if cH.nd.value = x then 1 else 0) := by
      intro x
      rw [bind_cons_eq]
      simp only [List.count_append, List.count_cons, beq_iff_eq]
      omega
    have hcHne : cH.i ≠ cur ∧ cH.i ≠ vi := by
      refine hdisj2 cH.i ?_
      have hm : cH.i ∈ ctxIdxs (cH :: csR') := by
        rw [ctxIdxs_cons]
        exact List.mem_append_left _ (List.mem_cons_self _ _)
      have := List.count_pos_iff_mem.2 hm
      omega
    have hsibsub : ∀ k, k ∈ cH.sib.idxs → k ∈ ctxIdxs (cH :: csR') := by
      intro k hk
      rw [ctxIdxs_cons]
      exact List.mem_append_left _ (List.mem_cons_of_mem _ hk)
    have hctxR'sub : ∀ k, k ∈ ctxIdxs csR' → k ∈ ctxIdxs (cH :: csR') := by
      intro k hk
      rw [ctxIdxs_cons]
      exact List.mem_append_right _ hk
    have hctxRne : ∀ k, k ∈ ctxIdxs (cH :: csR') → k ≠ cur ∧ k ≠ vi := by
      intro k hk
      refine hdisj2 k ?_
      have := List.count_pos_iff_mem.2 hk
      omega
    have hvisR : vis2.reverse = cH.i ::
        (csR'.map Crumb.i ++ vi :: csV.map Crumb.i) := by
      rw [o9, List.reverse_append, List.reverse_reverse, hvis1]
      simp
    have hlastcH : cH.i = lastv := by
      rw [getLast?_of_reverse_cons hvisR] at hlast
      exact Option.some.inj hlast
    subst hlastcH
    rw [modifyNode_of_get hcHn] at hd1
    obtain rfl : t.data.set cH.i (some { cH.nd with left := none }) = d1 :=
      Option.some.inj hd1
    have hd1cur : (t.data.set cH.i (some { cH.nd with left := none })).get? cur =
        some (some rd) := by
      rw [List.get?_set_ne _ _ hcHne.1]
      exact getNode_get? o1
    have hbmem2 : b ∈ ctxIdxs (cH :: csR') := by
      rcases hbmem0 with he | hm
      · exact absurd he (by simp)
      · exact hm
    have hbne : b ≠ cur ∧ b ≠ vi := by
      refine hdisj2 b ?_
      have := List.count_pos_iff_mem.2 hbmem2
      omega
    have hg2b : ∃ z : Node T, ((t.data.set cH.i
        (some { cH.nd with left := none })).set cur none).get? b =
        some (some z) := by
      by_cases hbch : b = cH.i
      · refine ⟨{ cH.nd with left := none }, ?_⟩
        rw [List.get?_set_ne _ _ (fun e => hbne.1 e.symm)]
        rw [hbch]
        rw [List.get?_set_eq_of_lt _ (getNode_lt hcHn)]
      · refine ⟨rnd0, ?_⟩
        rw [List.get?_set_ne _ _ (fun e => hbne.1 e.symm)]
        rw [List.get?_set_ne _ _ (fun e => hbch e.symm)]
        exact getNode_get? hrnd0
    have hg2a : ((t.data.set cH.i (some { cH.nd with left := none })).set cur
        none).get? a = some (some adn) := by
      rw [List.get?_set_ne _ _ (fun e => hac e.symm)]
      rw [List.get?_set_ne _ _ ?hach]
      case hach =>
        intro e
        have ham : a ∈ VA.idxs := by
          rw [hAeq]
          exact List.mem_append_right _ (List.mem_cons_self _ _)
        have h1 := hsplitS a
        have h2 := hctxRc a
        have h3 := List.count_pos_iff_mem.2 ham
        rw [e] at h2
        rw [if_pos rfl] at h2
        omega
      exact getNode_get? han
    have hg2vi : ((t.data.set cH.i (some { cH.nd with left := none })).set cur
        none).get? vi = some (some vnd) := by
      rw [List.get?_set_ne _ _ hcvi]
      rw [List.get?_set_ne _ _ hcHne.2]
      exact getNode_get? hvn
    obtain ⟨z, hg2bz⟩ := hg2b
    obtain ⟨hr, t2, t3, huab, hct, ht'⟩ :=
      removeFinish_eval hd1cur hg2a hg2bz hg2vi hfin
    simp only [Option.map_some'] at huab
    set replN : Node T :=
      { value := rd.value, left := some a, right := some b, height := 0 } with hreplN
    set d3 : List (Option (Node T)) :=
      ((t.data.set cH.i (some { cH.nd with left := none })).set cur none).set vi
        (some replN) with hd3
    have hlen3 : d3.length = t.data.length := by
      rw [hd3, List.length_set, List.length_set, List.length_set]
    have hg3 : ∀ k, k ≠ cH.i → k ≠ cur → k ≠ vi →
        getNode d3 k = getNode t.data k := by
      intro k h1 h2 h3
      rw [hd3, getNode_set_ne (fun e => h3 e.symm), getNode_set_ne (fun e => h2 e.symm),
        getNode_set_ne (fun e => h1 e.symm)]
    have hget3 : ∀ k, k ≠ cH.i → k ≠ cur → k ≠ vi →
        d3.get? k = t.data.get? k := by
      intro k h1 h2 h3
      rw [hd3, List.get?_set_ne _ _ (fun e => h3 e.symm),
        List.get?_set_ne _ _ (fun e => h2 e.symm),
        List.get?_set_ne _ _ (fun e => h1 e.symm)]
    have hg3vi : getNode d3 vi = some replN := by
      rw [hd3]
      exact getNode_set_self (by rw [List.length_set, List.length_set]; exact hvilt) _
    have hg3cur : d3.get? cur = some none := by
      rw [hd3, List.get?_set_ne _ _ (fun e => hcvi e.symm)]
      rw [List.get?_set_eq_of_lt _ (by rw [List.length_set]; exact hcurlt)]
    have hg3cH : getNode d3 cH.i = some { cH.nd with left := none } := by
      rw [hd3, getNode_set_ne (fun e => hcHne.2 e.symm),
        getNode_set_ne (fun e => hcHne.1 e.symm)]
      exact getNode_set_self (getNode_lt hcHn) _
    have hVAne : ∀ k, k ∈ VA.idxs → k ≠ cH.i ∧ k ≠ cur ∧ k ≠ vi := by
      intro k hk
      have h1 := hsplitS k
      have h2 := hctxRc k
      have h3 := List.count_pos_iff_mem.2 hk
      have hd := hdisj2 k (by omega)
      refine ⟨?_, hd.1, hd.2⟩
      intro e
      rw [← e, if_pos rfl] at h2
      omega
    have hctxVne : ∀ k, k ∈ ctxIdxs csV → k ≠ cH.i ∧ k ≠ cur ∧ k ≠ vi := by
      intro k hk
      have h1 := hsplitS k
      have h2 := hctxRc k
      have h3 := List.count_pos_iff_mem.2 hk
      have hd := hdisj2 k (by omega)
      refine ⟨?_, hd.1, hd.2⟩
      intro e
      rw [← e, if_pos rfl] at h2
      omega
    have hsibne : ∀ k, k ∈ cH.sib.idxs → k ≠ cH.i ∧ k ≠ cur ∧ k ≠ vi := by
      intro k hk
      have h1 := hsplitS k
      have h2 := hctxRc k
      have h3 := List.count_pos_iff_mem.2 hk
      have h4 := List.count_pos_iff_mem.2 (hsibsub k hk)
      have hd := hdisj2 k (by omega)
      refine ⟨?_, hd.1, hd.2⟩
      intro e
      rw [← e, if_pos rfl] at h2
      omega
    have hctxR'ne : ∀ k, k ∈ ctxIdxs csR' → k ≠ cH.i ∧ k ≠ cur ∧ k ≠ vi := by
      intro k hk
      have h1 := hsplitS k
      have h2 := hctxRc k
      have h3 := List.count_pos_iff_mem.2 hk
      have h4 := List.count_pos_iff_mem.2 (hctxR'sub k hk)
      have hd := hdisj2 k (by omega)
      refine ⟨?_, hd.1, hd.2⟩
      intro e
      rw [← e, if_pos rfl] at h2
      omega
    have hVA3 : decode d3 (t.data.length + 1) (some a) = some VA :=
      decode_agree hA (fun j hj =>
        hg3 j (hVAne j hj).1 (hVAne j hj).2.1 (hVAne j hj).2.2)
    have hcsV3 : crumbsOk d3 (t.data.length + 1) csV (some vi) t.root :=
      crumbsOk_agree hcsV (fun k hk =>
        hg3 k (hctxVne k hk).1 (hctxVne k hk).2.1 (hctxVne k hk).2.2)
    have hsib3 : decode d3 (t.data.length + 1) cH.nd.right = some cH.sib :=
      decode_agree hcHr (fun j hj =>
        hg3 j (hsibne j hj).1 (hsibne j hj).2.1 (hsibne j hj).2.2)
    have hcsR'3 : crumbsOk d3 (t.data.length + 1) csR' (some cH.i) b :=
      crumbsOk_agree hcsR' (fun k hk =>
        hg3 k (hctxR'ne k hk).1 (hctxR'ne k hk).2.1 (hctxR'ne k hk).2.2)
    have hconsV3 : crumbsOk d3 (t.data.length + 1)
        ((⟨vi, replN, VA, false⟩ : Crumb T) :: csV) (some b) t.root := by
      refine ⟨hg3vi, ?_, hsVA, hcsV3⟩
      rw [if_neg (by simp)]
      exact ⟨rfl, hVA3⟩
    have hcsA : crumbsOk d3 (t.data.length + 1)
        (csR' ++ (⟨vi, replN, VA, false⟩ : Crumb T) :: csV) (some cH.i) t.root :=
      crumbsOk_append2 csR' _ (some cH.i) b t.root hcsR'3 hconsV3
    have hocc3 : occCount d3 + 1 = occCount t.data := by
      have s1 := occCount_set t.data cH.i
        (some { value := cH.nd.value, left := none, right := cH.nd.right,
                height := cH.nd.height })
        (getNode_lt hcHn)
      rw [getNode_get? hcHn] at s1
      have s2 := occCount_set (t.data.set cH.i
        (some { value := cH.nd.value, left := none, right := cH.nd.right,
                height := cH.nd.height }))
        cur none (by rw [List.length_set]; exact hcurlt)
      rw [hd1cur] at s2
      have s3 := occCount_set ((t.data.set cH.i
        (some { value := cH.nd.value, left := none, right := cH.nd.right,
                height := cH.nd.height })).set cur none) vi (some replN)
        (by rw [List.length_set, List.length_set]; exact hvilt)
      rw [hg2vi] at s3
      rw [hd3]
      show occCount (((t.data.set cH.i
        (some { value := cH.nd.value, left := none, right := cH.nd.right,
                height := cH.nd.height })).set cur none).set vi (some replN)) + 1 =
        occCount t.data
      simp only [occB] at s1 s2 s3
      omega
    have hfr : ∀ j, j < t.data.length → j ≠ cur →
        (d3.get? j = some none ↔ t.data.get? j = some none) := by
      intro j hjlt hjc
      by_cases hjcH : j = cH.i
      · subst hjcH
        constructor
        · intro hx
          rw [getNode_get? hg3cH] at hx
          exact absurd (Option.some.inj hx) (by simp)
        · intro hx
          rw [getNode_get? hcHn] at hx
          exact absurd (Option.some.inj hx) (by simp)
      · by_cases hjvi : j = vi
        · subst hjvi
          constructor
          · intro hx
            rw [getNode_get? hg3vi] at hx
            exact absurd (Option.some.inj hx) (by simp)
          · intro hx
            rw [getNode_get? hvn] at hx
            exact absurd (Option.some.inj hx) (by simp)
        · rw [hget3 j hjcH hjc hjvi]
    obtain ⟨hfv, hfnd, hfc⟩ := free_facts hwf hlen3 o1 hg3cur hfr
    have hctxAe : ctxIdxs (csR' ++ (⟨vi, replN, VA, false⟩ : Crumb T) :: csV) =
        ctxIdxs csR' ++ ((vi :: VA.idxs) ++ ctxIdxs csV) := by
      rw [ctxIdxs_append, ctxIdxs_cons]
    have hnd : (ctxIdxs (csR' ++ (⟨vi, replN, VA, false⟩ : Crumb T) :: csV) ++
        (BT.node BT.leaf cH.i { cH.nd with left := none } cH.sib).idxs).Nodup := by
      rw [List.nodup_iff_count_le_one]
      intro k
      have h1 := hsplitS k
      have h2 := hctxRc k
      rw [List.count_append, hctxAe]
      have e7 : (BT.node BT.leaf cH.i { cH.nd with left := none } cH.sib).idxs =
          ([] : List Nat) ++ cH.i :: cH.sib.idxs := rfl
      rw [e7]
      simp only [List.count_append, List.count_cons, List.count_nil, beq_iff_eq]
      omega
    obtain ⟨hsibO, hwcH, hsvH, hctxR''⟩ := hctxR
    have hsideH : ∀ v ∈ cH.sib.vals, cH.nd.value < v := by
      intro v hv
      have h2 := (hsvH v hv).1
      rw [hcHL] at h2
      rw [if_pos rfl] at h2
      exact h2
    have hrdwcR : withinCtx (cH :: csR') rd.value := by
      refine hfocR_wc _ ?_
      show rd.value ∈ ([] : List T) ++ rd.value :: []
      exact List.mem_append_right _ (List.mem_cons_self _ _)
    have hcHgt : rd.value < cH.nd.value := by
      have h2 := hrdwcR.1
      rw [hcHL] at h2
      rw [if_pos rfl] at h2
      exact h2
    have hbindVB : ∀ x : T,
        x ∈ ((cH :: csR').bind (fun c => c.nd.value :: c.sib.vals)) →
        x ∈ VB.vals := by
      intro x hx
      refine hmemVB x ?_
      have := List.count_pos_iff_mem.2 hx
      omega
    have hwv : ∀ u ∈ (BT.node BT.leaf cH.i { cH.nd with left := none }
        cH.sib).vals,
        withinCtx (csR' ++ (⟨vi, replN, VA, false⟩ : Crumb T) :: csV) u := by
      intro u hu
      have e8 : (BT.node BT.leaf cH.i { cH.nd with left := none } cH.sib).vals =
          ([] : List T) ++ cH.nd.value :: cH.sib.vals := rfl
      rw [e8] at hu
      rw [withinCtx_append]
      have hget : withinCtx csR' u ∧ rd.value < u ∧ u ∈ VB.vals := by
        rcases List.mem_append.1 hu with hu | hu
        · exact absurd hu (List.not_mem_nil _)
        · rcases List.mem_cons.1 hu with heq | hu
          · refine ⟨by rw [heq]; exact hwcH, by rw [heq]; exact hcHgt, ?_⟩
            rw [heq]
            refine hbindVB _ ?_
            rw [bind_cons_eq]
            exact List.mem_append_left _ (List.mem_cons_self _ _)
          · refine ⟨(hsvH u hu).2, lt_trans hcHgt (hsideH u hu), ?_⟩
            refine hbindVB u ?_
            rw [bind_cons_eq]
            exact List.mem_append_left _ (List.mem_cons_of_mem _ hu)
      refine ⟨hget.1, ?_, hfoc_wc u (hmemFocus u hget.2.2)⟩
      rw [if_neg (by simp)]
      exact hget.2.1
    have hmid : ctxOk ((⟨vi, replN, VA, false⟩ : Crumb T) :: csV) := by
      refine ⟨hAo, ?_, ?_, hctxV⟩
      · exact hfoc_wc _ (hmemFocus _ hrdVB)
      · intro u hu
        refine ⟨?_, hfoc_wc u (List.mem_append_left _ hu)⟩
        rw [if_neg (by simp)]
        exact lt_trans (hAlt u hu) hrdgt
    have hcondR : ∀ c ∈ csR',
        withinCtx ((⟨vi, replN, VA, false⟩ : Crumb T) :: csV) c.nd.value ∧
        ∀ v ∈ c.sib.vals,
          withinCtx ((⟨vi, replN, VA, false⟩ : Crumb T) :: csV) v := by
      intro c hc
      have hcisL : c.isL = true := o7 c (List.mem_cons_of_mem _ hc)
      have h1 : rd.value < c.nd.value := by
        have h := withinCtx_mem hrdwcR.2 hc
        rw [hcisL] at h
        rw [if_pos rfl] at h
        exact h
      have hcmemVB : c.nd.value ∈ VB.vals := by
        refine hbindVB _ ?_
        rw [bind_cons_eq]
        refine List.mem_append_right _ ?_
        exact mem_bind_of hc (List.mem_cons_self _ _)
      constructor
      · refine ⟨?_, hfoc_wc _ (hmemFocus _ hcmemVB)⟩
        rw [if_neg (by simp)]
        exact h1
      · intro v hv
        have h2 := (ctxOk_mem hctxR'' hc).2 v hv
        rw [hcisL] at h2
        rw [if_pos rfl] at h2
        have hvVB : v ∈ VB.vals := by
          refine hbindVB v ?_
          rw [bind_cons_eq]
          refine List.mem_append_right _ ?_
          exact mem_bind_of hc (List.mem_cons_of_mem _ hv)
        refine ⟨?_, hfoc_wc v (hmemFocus v hvVB)⟩
        rw [if_neg (by simp)]
        exact lt_trans h1 h2
    have hctxA : ctxOk (csR' ++ (⟨vi, replN, VA, false⟩ : Crumb T) :: csV) :=
      ctxOk_append csR' _ hctxR'' hmid hcondR
    have hop : (plugC (csR' ++ (⟨vi, replN, VA, false⟩ : Crumb T) :: csV)
        (BT.node BT.leaf cH.i { cH.nd with left := none } cH.sib)).Ordered := by
      refine (plugC_ordered_iff _ _).2 ⟨⟨?_, hsideH, trivial, hsibO⟩, hwv, hctxA⟩
      intro x hx
      exact absurd hx (List.not_mem_nil _)
    have hvalsc : ∀ x : T,
        (plugC (csR' ++ (⟨vi, replN, VA, false⟩ : Crumb T) :: csV)
          (BT.node BT.leaf cH.i { cH.nd with left := none } cH.sib)).vals.count x +
        (if vnd.value = x then 1 else 0) = S.vals.count x := by
      intro x
      rw [plugC_vals_count, List.count_append]
      have hbA : ((csR' ++ (⟨vi, replN, VA, false⟩ : Crumb T) :: csV).bind
          (fun c => c.nd.value :: c.sib.vals)).count x =
          (csR'.bind (fun c => c.nd.value :: c.sib.vals)).count x +
          VA.vals.count x +
          (csV.bind (fun c => c.nd.value :: c.sib.vals)).count x +
          (if rd.value = x then 1 else 0) := by
        rw [bind_append_eq, bind_cons_eq]
        simp only [List.count_append, List.count_cons, beq_iff_eq]
        omega
      rw [hbA]
      have e8 : (BT.node BT.leaf cH.i { cH.nd with left := none } cH.sib).vals =
          ([] : List T) ++ cH.nd.value :: cH.sib.vals := rfl
      rw [e8]
      have h1 := hvcntS x
      have h2 := hvcntVB x
      have h3 := hctxRv x
      rw [h3] at h2
      simp only [List.count_append, List.count_cons, List.count_nil, beq_iff_eq]
      omega
    have hidxc : (ctxIdxs (csR' ++ (⟨vi, replN, VA, false⟩ : Crumb T) :: csV) ++
        (BT.node BT.leaf cH.i { cH.nd with left := none } cH.sib).idxs).length +
        1 = S.idxs.length := by
      have hl4 : (ctxIdxs (cH :: csR')).length =
          cH.sib.idxs.length + (ctxIdxs csR').length + 1 := by
        rw [ctxIdxs_cons]
        simp only [List.length_append, List.length_cons]
        omega
      rw [List.length_append, hctxAe]
      have e7 : (BT.node BT.leaf cH.i { cH.nd with left := none } cH.sib).idxs =
          ([] : List Nat) ++ cH.i :: cH.sib.idxs := rfl
      rw [e7]
      simp only [List.length_append, List.length_cons, List.length_nil]
      omega
    have hLd3 : decode d3 (t.data.length + 1)
        ({ cH.nd with left := none } : Node T).left = some BT.leaf :=
      decode_none _ _
    have hvisR2 : vis2.reverse = cH.i ::
        (csR' ++ (⟨vi, replN, VA, false⟩ : Crumb T) :: csV).map Crumb.i := by
      rw [hvisR]
      simp
    obtain ⟨S', hWFT, hl3, hsz3, hcnts⟩ :=
      rebuild_wf hwf hlen hlen3 hg3cH hLd3 hsib3 trivial hcHsib hcsA
        hnd hop hvalsc hidxc hocc3 hfv hfnd hfc hcnt2 hvisR2 huab hct
    refine ⟨S', ?_, ?_, ?_, hr, hcnts⟩
    · rw [ht']
      exact hWFT
    · rw [ht']
      show t3.data.length ≤ t.data.length
      exact hl3
    · rw [ht']
      show t3.size - 1 + 1 = t.size
      have hc := hwf.hcnt
      omega

/-- Removal of a node with at most one child: the parent's pointer on the
target's side is redirected to the target's only child (or cleared), the
target's slot is vacated and pushed on the free list, and the visited path
is replayed and the tail trimmed. -/
theorem removeOne_wf {T : Type} [LinearOrder T] [DecidableEq T]
    {t : Tree T} {S : BT T} {cs1 : List (Crumb T)} {pk vi : Nat}
    {pnd vnd : Node T} {xr : Option Nat} {cil : Bool} {SIB C : BT T}
    {CL CR : BT T}
    {d1 : List (Option (Node T))} {vn : Node T} {d2 : List (Option (Node T))}
    {visited : List Nat} {t2 t3 : Tree T}
    (hlen : t.data.length ≤ 125)
    (hwf : WFT t S)
    (hpn : getNode t.data pk = some pnd)
    (hvn : getNode t.data vi = some vnd)
    (hSIBd : decode t.data (t.data.length + 1)
      (if cil then pnd.right else pnd.left) = some SIB)
    (hsSIB : SIB.storedOk)
    (hsCL : CL.storedOk) (hsCR : CR.storedOk)
    (hxrd : decode t.data (t.data.length + 1) xr = some C)
    (hCsub : (C = CL ∧ CR = BT.leaf) ∨ (C = CR ∧ CL = BT.leaf))
    (hcs : crumbsOk t.data (t.data.length + 1) cs1 (some pk) t.root)
    (hplug : plugC ((⟨pk, pnd, SIB, cil⟩ : Crumb T) :: cs1)
      (BT.node CL vi vnd CR) = S)
    (hvis : visited.reverse = pk :: cs1.map Crumb.i)
    (hd1 : modifyNode t.data pk (fun nd =>
      if cil then { nd with left := xr } else { nd with right := xr }) = some d1)
    (hrepl : replaceAt d1 vi none = some (vn, d2))
    (huab : Tree.update_and_balance
      { t with data := d2, free := t.free ++ [vi] } visited = some t2)
    (hct : t2.clean_tail = some t3) :
    ∃ S', WFT { t3 with size := t3.size - 1 } S' ∧
      t3.data.length ≤ t.data.length ∧ t3.size = t.size ∧ vn.value = vnd.value ∧
      (∀ x, S'.vals.count x + (if vnd.value = x then 1 else 0) = S.vals.count x) := by
  have hcount1 : ∀ k : Nat, S.idxs.count k ≤ 1 :=
    List.nodup_iff_count_le_one.1 hwf.hnodup
  have hcntF : ∀ k : Nat, CL.idxs.count k + CR.idxs.count k = C.idxs.count k := by
    intro k
    rcases hCsub with ⟨he, hlf⟩ | ⟨he, hlf⟩
    · rw [he, hlf]
      show CL.idxs.count k + ([] : List Nat).count k = CL.idxs.count k
      simp
    · rw [he, hlf]
      show ([] : List Nat).count k + CR.idxs.count k = CR.idxs.count k
      simp
  have hvalsF : ∀ x : T, CL.vals.count x + CR.vals.count x = C.vals.count x := by
    intro x
    rcases hCsub with ⟨he, hlf⟩ | ⟨he, hlf⟩
    · rw [he, hlf]
      show CL.vals.count x + ([] : List T).count x = CL.vals.count x
      simp
    · rw [he, hlf]
      show ([] : List T).count x + CR.vals.count x = CR.vals.count x
      simp
  have lC : C.idxs.length = CL.idxs.length + CR.idxs.length := by
    rcases hCsub with ⟨he, hlf⟩ | ⟨he, hlf⟩
    · rw [he, hlf]
      show CL.idxs.length = CL.idxs.length + ([] : List Nat).length
      simp
    · rw [he, hlf]
      show CR.idxs.length = ([] : List Nat).length + CR.idxs.length
      simp
  have hsC : C.storedOk := by
    rcases hCsub with ⟨he, _⟩ | ⟨he, _⟩
    · rw [he]; exact hsCL
    · rw [he]; exact hsCR
  have hCmemF : ∀ x ∈ C.vals, x ∈ (BT.node CL vi vnd CR).vals := by
    intro x hx
    show x ∈ CL.vals ++ vnd.value :: CR.vals
    rcases hCsub with ⟨he, _⟩ | ⟨he, _⟩
    · rw [he] at hx
      exact List.mem_append_left _ hx
    · rw [he] at hx
      exact List.mem_append_right _ (List.mem_cons_of_mem _ hx)
  have hvilt : vi < t.data.length := getNode_lt hvn
  have hpklt : pk < t.data.length := getNode_lt hpn
  cases cil with
  | true =>
    have hplug2 : plugC cs1 (BT.node (BT.node CL vi vnd CR) pk pnd SIB) = S :=
      hplug
    rw [if_pos rfl] at hSIBd
    have hcntS : ∀ k : Nat, S.idxs.count k = (ctxIdxs cs1).count k +
        CL.idxs.count k + CR.idxs.count k + SIB.idxs.count k +
        (if vi = k then 1 else 0) + (if pk = k then 1 else 0) := by
      intro k
      rw [← hplug2, plugC_idxs_count, List.count_append]
      have e5 : (BT.node (BT.node CL vi vnd CR) pk pnd SIB).idxs =
          (CL.idxs ++ vi :: CR.idxs) ++ pk :: SIB.idxs := rfl
      rw [e5]
      simp only [List.count_append, List.count_cons, beq_iff_eq]
      omega
    have hsplit : ∀ k : Nat, (ctxIdxs cs1).count k + CL.idxs.count k +
        CR.idxs.count k + SIB.idxs.count k + (if vi = k then 1 else 0) +
        (if pk = k then 1 else 0) ≤ 1 := by
      intro k
      have h1 := hcntS k
      have h2 := hcount1 k
      omega
    have hdisj : ∀ k : Nat, 1 ≤ (ctxIdxs cs1).count k + CL.idxs.count k +
        CR.idxs.count k + SIB.idxs.count k → k ≠ pk ∧ k ≠ vi := by
      intro k hk
      have h := hsplit k
      refine ⟨?_, ?_⟩ <;> intro e <;> subst e <;> rw [if_pos rfl] at h <;> omega
    have hpkvi : pk ≠ vi := by
      have h := hsplit vi
      intro e
      rw [e] at h
      rw [if_pos rfl] at h
      omega
    rw [modifyNode_of_get hpn] at hd1
    set replP : Node T :=
      { value := pnd.value, left := xr, right := pnd.right,
        height := pnd.height } with hreplP
    obtain rfl : t.data.set pk (some replP) = d1 := Option.some.inj hd1
    have hd1vi : (t.data.set pk (some replP)).get? vi = some (some vnd) := by
      rw [List.get?_set_ne _ _ hpkvi]
      exact getNode_get? hvn
    unfold replaceAt at hrepl
    rw [hd1vi] at hrepl
    obtain ⟨e1, e2⟩ := Prod.mk.inj (Option.some.inj hrepl)
    rw [← e2] at huab
    set d3 : List (Option (Node T)) :=
      (t.data.set pk (some replP)).set vi none with hd3
    have hlen3 : d3.length = t.data.length := by
      rw [hd3, List.length_set, List.length_set]
    have hg3 : ∀ k, k ≠ pk → k ≠ vi → getNode d3 k = getNode t.data k := by
      intro k h1 h2
      rw [hd3, getNode_set_ne (fun e => h2 e.symm), getNode_set_ne (fun e => h1 e.symm)]
    have hget3 : ∀ k, k ≠ pk → k ≠ vi → d3.get? k = t.data.get? k := by
      intro k h1 h2
      rw [hd3, List.get?_set_ne _ _ (fun e => h2 e.symm),
        List.get?_set_ne _ _ (fun e => h1 e.symm)]
    have hg3pk : getNode d3 pk = some replP := by
      rw [hd3, getNode_set_ne (fun e => hpkvi e.symm)]
      exact getNode_set_self hpklt _
    have hg3vi : d3.get? vi = some none := by
      rw [hd3]
      rw [List.get?_set_eq_of_lt _ (by rw [List.length_set]; exact hvilt)]
    have hCne : ∀ k, k ∈ C.idxs → k ≠ pk ∧ k ≠ vi := by
      intro k hk
      refine hdisj k ?_
      have h := hcntF k
      have := List.count_pos_iff_mem.2 hk
      omega
    have hSIBne : ∀ k, k ∈ SIB.idxs → k ≠ pk ∧ k ≠ vi := by
      intro k hk
      refine hdisj k ?_
      have := List.count_pos_iff_mem.2 hk
      omega
    have hctx1ne : ∀ k, k ∈ ctxIdxs cs1 → k ≠ pk ∧ k ≠ vi := by
      intro k hk
      refine hdisj k ?_
      have := List.count_pos_iff_mem.2 hk
      omega
    have hC3 : decode d3 (t.data.length + 1) xr = some C :=
      decode_agree hxrd (fun j hj => hg3 j (hCne j hj).1 (hCne j hj).2)
    have hSIB3 : decode d3 (t.data.length + 1) pnd.right = some SIB :=
      decode_agree hSIBd (fun j hj => hg3 j (hSIBne j hj).1 (hSIBne j hj).2)
    have hcs3 : crumbsOk d3 (t.data.length + 1) cs1 (some pk) t.root :=
      crumbsOk_agree hcs (fun k hk => hg3 k (hctx1ne k hk).1 (hctx1ne k hk).2)
    have hvcntS : ∀ x : T, S.vals.count x =
        (cs1.bind (fun c => c.nd.value :: c.sib.vals)).count x +
        CL.vals.count x + CR.vals.count x + SIB.vals.count x +
        (if vnd.value = x then 1 else 0) + (if pnd.value = x then 1 else 0) := by
      intro x
      rw [← hplug2, plugC_vals_count, List.count_append]
      have e5 : (BT.node (BT.node CL vi vnd CR) pk pnd SIB).vals =
          (CL.vals ++ vnd.value :: CR.vals) ++ pnd.value :: SIB.vals := rfl
      rw [e5]
      simp only [List.count_append, List.count_cons, beq_iff_eq]
      omega
    have hSord := hwf.hord
    rw [← hplug2] at hSord
    obtain ⟨hG_ord, hG_wc, hctx1⟩ := (plugC_ordered_iff cs1 _).1 hSord
    obtain ⟨hFlt, hSgt, hFo, hSo⟩ := hG_ord
    obtain ⟨hCLlt, hCRgt, hCLo, hCRo⟩ := hFo
    have hCo : C.Ordered := by
      rcases hCsub with ⟨he, _⟩ | ⟨he, _⟩
      · rw [he]; exact hCLo
      · rw [he]; exact hCRo
    have hop : (plugC cs1 (BT.node C pk replP SIB)).Ordered := by
      refine (plugC_ordered_iff _ _).2 ⟨⟨?_, ?_, hCo, hSo⟩, ?_, hctx1⟩
      · intro x hx
        exact hFlt x (hCmemF x hx)
      · intro x hx
        exact hSgt x hx
      · intro u hu
        have e8 : (BT.node C pk replP SIB).vals =
            C.vals ++ pnd.value :: SIB.vals := rfl
        rw [e8] at hu
        rcases List.mem_append.1 hu with hu | hu
        · refine hG_wc u ?_
          show u ∈ (CL.vals ++ vnd.value :: CR.vals) ++ pnd.value :: SIB.vals
          exact List.mem_append_left _ (hCmemF u hu)
        · rcases List.mem_cons.1 hu with heq | hu
          · rw [heq]
            refine hG_wc _ ?_
            show pnd.value ∈ (CL.vals ++ vnd.value :: CR.vals) ++
              pnd.value :: SIB.vals
            exact List.mem_append_right _ (List.mem_cons_self _ _)
          · refine hG_wc u ?_
            show u ∈ (CL.vals ++ vnd.value :: CR.vals) ++ pnd.value :: SIB.vals
            exact List.mem_append_right _ (List.mem_cons_of_mem _ hu)
    have hvalsc : ∀ x : T, (plugC cs1 (BT.node C pk replP SIB)).vals.count x +
        (if vnd.value = x then 1 else 0) = S.vals.count x := by
      intro x
      rw [plugC_vals_count, List.count_append]
      have e8 : (BT.node C pk replP SIB).vals =
          C.vals ++ pnd.value :: SIB.vals := rfl
      rw [e8]
      have h1 := hvcntS x
      have h2 := hvalsF x
      simp only [List.count_append, List.count_cons, beq_iff_eq]
      omega
    have hnd : (ctxIdxs cs1 ++ (BT.node C pk replP SIB).idxs).Nodup := by
      rw [List.nodup_iff_count_le_one]
      intro k
      have h1 := hsplit k
      have h2 := hcntF k
      have e7 : (BT.node C pk replP SIB).idxs = C.idxs ++ pk :: SIB.idxs := rfl
      rw [List.count_append, e7]
      simp only [List.count_append, List.count_cons, beq_iff_eq]
      omega
    have l1 : S.idxs.length = (ctxIdxs cs1).length + CL.idxs.length +
        CR.idxs.length + SIB.idxs.length + 2 := by
      rw [← hplug2, (plugC_idxs_perm cs1 _).length_eq]
      have e5 : (BT.node (BT.node CL vi vnd CR) pk pnd SIB).idxs =
          (CL.idxs ++ vi :: CR.idxs) ++ pk :: SIB.idxs := rfl
      rw [e5]
      simp only [List.length_append, List.length_cons]
      omega
    have hidxc : (ctxIdxs cs1 ++ (BT.node C pk replP SIB).idxs).length + 1 =
        S.idxs.length := by
      have e7 : (BT.node C pk replP SIB).idxs = C.idxs ++ pk :: SIB.idxs := rfl
      rw [e7]
      simp only [List.length_append, List.length_cons]
      omega
    have hocc3 : occCount d3 + 1 = occCount t.data := by
      have s1 := occCount_set t.data pk (some replP) hpklt
      rw [getNode_get? hpn] at s1
      have s2 := occCount_set (t.data.set pk (some replP)) vi none
        (by rw [List.length_set]; exact hvilt)
      rw [hd1vi] at s2
      rw [hd3]
      simp only [occB] at s1 s2
      omega
    have hfr : ∀ j, j < t.data.length → j ≠ vi →
        (d3.get? j = some none ↔ t.data.get? j = some none) := by
      intro j hjlt hjvi
      by_cases hjpk : j = pk
      · subst hjpk
        constructor
        · intro hx
          rw [getNode_get? hg3pk] at hx
          exact absurd (Option.some.inj hx) (by simp)
        · intro hx
          rw [getNode_get? hpn] at hx
          exact absurd (Option.some.inj hx) (by simp)
      · rw [hget3 j hjpk hjvi]
    obtain ⟨hfv, hfnd, hfc⟩ := free_facts hwf hlen3 hvn hg3vi hfr
    have hcnt2 : 2 ≤ S.cnt := by
      rw [cnt_eq_idxs_length]
      omega
    obtain ⟨S', hWFT, hl3, hsz3, hcnts⟩ :=
      rebuild_wf hwf hlen hlen3 hg3pk hC3 hSIB3 hsC hsSIB hcs3
        hnd hop hvalsc hidxc hocc3 hfv hfnd hfc hcnt2 hvis huab hct
    exact ⟨S', hWFT, hl3, hsz3, by rw [← e1], hcnts⟩
  | false =>
    have hplug2 : plugC cs1 (BT.node SIB pk pnd (BT.node CL vi vnd CR)) = S :=
      hplug
    rw [if_neg (by simp)] at hSIBd
    have hcntS : ∀ k : Nat, S.idxs.count k = (ctxIdxs cs1).count k +
        CL.idxs.count k + CR.idxs.count k + SIB.idxs.count k +
        (if vi = k then 1 else 0) + (if pk = k then 1 else 0) := by
      intro k
      rw [← hplug2, plugC_idxs_count, List.count_append]
      have e5 : (BT.node SIB pk pnd (BT.node CL vi vnd CR)).idxs =
          SIB.idxs ++ pk :: (CL.idxs ++ vi :: CR.idxs) := rfl
      rw [e5]
      simp only [List.count_append, List.count_cons, beq_iff_eq]
      omega
    have hsplit : ∀ k : Nat, (ctxIdxs cs1).count k + CL.idxs.count k +
        CR.idxs.count k + SIB.idxs.count k + (if vi = k then 1 else 0) +
        (if pk = k then 1 else 0) ≤ 1 := by
      intro k
      have h1 := hcntS k
      have h2 := hcount1 k
      omega
    have hdisj : ∀ k : Nat, 1 ≤ (ctxIdxs cs1).count k + CL.idxs.count k +
        CR.idxs.count k + SIB.idxs.count k → k ≠ pk ∧ k ≠ vi := by
      intro k hk
      have h := hsplit k
      refine ⟨?_, ?_⟩ <;> intro e <;> subst e <;> rw [if_pos rfl] at h <;> omega
    have hpkvi : pk ≠ vi := by
      have h := hsplit vi
      intro e
      rw [e] at h
      rw [if_pos rfl] at h
      omega
    rw [modifyNode_of_get hpn] at hd1
    set replP : Node T :=
      { value := pnd.value, left := pnd.left, right := xr,
        height := pnd.height } with hreplP
    obtain rfl : t.data.set pk (some replP) = d1 := Option.some.inj hd1
    have hd1vi : (t.data.set pk (some replP)).get? vi = some (some vnd) := by
      rw [List.get?_set_ne _ _ hpkvi]
      exact getNode_get? hvn
    unfold replaceAt at hrepl
    rw [hd1vi] at hrepl
    obtain ⟨e1, e2⟩ := Prod.mk.inj (Option.some.inj hrepl)
    rw [← e2] at huab
    set d3 : List (Option (Node T)) :=
      (t.data.set pk (some replP)).set vi none with hd3
    have hlen3 : d3.length = t.data.length := by
      rw [hd3, List.length_set, List.length_set]
    have hg3 : ∀ k, k ≠ pk → k ≠ vi → getNode d3 k = getNode t.data k := by
      intro k h1 h2
      rw [hd3, getNode_set_ne (fun e => h2 e.symm), getNode_set_ne (fun e => h1 e.symm)]
    have hget3 : ∀ k, k ≠ pk → k ≠ vi → d3.get? k = t.data.get? k := by
      intro k h1 h2
      rw [hd3, List.get?_set_ne _ _ (fun e => h2 e.symm),
        List.get?_set_ne _ _ (fun e => h1 e.symm)]
    have hg3pk : getNode d3 pk = some replP := by
      rw [hd3, getNode_set_ne (fun e => hpkvi e.symm)]
      exact getNode_set_self hpklt _
    have hg3vi : d3.get? vi = some none := by
      rw [hd3]
      rw [List.get?_set_eq_of_lt _ (by rw [List.length_set]; exact hvilt)]
    have hCne : ∀ k, k ∈ C.idxs → k ≠ pk ∧ k ≠ vi := by
      intro k hk
      refine hdisj k ?_
      have h := hcntF k
      have := List.count_pos_iff_mem.2 hk
      omega
    have hSIBne : ∀ k, k ∈ SIB.idxs → k ≠ pk ∧ k ≠ vi := by
      intro k hk
      refine hdisj k ?_
      have := List.count_pos_iff_mem.2 hk
      omega
    have hctx1ne : ∀ k, k ∈ ctxIdxs cs1 → k ≠ pk ∧ k ≠ vi := by
      intro k hk
      refine hdisj k ?_
      have := List.count_pos_iff_mem.2 hk
      omega
    have hC3 : decode d3 (t.data.length + 1) xr = some C :=
      decode_agree hxrd (fun j hj => hg3 j (hCne j hj).1 (hCne j hj).2)
    have hSIB3 : decode d3 (t.data.length + 1) pnd.left = some SIB :=
      decode_agree hSIBd (fun j hj => hg3 j (hSIBne j hj).1 (hSIBne j hj).2)
    have hcs3 : crumbsOk d3 (t.data.length + 1) cs1 (some pk) t.root :=
      crumbsOk_agree hcs (fun k hk => hg3 k (hctx1ne k hk).1 (hctx1ne k hk).2)
    have hvcntS : ∀ x : T, S.vals.count x =
        (cs1.bind (fun c => c.nd.value :: c.sib.vals)).count x +
        CL.vals.count x + CR.vals.count x + SIB.vals.count x +
        (if vnd.value = x then 1 else 0) + (if pnd.value = x then 1 else 0) := by
      intro x
      rw [← hplug2, plugC_vals_count, List.count_append]
      have e5 : (BT.node SIB pk pnd (BT.node CL vi vnd CR)).vals =
          SIB.vals ++ pnd.value :: (CL.vals ++ vnd.value :: CR.vals) := rfl
      rw [e5]
      simp only [List.count_append, List.count_cons, beq_iff_eq]
      omega
    have hSord := hwf.hord
    rw [← hplug2] at hSord
    obtain ⟨hG_ord, hG_wc, hctx1⟩ := (plugC_ordered_iff cs1 _).1 hSord
    obtain ⟨hSlt, hFgt, hSo, hFo⟩ := hG_ord
    obtain ⟨hCLlt, hCRgt, hCLo, hCRo⟩ := hFo
    have hCo : C.Ordered := by
      rcases hCsub with ⟨he, _⟩ | ⟨he, _⟩
      · rw [he]; exact hCLo
      · rw [he]; exact hCRo
    have hop : (plugC cs1 (BT.node SIB pk replP C)).Ordered := by
      refine (plugC_ordered_iff _ _).2 ⟨⟨?_, ?_, hSo, hCo⟩, ?_, hctx1⟩
      · intro x hx
        exact hSlt x hx
      · intro x hx
        exact hFgt x (hCmemF x hx)
      · intro u hu
        have e8 : (BT.node SIB pk replP C).vals =
            SIB.vals ++ pnd.value :: C.vals := rfl
        rw [e8] at hu
        rcases List.mem_append.1 hu with hu | hu
        · refine hG_wc u ?_
          show u ∈ SIB.vals ++ pnd.value :: (CL.vals ++ vnd.value :: CR.vals)
          exact List.mem_append_left _ hu
        · rcases List.mem_cons.1 hu with heq | hu
          · rw [heq]
            refine hG_wc _ ?_
            show pnd.value ∈ SIB.vals ++
              pnd.value :: (CL.vals ++ vnd.value :: CR.vals)
            exact List.mem_append_right _ (List.mem_cons_self _ _)
          · refine hG_wc u ?_
            show u ∈ SIB.vals ++ pnd.value :: (CL.vals ++ vnd.value :: CR.vals)
            exact List.mem_append_right _ (List.mem_cons_of_mem _ (hCmemF u hu))
    have hvalsc : ∀ x : T, (plugC cs1 (BT.node SIB pk replP C)).vals.count x +
        (if vnd.value = x then 1 else 0) = S.vals.count x := by
      intro x
      rw [plugC_vals_count, List.count_append]
      have e8 : (BT.node SIB pk replP C).vals =
          SIB.vals ++ pnd.value :: C.vals := rfl
      rw [e8]
      have h1 := hvcntS x
      have h2 := hvalsF x
      simp only [List.count_append, List.count_cons, beq_iff_eq]
      omega
    have hnd : (ctxIdxs cs1 ++ (BT.node SIB pk replP C).idxs).Nodup := by
      rw [List.nodup_iff_count_le_one]
      intro k
      have h1 := hsplit k
      have h2 := hcntF k
      have e7 : (BT.node SIB pk replP C).idxs = SIB.idxs ++ pk :: C.idxs := rfl
      rw [List.count_append, e7]
      simp only [List.count_append, List.count_cons, beq_iff_eq]
      omega
    have l1 : S.idxs.length = (ctxIdxs cs1).length + CL.idxs.length +
        CR.idxs.length + SIB.idxs.length + 2 := by
      rw [← hplug2, (plugC_idxs_perm cs1 _).length_eq]
      have e5 : (BT.node SIB pk pnd (BT.node CL vi vnd CR)).idxs =
          SIB.idxs ++ pk :: (CL.idxs ++ vi :: CR.idxs) := rfl
      rw [e5]
      simp only [List.length_append, List.length_cons]
      omega
    have hidxc : (ctxIdxs cs1 ++ (BT.node SIB pk replP C).idxs).length + 1 =
        S.idxs.length := by
      have e7 : (BT.node SIB pk replP C).idxs = SIB.idxs ++ pk :: C.idxs := rfl
      rw [e7]
      simp only [List.length_append, List.length_cons]
      omega
    have hocc3 : occCount d3 + 1 = occCount t.data := by
      have s1 := occCount_set t.data pk (some replP) hpklt
      rw [getNode_get? hpn] at s1
      have s2 := occCount_set (t.data.set pk (some replP)) vi none
        (by rw [List.length_set]; exact hvilt)
      rw [hd1vi] at s2
      rw [hd3]
      simp only [occB] at s1 s2
      omega
    have hfr : ∀ j, j < t.data.length → j ≠ vi →
        (d3.get? j = some none ↔ t.data.get? j = some none) := by
      intro j hjlt hjvi
      by_cases hjpk : j = pk
      · subst hjpk
        constructor
        · intro hx
          rw [getNode_get? hg3pk] at hx
          exact absurd (Option.some.inj hx) (by simp)
        · intro hx
          rw [getNode_get? hpn] at hx
          exact absurd (Option.some.inj hx) (by simp)
      · rw [hget3 j hjpk hjvi]
    obtain ⟨hfv, hfnd, hfc⟩ := free_facts hwf hlen3 hvn hg3vi hfr
    have hcnt2 : 2 ≤ S.cnt := by
      rw [cnt_eq_idxs_length]
      omega
    obtain ⟨S', hWFT, hl3, hsz3, hcnts⟩ :=
      rebuild_wf hwf hlen hlen3 hg3pk hSIB3 hC3 hsSIB hsC hcs3
        hnd hop hvalsc hidxc hocc3 hfv hfnd hfc hcnt2 hvis huab hct
    exact ⟨S', hWFT, hl3, hsz3, by rw [← e1], hcnts⟩

/-- Dispatch of `removeAt` when the target has two children: the body
climbs to the in-order neighbour on the taller side and lands in one of
the four two-children subcases. -/
theorem removeAt_two_wf {T : Type} [LinearOrder T] [DecidableEq T]
    {t : Tree T} {S : BT T} {csV : List (Crumb T)} {vi : Nat} {vnd : Node T}
    {a b : Nat} {VA VB : BT T} {visited : List Nat} {ir : Bool}
    {pk0 : Nat} {cil0 : Bool} {r : Option T} {t' : Tree T}
    (hlen : t.data.length ≤ 125)
    (hwf : WFT t S)
    (hvn : getNode t.data vi = some vnd)
    (hva : vnd.left = some a) (hvb : vnd.right = some b)
    (hA : decode t.data (t.data.length + 1) (some a) = some VA)
    (hB : decode t.data (t.data.length + 1) (some b) = some VB)
    (hsVA : VA.storedOk) (hsVB : VB.storedOk)
    (hcsV : crumbsOk t.data (t.data.length + 1) csV (some vi) t.root)
    (hplug : plugC csV (BT.node VA vi vnd VB) = S)
    (hvis1 : (if ir then visited else visited ++ [vi]).reverse =
      vi :: csV.map Crumb.i)
    (hrem : removeAt t ir visited pk0 cil0 vi = some (r, t')) :
    ∃ S', WFT t' S' ∧ t'.data.length ≤ t.data.length ∧ t'.size + 1 = t.size ∧
      r = some vnd.value ∧
      (∀ x, S'.vals.count x + (if vnd.value = x then 1 else 0) = S.vals.count x) := by
  obtain ⟨fA, A1, lnd, A2, hfA, hAeq, hlngn, hA1, hA2⟩ := decode_some_inv hA
  obtain ⟨fB, B1, rnd1, B2, hfB, hBeq, hrngn, hB1, hB2⟩ := decode_some_inv hB
  unfold removeAt at hrem
  simp only [bind, Option.bind_eq_some] at hrem
  obtain ⟨vd, hvd, hrem⟩ := hrem
  obtain rfl : vnd = vd := Option.some.inj (hvn.symm.trans hvd)
  rw [hva, hvb] at hrem
  dsimp only at hrem
  rw [hlngn, hrngn] at hrem
  simp only [Option.some_bind] at hrem
  by_cases hh : lnd.height > rnd1.height
  · rw [if_pos hh] at hrem
    simp only [bind, Option.bind_eq_some] at hrem
    obtain ⟨⟨cur, ld, vis2⟩, hclimb, hrem⟩ := hrem
    cases hldl : ld.left with
    | some w =>
      rw [hldl] at hrem
      simp only [bind, Option.bind_eq_some] at hrem
      obtain ⟨d1, hd1, hfin⟩ := hrem
      exact removeTwoL_swap_wf hlen hwf hvn hA hB hsVA hsVB hcsV hplug hvis1
        hlngn hclimb hldl hd1 hfin
    | none =>
      rw [hldl] at hrem
      simp only [bind, Option.bind_eq_some] at hrem
      obtain ⟨lastv, hlast, d1, hd1, hfin⟩ := hrem
      exact removeTwoL_clear_wf hlen hwf hvn hA hB hsVA hsVB hcsV hplug hvis1
        hlngn hclimb hldl hlast hd1 hfin
  · rw [if_neg hh] at hrem
    simp only [bind, Option.bind_eq_some] at hrem
    obtain ⟨⟨cur, rd, vis2⟩, hclimb, hrem⟩ := hrem
    cases hrdr : rd.right with
    | some w =>
      rw [hrdr] at hrem
      simp only [bind, Option.bind_eq_some] at hrem
      obtain ⟨d1, hd1, hfin⟩ := hrem
      exact removeTwoR_swap_wf hlen hwf hvn hA hB hsVA hsVB hcsV hplug hvis1
        hrngn hclimb hrdr hd1 hfin
    | none =>
      rw [hrdr] at hrem
      simp only [bind, Option.bind_eq_some] at hrem
      obtain ⟨lastv, hlast, d1, hd1, hfin⟩ := hrem
      exact removeTwoR_clear_wf hlen hwf hvn hA hB hsVA hsVB hcsV hplug hvis1
        hrngn hclimb hrdr hlast hd1 hfin

/-- Dispatch of `removeAt` when the target has at most one child. -/
theorem removeAt_one_wf {T : Type} [LinearOrder T] [DecidableEq T]
    {t : Tree T} {S : BT T} {cs1 : List (Crumb T)} {pk vi : Nat}
    {pnd vnd : Node T} {cil : Bool} {SIB CL CR : BT T}
    {visited : List Nat} {r : Option T} {t' : Tree T}
    (hlen : t.data.length ≤ 125)
    (hwf : WFT t S)
    (hpn : getNode t.data pk = some pnd)
    (hvn : getNode t.data vi = some vnd)
    (hone : vnd.left = none ∨ vnd.right = none)
    (hCL : decode t.data (t.data.length + 1) vnd.left = some CL)
    (hCR : decode t.data (t.data.length + 1) vnd.right = some CR)
    (hsCL : CL.storedOk) (hsCR : CR.storedOk)
    (hSIBd : decode t.data (t.data.length + 1)
      (if cil then pnd.right else pnd.left) = some SIB)
    (hsSIB : SIB.storedOk)
    (hcs : crumbsOk t.data (t.data.length + 1) cs1 (some pk) t.root)
    (hplug : plugC ((⟨pk, pnd, SIB, cil⟩ : Crumb T) :: cs1)
      (BT.node CL vi vnd CR) = S)
    (hvis : visited.reverse = pk :: cs1.map Crumb.i)
    (hrem : removeAt t false visited pk cil vi = some (r, t')) :
    ∃ S', WFT t' S' ∧ t'.data.length ≤ t.data.length ∧ t'.size + 1 = t.size ∧
      r = some vnd.value ∧
      (∀ x, S'.vals.count x + (if vnd.value = x then 1 else 0) = S.vals.count x) := by
  have hcnt2 : 2 ≤ S.cnt := by
    rw [cnt_eq_idxs_length]
    have hperm := (plugC_idxs_perm ((⟨pk, pnd, SIB, cil⟩ : Crumb T) :: cs1)
      (BT.node CL vi vnd CR)).length_eq
    rw [hplug] at hperm
    rw [hperm, ctxIdxs_cons]
    have e7 : (BT.node CL vi vnd CR).idxs = CL.idxs ++ vi :: CR.idxs := rfl
    rw [e7]
    simp only [List.length_append, List.length_cons]
    omega
  have hszS : t.size = S.cnt := hwf.hcnt.symm
  unfold removeAt at hrem
  simp only [bind, Option.bind_eq_some] at hrem
  obtain ⟨vd, hvd, hrem⟩ := hrem
  obtain rfl : vnd = vd := Option.some.inj (hvn.symm.trans hvd)
  cases hvl : vnd.left with
  | some ci1 =>
    cases hvr : vnd.right with
    | some ci2 =>
      rw [hvl, hvr] at hone
      rcases hone with h | h <;> exact Option.noConfusion h
    | none =>
      rw [hvl, hvr] at hrem
      dsimp only [optXor] at hrem
      simp only [bind, Option.bind_eq_some] at hrem
      obtain ⟨d1, hd1, ⟨vn, d2⟩, hrepl, t2, huab, t3, hct, hfin⟩ := hrem
      obtain ⟨e5, e6⟩ := Prod.mk.inj (Option.some.inj hfin)
      rw [hvl] at hCL
      have hCRleaf : CR = BT.leaf := by
        rw [hvr, decode_none] at hCR
        exact (Option.some.inj hCR).symm
      obtain ⟨S', hWFT, hl3, hsz3, hvv, hcnts⟩ :=
        removeOne_wf hlen hwf hpn hvn hSIBd hsSIB hsCL hsCR hCL
          (Or.inl ⟨rfl, hCRleaf⟩) hcs hplug hvis hd1 hrepl huab hct
      refine ⟨S', ?_, ?_, ?_, ?_, hcnts⟩
      · rw [← e6]
        exact hWFT
      · rw [← e6]
        exact hl3
      · rw [← e6]
        show t3.size - 1 + 1 = t.size
        omega
      · rw [← e5, hvv]
  | none =>
    cases hvr : vnd.right with
    | some ci2 =>
      rw [hvl, hvr] at hrem
      dsimp only [optXor] at hrem
      simp only [bind, Option.bind_eq_some] at hrem
      obtain ⟨d1, hd1, ⟨vn, d2⟩, hrepl, t2, huab, t3, hct, hfin⟩ := hrem
      obtain ⟨e5, e6⟩ := Prod.mk.inj (Option.some.inj hfin)
      rw [hvr] at hCR
      have hCLleaf : CL = BT.leaf := by
        rw [hvl, decode_none] at hCL
        exact (Option.some.inj hCL).symm
      obtain ⟨S', hWFT, hl3, hsz3, hvv, hcnts⟩ :=
        removeOne_wf hlen hwf hpn hvn hSIBd hsSIB hsCL hsCR hCR
          (Or.inr ⟨rfl, hCLleaf⟩) hcs hplug hvis hd1 hrepl huab hct
      refine ⟨S', ?_, ?_, ?_, ?_, hcnts⟩
      · rw [← e6]
        exact hWFT
      · rw [← e6]
        exact hl3
      · rw [← e6]
        show t3.size - 1 + 1 = t.size
        omega
      · rw [← e5, hvv]
    | none =>
      rw [hvl, hvr] at hrem
      dsimp only [optXor] at hrem
      simp only [bind, Option.bind_eq_some] at hrem
      obtain ⟨d1, hd1, ⟨vn, d2⟩, hrepl, t2, huab, t3, hct, hfin⟩ := hrem
      obtain ⟨e5, e6⟩ := Prod.mk.inj (Option.some.inj hfin)
      rw [hvl] at hCL
      have hCRleaf : CR = BT.leaf := by
        rw [hvr, decode_none] at hCR
        exact (Option.some.inj hCR).symm
      obtain ⟨S', hWFT, hl3, hsz3, hvv, hcnts⟩ :=
        removeOne_wf hlen hwf hpn hvn hSIBd hsSIB hsCL hsCR hCL
          (Or.inl ⟨rfl, hCRleaf⟩) hcs hplug hvis hd1 hrepl huab hct
      refine ⟨S', ?_, ?_, ?_, ?_, hcnts⟩
      · rw [← e6]
        exact hWFT
      · rw [← e6]
        exact hl3
      · rw [← e6]
        show t3.size - 1 + 1 = t.size
        omega
      · rw [← e5, hvv]

/-- Dispatch of `removeAt` for a target found below its recorded parent:
splits on the number of children of the target. -/
theorem removeAt_found_wf {T : Type} [LinearOrder T] [DecidableEq T]
    {t : Tree T} {S : BT T} {cs1 : List (Crumb T)} {pk vi : Nat}
    {pn vnd : Node T} {SIBx FV : BT T} {cilb : Bool}
    {visited : List Nat} {r : Option T} {t' : Tree T}
    (hlen : t.data.length ≤ 125)
    (hwf : WFT t S)
    (hpn : getNode t.data pk = some pn)
    (hvn : getNode t.data vi = some vnd)
    (hSIBd : decode t.data (t.data.length + 1)
      (if cilb then pn.right else pn.left) = some SIBx)
    (hsSIB : SIBx.storedOk)
    (hFV : decode t.data (t.data.length + 1) (some vi) = some FV)
    (hsFV : FV.storedOk)
    (hcsV : crumbsOk t.data (t.data.length + 1)
      ((⟨pk, pn, SIBx, cilb⟩ : Crumb T) :: cs1) (some vi) t.root)
    (hplug : plugC ((⟨pk, pn, SIBx, cilb⟩ : Crumb T) :: cs1) FV = S)
    (hvis : visited.reverse = pk :: cs1.map Crumb.i)
    (hrem : removeAt t false visited pk cilb vi = some (r, t')) :
    ∃ S', WFT t' S' ∧ t'.data.length ≤ t.data.length ∧ t'.size + 1 = t.size ∧
      r = some vnd.value ∧
      (∀ x, S'.vals.count x + (if vnd.value = x then 1 else 0) = S.vals.count x) := by
  obtain ⟨fV, CL, vnd0, CR, hfV, hFVeq, hvn0, hCL0, hCR0⟩ := decode_some_inv hFV
  obtain rfl : vnd = vnd0 := Option.some.inj (hvn.symm.trans hvn0)
  obtain rfl : fV = t.data.length := by omega
  rw [hFVeq] at hsFV hplug
  obtain ⟨hsth, hsCL, hsCR⟩ := hsFV
  have hCL1 : decode t.data (t.data.length + 1) vnd.left = some CL :=
    decode_mono hCL0 (by omega)
  have hCR1 : decode t.data (t.data.length + 1) vnd.right = some CR :=
    decode_mono hCR0 (by omega)
  have hcs1 : crumbsOk t.data (t.data.length + 1) cs1 (some pk) t.root :=
    hcsV.2.2.2
  cases hvl : vnd.left with
  | some a =>
    cases hvr : vnd.right with
    | some b =>
      rw [hvl] at hCL1
      rw [hvr] at hCR1
      refine removeAt_two_wf hlen hwf hvn hvl hvr hCL1 hCR1 hsCL hsCR
        hcsV hplug ?_ hrem
      rw [if_neg (by simp)]
      rw [List.reverse_append, hvis]
      rfl
    | none =>
      exact removeAt_one_wf hlen hwf hpn hvn (Or.inr hvr) hCL1 hCR1 hsCL hsCR
        hSIBd hsSIB hcs1 hplug hvis hrem
  | none =>
    exact removeAt_one_wf hlen hwf hpn hvn (Or.inl hvl) hCL1 hCR1 hsCL hsCR
      hSIBd hsSIB hcs1 hplug hvis hrem

/-- `removeGeneral` on a non-root target value: either the search finds
the value and removes exactly one copy, or it proves absence and leaves
the tree untouched. -/
theorem removeGeneral_false_wf {T : Type} [LinearOrder T] [DecidableEq T]
    {t : Tree T} {S : BT T} {value : T} {r : Option T} {t' : Tree T}
    {rtnd : Node T}
    (hlen : t.data.length ≤ 125)
    (hwf : WFT t S)
    (hsz : ¬t.size = 0)
    (hrtn : getNode t.data t.root = some rtnd)
    (hne : value ≠ rtnd.value)
    (hrem : removeGeneral t value false = some (r, t')) :
    ∃ S', WFT t' S' ∧ t'.data.length ≤ t.data.length ∧
      ((value ∈ S.vals ∧ r = some value ∧ t'.size + 1 = t.size ∧
        (∀ x, S'.vals.count x + (if value = x then 1 else 0) = S.vals.count x)) ∨
       (value ∉ S.vals ∧ r = none ∧ t' = t ∧ S' = S)) := by
  have hdec := hwf.hdec
  rw [rootLink, if_neg hsz] at hdec
  obtain ⟨f0, L, rtnd0, R, hf0, hSeq, hrtn0, hL0, hR0⟩ := decode_some_inv hdec
  obtain rfl : rtnd = rtnd0 := Option.some.inj (hrtn.symm.trans hrtn0)
  obtain rfl : f0 = t.data.length := by omega
  have hstS := hwf.hstored
  rw [hSeq] at hstS
  obtain ⟨hsth, hsL, hsR⟩ := hstS
  have hL1 : decode t.data (t.data.length + 1) rtnd.left = some L :=
    decode_mono hL0 (by omega)
  have hR1 : decode t.data (t.data.length + 1) rtnd.right = some R :=
    decode_mono hR0 (by omega)
  unfold removeGeneral at hrem
  simp only [bind, Option.bind_eq_some] at hrem
  obtain ⟨ch, hch, hrem⟩ := hrem
  unfold Tree.contains_helper at hch
  simp only [bind, Option.bind_eq_some] at hch
  obtain ⟨c0, hc0, hch⟩ := hch
  obtain rfl : rtnd = c0 := Option.some.inj (hrtn.symm.trans hc0)
  rw [if_neg hne] at hch
  obtain ⟨bf, viso⟩ := ch
  obtain ⟨res, rfl⟩ := containsLoop_some_vis _ _ _ _ _ _ hch
  cases bf with
  | false =>
    dsimp only at hrem
    obtain ⟨e1, e2⟩ := Prod.mk.inj (Option.some.inj hrem)
    obtain ⟨cs1, pk, pn, PL, PR, hpn, hPLd, hPRd, hsPL, hsPR, hpnh, hcs, hres,
      hplug1, hwc, hnepn, hmiss⟩ :=
      containsLoop_notfound (t.data.length + 1) t.root rtnd [t.root] [] L R
        t.root res hch hrtn hL1 hR1 hsL hsR hsth hne rfl (by simp) trivial
    simp only [List.append_nil] at hcs hres hwc
    have habs : value ∉ S.vals := by
      intro hv
      have hword := hwf.hord
      rw [hSeq, ← hplug1] at hword
      obtain ⟨hford, hfwc, hctx1⟩ := (plugC_ordered_iff cs1 _).1 hword
      obtain ⟨hPLlt, hPRgt, hPLo, hPRo⟩ := hford
      rw [hSeq, ← hplug1] at hv
      have hv2 := mem_plug_focus cs1 _ value hwc hctx1 hv
      have hv3 : value ∈ PL.vals ++ pn.value :: PR.vals := hv2
      by_cases hvlt : value < pn.value
      · rw [if_pos hvlt] at hmiss
        rw [hmiss, decode_none] at hPLd
        obtain rfl : BT.leaf = PL := Option.some.inj hPLd
        rcases List.mem_append.1 hv3 with h3 | h3
        · exact absurd h3 (List.not_mem_nil _)
        · rcases List.mem_cons.1 h3 with h4 | h4
          · exact hnepn h4
          · exact absurd hvlt (asymm (hPRgt value h4))
      · rw [if_neg hvlt] at hmiss
        rw [hmiss, decode_none] at hPRd
        obtain rfl : BT.leaf = PR := Option.some.inj hPRd
        rcases List.mem_append.1 hv3 with h3 | h3
        · exact absurd (hPLlt value h3) hvlt
        · rcases List.mem_cons.1 h3 with h4 | h4
          · exact hnepn h4
          · exact absurd h4 (List.not_mem_nil _)
    exact ⟨S, (by rw [← e2]; exact hwf), by rw [← e2], Or.inr
      ⟨habs, e1.symm, e2.symm, rfl⟩⟩
  | true =>
    dsimp only at hrem
    simp only [bind, Option.bind_eq_some] at hrem
    obtain ⟨pk2, hlast, pd, hpd, hrem⟩ := hrem
    obtain ⟨cs1, pk, pn, PL, PR, hpn, hPLd, hPRd, hsPL, hsPR, hpnh, hcs, hres,
      hplug1, hwc, hnepn, hif⟩ :=
      containsLoop_found (t.data.length + 1) t.root rtnd [t.root] [] L R
        t.root res hch hrtn hL1 hR1 hsL hsR hsth hne rfl (by simp) trivial
    simp only [List.append_nil] at hcs hres hwc
    obtain rfl : pk = pk2 := by
      have := getLast?_of_reverse_cons hres
      exact Option.some.inj (this.symm.trans hlast)
    obtain rfl : pn = pd := Option.some.inj (hpn.symm.trans hpd)
    have hplugS : plugC cs1 (BT.node PL pk pn PR) = S := by
      rw [hplug1]
      exact hSeq.symm
    have hmemS : ∀ w : T, w ∈ (BT.node PL pk pn PR).vals → w ∈ S.vals := by
      intro w hw
      rw [← hplugS]
      exact (plugC_vals_perm cs1 _).symm.mem_iff.1 (List.mem_append_right _ hw)
    by_cases hvlt : value < pn.value
    · rw [if_pos hvlt] at hif
      obtain ⟨vi, vnd, hpnl, hvn, hvval⟩ := hif
      rw [decide_eq_true hvlt] at hrem
      obtain ⟨vix, hvix, hrem⟩ := hrem
      obtain rfl : vi = vix := by
        dsimp only at hvix
        rw [hpnl] at hvix
        exact Option.some.inj hvix
      have hFV : decode t.data (t.data.length + 1) (some vi) = some PL := by
        rw [← hpnl]
        exact hPLd
      have hcsV : crumbsOk t.data (t.data.length + 1)
          ((⟨pk, pn, PR, true⟩ : Crumb T) :: cs1) (some vi) t.root := by
        refine ⟨hpn, ?_, hsPR, hcs⟩
        rw [if_pos rfl]
        exact ⟨hpnl, hPRd⟩
      have hplugX : plugC ((⟨pk, pn, PR, true⟩ : Crumb T) :: cs1) PL = S := by
        show plugC cs1 (BT.node PL pk pn PR) = S
        exact hplugS
      obtain ⟨S', hWFT, hl3, hsz3, hr, hcnts⟩ :=
        removeAt_found_wf hlen hwf hpn hvn
          (by rw [if_pos rfl]; exact hPRd) hsPR hFV hsPL hcsV hplugX hres hrem
      refine ⟨S', hWFT, hl3, Or.inl ⟨?_, ?_, hsz3, ?_⟩⟩
      · rw [← hvval]
        refine hmemS _ ?_
        show vnd.value ∈ PL.vals ++ pn.value :: PR.vals
        refine List.mem_append_left _ ?_
        obtain ⟨fV, Q1, vnd1, Q2, hfV, hPLeq, hvn1, hq1, hq2⟩ :=
          decode_some_inv hFV
        obtain rfl : vnd = vnd1 := Option.some.inj (hvn.symm.trans hvn1)
        rw [hPLeq]
        show vnd.value ∈ Q1.vals ++ vnd.value :: Q2.vals
        exact List.mem_append_right _ (List.mem_cons_self _ _)
      · rw [hr, hvval]
      · intro x
        have := hcnts x
        rw [hvval] at this
        exact this
    · have hgt : pn.value < value :=
        lt_of_le_of_ne (not_lt.1 hvlt) (Ne.symm hnepn)
      rw [if_neg hvlt] at hif
      obtain ⟨vi, vnd, hpnr, hvn, hvval⟩ := hif
      rw [decide_eq_false hvlt] at hrem
      obtain ⟨vix, hvix, hrem⟩ := hrem
      obtain rfl : vi = vix := by
        dsimp only at hvix
        rw [hpnr] at hvix
        exact Option.some.inj hvix
      have hFV : decode t.data (t.data.length + 1) (some vi) = some PR := by
        rw [← hpnr]
        exact hPRd
      have hcsV : crumbsOk t.data (t.data.length + 1)
          ((⟨pk, pn, PL, false⟩ : Crumb T) :: cs1) (some vi) t.root := by
        refine ⟨hpn, ?_, hsPL, hcs⟩
        rw [if_neg (by simp)]
        exact ⟨hpnr, hPLd⟩
      have hplugX : plugC ((⟨pk, pn, PL, false⟩ : Crumb T) :: cs1) PR = S := by
        show plugC cs1 (BT.node PL pk pn PR) = S
        exact hplugS
      obtain ⟨S', hWFT, hl3, hsz3, hr, hcnts⟩ :=
        removeAt_found_wf hlen hwf hpn hvn
          (by rw [if_neg (by simp)]; exact hPLd) hsPL hFV hsPR hcsV hplugX
          hres hrem
      refine ⟨S', hWFT, hl3, Or.inl ⟨?_, ?_, hsz3, ?_⟩⟩
      · rw [← hvval]
        refine hmemS _ ?_
        show vnd.value ∈ PL.vals ++ pn.value :: PR.vals
        refine List.mem_append_right _ ?_
        refine List.mem_cons_of_mem _ ?_
        obtain ⟨fV, Q1, vnd1, Q2, hfV, hPReq, hvn1, hq1, hq2⟩ :=
          decode_some_inv hFV
        obtain rfl : vnd = vnd1 := Option.some.inj (hvn.symm.trans hvn1)
        rw [hPReq]
        show vnd.value ∈ Q1.vals ++ vnd.value :: Q2.vals
        exact List.mem_append_right _ (List.mem_cons_self _ _)
      · rw [hr, hvval]
      · intro x
        have := hcnts x
        rw [hvval] at this
        exact this

/-- `removeGeneral` on the root's value when the root has two children. -/
theorem removeGeneral_true_wf {T : Type} [LinearOrder T] [DecidableEq T]
    {t : Tree T} {S : BT T} {value : T} {r : Option T} {t' : Tree T}
    {rtnd : Node T}
    (hlen : t.data.length ≤ 125)
    (hwf : WFT t S)
    (hsz : ¬t.size = 0) (hsz1 : ¬t.size = 1)
    (hrtn : getNode t.data t.root = some rtnd)
    (heqv : value = rtnd.value)
    (hxor : optXor rtnd.left rtnd.right = none)
    (hrem : removeGeneral t value true = some (r, t')) :
    ∃ S', WFT t' S' ∧ t'.data.length ≤ t.data.length ∧ value ∈ S.vals ∧
      r = some value ∧ t'.size + 1 = t.size ∧
      (∀ x, S'.vals.count x + (if value = x then 1 else 0) = S.vals.count x) := by
  have hdec := hwf.hdec
  rw [rootLink, if_neg hsz] at hdec
  obtain ⟨f0, L, rtnd0, R, hf0, hSeq, hrtn0, hL0, hR0⟩ := decode_some_inv hdec
  obtain rfl : rtnd = rtnd0 := Option.some.inj (hrtn.symm.trans hrtn0)
  obtain rfl : f0 = t.data.length := by omega
  have hstS := hwf.hstored
  rw [hSeq] at hstS
  obtain ⟨hsth, hsL, hsR⟩ := hstS
  have hL1 : decode t.data (t.data.length + 1) rtnd.left = some L :=
    decode_mono hL0 (by omega)
  have hR1 : decode t.data (t.data.length + 1) rtnd.right = some R :=
    decode_mono hR0 (by omega)
  have hcntS : S.cnt = t.size := hwf.hcnt
  obtain ⟨a, hva⟩ : ∃ a, rtnd.left = some a := by
    cases hvl : rtnd.left with
    | some a => exact ⟨a, rfl⟩
    | none =>
      cases hvr : rtnd.right with
      | some b =>
        rw [hvl, hvr] at hxor
        exact Option.noConfusion hxor
      | none =>
        rw [hvl, decode_none] at hL0
        rw [hvr, decode_none] at hR0
        obtain rfl : BT.leaf = L := Option.some.inj hL0
        obtain rfl : BT.leaf = R := Option.some.inj hR0
        rw [hSeq] at hcntS
        exact absurd hcntS.symm (by simpa [BT.cnt] using hsz1)
  obtain ⟨b, hvb⟩ : ∃ b, rtnd.right = some b := by
    cases hvr : rtnd.right with
    | some b => exact ⟨b, rfl⟩
    | none =>
      rw [hva, hvr] at hxor
      exact Option.noConfusion hxor
  unfold removeGeneral at hrem
  simp only [bind, Option.bind_eq_some] at hrem
  obtain ⟨ch, hch, hrem⟩ := hrem
  unfold Tree.contains_helper at hch
  simp only [bind, Option.bind_eq_some] at hch
  obtain ⟨c0, hc0, hch⟩ := hch
  obtain rfl : rtnd = c0 := Option.some.inj (hrtn.symm.trans hc0)
  rw [if_pos heqv] at hch
  obtain rfl : (true, (none : Option (List Nat))) = ch := Option.some.inj hch
  dsimp only at hrem
  simp only [bind, Option.bind_eq_some] at hrem
  obtain ⟨pk2, hlast, pd, hpd, hrem⟩ := hrem
  obtain rfl : t.root = pk2 := by
    have h0 : ([t.root] : List Nat).getLast? = some t.root := rfl
    exact Option.some.inj (h0.symm.trans hlast)
  obtain rfl : rtnd = pd := Option.some.inj (hrtn.symm.trans hpd)
  obtain ⟨vix, hvix, hrem⟩ := hrem
  obtain rfl : t.root = vix := Option.some.inj hvix
  rw [hva] at hL1
  rw [hvb] at hR1
  obtain ⟨S', hWFT, hl3, hsz3, hr, hcnts⟩ :=
    removeAt_two_wf hlen hwf hrtn hva hvb hL1 hR1 hsL hsR
      (show crumbsOk t.data (t.data.length + 1) ([] : List (Crumb T))
        (some t.root) t.root from rfl)
      (hSeq.symm : plugC ([] : List (Crumb T))
        (BT.node L t.root rtnd R) = S)
      (by simp) hrem
  refine ⟨S', hWFT, hl3, ?_, ?_, hsz3, ?_⟩
  · rw [hSeq, heqv]
    show rtnd.value ∈ L.vals ++ rtnd.value :: R.vals
    exact List.mem_append_right _ (List.mem_cons_self _ _)
  · rw [hr, heqv]
  · intro x
    have := hcnts x
    rw [← heqv] at this
    exact this

/-- Root removal with a single child: the root slot is vacated and pushed
on the free list, the child becomes the root, the tail is trimmed. -/
theorem rootPromote_wf {T : Type} [LinearOrder T] [DecidableEq T]
    {t : Tree T} {S : BT T} {rtnd : Node T} {nr : Nat} {C : BT T} {t2 : Tree T}
    (hwf : WFT t S)
    (hsz : ¬t.size = 0) (hs1 : ¬t.size = 1)
    (hrtn : getNode t.data t.root = some rtnd)
    (hCd : decode t.data (t.data.length + 1) (some nr) = some C)
    (hsC : C.storedOk) (hCo : C.Ordered)
    (hidx : ∀ k, C.idxs.count k + (if t.root = k then 1 else 0) = S.idxs.count k)
    (hql : C.idxs.length + 1 = S.idxs.length)
    (hct : Tree.clean_tail { data := t.data.set t.root none,
                             free := t.free ++ [t.root], root := nr,
                             size := t.size - 1 } = some t2) :
    WFT t2 C ∧ t2.data.length ≤ t.data.length ∧ t2.size + 1 = t.size := by
  have hrootlt : t.root < t.data.length := getNode_lt hrtn
  have hsize2 : 2 ≤ t.size := by omega
  have hcount1 : ∀ k : Nat, S.idxs.count k ≤ 1 :=
    List.nodup_iff_count_le_one.1 hwf.hnodup
  have hCnd : C.idxs.Nodup := by
    rw [List.nodup_iff_count_le_one]
    intro k
    have h1 := hidx k
    have h2 := hcount1 k
    omega
  have hrC : t.root ∉ C.idxs := by
    intro hm
    have h1 := hidx t.root
    have h2 := hcount1 t.root
    rw [if_pos rfl] at h1
    have := List.count_pos_iff_mem.2 hm
    omega
  have hg1 : ∀ k, k ∈ C.idxs →
      getNode (t.data.set t.root none) k = getNode t.data k := by
    intro k hk
    refine getNode_set_ne ?_ _
    intro e
    rw [e] at hrC
    exact hrC hk
  have hCd1 : decode (t.data.set t.root none) (t.data.length + 1) (some nr) =
      some C := decode_agree hCd hg1
  have hriv : (t.data.set t.root none).get? t.root = some none :=
    List.get?_set_eq_of_lt _ hrootlt
  have hfr : ∀ j, j < t.data.length → j ≠ t.root →
      ((t.data.set t.root none).get? j = some none ↔
        t.data.get? j = some none) := by
    intro j hjlt hjr
    rw [List.get?_set_ne _ _ (fun e => hjr e.symm)]
  obtain ⟨hfv, hfnd, hfc⟩ :=
    free_facts hwf (List.length_set _ _ _) hrtn hriv hfr
  obtain ⟨hc1, hc2, hc3, hc4, hc5, hc6, hc7, hc8, hc9, hc10, hc11⟩ :=
    clean_tail_full
      (t := { data := t.data.set t.root none, free := t.free ++ [t.root],
              root := nr, size := t.size - 1 })
      hfv hfnd hfc hct
  have hoccd1 : occCount (t.data.set t.root none) + 1 = occCount t.data := by
    have s1 := occCount_set t.data t.root (none : Option (Node T)) hrootlt
    rw [getNode_get? hrtn] at s1
    simp only [occB] at s1
    omega
  have hsznz : ¬(t2.size = 0) := by
    have : t2.size = t.size - 1 := hc10
    omega
  have hdect2 : decode t2.data (t.data.length + 1) (some nr) = some C :=
    decode_agree hCd1 (fun j _ => hc3 j)
  have hdepth : C.depth ≤ t2.data.length := depth_le_len hdect2 hCnd
  have hcntC : C.cnt = t.size - 1 := by
    have h1 := cnt_eq_idxs_length C
    have h2 := cnt_eq_idxs_length S
    have h3 := hwf.hcnt
    omega
  have hc1b : t2.data.length ≤ (t.data.set t.root none).length := hc1
  have hc4b : occCount t2.data = occCount (t.data.set t.root none) := hc4
  have hc10b : t2.size = t.size - 1 := hc10
  refine ⟨⟨?_, hsC, hCo, hCnd, ?_, ?_, hc5, hc6, hc7, hc8, ?_⟩, ?_, ?_⟩
  · rw [rootLink, if_neg hsznz, hc11]
    exact decode_depth_le hdect2 (by omega)
  · rw [hc10b]
    exact hcntC
  · rw [hc4b, hc10b]
    have := hwf.hocc
    omega
  · intro h0
    exact absurd h0 hsznz
  · have := List.length_set t.data t.root (none : Option (Node T))
    omega
  · rw [hc10b]
    omega

/-- `Tree::remove`: on a well-formed tree it removes exactly one copy of
the value when present (returning it, with `size` down by one), and
leaves the tree untouched when absent. -/
theorem remove_wf {T : Type} [LinearOrder T] [DecidableEq T]
    {t : Tree T} {S : BT T} {value : T} {r : Option T} {t' : Tree T}
    (hlen : t.data.length ≤ 125)
    (hwf : WFT t S)
    (hrem : t.remove value = some (r, t')) :
    ∃ S', WFT t' S' ∧ t'.data.length ≤ t.data.length ∧
      ((value ∈ S.vals ∧ r = some value ∧ t'.size + 1 = t.size ∧
        (∀ x, S'.vals.count x + (if value = x then 1 else 0) = S.vals.count x)) ∨
       (value ∉ S.vals ∧ r = none ∧ t' = t ∧ S' = S)) := by
  rw [Tree.remove] at hrem
  by_cases hs : t.size = 0
  · rw [if_pos hs] at hrem
    obtain ⟨e1, e2⟩ := Prod.mk.inj (Option.some.inj hrem)
    have hSleaf : S = BT.leaf := by
      have hdec := hwf.hdec
      rw [rootLink, if_pos hs, decode_none] at hdec
      exact (Option.some.inj hdec).symm
    refine ⟨S, (by rw [← e2]; exact hwf), by rw [← e2], Or.inr
      ⟨?_, e1.symm, e2.symm, rfl⟩⟩
    rw [hSleaf]
    exact List.not_mem_nil _
  · rw [if_neg hs] at hrem
    have hdec := hwf.hdec
    rw [rootLink, if_neg hs] at hdec
    obtain ⟨f0, L, rtnd, R, hf0, hSeq, hrtn, hL0, hR0⟩ := decode_some_inv hdec
    obtain rfl : f0 = t.data.length := by omega
    have hstS := hwf.hstored
    rw [hSeq] at hstS
    obtain ⟨hsth, hsL, hsR⟩ := hstS
    have hordS := hwf.hord
    rw [hSeq] at hordS
    obtain ⟨hLlt, hRgt, hLo, hRo⟩ := hordS
    simp only [bind, Option.bind_eq_some] at hrem
    obtain ⟨c0, hc0, hrem⟩ := hrem
    obtain rfl : rtnd = c0 := Option.some.inj (hrtn.symm.trans hc0)
    by_cases hveq : value = rtnd.value
    · rw [if_pos hveq] at hrem
      by_cases hs1 : t.size = 1
      · rw [if_pos hs1] at hrem
        simp only [bind, Option.bind_eq_some] at hrem
        obtain ⟨⟨last, rest⟩, hpop, lastNode, hlastN, hfin⟩ := hrem
        obtain ⟨e1, e2⟩ := Prod.mk.inj (Option.some.inj hfin)
        unfold vecPop at hpop
        cases hgl : t.data.getLast? with
        | none =>
          rw [hgl] at hpop
          exact Option.noConfusion hpop
        | some s =>
          rw [hgl] at hpop
          obtain ⟨e3, e4⟩ := Prod.mk.inj (Option.some.inj hpop)
          rw [e3] at hgl
          have hlastN2 : last = some lastNode := hlastN
          rw [hlastN2] at hgl
          have hgll : t.data.get? (t.data.length - 1) = some (some lastNode) := by
            rw [← List.getLast?_eq_get?]
            exact hgl
          have hgnl : getNode t.data (t.data.length - 1) = some lastNode := by
            unfold getNode
            rw [hgll]
            rfl
          have hScnt : S.cnt = 1 := by
            have := hwf.hcnt
            omega
          have hLleaf : L = BT.leaf := by
            cases hL : L with
            | leaf => rfl
            | node l i nd rr =>
              rw [hSeq, hL] at hScnt
              simp [BT.cnt] at hScnt
              omega
          have hRleaf : R = BT.leaf := by
            cases hR : R with
            | leaf => rfl
            | node l i nd rr =>
              rw [hSeq, hR] at hScnt
              simp [BT.cnt] at hScnt
              omega
          have hmem := wft_occupied_mem hwf _ _ hgnl
          rw [hSeq, hLleaf, hRleaf] at hmem
          have hidxe : (BT.node BT.leaf t.root rtnd BT.leaf).idxs =
              ([] : List Nat) ++ t.root :: [] := rfl
          rw [hidxe] at hmem
          have hre : t.data.length - 1 = t.root := by
            rcases List.mem_append.1 hmem with h | h
            · exact absurd h (List.not_mem_nil _)
            · rcases List.mem_cons.1 h with h | h
              · exact h
              · exact absurd h (List.not_mem_nil _)
          obtain rfl : rtnd = lastNode := by
            rw [hre] at hgnl
            exact Option.some.inj (hrtn.symm.trans hgnl)
          refine ⟨BT.leaf, ?_, ?_, Or.inl ⟨?_, ?_, ?_, ?_⟩⟩
          · rw [← e2]
            exact ⟨by rw [rootLink]; exact decode_none _ _, trivial, trivial,
              List.nodup_nil, rfl, rfl, rfl,
              (by intro j hj; exact absurd hj (List.not_mem_nil _)),
              List.nodup_nil,
              (by intro j hj hv; exact absurd hj (by simp)),
              fun _ => rfl⟩
          · rw [← e2]
            show ([] : List (Option (Node T))).length ≤ t.data.length
            simp
          · rw [hSeq, hLleaf, hRleaf, hveq]
            show rtnd.value ∈ ([] : List T) ++ rtnd.value :: []
            exact List.mem_append_right _ (List.mem_cons_self _ _)
          · rw [← e1, hveq]
          · rw [← e2]
            show 0 + 1 = t.size
            omega
          · intro x
            rw [hSeq, hLleaf, hRleaf, hveq]
            show (BT.leaf : BT T).vals.count x +
              (if rtnd.value = x then 1 else 0) =
              (([] : List T) ++ rtnd.value :: []).count x
            simp only [List.count_append, List.count_cons, List.count_nil,
              beq_iff_eq, BT.vals]
            omega
      · rw [if_neg hs1] at hrem
        cases hxor : optXor rtnd.left rtnd.right with
        | some nr =>
          rw [hxor] at hrem
          simp only [bind, Option.bind_eq_some] at hrem
          obtain ⟨⟨old, d1⟩, hrep, t2, hct, hfin⟩ := hrem
          obtain ⟨e1, e2⟩ := Prod.mk.inj (Option.some.inj hfin)
          unfold replaceAt at hrep
          rw [getNode_get? hrtn] at hrep
          obtain ⟨e3, e4⟩ := Prod.mk.inj (Option.some.inj hrep)
          rw [← e4] at hct
          rw [← e3] at e1
          cases hvl : rtnd.left with
          | some c =>
            cases hvr : rtnd.right with
            | some c2 =>
              rw [hvl, hvr] at hxor
              exact Option.noConfusion hxor
            | none =>
              obtain rfl : nr = c := by
                rw [hvl, hvr] at hxor
                exact (Option.some.inj hxor).symm
              rw [hvl] at hL0
              rw [hvr, decode_none] at hR0
              obtain rfl : BT.leaf = R := Option.some.inj hR0
              have hCd : decode t.data (t.data.length + 1) (some nr) = some L :=
                decode_mono hL0 (by omega)
              have hidx : ∀ k, L.idxs.count k +
                  (if t.root = k then 1 else 0) = S.idxs.count k := by
                intro k
                rw [hSeq]
                show _ = (L.idxs ++ t.root :: ([] : List Nat)).count k
                simp only [List.count_append, List.count_cons, List.count_nil,
                  beq_iff_eq]
                omega
              have hql : L.idxs.length + 1 = S.idxs.length := by
                rw [hSeq]
                show _ = (L.idxs ++ t.root :: ([] : List Nat)).length
                simp only [List.length_append, List.length_cons, List.length_nil]
              obtain ⟨hWFT, hl2, hsz2⟩ :=
                rootPromote_wf hwf hs hs1 hrtn hCd hsL hLo hidx hql hct
              refine ⟨L, by rw [← e2]; exact hWFT, by rw [← e2]; exact hl2,
                Or.inl ⟨?_, ?_, ?_, ?_⟩⟩
              · rw [hSeq, hveq]
                show rtnd.value ∈ L.vals ++ rtnd.value :: (BT.leaf : BT T).vals
                exact List.mem_append_right _ (List.mem_cons_self _ _)
              · rw [← e1, hveq]
              · rw [← e2]
                exact hsz2
              · intro x
                rw [hSeq, hveq]
                show L.vals.count x + (if rtnd.value = x then 1 else 0) =
                  (L.vals ++ rtnd.value :: ([] : List T)).count x
                simp only [List.count_append, List.count_cons, List.count_nil,
                  beq_iff_eq]
                omega
          | none =>
            cases hvr : rtnd.right with
            | none =>
              rw [hvl, hvr] at hxor
              exact Option.noConfusion hxor
            | some c =>
              obtain rfl : nr = c := by
                rw [hvl, hvr] at hxor
                exact (Option.some.inj hxor).symm
              rw [hvr] at hR0
              rw [hvl, decode_none] at hL0
              obtain rfl : BT.leaf = L := Option.some.inj hL0
              have hCd : decode t.data (t.data.length + 1) (some nr) = some R :=
                decode_mono hR0 (by omega)
              have hidx : ∀ k, R.idxs.count k +
                  (if t.root = k then 1 else 0) = S.idxs.count k := by
                intro k
                rw [hSeq]
                show _ = (([] : List Nat) ++ t.root :: R.idxs).count k
                simp only [List.count_append, List.count_cons, List.count_nil,
                  beq_iff_eq]
                omega
              have hql : R.idxs.length + 1 = S.idxs.length := by
                rw [hSeq]
                show _ = (([] : List Nat) ++ t.root :: R.idxs).length
                simp only [List.length_append, List.length_cons, List.length_nil]
                omega
              obtain ⟨hWFT, hl2, hsz2⟩ :=
                rootPromote_wf hwf hs hs1 hrtn hCd hsR hRo hidx hql hct
              refine ⟨R, by rw [← e2]; exact hWFT, by rw [← e2]; exact hl2,
                Or.inl ⟨?_, ?_, ?_, ?_⟩⟩
              · rw [hSeq, hveq]
                show rtnd.value ∈ (BT.leaf : BT T).vals ++ rtnd.value :: R.vals
                exact List.mem_append_right _ (List.mem_cons_self _ _)
              · rw [← e1, hveq]
              · rw [← e2]
                exact hsz2
              · intro x
                rw [hSeq, hveq]
                show R.vals.count x + (if rtnd.value = x then 1 else 0) =
                  (([] : List T) ++ rtnd.value :: R.vals).count x
                simp only [List.count_append, List.count_cons, List.count_nil,
                  beq_iff_eq]
                omega
        | none =>
          rw [hxor] at hrem
          obtain ⟨S', hWFT, hl3, hmem, hr, hsz3, hcnts⟩ :=
            removeGeneral_true_wf hlen hwf hs hs1 hrtn hveq hxor hrem
          exact ⟨S', hWFT, hl3, Or.inl ⟨hmem, hr, hsz3, hcnts⟩⟩
    · rw [if_neg hveq] at hrem
      exact removeGeneral_false_wf hlen hwf hs hrtn hveq hrem

end AvlCont
namespace AvlCont

/-- A concrete well-formed two-node tree (values 1 and 2) used to witness
the invariant-preservation claims. -/
theorem wft_pair :
    WFT (Tree.mk [some (Node.mk 1 none (some 1) 1),
      some (Node.mk 2 none none 0)] [] 0 2 : Tree Nat)
      (BT.node BT.leaf 0 (Node.mk 1 none (some 1) 1)
        (BT.node BT.leaf 1 (Node.mk 2 none none 0) BT.leaf)) := by
  refine ⟨?_, ?_, ?_, ?_, rfl, rfl, rfl, ?_, List.nodup_nil, ?_, ?_⟩
  · rfl
  · exact ⟨by decide, trivial, by decide, trivial, trivial⟩
  · exact ⟨by decide, by decide, trivial, by decide, by decide, trivial, trivial⟩
  · exact (by decide : ((BT.node BT.leaf 0 (Node.mk (1 : Nat) none (some 1) 1)
      (BT.node BT.leaf 1 (Node.mk 2 none none 0) BT.leaf)).idxs).Nodup)
  · intro j hj
    exact absurd hj (List.not_mem_nil _)
  · intro j hjlt hv
    rcases j with _ | _ | j
    · exact Option.noConfusion (Option.some.inj hv)
    · exact Option.noConfusion (Option.some.inj hv)
    · refine absurd hjlt ?_
      simp only [List.length_cons, List.length_nil]
      omega
  · intro h0
    exact absurd h0 (by decide)

/-! ## Claim C4 -/

/-- C4: on a structurally well-formed tree, binary-search-tree order and
value distinctness hold and are preserved by every completed public
operation: the executable order check `bstOk` (all values reachable
through a `left` child compare less than the node's value, through a
`right` child greater) passes before and after any completed `insert` or
`remove`, and no value is stored in two distinct occupied slots;
`contains` and `get` take the tree by shared reference and return no
tree, so they mutate nothing. -/
theorem c4_bst_order_and_distinct_preserved {T : Type} [LinearOrder T]
    [DecidableEq T] {t : Tree T} {S : BT T}
    (hwf : WFT t S) (hlen : t.data.length ≤ 124) :
    (bstOk t.data = true ∧
      ∀ j1 j2 nd1 nd2, getNode t.data j1 = some nd1 →
        getNode t.data j2 = some nd2 → j1 ≠ j2 → nd1.value ≠ nd2.value) ∧
    (∀ v ii t', t.insert v = some (ii, t') →
      bstOk t'.data = true ∧
      ∀ j1 j2 nd1 nd2, getNode t'.data j1 = some nd1 →
        getNode t'.data j2 = some nd2 → j1 ≠ j2 → nd1.value ≠ nd2.value) ∧
    (∀ v r t', t.remove v = some (r, t') →
      bstOk t'.data = true ∧
      ∀ j1 j2 nd1 nd2, getNode t'.data j1 = some nd1 →
        getNode t'.data j2 = some nd2 → j1 ≠ j2 → nd1.value ≠ nd2.value) := by
  refine ⟨⟨wft_bstOk hwf, wft_distinct hwf⟩, ?_, ?_⟩
  · intro v ii t' h
    obtain ⟨S', hwf', _, _⟩ := insert_wf hlen hwf h
    exact ⟨wft_bstOk hwf', wft_distinct hwf'⟩
  · intro v r t' h
    obtain ⟨S', hwf', _, _⟩ := remove_wf (by omega) hwf h
    exact ⟨wft_bstOk hwf', wft_distinct hwf'⟩

/-- Witness for `c4_bst_order_and_distinct_preserved` on the concrete
two-node tree. -/
theorem c4_bst_order_and_distinct_preserved_witness :
    (bstOk (Tree.mk [some (Node.mk 1 none (some 1) 1),
        some (Node.mk 2 none none 0)] [] 0 2 : Tree Nat).data = true ∧
      ∀ j1 j2 nd1 nd2,
        getNode (Tree.mk [some (Node.mk 1 none (some 1) 1),
          some (Node.mk 2 none none 0)] [] 0 2 : Tree Nat).data j1 = some nd1 →
        getNode (Tree.mk [some (Node.mk 1 none (some 1) 1),
          some (Node.mk 2 none none 0)] [] 0 2 : Tree Nat).data j2 = some nd2 →
        j1 ≠ j2 → nd1.value ≠ nd2.value) ∧
    (∀ v ii t', (Tree.mk [some (Node.mk 1 none (some 1) 1),
        some (Node.mk 2 none none 0)] [] 0 2 : Tree Nat).insert v =
        some (ii, t') →
      bstOk t'.data = true ∧
      ∀ j1 j2 nd1 nd2, getNode t'.data j1 = some nd1 →
        getNode t'.data j2 = some nd2 → j1 ≠ j2 → nd1.value ≠ nd2.value) ∧
    (∀ v r t', (Tree.mk [some (Node.mk 1 none (some 1) 1),
        some (Node.mk 2 none none 0)] [] 0 2 : Tree Nat).remove v =
        some (r, t') →
      bstOk t'.data = true ∧
      ∀ j1 j2 nd1 nd2, getNode t'.data j1 = some nd1 →
        getNode t'.data j2 = some nd2 → j1 ≠ j2 → nd1.value ≠ nd2.value) :=
  c4_bst_order_and_distinct_preserved wft_pair (by decide)

/-! ## Claim C5 -/

/-- C5: on a structurally well-formed tree, the executable height check
`heightsOk` — which recomputes every subtree height from the structure
alone and compares it with the stored field, an absent child contributing
`-1` — passes before and after any completed `insert` or `remove`;
`contains` and `get` mutate nothing. -/
theorem c5_stored_heights_correct {T : Type} [LinearOrder T] [DecidableEq T]
    {t : Tree T} {S : BT T}
    (hwf : WFT t S) (hlen : t.data.length ≤ 124) :
    heightsOk t.data = true ∧
    (∀ v ii t', t.insert v = some (ii, t') → heightsOk t'.data = true) ∧
    (∀ v r t', t.remove v = some (r, t') → heightsOk t'.data = true) := by
  refine ⟨wft_heightsOk hwf, ?_, ?_⟩
  · intro v ii t' h
    obtain ⟨S', hwf', _, _⟩ := insert_wf hlen hwf h
    exact wft_heightsOk hwf'
  · intro v r t' h
    obtain ⟨S', hwf', _, _⟩ := remove_wf (by omega) hwf h
    exact wft_heightsOk hwf'

/-- Witness for `c5_stored_heights_correct` on the concrete two-node
tree. -/
theorem c5_stored_heights_correct_witness :
    heightsOk (Tree.mk [some (Node.mk 1 none (some 1) 1),
      some (Node.mk 2 none none 0)] [] 0 2 : Tree Nat).data = true ∧
    (∀ v ii t', (Tree.mk [some (Node.mk 1 none (some 1) 1),
        some (Node.mk 2 none none 0)] [] 0 2 : Tree Nat).insert v =
        some (ii, t') → heightsOk t'.data = true) ∧
    (∀ v r t', (Tree.mk [some (Node.mk 1 none (some 1) 1),
        some (Node.mk 2 none none 0)] [] 0 2 : Tree Nat).remove v =
        some (r, t') → heightsOk t'.data = true) :=
  c5_stored_heights_correct wft_pair (by decide)

/-! ## Claim C6 -/

/-- C6: `remove` on a structurally well-formed tree holding exactly the
multiset of values of its decoded shape `S`: if the value is present it is
returned, `len` drops by exactly one, and a subsequent `contains` of the
same value reports absence; if it is absent, `remove` returns `none` and
leaves the tree (hence `len` and the structure) unchanged. -/
theorem c6_remove_contract {T : Type} [LinearOrder T] [DecidableEq T]
    {t : Tree T} {S : BT T} {value : T} {r : Option T} {t' : Tree T}
    (hwf : WFT t S) (hlen : t.data.length ≤ 125)
    (hrem : t.remove value = some (r, t')) :
    (value ∈ S.vals → r = some value ∧ t'.len + 1 = t.len ∧
      t'.contains value = some none) ∧
    (value ∉ S.vals → r = none ∧ t' = t) := by
  obtain ⟨S', hwf', hl, hca⟩ := remove_wf hlen hwf hrem
  rcases hca with ⟨hmem, hr, hsz, hcnt⟩ | ⟨habs, hr, ht, hS⟩
  · constructor
    · intro _
      refine ⟨hr, hsz, ?_⟩
      refine contains_absent hwf' ?_
      have h1 := hcnt value
      rw [if_pos rfl] at h1
      have h2 : S.vals.count value ≤ 1 :=
        List.nodup_iff_count_le_one.1 (ordered_vals_nodup hwf.hord) value
      intro hm
      have := List.count_pos_iff_mem.2 hm
      omega
    · intro hnm
      exact absurd hmem hnm
  · constructor
    · intro hm
      exact absurd hm habs
    · intro _
      exact ⟨hr, ht⟩

/-- Witness for `c6_remove_contract`: removing `2` from the concrete
two-node tree. -/
theorem c6_remove_contract_witness :
    (Tree.mk [some (Node.mk 1 none (some 1) 1), some (Node.mk 2 none none 0)]
      [] 0 2 : Tree Nat).remove 2 =
      some (some 2, Tree.mk [some (Node.mk 1 none none 0)] [] 0 1) ∧
    (((2 : Nat) ∈ (BT.node BT.leaf 0 (Node.mk 1 none (some 1) 1)
        (BT.node BT.leaf 1 (Node.mk 2 none none 0) BT.leaf)).vals →
      (some 2 : Option Nat) = some 2 ∧
      (Tree.mk [some (Node.mk 1 none none 0)] [] 0 1 : Tree Nat).len + 1 =
        (Tree.mk [some (Node.mk 1 none (some 1) 1),
          some (Node.mk 2 none none 0)] [] 0 2 : Tree Nat).len ∧
      (Tree.mk [some (Node.mk 1 none none 0)] [] 0 1 : Tree Nat).contains 2 =
        some none) ∧
     ((2 : Nat) ∉ (BT.node BT.leaf 0 (Node.mk 1 none (some 1) 1)
        (BT.node BT.leaf 1 (Node.mk 2 none none 0) BT.leaf)).vals →
      (some 2 : Option Nat) = none ∧
      (Tree.mk [some (Node.mk 1 none none 0)] [] 0 1 : Tree Nat) =
        Tree.mk [some (Node.mk 1 none (some 1) 1),
          some (Node.mk 2 none none 0)] [] 0 2)) :=
  ⟨by decide, c6_remove_contract wft_pair (by decide) (by decide)⟩

/-! ## Claim C10 -/

/-- C10: on a structurally well-formed tree the arena bookkeeping checks
hold and are preserved by every completed public operation: every child
index stored in an occupied slot points at an in-bounds occupied slot
(`linksOk`), the root index points at an occupied slot whenever `size` is
nonzero (`rootOk`), and the free list holds exactly the in-bounds vacant
slot indices without duplicates (`freeOk`); `contains` and `get` mutate
nothing. -/
theorem c10_arena_wellformed_preserved {T : Type} [LinearOrder T]
    [DecidableEq T] {t : Tree T} {S : BT T}
    (hwf : WFT t S) (hlen : t.data.length ≤ 124) :
    (linksOk t.data = true ∧ rootOk t = true ∧ freeOk t = true) ∧
    (∀ v ii t', t.insert v = some (ii, t') →
      linksOk t'.data = true ∧ rootOk t' = true ∧ freeOk t' = true) ∧
    (∀ v r t', t.remove v = some (r, t') →
      linksOk t'.data = true ∧ rootOk t' = true ∧ freeOk t' = true) := by
  refine ⟨⟨wft_linksOk hwf, wft_rootOk hwf, wft_freeOk hwf⟩, ?_, ?_⟩
  · intro v ii t' h
    obtain ⟨S', hwf', _, _⟩ := insert_wf hlen hwf h
    exact ⟨wft_linksOk hwf', wft_rootOk hwf', wft_freeOk hwf'⟩
  · intro v r t' h
    obtain ⟨S', hwf', _, _⟩ := remove_wf (by omega) hwf h
    exact ⟨wft_linksOk hwf', wft_rootOk hwf', wft_freeOk hwf'⟩

/-- Witness for `c10_arena_wellformed_preserved` on the concrete two-node
tree. -/
theorem c10_arena_wellformed_preserved_witness :
    (linksOk (Tree.mk [some (Node.mk 1 none (some 1) 1),
        some (Node.mk 2 none none 0)] [] 0 2 : Tree Nat).data = true ∧
      rootOk (Tree.mk [some (Node.mk 1 none (some 1) 1),
        some (Node.mk 2 none none 0)] [] 0 2 : Tree Nat) = true ∧
      freeOk (Tree.mk [some (Node.mk 1 none (some 1) 1),
        some (Node.mk 2 none none 0)] [] 0 2 : Tree Nat) = true) ∧
    (∀ v ii t', (Tree.mk [some (Node.mk 1 none (some 1) 1),
        some (Node.mk 2 none none 0)] [] 0 2 : Tree Nat).insert v =
        some (ii, t') →
      linksOk t'.data = true ∧ rootOk t' = true ∧ freeOk t' = true) ∧
    (∀ v r t', (Tree.mk [some (Node.mk 1 none (some 1) 1),
        some (Node.mk 2 none none 0)] [] 0 2 : Tree Nat).remove v =
        some (r, t') →
      linksOk t'.data = true ∧ rootOk t' = true ∧ freeOk t' = true) :=
  c10_arena_wellformed_preserved wft_pair (by decide)

end AvlCont
